import Mathlib

/-!
Verification of the inline-formatting engine of `list-positions-formatting`
(`src/formatting.ts`: class `Formatting`, plus `src/anchor.ts` and
`src/helpers.ts`) against its specification.

Shallow embedding conventions:
* The external position space (library `list-positions`) is opaque to the
  engine: the engine only uses the total order, equality, and the
  "is min/max" test (`pos.bunchID === BunchIDs.ROOT`).  We model it by the
  inductive type `Pos` below: a designated minimum (`MIN_POSITION`), a
  designated maximum (`MAX_POSITION`), and interior positions indexed by
  naturals.
* JavaScript values (`value: any`, with `null` reserved) are modelled by
  `Val := Option Nat` where `none` is `null`; `===` becomes decidable
  equality.  Format keys (strings) are modelled by `Nat`.
* `creatorID` strings are modelled by `Nat` (only their total order is used).
* JS `Map` objects are modelled by association lists in insertion order,
  JS objects (`Record<string, any>`) by association lists of non-null values.
* Exceptions are modelled by `Except Unit` / `Option` results.
-/

namespace ListFmt

/-- Model of the opaque `Position` type: `Order.MIN_POSITION`,
`Order.MAX_POSITION`, and interior positions.  `pos.bunchID === BunchIDs.ROOT`
holds exactly for the two extremes. -/
inductive Pos where
  | minP : Pos
  | mid : Nat → Pos
  | maxP : Pos
deriving DecidableEq, Repr

/-- Test mirroring `pos.bunchID === BunchIDs.ROOT` (true for min/max only). -/
def Pos.isRoot : Pos → Bool
  | .minP => true
  | .maxP => true
  | .mid _ => false

/-- Strict order on positions (the external total order). -/
def Pos.blt : Pos → Pos → Bool
  | .minP, .minP => false
  | .minP, _ => true
  | .mid _, .minP => false
  | .mid a, .mid b => a < b
  | .mid _, .maxP => true
  | .maxP, _ => false

/-- Model of `order.compare(a, b)`: negative, zero, or positive. -/
def Pos.cmp (a b : Pos) : Int :=
  if a = b then 0 else if Pos.blt a b then -1 else 1

theorem pos_blt_irrefl (a : Pos) : Pos.blt a a = false := by
  cases a <;> simp [Pos.blt]

theorem pos_blt_asymm {a b : Pos} (h : Pos.blt a b = true) :
    Pos.blt b a = false := by
  cases a <;> cases b <;> simp_all [Pos.blt] <;> omega

theorem pos_blt_trans {a b c : Pos} (h₁ : Pos.blt a b = true)
    (h₂ : Pos.blt b c = true) : Pos.blt a c = true := by
  cases a <;> cases b <;> cases c <;> simp_all [Pos.blt] <;> omega

theorem pos_blt_total (a b : Pos) :
    Pos.blt a b = true ∨ a = b ∨ Pos.blt b a = true := by
  cases a <;> cases b <;> simp [Pos.blt] <;> omega

theorem pos_not_blt_iff {a b : Pos} :
    Pos.blt a b = false ↔ (a = b ∨ Pos.blt b a = true) := by
  constructor
  · intro h
    rcases pos_blt_total a b with h' | h' | h'
    · rw [h'] at h; exact absurd h (by simp)
    · exact Or.inl h'
    · exact Or.inr h'
  · rintro (rfl | h)
    · exact pos_blt_irrefl a
    · exact pos_blt_asymm h

theorem Pos.cmp_eq_zero_iff {a b : Pos} : Pos.cmp a b = 0 ↔ a = b := by
  unfold Pos.cmp
  split
  · simp_all
  · split <;> simp_all

theorem Pos.cmp_pos_iff {a b : Pos} : Pos.cmp a b > 0 ↔ Pos.blt b a = true := by
  unfold Pos.cmp
  split
  · subst_vars; simp [pos_blt_irrefl]
  · rename_i hne
    split
    · rename_i hlt
      constructor
      · intro h; omega
      · intro h; rw [pos_blt_asymm hlt] at h; exact absurd h (by simp)
    · rename_i hnlt
      have hf : Pos.blt a b = false := by
        cases h : Pos.blt a b
        · rfl
        · exact absurd h hnlt
      rcases pos_not_blt_iff.mp hf with rfl | h
      · exact absurd rfl hne
      · simp [h]

theorem Pos.cmp_neg_iff {a b : Pos} : Pos.cmp a b < 0 ↔ Pos.blt a b = true := by
  unfold Pos.cmp
  split
  · subst_vars; simp [pos_blt_irrefl]
  · split <;> rename_i h <;> simp [h] <;> omega

/-- Anchors: a spot immediately before (`before = true`) or after
(`before = false`) a position. -/
structure Anchor where
  pos : Pos
  before : Bool
deriving DecidableEq, Repr

/-- The minimum anchor `{ pos: MIN_POSITION, before: false }`. -/
def MIN_ANCHOR : Anchor := ⟨Pos.minP, false⟩

/-- The maximum anchor `{ pos: MAX_POSITION, before: true }`. -/
def MAX_ANCHOR : Anchor := ⟨Pos.maxP, true⟩

/-- Strict anchor order (`Anchors.compare`): order by position; on a tie the
"before" anchor is smaller. -/
def Anchor.blt (a b : Anchor) : Bool :=
  Pos.blt a.pos b.pos || (a.pos == b.pos && a.before && !b.before)

/-- Non-strict anchor order. -/
def Anchor.ble (a b : Anchor) : Bool := a == b || Anchor.blt a b

theorem Anchor.blt_irrefl (a : Anchor) : Anchor.blt a a = false := by
  simp [Anchor.blt, pos_blt_irrefl]

theorem Anchor.blt_trans {a b c : Anchor} (h₁ : Anchor.blt a b = true)
    (h₂ : Anchor.blt b c = true) : Anchor.blt a c = true := by
  rcases a with ⟨pa, ba⟩; rcases b with ⟨pb, bb⟩; rcases c with ⟨pc, bc⟩
  simp only [Anchor.blt, Bool.or_eq_true, Bool.and_eq_true, beq_iff_eq,
    Bool.not_eq_true'] at *
  rcases h₁ with h₁ | ⟨⟨rfl, hba⟩, hbb⟩
  · rcases h₂ with h₂ | ⟨⟨rfl, _⟩, _⟩
    · exact Or.inl (pos_blt_trans h₁ h₂)
    · exact Or.inl h₁
  · rcases h₂ with h₂ | ⟨⟨rfl, hbb'⟩, hbc⟩
    · exact Or.inl h₂
    · simp_all

theorem Anchor.blt_asymm {a b : Anchor} (h : Anchor.blt a b = true) :
    Anchor.blt b a = false := by
  by_contra h'
  have h'' : Anchor.blt b a = true := by
    cases hba : Anchor.blt b a
    · exact absurd hba h'
    · rfl
  have := Anchor.blt_trans h h''
  rw [Anchor.blt_irrefl] at this
  exact absurd this (by simp)

theorem Anchor.blt_total (a b : Anchor) :
    Anchor.blt a b = true ∨ a = b ∨ Anchor.blt b a = true := by
  rcases a with ⟨pa, ba⟩; rcases b with ⟨pb, bb⟩
  rcases pos_blt_total pa pb with h | rfl | h
  · exact Or.inl (by simp [Anchor.blt, h])
  · cases ba <;> cases bb <;> simp [Anchor.blt, pos_blt_irrefl]
  · exact Or.inr (Or.inr (by simp [Anchor.blt, h]))

theorem Anchor.not_blt_iff {a b : Anchor} :
    Anchor.blt a b = false ↔ (a = b ∨ Anchor.blt b a = true) := by
  constructor
  · intro h
    rcases Anchor.blt_total a b with h' | h' | h'
    · rw [h'] at h; exact absurd h (by simp)
    · exact Or.inl h'
    · exact Or.inr h'
  · rintro (rfl | h)
    · exact Anchor.blt_irrefl a
    · exact Anchor.blt_asymm h

/-- An anchor is valid unless it is `(MIN_POSITION, before)` or
`(MAX_POSITION, after)` (`Anchors.validate`). -/
def Anchor.valid (a : Anchor) : Bool :=
  !(a.pos == Pos.minP && a.before) && !(a.pos == Pos.maxP && !a.before)

theorem MIN_ANCHOR_le (a : Anchor) (h : a.valid = true) :
    a = MIN_ANCHOR ∨ Anchor.blt MIN_ANCHOR a = true := by
  rcases a with ⟨p, b⟩
  cases p <;> cases b <;>
    simp_all [Anchor.valid, MIN_ANCHOR, Anchor.blt, Pos.blt]

theorem le_MAX_ANCHOR (a : Anchor) (h : a.valid = true) :
    a = MAX_ANCHOR ∨ Anchor.blt a MAX_ANCHOR = true := by
  rcases a with ⟨p, b⟩
  cases p <;> cases b <;>
    simp_all [Anchor.valid, MAX_ANCHOR, Anchor.blt, Pos.blt]

/-- Model of JS values: `none` is the reserved `null`. -/
abbrev Val := Option Nat

/-- Format keys (strings in the source). -/
abbrev Key := Nat

/-- A formatting mark.  The `timestamp`/`creatorID` fields are the metadata
read by the default comparator (class `TimestampFormatting`).  The ending
anchor field `end` is named `stop` because `end` is reserved in Lean. -/
structure Mark where
  start : Anchor
  stop : Anchor
  key : Key
  value : Val
  creatorID : Nat
  timestamp : Nat
deriving DecidableEq, Repr

/-- The default `compareMarks`: Lamport timestamp order, ties broken by
`creatorID` (lexicographic in the source, modelled by the order on `Nat`). -/
def cmpMark (a b : Mark) : Int :=
  if a.timestamp ≠ b.timestamp then (a.timestamp : Int) - (b.timestamp : Int)
  else if a.creatorID = b.creatorID then 0
  else if a.creatorID > b.creatorID then 1 else -1

theorem cmpMark_neg_iff {a b : Mark} :
    cmpMark a b < 0 ↔
      (a.timestamp < b.timestamp ∨
        (a.timestamp = b.timestamp ∧ a.creatorID < b.creatorID)) := by
  unfold cmpMark
  split
  · constructor
    · intro h; omega
    · intro h; omega
  · split
    · constructor
      · intro h; omega
      · intro h; omega
    · split <;> constructor <;> intro h <;> omega

theorem cmpMark_zero_iff {a b : Mark} :
    cmpMark a b = 0 ↔ (a.timestamp = b.timestamp ∧ a.creatorID = b.creatorID) := by
  unfold cmpMark
  split
  · constructor
    · intro h; omega
    · intro h; omega
  · split
    · constructor
      · intro _; omega
      · intro _; rfl
    · split <;> constructor <;> intro h <;> omega

theorem cmpMark_pos_iff {a b : Mark} :
    cmpMark a b > 0 ↔
      (b.timestamp < a.timestamp ∨
        (a.timestamp = b.timestamp ∧ b.creatorID < a.creatorID)) := by
  unfold cmpMark
  split
  · constructor
    · intro h; omega
    · intro h; omega
  · split
    · constructor
      · intro h; omega
      · intro h; omega
    · split <;> constructor <;> intro h <;> omega

theorem cmpMark_trichotomy (a b : Mark) :
    cmpMark a b < 0 ∨ cmpMark a b = 0 ∨ cmpMark a b > 0 := by omega

theorem cmpMark_neg_trans {a b c : Mark} (h₁ : cmpMark a b < 0)
    (h₂ : cmpMark b c < 0) : cmpMark a c < 0 := by
  rw [cmpMark_neg_iff] at *
  omega

theorem cmpMark_neg_of_neg_of_zero {a b c : Mark} (h₁ : cmpMark a b < 0)
    (h₂ : cmpMark b c = 0) : cmpMark a c < 0 := by
  rw [cmpMark_neg_iff] at *
  rw [cmpMark_zero_iff] at h₂
  omega

theorem cmpMark_neg_of_zero_of_neg {a b c : Mark} (h₁ : cmpMark a b = 0)
    (h₂ : cmpMark b c < 0) : cmpMark a c < 0 := by
  rw [cmpMark_neg_iff] at *
  rw [cmpMark_zero_iff] at h₁
  omega

theorem cmpMark_swap (a b : Mark) : cmpMark a b < 0 ↔ cmpMark b a > 0 := by
  rw [cmpMark_neg_iff, cmpMark_pos_iff]
  omega

theorem cmpMark_zero_symm {a b : Mark} (h : cmpMark a b = 0) : cmpMark b a = 0 := by
  rw [cmpMark_zero_iff] at *
  omega

/-- Default mark, used only to give JS array indexing a total model. -/
def mDefault : Mark := ⟨⟨Pos.minP, false⟩, ⟨Pos.minP, false⟩, 0, none, 0, 0⟩

/-! JS `Map` objects, modelled as association lists in insertion order:
`set` overwrites in place or appends, `get` finds the unique entry. -/

/-- JS `map.get(k)`. -/
def mapGet {α : Type} (m : List (Key × α)) (k : Key) : Option α :=
  (m.find? (fun e => e.1 == k)).map (fun e => e.2)

/-- JS `map.set(k, v)`: overwrite in place, else append. -/
def mapSet {α : Type} (m : List (Key × α)) (k : Key) (v : α) : List (Key × α) :=
  if (m.find? (fun e => e.1 == k)).isSome then
    m.map (fun e => if e.1 == k then (k, v) else e)
  else m ++ [(k, v)]

/-- JS `map.delete(k)`. -/
def mapDelete {α : Type} (m : List (Key × α)) (k : Key) : List (Key × α) :=
  m.filter (fun e => e.1 != k)

/-- A JS `Record<string, any>` holding the non-null format values. -/
abbrev Record := List (Key × Nat)

/-- Function `equalsRecord` (alias `recordEquals`): both objects have the
same value (`===`) at every key of either. -/
def equalsRecord (a b : Record) : Bool :=
  a.all (fun e => mapGet b e.1 == some e.2) &&
    b.all (fun e => mapGet a e.1 == some e.2)

/-- Per-anchor-side data: map from format key to the stack of marks with that
key covering the anchor, in `compareMarks` order (type `Map<string, M[]>`). -/
abbrev AMap := List (Key × List Mark)

/-- Function `dataToRecord`: for each key, the value of the top (last) mark of
its stack, omitting `null` values.  Stacks are nonempty by the engine's
invariant; an empty stack contributes nothing (in JS it would crash). -/
def dataToRecord (d : AMap) : Record :=
  d.foldl (fun ans e =>
    match e.2.getLast? with
    | some mk =>
      match mk.value with
      | some v => mapSet ans e.1 v
      | none => ans
    | none => ans) []

/-- Value type of `formatList` (interface `FormatData`). -/
structure FormatData where
  before : Option AMap := none
  after : Option AMap := none
deriving DecidableEq, Repr

instance : Inhabited FormatData := ⟨{}⟩

/-- The `formatList`: a `List<FormatData>` from list-positions, i.e. entries
keyed by position, kept sorted by the position order. -/
abbrev FL := List (Pos × FormatData)

/-- JS `formatList.get(pos)`. -/
def flGet (fl : FL) (p : Pos) : Option FormatData :=
  (fl.find? (fun e => e.1 == p)).map (fun e => e.2)

/-- JS `formatList.set(pos, d)`: sorted insert or overwrite. -/
def flSet : FL → Pos → FormatData → FL
  | [], p, d => [(p, d)]
  | (q, e) :: rest, p, d =>
    if p = q then (p, d) :: rest
    else if Pos.blt p q then (p, d) :: (q, e) :: rest
    else (q, e) :: flSet rest p d

/-- JS `formatList.indexOfPosition(pos)` for a present position, and
`indexOfPosition(pos, "right")` in general: the number of entries at smaller
positions. -/
def flRank (fl : FL) (p : Pos) : Nat := fl.countP (fun e => Pos.blt e.1 p)

/-- JS `formatList.getAt(i)`. -/
def flGetAt (fl : FL) (i : Nat) : FormatData := (fl.getD i (Pos.minP, {})).2

/-- JS `formatList.positionAt(i)`. -/
def flPosAt (fl : FL) (i : Nat) : Pos := (fl.getD i (Pos.minP, {})).1

/-! The `SpanBuilder` utility class. -/

/-- A produced span with attached data (interface `SpanData<D>`). -/
structure SpanData (D : Type) where
  start : Anchor
  stop : Anchor
  data : D
deriving DecidableEq, Repr

/-- State of a `SpanBuilder<D>`: finished slices plus the pending
`(prevAnchor, prevData)` pair. -/
structure SB (D : Type) where
  slices : List (SpanData D)
  prev : Option (Anchor × D)

/-- The fresh builder (`new SpanBuilder(equals)`). -/
def sbEmpty {D : Type} : SB D := ⟨[], none⟩

/-- Method `SpanBuilder.record`: skip empty spans, merge into the previous
slice when the data are equal, else push a new slice. -/
def sbRecord {D : Type} (eqD : D → D → Bool) (sl : List (SpanData D))
    (a b : Anchor) (d : D) : List (SpanData D) :=
  if a = b then sl
  else
    match sl.getLast? with
    | some last =>
      if eqD last.data d then sl.dropLast ++ [{ last with stop := b }]
      else sl ++ [⟨a, b, d⟩]
    | none => [⟨a, b, d⟩]

/-- Method `SpanBuilder.add`. -/
def SB.add {D : Type} (eqD : D → D → Bool) (s : SB D) (anchor : Anchor) (d : D) :
    SB D :=
  match s.prev with
  | some pd => { slices := sbRecord eqD s.slices pd.1 anchor pd.2
                 prev := some (anchor, d) }
  | none => { slices := s.slices, prev := some (anchor, d) }

/-- Method `SpanBuilder.finish`. -/
def SB.finish {D : Type} (eqD : D → D → Bool) (s : SB D) (next : Anchor) :
    List (SpanData D) :=
  match s.prev with
  | some pd => sbRecord eqD s.slices pd.1 next pd.2
  | none => s.slices

/-- Type `FormatChangeInternal` without its `null` case. -/
structure FCI where
  otherValue : Val
  format : Record
deriving DecidableEq, Repr

/-- Function `equalsFormatChangeInternal`. -/
def equalsFCI : Option FCI → Option FCI → Bool
  | none, none => true
  | none, some _ => false
  | some _, none => false
  | some a, some b => a.otherValue == b.otherValue && equalsRecord a.format b.format

/-- A span with a single format (type `FormattedSpan`). -/
structure FormattedSpan where
  start : Anchor
  stop : Anchor
  format : Record
deriving DecidableEq, Repr

/-- A change to a span's format (type `FormatChange`). -/
structure FormatChange where
  start : Anchor
  stop : Anchor
  key : Key
  value : Val
  previousValue : Val
  format : Record
deriving DecidableEq, Repr

instance {e a : Type} [DecidableEq e] [DecidableEq a] : DecidableEq (Except e a) :=
  fun x y =>
  match x, y with
  | .ok v, .ok w =>
    if h : v = w then .isTrue (h ▸ rfl)
    else .isFalse (fun hh => h (by cases hh; rfl))
  | .ok _, .error _ => .isFalse (fun hh => Except.noConfusion hh)
  | .error _, .ok _ => .isFalse (fun hh => Except.noConfusion hh)
  | .error v, .error w =>
    if h : v = w then .isTrue (h ▸ rfl)
    else .isFalse (fun hh => h (by cases hh; rfl))

/-- State of a `Formatting<M>` instance. -/
structure FmtState where
  orderedMarks : List Mark
  formatList : FL
deriving DecidableEq, Repr

/-- The constructor's state: no marks, and `formatList` seeded with
`MIN_POSITION ↦ { after: new Map() }`. -/
def initState : FmtState := ⟨[], [(Pos.minP, { after := some [] })]⟩

/-! Method `Formatting.locateMark`. -/

/-- The reverse linear scan over the last ten entries
(`for (let i = list.length - 1; i >= minus10; i--) ...`), by structural
recursion on the loop counter. -/
def revScanLoop (l : List Mark) (m : Mark) (minus10 : Nat) : Nat → Nat
  | 0 =>
    if 0 < minus10 then minus10
    else if cmpMark m (l.getD 0 mDefault) > 0 then 1
    else minus10
  | i + 1 =>
    if i + 1 < minus10 then minus10
    else if cmpMark m (l.getD (i + 1) mDefault) > 0 then i + 2
    else revScanLoop l m minus10 i

/-- The leftmost binary search (`while (L < R) ...`).  The first argument is
fuel bounding the iteration count; the loop terminates because `R - L`
strictly decreases, so `R - L` units suffice (see `binSearchLoop`). -/
def binSearchGo (l : List Mark) (m : Mark) : Nat → Nat → Nat → Nat
  | 0, _L, R => R
  | fuel + 1, L, R =>
    if L < R then
      let mid := (L + R) / 2
      if cmpMark m (l.getD mid mDefault) > 0 then binSearchGo l m fuel (mid + 1) R
      else binSearchGo l m fuel L mid
    else R

/-- The binary search with its fuel instantiated. -/
def binSearchLoop (l : List Mark) (m : Mark) (L R : Nat) : Nat :=
  binSearchGo l m (R - L) L R

/-- Method `Formatting.locateMark`: the insertion index for `mark`, optimized
for the recent-mark case (tail test, reverse scan of the last ten entries,
else binary search of the prefix). -/
def locateMark (l : List Mark) (m : Mark) : Nat :=
  if l.length = 0 then 0
  else if cmpMark m (l.getD (l.length - 1) mDefault) > 0 then l.length
  else
    let minus10 := l.length - 10
    if cmpMark m (l.getD minus10 mDefault) ≥ 0 then
      revScanLoop l m minus10 (l.length - 1)
    else binSearchLoop l m 0 minus10

/-! Methods `createData` / `copyPrevAnchor`. -/

/-- Method `Formatting.copyPrevAnchor`: deep copy (identity, in a pure model)
of the map of the last anchor before `(pos, before: true)`.  The `!`
assertion on `prevData.before` is modelled by `Option.getD`. -/
def copyPrevAnchor (fl : FL) (p : Pos) : AMap :=
  let posIndex := flRank fl p
  let prevData := flGetAt fl (posIndex - 1)
  match prevData.after with
  | some ad => ad
  | none => prevData.before.getD []

/-- Method `Formatting.createData`. -/
def createData (fl : FL) (a : Anchor) : FL :=
  let fl1 := match flGet fl a.pos with
    | none => flSet fl a.pos {}
    | some _ => fl
  let data := (flGet fl1 a.pos).getD {}
  if a.before then
    match data.before with
    | some _ => fl1
    | none => flSet fl1 a.pos { data with before := some (copyPrevAnchor fl1 a.pos) }
  else
    match data.after with
    | some _ => fl1
    | none =>
      match data.before with
      | some bd => flSet fl1 a.pos { data with after := some bd }
      | none => flSet fl1 a.pos { data with after := some (copyPrevAnchor fl1 a.pos) }

/-! Method `addMark` and its helpers. -/

/-- Method `Formatting.addToAnchor`: insert the mark into the anchor's stack
for its key and report a change when it became the new winner. -/
def addToAnchor (anchor : Anchor) (anchorData : AMap) (b : SB (Option FCI))
    (m : Mark) : AMap × SB (Option FCI) :=
  let marks := (mapGet anchorData m.key).getD []
  let index := locateMark marks m
  let marks' := List.insertIdx index m marks
  let anchorData' := mapSet anchorData m.key marks'
  if index = marks'.length - 1 then
    (anchorData',
      SB.add equalsFCI b anchor (some
        { otherValue := if marks'.length = 1 then none
            else (marks'.getD (marks'.length - 2) mDefault).value
          format := dataToRecord anchorData' }))
  else (anchorData', SB.add equalsFCI b anchor none)

/-- The loop `for (let i = startIndex; i <= endIndex; i++)` of `addMark`,
threading `formatList` and the span builder.  The first explicit `Nat` after
`endIdx` is fuel bounding the iteration count; `addLoop` instantiates it with
the exact number of remaining iterations, so it never runs out. -/
def addLoopGo (m : Mark) (startIdx endIdx : Nat) :
    Nat → FL → SB (Option FCI) → Nat → FL × SB (Option FCI)
  | 0, fl, b, _i => (fl, b)
  | fuel + 1, fl, b, i =>
  if i > endIdx then (fl, b)
  else
    let p := flPosAt fl i
    let data := (flGet fl p).getD {}
    let step1 : Option AMap × SB (Option FCI) :=
      match data.before with
      | some bd =>
        if (startIdx < i ∧ i < endIdx) ∨ (i = startIdx ∧ m.start.before = true)
            ∨ (i = endIdx ∧ m.stop.before = false) then
          let r := addToAnchor ⟨p, true⟩ bd b m
          (some r.1, r.2)
        else (some bd, b)
      | none => (none, b)
    let step2 : Option AMap × SB (Option FCI) :=
      match data.after with
      | some ad =>
        if i < endIdx then
          let r := addToAnchor ⟨p, false⟩ ad step1.2 m
          (some r.1, r.2)
        else (some ad, step1.2)
      | none => (none, step1.2)
    let fl' := flSet fl p { before := step1.1, after := step2.1 }
    addLoopGo m startIdx endIdx fuel fl' step2.2 (i + 1)

/-- The `addMark` entry loop with its fuel instantiated. -/
def addLoop (m : Mark) (startIdx endIdx : Nat) (fl : FL) (b : SB (Option FCI))
    (i : Nat) : FL × SB (Option FCI) :=
  addLoopGo m startIdx endIdx (endIdx + 1 - i) fl b i

/-- The `start >= end` test of `addMark` (true exactly when it throws):
`compared > 0 || (compared === 0 && !(start.before && !end.before))`. -/
def rangeBad (m : Mark) : Bool :=
  decide (Pos.cmp m.start.pos m.stop.pos > 0) ||
    (decide (Pos.cmp m.start.pos m.stop.pos = 0) &&
      !(m.start.before && !m.stop.before))

/-- Method `Formatting.addMark`.  The first component is the state of the
instance when the call returns; `.error` models the thrown
`"mark has start >= end"` error, which occurs before any mutation. -/
def addMark (s : FmtState) (m : Mark) :
    FmtState × Except Unit (List FormatChange) :=
  let index := locateMark s.orderedMarks m
  if index < s.orderedMarks.length ∧
      cmpMark m (s.orderedMarks.getD index mDefault) = 0 then
    (s, .ok [])
  else if rangeBad m then (s, .error ())
  else
    let marks' := List.insertIdx index m s.orderedMarks
    let fl1 := createData s.formatList m.start
    let fl2 := createData fl1 m.stop
    let startIdx := flRank fl2 m.start.pos
    let endIdx := flRank fl2 m.stop.pos
    let r := addLoop m startIdx endIdx fl2 sbEmpty startIdx
    let slices := SB.finish equalsFCI r.2 m.stop
    let changes := slices.filterMap (fun sl =>
      match sl.data with
      | some d =>
        if d.otherValue ≠ m.value then
          some { start := sl.start, stop := sl.stop, key := m.key,
                 value := m.value, previousValue := d.otherValue,
                 format := d.format : FormatChange }
        else none
      | none => none)
    ({ orderedMarks := marks', formatList := r.1 }, .ok changes)

/-! Method `deleteMark` and its helpers. -/

/-- JS `marks.lastIndexOf(mark)` (by-reference identity; stacks hold pairwise
distinct canonical marks, so structural equality finds the same entry). -/
def lastIdxOf (l : List Mark) (m : Mark) : Int :=
  match l.reverse.findIdx? (fun x => x == m) with
  | some j => (l.length : Int) - 1 - (j : Int)
  | none => -1

/-- JS `l.splice(idx, 1)` : remove one element, with a negative index counting
from the end (clamped at 0). -/
def spliceOut (l : List Mark) (idx : Int) : List Mark :=
  let start : Nat := if idx < 0 then ((l.length : Int) + idx).toNat else idx.toNat
  l.take start ++ l.drop (start + 1)

/-- Method `Formatting.deleteFromAnchor`. -/
def deleteFromAnchor (anchor : Anchor) (anchorData : AMap) (b : SB (Option FCI))
    (m : Mark) : AMap × SB (Option FCI) :=
  let marks := (mapGet anchorData m.key).getD []
  let index := lastIdxOf marks m
  let marks' := spliceOut marks index
  let anchorData' := if marks'.length = 0 then mapDelete anchorData m.key
    else mapSet anchorData m.key marks'
  if index = (marks'.length : Int) then
    (anchorData',
      SB.add equalsFCI b anchor (some
        { otherValue := match marks'.getLast? with
            | some top => top.value
            | none => none
          format := dataToRecord anchorData' }))
  else (anchorData', SB.add equalsFCI b anchor none)

/-- The entry loop of `deleteMark`, mirroring `addLoop` (fueled the same
way). -/
def delLoopGo (m : Mark) (startIdx endIdx : Nat) :
    Nat → FL → SB (Option FCI) → Nat → FL × SB (Option FCI)
  | 0, fl, b, _i => (fl, b)
  | fuel + 1, fl, b, i =>
  if i > endIdx then (fl, b)
  else
    let p := flPosAt fl i
    let data := (flGet fl p).getD {}
    let step1 : Option AMap × SB (Option FCI) :=
      match data.before with
      | some bd =>
        if (startIdx < i ∧ i < endIdx) ∨ (i = startIdx ∧ m.start.before = true)
            ∨ (i = endIdx ∧ m.stop.before = false) then
          let r := deleteFromAnchor ⟨p, true⟩ bd b m
          (some r.1, r.2)
        else (some bd, b)
      | none => (none, b)
    let step2 : Option AMap × SB (Option FCI) :=
      match data.after with
      | some ad =>
        if i < endIdx then
          let r := deleteFromAnchor ⟨p, false⟩ ad step1.2 m
          (some r.1, r.2)
        else (some ad, step1.2)
      | none => (none, step1.2)
    let fl' := flSet fl p { before := step1.1, after := step2.1 }
    delLoopGo m startIdx endIdx fuel fl' step2.2 (i + 1)

/-- The `deleteMark` entry loop with its fuel instantiated. -/
def delLoop (m : Mark) (startIdx endIdx : Nat) (fl : FL) (b : SB (Option FCI))
    (i : Nat) : FL × SB (Option FCI) :=
  delLoopGo m startIdx endIdx (endIdx + 1 - i) fl b i

/-- Method `Formatting.deleteMark`.  Never throws; a miss returns the state
unchanged with no changes. -/
def deleteMark (s : FmtState) (m : Mark) : FmtState × List FormatChange :=
  let index := locateMark s.orderedMarks m
  if index < s.orderedMarks.length ∧
      cmpMark m (s.orderedMarks.getD index mDefault) = 0 then
    let canon := s.orderedMarks.getD index mDefault
    let marks' := s.orderedMarks.take index ++ s.orderedMarks.drop (index + 1)
    let startIdx := flRank s.formatList canon.start.pos
    let endIdx := flRank s.formatList canon.stop.pos
    let r := delLoop canon startIdx endIdx s.formatList sbEmpty startIdx
    let slices := SB.finish equalsFCI r.2 canon.stop
    let changes := slices.filterMap (fun sl =>
      match sl.data with
      | some d =>
        if d.otherValue ≠ canon.value then
          some { start := sl.start, stop := sl.stop, key := canon.key,
                 value := d.otherValue, previousValue := canon.value,
                 format := d.format : FormatChange }
        else none
      | none => none)
    ({ orderedMarks := marks', formatList := r.1 }, changes)
  else (s, [])

/-! Queries. -/

/-- Method `Formatting.getFormatData`: the anchor data active at `pos`
(`none` models the throw on the min/max position). -/
def getFormatData (s : FmtState) (p : Pos) : Option AMap :=
  if p.isRoot then none
  else some (
    match (flGet s.formatList p).bind (fun d => d.before) with
    | some bd => bd
    | none =>
      let prevIndex := flRank s.formatList p - 1
      let prevData := flGetAt s.formatList prevIndex
      match prevData.after with
      | some ad => ad
      | none => prevData.before.getD [])

/-- Method `Formatting.getFormat`. -/
def getFormat (s : FmtState) (p : Pos) : Option Record :=
  (getFormatData s p).map dataToRecord

/-- The `(anchor, data)` pairs fed to the span builder by `formattedSpans`,
in order: for each `formatList` entry, its before side then its after side. -/
def sideList (fl : FL) : List (Anchor × AMap) :=
  fl.flatMap (fun e =>
    (match e.2.before with
     | some bd => [(⟨e.1, true⟩, bd)]
     | none => []) ++
    (match e.2.after with
     | some ad => [(⟨e.1, false⟩, ad)]
     | none => []))

/-- Method `Formatting.formattedSpans`: feed every present anchor side, in
order, into a span builder with record equality, finishing at `MAX_ANCHOR`. -/
def formattedSpans (s : FmtState) : List FormattedSpan :=
  let b := (sideList s.formatList).foldl
    (fun b e => SB.add equalsRecord b e.1 (dataToRecord e.2)) sbEmpty
  (SB.finish equalsRecord b MAX_ANCHOR).map (fun sl => ⟨sl.start, sl.stop, sl.data⟩)

/-- Method `Formatting.clear`: reset to the constructor's state. -/
def clearOp (_s : FmtState) : FmtState := initState

/-- The loop of `load` over the saved marks; a thrown `addMark` aborts the
loop with the state at the throw (the exception propagates). -/
def loadGo : FmtState → List Mark → FmtState
  | s, [] => s
  | s, m :: rest =>
    match addMark s m with
    | (s', .ok _) => loadGo s' rest
    | (s', .error _) => s'

/-- Method `Formatting.load`: `clear()` then `addMark` each saved mark. -/
def loadOp (_s : FmtState) (saved : List Mark) : FmtState := loadGo initState saved

/-- Method `Formatting.save`. -/
def saveOp (s : FmtState) : List Mark := s.orderedMarks

/-- Marks whose anchors are valid (`Anchors.validate`); invalid anchors make
the underlying list-positions library itself throw, so the engine's contract
assumes them. -/
def Mark.validAnchors (m : Mark) : Bool := m.start.valid && m.stop.valid

/-- States reachable from a fresh `Formatting` by any sequence of `addMark`,
`deleteMark`, `clear` and `load` calls (with marks whose anchors are valid).
A throwing `addMark` leaves the state unchanged, so it adds no states. -/
inductive Reachable : FmtState → Prop where
  | init : Reachable initState
  | add {s : FmtState} (m : Mark) :
      Reachable s → m.validAnchors = true → Reachable (addMark s m).1
  | del {s : FmtState} (m : Mark) : Reachable s → Reachable (deleteMark s m).1
  | clear {s : FmtState} : Reachable s → Reachable (clearOp s)
  | load {s : FmtState} (saved : List Mark) : Reachable s →
      (∀ m ∈ saved, m.validAnchors = true) → Reachable (loadOp s saved)

/-! Anchor/index conversion helpers (`src/anchor.ts`, `src/helpers.ts`).

A concrete list is modelled by the strictly increasing list of the interior
positions it contains (`PList`), per the position-space contract: real
positions exclude the two sentinels, `positionAt`/`indexOfPosition` as
documented by list-positions.  Slice indices are modelled as `Int` so that
out-of-range (including negative) arguments are expressible; `Option.none`
models a thrown error. -/

/-- The positions present in a list, as their `Pos.mid` indices in order. -/
abbrev PList := List Nat

/-- Whether a `PList` is strictly increasing (lists enumerate their positions
in the position order). -/
def PlOK (pl : PList) : Prop := List.Pairwise (· < ·) pl

/-- External `list.positionAt(i)`: `none` models the range error thrown for
`i` outside `[0, length)`. -/
def plPosAt (pl : PList) (i : Int) : Option Pos :=
  if i < 0 then none else (pl.get? i.toNat).map Pos.mid

/-- External `list.indexOfPosition(pos, "right")`: the index of `pos` when
present, else the insertion index (the number of present positions smaller
than `pos`). -/
def idxRight (pl : PList) (p : Pos) : Nat :=
  pl.countP (fun x => Pos.blt (Pos.mid x) p)

/-- External `list.indexOfPosition(pos, "left")`: the index of `pos` when
present, else one less than the insertion index (so `-1` below every present
position). -/
def idxLeft (pl : PList) (p : Pos) : Int :=
  (pl.countP (fun x => Pos.blt (Pos.mid x) p || Pos.mid x == p) : Int) - 1

/-- Function `Anchors.indexOfAnchor`: validate, then the next index to the
right of the anchor.  `none` models the `Invalid anchor` throw. -/
def indexOfAnchor (pl : PList) (a : Anchor) : Option Nat :=
  if a.valid then
    some (if a.before then idxRight pl a.pos else (idxLeft pl a.pos + 1).toNat)
  else none

/-- Function `Anchors.anchorAt(list, index, bind)` (`bindLeft = true` for
`"left"`).  `none` models the throw for `index` outside `[0, list.length]`. -/
def anchorAt (pl : PList) (index : Int) (bindLeft : Bool) : Option Anchor :=
  if bindLeft then
    if index = 0 then some ⟨Pos.minP, false⟩
    else (plPosAt pl (index - 1)).map (fun p => ⟨p, false⟩)
  else
    if index = (pl.length : Int) then some ⟨Pos.maxP, true⟩
    else (plPosAt pl index).map (fun p => ⟨p, true⟩)

/-- The `expand` argument of `spanFromSlice`. -/
inductive Expand where
  | after : Expand
  | before : Expand
  | both : Expand
  | none : Expand
deriving DecidableEq, Repr

/-- Function `spanFromSlice` (current version, `src/helpers.ts` built on
`Anchors.anchorAt`): choose the binding per endpoint from `expand`.  It
performs no `startIndex < endIndex` check. -/
def spanFromSlice (pl : PList) (startIndex endIndex : Int) (expand : Expand) :
    Option (Anchor × Anchor) :=
  let startExpand := expand = Expand.before ∨ expand = Expand.both
  let endExpand := expand = Expand.after ∨ expand = Expand.both
  match anchorAt pl startIndex (if startExpand then true else false),
      anchorAt pl endIndex (if endExpand then false else true) with
  | some s, some e => some (s, e)
  | _, _ => Option.none

/-- Function `spanFromSlice` (older variant, also shipped in the repository's
`src/helpers.ts` form that throws on `startIndex >= endIndex`). -/
def spanFromSliceOld (pl : PList) (startIndex endIndex : Int) (expand : Expand) :
    Option (Anchor × Anchor) :=
  if startIndex ≥ endIndex then Option.none
  else
    let start? : Option Anchor :=
      if expand = Expand.before ∨ expand = Expand.both then
        if startIndex = 0 then some ⟨Pos.minP, false⟩
        else (plPosAt pl (startIndex - 1)).map (fun p => ⟨p, false⟩)
      else (plPosAt pl startIndex).map (fun p => ⟨p, true⟩)
    let stop? : Option Anchor :=
      if expand = Expand.after ∨ expand = Expand.both then
        if endIndex = (pl.length : Int) then some ⟨Pos.maxP, true⟩
        else (plPosAt pl endIndex).map (fun p => ⟨p, true⟩)
      else (plPosAt pl (endIndex - 1)).map (fun p => ⟨p, false⟩)
    match start?, stop? with
    | some s, some e => some (s, e)
    | _, _ => Option.none

/-- Function `sliceFromSpan`: `indexOfAnchor` on each endpoint. -/
def sliceFromSpan (pl : PList) (start stop : Anchor) : Option (Nat × Nat) :=
  match indexOfAnchor pl start, indexOfAnchor pl stop with
  | some s, some e => some (s, e)
  | _, _ => Option.none

/-! Counting lemmas for `indexOfAnchor` over a strictly increasing list. -/

theorem blt_mid_mid (x v : Nat) :
    Pos.blt (Pos.mid x) (Pos.mid v) = decide (x < v) := rfl

theorem le_pred_mid (x v : Nat) :
    (Pos.blt (Pos.mid x) (Pos.mid v) || (Pos.mid x == Pos.mid v)) =
      decide (x ≤ v) := by
  rw [blt_mid_mid]
  by_cases h1 : x < v
  · have h2 : x ≤ v := by omega
    simp [h1, h2]
  · by_cases h2 : x = v
    · subst h2
      simp
    · have h3 : ¬x ≤ v := by omega
      simp [h1, h2, h3]

theorem countP_lt_of_sorted {pl : List Nat} {v : Nat}
    (hs : List.Pairwise (· < ·) pl) {i : Nat} (h : i < pl.length)
    (hv : pl.get ⟨i, h⟩ = v) :
    pl.countP (fun x => decide (x < v)) = i := by
  induction pl generalizing i with
  | nil => simp at h
  | cons a rest ih =>
    rcases List.pairwise_cons.mp hs with ⟨ha, hrest⟩
    cases i with
    | zero =>
      have hav : a = v := hv
      rw [List.countP_cons]
      have h2 : rest.countP (fun x => decide (x < v)) = 0 := by
        rw [List.countP_eq_zero]
        intro x hx
        have := ha x hx
        simp
        omega
      rw [h2]
      have h3 : ¬(a < v) := by omega
      simp [h3]
    | succ j =>
      have hj : j < rest.length := by
        simp only [List.length_cons] at h
        omega
      have hget : rest.get ⟨j, hj⟩ = v := hv
      have hmem : rest.get ⟨j, hj⟩ ∈ rest := rest.get_mem _ _
      rw [List.countP_cons]
      rw [ih hrest hj hget]
      have h1 : a < v := hget ▸ ha _ hmem
      simp [h1]

theorem countP_le_of_sorted {pl : List Nat} {v : Nat}
    (hs : List.Pairwise (· < ·) pl) {i : Nat} (h : i < pl.length)
    (hv : pl.get ⟨i, h⟩ = v) :
    pl.countP (fun x => decide (x ≤ v)) = i + 1 := by
  induction pl generalizing i with
  | nil => simp at h
  | cons a rest ih =>
    rcases List.pairwise_cons.mp hs with ⟨ha, hrest⟩
    cases i with
    | zero =>
      have hav : a = v := hv
      rw [List.countP_cons]
      have h2 : rest.countP (fun x => decide (x ≤ v)) = 0 := by
        rw [List.countP_eq_zero]
        intro x hx
        have := ha x hx
        simp
        omega
      rw [h2]
      have h3 : a ≤ v := by omega
      simp [h3]
    | succ j =>
      have hj : j < rest.length := by
        simp only [List.length_cons] at h
        omega
      have hget : rest.get ⟨j, hj⟩ = v := hv
      have hmem : rest.get ⟨j, hj⟩ ∈ rest := rest.get_mem _ _
      rw [List.countP_cons]
      rw [ih hrest hj hget]
      have h1 : a ≤ v := by
        have := hget ▸ ha _ hmem
        omega
      simp [h1]

theorem idxRight_mid {pl : PList} (hs : PlOK pl) {i : Nat} (h : i < pl.length)
    {v : Nat} (hv : pl.get ⟨i, h⟩ = v) :
    idxRight pl (Pos.mid v) = i := by
  unfold idxRight
  rw [← countP_lt_of_sorted hs h hv]
  apply List.countP_congr
  intro x _
  rw [blt_mid_mid x v]

theorem idxLeft_mid {pl : PList} (hs : PlOK pl) {i : Nat} (h : i < pl.length)
    {v : Nat} (hv : pl.get ⟨i, h⟩ = v) :
    idxLeft pl (Pos.mid v) = (i : Int) := by
  unfold idxLeft
  have hc : pl.countP
      (fun x => Pos.blt (Pos.mid x) (Pos.mid v) || Pos.mid x == Pos.mid v) =
      i + 1 := by
    rw [← countP_le_of_sorted hs h hv]
    apply List.countP_congr
    intro x _
    rw [le_pred_mid x v]
  rw [hc]
  omega

theorem idxRight_maxP (pl : PList) : idxRight pl Pos.maxP = pl.length := by
  unfold idxRight
  rw [List.countP_eq_length]
  intro x _
  rfl

theorem idxLeft_minP (pl : PList) : idxLeft pl Pos.minP = -1 := by
  unfold idxLeft
  have hc : pl.countP
      (fun x => Pos.blt (Pos.mid x) Pos.minP || Pos.mid x == Pos.minP) = 0 := by
    rw [List.countP_eq_zero]
    intro x _
    simp [Pos.blt]
  rw [hc]
  rfl

theorem plPosAt_get (pl : PList) (i : Nat) (h : i < pl.length) :
    plPosAt pl (i : Int) = some (Pos.mid (pl.get ⟨i, h⟩)) := by
  unfold plPosAt
  have h0 : ¬((i : Int) < 0) := by omega
  rw [if_neg h0]
  have ht : (i : Int).toNat = i := Int.toNat_natCast i
  rw [ht, List.get?_eq_get h]
  rfl

theorem anchorAt_left_eq (pl : PList) (i : Int) :
    anchorAt pl i true =
      (if i = 0 then some ⟨Pos.minP, false⟩
       else (plPosAt pl (i - 1)).map (fun p => ⟨p, false⟩)) := rfl

theorem anchorAt_right_eq (pl : PList) (i : Int) :
    anchorAt pl i false =
      (if i = (pl.length : Int) then some ⟨Pos.maxP, true⟩
       else (plPosAt pl i).map (fun p => ⟨p, true⟩)) := rfl

theorem indexOfAnchor_before_mid (pl : PList) (v : Nat) :
    indexOfAnchor pl ⟨Pos.mid v, true⟩ = some (idxRight pl (Pos.mid v)) := rfl

theorem indexOfAnchor_after_mid (pl : PList) (v : Nat) :
    indexOfAnchor pl ⟨Pos.mid v, false⟩ =
      some (idxLeft pl (Pos.mid v) + 1).toNat := rfl

theorem anchorAt_left_roundtrip (pl : PList) (hs : PlOK pl) (s : Nat)
    (h : s ≤ pl.length) :
    ∃ a, anchorAt pl (s : Int) true = some a ∧ indexOfAnchor pl a = some s := by
  by_cases hs0 : s = 0
  · subst hs0
    refine ⟨⟨Pos.minP, false⟩, ?_, ?_⟩
    · rw [anchorAt_left_eq]
      rfl
    · show some (idxLeft pl Pos.minP + 1).toNat = some 0
      rw [idxLeft_minP]
      rfl
  · have hlt : s - 1 < pl.length := by omega
    have hcond : ¬((s : Int) = 0) := by omega
    have hcast : (s : Int) - 1 = ((s - 1 : Nat) : Int) := by omega
    refine ⟨⟨Pos.mid (pl.get ⟨s - 1, hlt⟩), false⟩, ?_, ?_⟩
    · rw [anchorAt_left_eq, if_neg hcond, hcast, plPosAt_get pl (s - 1) hlt]
      rfl
    · rw [indexOfAnchor_after_mid]
      rw [idxLeft_mid hs hlt (v := pl.get ⟨s - 1, hlt⟩) rfl]
      congr 1
      omega

theorem anchorAt_right_roundtrip (pl : PList) (hs : PlOK pl) (s : Nat)
    (h : s ≤ pl.length) :
    ∃ a, anchorAt pl (s : Int) false = some a ∧ indexOfAnchor pl a = some s := by
  by_cases hsl : s = pl.length
  · subst hsl
    refine ⟨⟨Pos.maxP, true⟩, ?_, ?_⟩
    · rw [anchorAt_right_eq, if_pos rfl]
    · show some (idxRight pl Pos.maxP) = some pl.length
      rw [idxRight_maxP]
  · have hlt : s < pl.length := by omega
    have hcond : ¬((s : Int) = (pl.length : Int)) := by omega
    refine ⟨⟨Pos.mid (pl.get ⟨s, hlt⟩), true⟩, ?_, ?_⟩
    · rw [anchorAt_right_eq, if_neg hcond, plPosAt_get pl s hlt]
      rfl
    · rw [indexOfAnchor_before_mid]
      rw [idxRight_mid hs hlt (v := pl.get ⟨s, hlt⟩) rfl]
/-- Claim C7: for every list, every valid slice `0 ≤ s < e ≤ list.length`,
and every expand value, `sliceFromSpan(list, spanFromSlice(list, s, e, x))`
returns exactly `{ startIndex: s, endIndex: e }`. -/
theorem spec_C7_slice_span_roundtrip (pl : PList) (hs : PlOK pl) (s e : Nat)
    (hse : s < e) (he : e ≤ pl.length) (x : Expand) :
    ∃ sp : Anchor × Anchor, spanFromSlice pl (s : Int) (e : Int) x = some sp ∧
      sliceFromSpan pl sp.1 sp.2 = some (s, e) := by
  have hsle : s ≤ pl.length := by omega
  cases x with
  | after =>
    obtain ⟨sa, ha1, ha2⟩ := anchorAt_right_roundtrip pl hs s hsle
    obtain ⟨ea, he1, he2⟩ := anchorAt_right_roundtrip pl hs e he
    refine ⟨(sa, ea), ?_, ?_⟩
    · show (match anchorAt pl (s : Int) false, anchorAt pl (e : Int) false with
        | some a, some b => some (a, b)
        | _, _ => Option.none) = some (sa, ea)
      rw [ha1, he1]
    · show (match indexOfAnchor pl sa, indexOfAnchor pl ea with
        | some i, some j => some (i, j)
        | _, _ => Option.none) = some (s, e)
      rw [ha2, he2]
  | before =>
    obtain ⟨sa, ha1, ha2⟩ := anchorAt_left_roundtrip pl hs s hsle
    obtain ⟨ea, he1, he2⟩ := anchorAt_left_roundtrip pl hs e he
    refine ⟨(sa, ea), ?_, ?_⟩
    · show (match anchorAt pl (s : Int) true, anchorAt pl (e : Int) true with
        | some a, some b => some (a, b)
        | _, _ => Option.none) = some (sa, ea)
      rw [ha1, he1]
    · show (match indexOfAnchor pl sa, indexOfAnchor pl ea with
        | some i, some j => some (i, j)
        | _, _ => Option.none) = some (s, e)
      rw [ha2, he2]
  | both =>
    obtain ⟨sa, ha1, ha2⟩ := anchorAt_left_roundtrip pl hs s hsle
    obtain ⟨ea, he1, he2⟩ := anchorAt_right_roundtrip pl hs e he
    refine ⟨(sa, ea), ?_, ?_⟩
    · show (match anchorAt pl (s : Int) true, anchorAt pl (e : Int) false with
        | some a, some b => some (a, b)
        | _, _ => Option.none) = some (sa, ea)
      rw [ha1, he1]
    · show (match indexOfAnchor pl sa, indexOfAnchor pl ea with
        | some i, some j => some (i, j)
        | _, _ => Option.none) = some (s, e)
      rw [ha2, he2]
  | none =>
    obtain ⟨sa, ha1, ha2⟩ := anchorAt_right_roundtrip pl hs s hsle
    obtain ⟨ea, he1, he2⟩ := anchorAt_left_roundtrip pl hs e he
    refine ⟨(sa, ea), ?_, ?_⟩
    · show (match anchorAt pl (s : Int) false, anchorAt pl (e : Int) true with
        | some a, some b => some (a, b)
        | _, _ => Option.none) = some (sa, ea)
      rw [ha1, he1]
    · show (match indexOfAnchor pl sa, indexOfAnchor pl ea with
        | some i, some j => some (i, j)
        | _, _ => Option.none) = some (s, e)
      rw [ha2, he2]

/-- Witness for C7 at a concrete list and slice. -/
theorem spec_C7_witness :
    ∃ sp : Anchor × Anchor,
      spanFromSlice [2, 5, 7] (1 : Int) (2 : Int) Expand.after = some sp ∧
      sliceFromSpan [2, 5, 7] sp.1 sp.2 = some (1, 2) :=
  spec_C7_slice_span_roundtrip [2, 5, 7]
    (by unfold PlOK; decide) 1 2 (by decide) (by decide) Expand.after


theorem plPosAt_isSome (pl : PList) (i : Int) :
    (plPosAt pl i).isSome = true ↔ (0 ≤ i ∧ i < (pl.length : Int)) := by
  unfold plPosAt
  split
  · rename_i h
    simp
    omega
  · rename_i h
    by_cases hl : i.toNat < pl.length
    · rw [List.get?_eq_get hl]
      simp
      omega
    · rw [List.get?_eq_none.mpr (by omega)]
      simp
      omega

theorem anchorAt_isSome (pl : PList) (i : Int) (b : Bool) :
    (anchorAt pl i b).isSome = true ↔ (0 ≤ i ∧ i ≤ (pl.length : Int)) := by
  cases b
  · rw [anchorAt_right_eq]
    split
    · rename_i h
      simp
      omega
    · rename_i h
      have hiff := plPosAt_isSome pl i
      cases hp : plPosAt pl i with
      | none =>
        rw [hp] at hiff
        simp at hiff ⊢
        omega
      | some p =>
        rw [hp] at hiff
        simp at hiff ⊢
        omega
  · rw [anchorAt_left_eq]
    split
    · rename_i h
      simp
      omega
    · rename_i h
      have hiff := plPosAt_isSome pl (i - 1)
      cases hp : plPosAt pl (i - 1) with
      | none =>
        rw [hp] at hiff
        simp at hiff ⊢
        omega
      | some p =>
        rw [hp] at hiff
        simp at hiff ⊢
        omega

theorem matchPair_isSome (oa ob : Option Anchor) :
    (match oa, ob with
      | some a, some b => some (a, b)
      | _, _ => (Option.none : Option (Anchor × Anchor))).isSome = true ↔
      (oa.isSome = true ∧ ob.isSome = true) := by
  cases oa with
  | none => cases ob <;> simp
  | some a => cases ob <;> simp

/-- Counterexample to Claim C8 as stated: the current `spanFromSlice` does
not fail on `startIndex >= endIndex` — on the one-element list with
`startIndex = endIndex = 0` and `expand = "none"` it returns a span (with
inverted endpoints) instead of throwing. -/
theorem spec_C8_counterexample :
    spanFromSlice [0] 0 0 Expand.none =
      some (⟨Pos.mid 0, true⟩, ⟨Pos.minP, false⟩) := rfl

/-- Claim C8 as amended: the current `spanFromSlice` (built on
`Anchors.anchorAt`) fails exactly when `startIndex` or `endIndex` lies
outside `[0, list.length]`, for every list and every expand value — in
particular it succeeds on every valid slice, but also on in-range
`startIndex >= endIndex`.  The repository's older `spanFromSlice` variant
additionally throws on `startIndex >= endIndex` and satisfies the claim as
originally stated. -/
theorem spec_C8_spanFromSlice_failure (pl : PList) (s e : Int) (x : Expand) :
    ((spanFromSlice pl s e x).isSome = true ↔
      (0 ≤ s ∧ s ≤ (pl.length : Int) ∧ 0 ≤ e ∧ e ≤ (pl.length : Int))) ∧
    ((spanFromSliceOld pl s e x).isSome = true ↔
      (0 ≤ s ∧ s < e ∧ e ≤ (pl.length : Int))) := by
  constructor
  · show ((match anchorAt pl s _, anchorAt pl e _ with
      | some a, some b => some (a, b)
      | _, _ => Option.none).isSome = true ↔ _)
    rw [matchPair_isSome, anchorAt_isSome, anchorAt_isSome]
    omega
  · unfold spanFromSliceOld
    split
    · rename_i h
      simp
      omega
    · rename_i h
      rw [matchPair_isSome]
      cases x with
      | after =>
        have h1 := plPosAt_isSome pl s
        have h2 := plPosAt_isSome pl e
        simp only [reduceCtorEq, or_self, if_false, if_neg, reduceIte]
        by_cases he : e = (pl.length : Int)
        · subst he
          cases hp : plPosAt pl s with
          | none =>
            rw [hp] at h1
            simp [hp] at h1 ⊢
            omega
          | some p =>
            rw [hp] at h1
            simp [hp] at h1 ⊢
            omega
        · rw [if_neg he]
          cases hp : plPosAt pl s with
          | none =>
            rw [hp] at h1
            cases hq : plPosAt pl e with
            | none =>
              rw [hq] at h2
              simp [hp, hq] at h1 h2 ⊢
              omega
            | some q =>
              rw [hq] at h2
              simp [hp, hq] at h1 h2 ⊢
              omega
          | some p =>
            rw [hp] at h1
            cases hq : plPosAt pl e with
            | none =>
              rw [hq] at h2
              simp [hp, hq] at h1 h2 ⊢
              omega
            | some q =>
              rw [hq] at h2
              simp [hp, hq] at h1 h2 ⊢
              omega
      | before =>
        have h1 := plPosAt_isSome pl (s - 1)
        have h2 := plPosAt_isSome pl (e - 1)
        simp only [reduceCtorEq, or_self, if_false, or_false, reduceIte]
        by_cases hs0 : s = 0
        · subst hs0
          cases hq : plPosAt pl (e - 1) with
          | none =>
            rw [hq] at h2
            simp [hq] at h2 ⊢
            omega
          | some q =>
            rw [hq] at h2
            simp [hq] at h2 ⊢
            omega
        · rw [if_neg hs0]
          cases hp : plPosAt pl (s - 1) with
          | none =>
            rw [hp] at h1
            cases hq : plPosAt pl (e - 1) with
            | none =>
              rw [hq] at h2
              simp [hp, hq] at h1 h2 ⊢
              omega
            | some q =>
              rw [hq] at h2
              simp [hp, hq] at h1 h2 ⊢
              omega
          | some p =>
            rw [hp] at h1
            cases hq : plPosAt pl (e - 1) with
            | none =>
              rw [hq] at h2
              simp [hp, hq] at h1 h2 ⊢
              omega
            | some q =>
              rw [hq] at h2
              simp [hp, hq] at h1 h2 ⊢
              omega
      | both =>
        have h1 := plPosAt_isSome pl (s - 1)
        have h2 := plPosAt_isSome pl e
        simp only [reduceCtorEq, or_true, true_or, reduceIte]
        by_cases hs0 : s = 0
        · subst hs0
          by_cases he : e = (pl.length : Int)
          · subst he
            simp
            omega
          · rw [if_neg he]
            cases hq : plPosAt pl e with
            | none =>
              rw [hq] at h2
              simp [hq] at h2 ⊢
              omega
            | some q =>
              rw [hq] at h2
              simp [hq] at h2 ⊢
              omega
        · rw [if_neg hs0]
          by_cases he : e = (pl.length : Int)
          · subst he
            cases hp : plPosAt pl (s - 1) with
            | none =>
              rw [hp] at h1
              simp [hp] at h1 ⊢
              omega
            | some p =>
              rw [hp] at h1
              simp [hp] at h1 ⊢
              omega
          · rw [if_neg he]
            cases hp : plPosAt pl (s - 1) with
            | none =>
              rw [hp] at h1
              cases hq : plPosAt pl e with
              | none =>
                rw [hq] at h2
                simp [hp, hq] at h1 h2 ⊢
                omega
              | some q =>
                rw [hq] at h2
                simp [hp, hq] at h1 h2 ⊢
                omega
            | some p =>
              rw [hp] at h1
              cases hq : plPosAt pl e with
              | none =>
                rw [hq] at h2
                simp [hp, hq] at h1 h2 ⊢
                omega
              | some q =>
                rw [hq] at h2
                simp [hp, hq] at h1 h2 ⊢
                omega
      | none =>
        have h1 := plPosAt_isSome pl s
        have h2 := plPosAt_isSome pl (e - 1)
        simp only [reduceCtorEq, or_self, reduceIte]
        cases hp : plPosAt pl s with
        | none =>
          rw [hp] at h1
          cases hq : plPosAt pl (e - 1) with
          | none =>
            rw [hq] at h2
            simp [hp, hq] at h1 h2 ⊢
            omega
          | some q =>
            rw [hq] at h2
            simp [hp, hq] at h1 h2 ⊢
            omega
        | some p =>
          rw [hp] at h1
          cases hq : plPosAt pl (e - 1) with
          | none =>
            rw [hq] at h2
            simp [hp, hq] at h1 h2 ⊢
            omega
          | some q =>
            rw [hq] at h2
            simp [hp, hq] at h1 h2 ⊢
            omega


/-! Correctness of `locateMark` against its specification: the leftmost
insertion index, i.e. the number of stored marks strictly below the probe in
the `compareMarks` order. -/

/-- The sortedness invariant of `orderedMarks` (ascending, no duplicates in
the `compareMarks` order). -/
def MarksSorted (l : List Mark) : Prop :=
  List.Pairwise (fun a b => cmpMark a b < 0) l

/-- Specification of `locateMark`: the rank of `m`, i.e. how many stored
marks compare strictly below it. -/
def markRank (l : List Mark) (m : Mark) : Nat :=
  l.countP (fun x => decide (cmpMark x m < 0))

theorem markRank_le_length (l : List Mark) (m : Mark) :
    markRank l m ≤ l.length :=
  List.countP_le_length _

theorem getD_eq_get {l : List Mark} {i : Nat} (h : i < l.length) :
    l.getD i mDefault = l.get ⟨i, h⟩ := by
  rw [List.getD_eq_getElem?_getD, List.getElem?_eq_getElem h, Option.getD_some,
    List.get_eq_getElem]

theorem markRank_eq_zero_of_head {a m : Mark} {rest : List Mark}
    (ha : ∀ x ∈ rest, cmpMark a x < 0) (hlt : ¬cmpMark a m < 0) :
    markRank rest m = 0 := by
  unfold markRank
  rw [List.countP_eq_zero]
  intro x hx
  simp only [decide_eq_true_eq]
  exact fun hxm => hlt (cmpMark_neg_trans (ha x hx) hxm)

theorem sorted_get_lt_iff {l : List Mark} (hs : MarksSorted l) (m : Mark)
    {i : Nat} (h : i < l.length) :
    cmpMark (l.get ⟨i, h⟩) m < 0 ↔ i < markRank l m := by
  induction l generalizing i with
  | nil => simp at h
  | cons a rest ih =>
    rcases List.pairwise_cons.mp hs with ⟨ha, hrest⟩
    have hcons : markRank (a :: rest) m =
        markRank rest m + (if cmpMark a m < 0 then 1 else 0) := by
      unfold markRank
      rw [List.countP_cons]
      by_cases hlt : cmpMark a m < 0
      · simp [hlt]
      · simp [hlt]
    cases i with
    | zero =>
      show cmpMark a m < 0 ↔ 0 < markRank (a :: rest) m
      rw [hcons]
      by_cases hlt : cmpMark a m < 0
      · simp [hlt]
      · rw [markRank_eq_zero_of_head ha hlt]
        simp [hlt]
    | succ j =>
      have hj : j < rest.length := by
        simp only [List.length_cons] at h
        omega
      show cmpMark (rest.get ⟨j, hj⟩) m < 0 ↔ j + 1 < markRank (a :: rest) m
      rw [hcons, ih hrest hj]
      by_cases hlt : cmpMark a m < 0
      · simp [hlt]
      · rw [markRank_eq_zero_of_head ha hlt]
        simp [hlt]

theorem revScanLoop_eq_rank {l : List Mark} {m : Mark} (hs : MarksSorted l)
    {minus10 : Nat} (hrk : minus10 ≤ markRank l m) :
    ∀ i, i < l.length →
      (∀ j, (hj : j < l.length) → i < j → ¬cmpMark (l.get ⟨j, hj⟩) m < 0) →
      revScanLoop l m minus10 i = markRank l m := by
  intro i
  induction i with
  | zero =>
    intro hi hinv
    show (if 0 < minus10 then minus10
      else if cmpMark m (l.getD 0 mDefault) > 0 then 1 else minus10) =
      markRank l m
    have hr1 : markRank l m ≤ 1 := by
      by_contra hc
      push_neg at hc
      have h1 : 1 < l.length := lt_of_lt_of_le hc (markRank_le_length l m)
      exact hinv 1 h1 (by omega) ((sorted_get_lt_iff hs m h1).mpr hc)
    by_cases h0 : 0 < minus10
    · rw [if_pos h0]
      omega
    · rw [if_neg h0, getD_eq_get hi]
      by_cases hgt : cmpMark m (l.get ⟨0, hi⟩) > 0
      · rw [if_pos hgt]
        have hlt : cmpMark (l.get ⟨0, hi⟩) m < 0 := (cmpMark_swap _ _).mpr hgt
        have := (sorted_get_lt_iff hs m hi).mp hlt
        omega
      · rw [if_neg hgt]
        have hnlt : ¬cmpMark (l.get ⟨0, hi⟩) m < 0 := fun hlt =>
          hgt ((cmpMark_swap _ _).mp hlt)
        have h0r : ¬(0 < markRank l m) := fun hr =>
          hnlt ((sorted_get_lt_iff hs m hi).mpr hr)
        omega
  | succ j ihj =>
    intro hi hinv
    show (if j + 1 < minus10 then minus10
      else if cmpMark m (l.getD (j + 1) mDefault) > 0 then j + 2
      else revScanLoop l m minus10 j) = markRank l m
    have hrub : markRank l m ≤ j + 2 := by
      by_contra hc
      push_neg at hc
      have h1 : j + 2 < l.length := lt_of_lt_of_le hc (markRank_le_length l m)
      exact hinv (j + 2) h1 (by omega) ((sorted_get_lt_iff hs m h1).mpr hc)
    by_cases hlt10 : j + 1 < minus10
    · rw [if_pos hlt10]
      omega
    · rw [if_neg hlt10, getD_eq_get hi]
      by_cases hgt : cmpMark m (l.get ⟨j + 1, hi⟩) > 0
      · rw [if_pos hgt]
        have hlt : cmpMark (l.get ⟨j + 1, hi⟩) m < 0 := (cmpMark_swap _ _).mpr hgt
        have := (sorted_get_lt_iff hs m hi).mp hlt
        omega
      · rw [if_neg hgt]
        apply ihj (by omega)
        intro j' hj' hgt'
        by_cases hje : j' = j + 1
        · subst hje
          exact fun hlt => hgt ((cmpMark_swap _ _).mp hlt)
        · exact hinv j' hj' (by omega)

theorem binSearchGo_eq_rank {l : List Mark} {m : Mark} (hs : MarksSorted l) :
    ∀ (fuel L R : Nat), R ≤ l.length → L ≤ markRank l m → markRank l m ≤ R →
      R - L ≤ fuel → binSearchGo l m fuel L R = markRank l m := by
  intro fuel
  induction fuel with
  | zero =>
    intro L R hR hL hrk hfuel
    show R = markRank l m
    omega
  | succ fuel ih =>
    intro L R hR hL hrk hfuel
    show (if L < R then
        if cmpMark m (l.getD ((L + R) / 2) mDefault) > 0 then
          binSearchGo l m fuel ((L + R) / 2 + 1) R
        else binSearchGo l m fuel L ((L + R) / 2)
      else R) = markRank l m
    by_cases hLR : L < R
    · rw [if_pos hLR]
      have hmidlt : (L + R) / 2 < R := by omega
      have hmidge : L ≤ (L + R) / 2 := by omega
      have hmidlen : (L + R) / 2 < l.length := by omega
      rw [getD_eq_get hmidlen]
      by_cases hgt : cmpMark m (l.get ⟨(L + R) / 2, hmidlen⟩) > 0
      · rw [if_pos hgt]
        have hlt : cmpMark (l.get ⟨(L + R) / 2, hmidlen⟩) m < 0 :=
          (cmpMark_swap _ _).mpr hgt
        have hmidr := (sorted_get_lt_iff hs m hmidlen).mp hlt
        exact ih ((L + R) / 2 + 1) R hR (by omega) hrk (by omega)
      · rw [if_neg hgt]
        have hnlt : ¬cmpMark (l.get ⟨(L + R) / 2, hmidlen⟩) m < 0 := fun hlt =>
          hgt ((cmpMark_swap _ _).mp hlt)
        have hmidr : ¬((L + R) / 2 < markRank l m) := fun hr =>
          hnlt ((sorted_get_lt_iff hs m hmidlen).mpr hr)
        exact ih L ((L + R) / 2) (by omega) hL (by omega) (by omega)
    · rw [if_neg hLR]
      omega

/-- The `compareMarks` order is total, so on a sorted duplicate-free store
the optimized `locateMark` computes exactly the rank of the probe. -/
theorem locateMark_eq_rank {l : List Mark} {m : Mark} (hs : MarksSorted l) :
    locateMark l m = markRank l m := by
  unfold locateMark
  by_cases hnil : l.length = 0
  · rw [if_pos hnil]
    have hl : l = [] := List.length_eq_zero.mp hnil
    subst hl
    rfl
  · rw [if_neg hnil]
    have hlast : l.length - 1 < l.length := by omega
    rw [getD_eq_get hlast]
    by_cases hgt : cmpMark m (l.get ⟨l.length - 1, hlast⟩) > 0
    · rw [if_pos hgt]
      have hlt : cmpMark (l.get ⟨l.length - 1, hlast⟩) m < 0 :=
        (cmpMark_swap _ _).mpr hgt
      have := (sorted_get_lt_iff hs m hlast).mp hlt
      have hle := markRank_le_length l m
      omega
    · rw [if_neg hgt]
      have hnlt : ¬cmpMark (l.get ⟨l.length - 1, hlast⟩) m < 0 := fun h =>
        hgt ((cmpMark_swap _ _).mp h)
      have hr2 : ¬(l.length - 1 < markRank l m) := fun hc =>
        hnlt ((sorted_get_lt_iff hs m hlast).mpr hc)
      have hm10 : l.length - 10 < l.length := by omega
      show (if cmpMark m (l.getD (l.length - 10) mDefault) ≥ 0 then
          revScanLoop l m (l.length - 10) (l.length - 1)
        else binSearchLoop l m 0 (l.length - 10)) = markRank l m
      rw [getD_eq_get hm10]
      by_cases hge : cmpMark m (l.get ⟨l.length - 10, hm10⟩) ≥ 0
      · rw [if_pos hge]
        have hrk : l.length - 10 ≤ markRank l m := by
          by_cases h010 : l.length - 10 = 0
          · omega
          · have hprev : l.length - 10 - 1 < l.length := by omega
            have hlt2 : cmpMark (l.get ⟨l.length - 10 - 1, hprev⟩)
                (l.get ⟨l.length - 10, hm10⟩) < 0 := by
              have := List.pairwise_iff_get.mp hs ⟨l.length - 10 - 1, hprev⟩
                ⟨l.length - 10, hm10⟩ (by simp; omega)
              exact this
            have hltm : cmpMark (l.get ⟨l.length - 10 - 1, hprev⟩) m < 0 := by
              by_cases heq0 : cmpMark m (l.get ⟨l.length - 10, hm10⟩) = 0
              · exact cmpMark_neg_of_neg_of_zero hlt2 (cmpMark_zero_symm heq0)
              · have : cmpMark m (l.get ⟨l.length - 10, hm10⟩) > 0 := by omega
                exact cmpMark_neg_trans hlt2 ((cmpMark_swap _ _).mpr this)
            have := (sorted_get_lt_iff hs m hprev).mp hltm
            omega
        apply revScanLoop_eq_rank hs hrk (l.length - 1) hlast
        intro j hj hgt'
        exact absurd hj (by omega)
      · rw [if_neg hge]
        have hnot : ¬(l.length - 10 < markRank l m) := by
          intro hc
          have := (sorted_get_lt_iff hs m hm10).mpr hc
          have := (cmpMark_swap _ _).mp this
          omega
        unfold binSearchLoop
        exact binSearchGo_eq_rank hs (l.length - 10 - 0) 0 (l.length - 10)
          (by omega) (by omega) (by omega) (by omega)

theorem locateMark_found {l : List Mark} {m x : Mark} (hs : MarksSorted l)
    (hx : x ∈ l) (heq : cmpMark m x = 0) :
    locateMark l m < l.length ∧
      cmpMark m (l.getD (locateMark l m) mDefault) = 0 := by
  obtain ⟨⟨i, hi⟩, hget⟩ := List.mem_iff_get.mp hx
  have hler : markRank l m ≤ i := by
    have hnlt : ¬cmpMark (l.get ⟨i, hi⟩) m < 0 := by
      rw [hget]
      have := cmpMark_zero_symm heq
      omega
    have hnot : ¬(i < markRank l m) := fun hc =>
      hnlt ((sorted_get_lt_iff hs m hi).mpr hc)
    omega
  have hger : i ≤ markRank l m := by
    by_cases hi0 : i = 0
    · omega
    · have hprev : i - 1 < l.length := by omega
      have hlt2 : cmpMark (l.get ⟨i - 1, hprev⟩) (l.get ⟨i, hi⟩) < 0 := by
        have := List.pairwise_iff_get.mp hs ⟨i - 1, hprev⟩ ⟨i, hi⟩ (by simp; omega)
        exact this
      have hltm : cmpMark (l.get ⟨i - 1, hprev⟩) m < 0 := by
        rw [hget] at hlt2
        exact cmpMark_neg_of_neg_of_zero hlt2 (cmpMark_zero_symm heq)
      have := (sorted_get_lt_iff hs m hprev).mp hltm
      omega
  have hri : markRank l m = i := by omega
  rw [locateMark_eq_rank hs, hri]
  refine ⟨hi, ?_⟩
  rw [getD_eq_get hi, hget]
  exact heq

theorem locateMark_miss {l : List Mark} {m : Mark}
    (hmiss : ∀ x ∈ l, cmpMark m x ≠ 0) :
    ¬(locateMark l m < l.length ∧
      cmpMark m (l.getD (locateMark l m) mDefault) = 0) := by
  rintro ⟨hlt, heq⟩
  rw [getD_eq_get hlt] at heq
  exact hmiss _ (l.get_mem _ _) heq


/-! Preservation of the sortedness invariant by the engine's operations. -/

theorem sorted_insertIdx_rank {l : List Mark} {m : Mark} (hs : MarksSorted l)
    (hne : ∀ x ∈ l, cmpMark m x ≠ 0) :
    MarksSorted (List.insertIdx (markRank l m) m l) := by
  induction l with
  | nil => exact List.pairwise_singleton _ _
  | cons a rest ih =>
    rcases List.pairwise_cons.mp hs with ⟨ha, hrest⟩
    have hcons : markRank (a :: rest) m =
        markRank rest m + (if cmpMark a m < 0 then 1 else 0) := by
      unfold markRank
      rw [List.countP_cons]
      by_cases hlt : cmpMark a m < 0
      · simp [hlt]
      · simp [hlt]
    by_cases hlt : cmpMark a m < 0
    · rw [hcons, if_pos hlt, List.insertIdx_succ_cons]
      apply List.pairwise_cons.mpr
      constructor
      · intro x hx
        have hr : markRank rest m ≤ rest.length := markRank_le_length rest m
        rcases (List.mem_insertIdx hr).mp hx with rfl | hx'
        · exact hlt
        · exact ha x hx'
      · exact ih hrest (fun x hx => hne x (List.mem_cons_of_mem a hx))
    · have hz : markRank rest m = 0 := markRank_eq_zero_of_head ha hlt
      rw [hcons, if_neg hlt, hz]
      show MarksSorted (m :: a :: rest)
      have hma : cmpMark m a < 0 := by
        have hna := hne a (List.mem_cons_self a rest)
        have hswap := cmpMark_swap m a
        have hz2 : cmpMark a m ≠ 0 := fun h0 => hna (cmpMark_zero_symm h0)
        omega
      apply List.pairwise_cons.mpr
      refine ⟨?_, hs⟩
      intro x hx
      rcases List.mem_cons.mp hx with rfl | hx'
      · exact hma
      · exact cmpMark_neg_trans hma (ha x hx')

theorem sorted_erase {l : List Mark} (hs : MarksSorted l) (i : Nat) :
    MarksSorted (l.take i ++ l.drop (i + 1)) := by
  have hsub : (l.take i ++ l.drop (i + 1)).Sublist l := by
    rw [← List.eraseIdx_eq_take_drop_succ]
    exact List.eraseIdx_sublist l i
  exact List.Pairwise.sublist hsub hs

theorem addMark_state_cases (s : FmtState) (m : Mark)
    (hs : MarksSorted s.orderedMarks) :
    (addMark s m).1 = s ∨
      ((∀ x ∈ s.orderedMarks, cmpMark m x ≠ 0) ∧ rangeBad m = false ∧
        (addMark s m).1.orderedMarks =
          List.insertIdx (markRank s.orderedMarks m) m s.orderedMarks) := by
  simp only [addMark]
  by_cases h1 : locateMark s.orderedMarks m < s.orderedMarks.length ∧
      cmpMark m (s.orderedMarks.getD (locateMark s.orderedMarks m) mDefault) = 0
  · rw [if_pos h1]
    exact Or.inl rfl
  · rw [if_neg h1]
    have hne : ∀ x ∈ s.orderedMarks, cmpMark m x ≠ 0 := by
      intro x hx heq
      exact h1 (locateMark_found hs hx heq)
    by_cases h2 : rangeBad m
    · rw [if_pos h2]
      exact Or.inl rfl
    · rw [if_neg h2]
      refine Or.inr ⟨hne, by simpa using h2, ?_⟩
      show List.insertIdx (locateMark s.orderedMarks m) m s.orderedMarks = _
      rw [locateMark_eq_rank hs]

theorem deleteMark_state_cases (s : FmtState) (m : Mark) :
    (deleteMark s m).1 = s ∨
      ∃ i, (deleteMark s m).1.orderedMarks =
        s.orderedMarks.take i ++ s.orderedMarks.drop (i + 1) := by
  simp only [deleteMark]
  by_cases h1 : locateMark s.orderedMarks m < s.orderedMarks.length ∧
      cmpMark m (s.orderedMarks.getD (locateMark s.orderedMarks m) mDefault) = 0
  · rw [if_pos h1]
    exact Or.inr ⟨locateMark s.orderedMarks m, rfl⟩
  · rw [if_neg h1]
    exact Or.inl rfl

theorem addMark_sorted {s : FmtState} {m : Mark}
    (hs : MarksSorted s.orderedMarks) :
    MarksSorted (addMark s m).1.orderedMarks := by
  rcases addMark_state_cases s m hs with h | ⟨hne, _, h⟩
  · rw [h]
    exact hs
  · rw [h]
    exact sorted_insertIdx_rank hs hne

theorem deleteMark_sorted {s : FmtState} {m : Mark}
    (hs : MarksSorted s.orderedMarks) :
    MarksSorted (deleteMark s m).1.orderedMarks := by
  rcases deleteMark_state_cases s m with h | ⟨i, h⟩
  · rw [h]
    exact hs
  · rw [h]
    exact sorted_erase hs i

theorem loadGo_sorted : ∀ (saved : List Mark) (s : FmtState),
    MarksSorted s.orderedMarks → MarksSorted (loadGo s saved).orderedMarks := by
  intro saved
  induction saved with
  | nil =>
    intro s h
    exact h
  | cons m rest ih =>
    intro s h
    show MarksSorted (match addMark s m with
      | (s', .ok _) => loadGo s' rest
      | (s', .error _) => s').orderedMarks
    have hadd : MarksSorted (addMark s m).1.orderedMarks := addMark_sorted h
    rcases haddm : addMark s m with ⟨s', r⟩
    rw [haddm] at hadd
    cases r with
    | ok c => exact ih s' hadd
    | error e => exact hadd

/-- Every reachable state has its `orderedMarks` sorted strictly ascending in
the `compareMarks` order. -/
theorem reachable_sorted {s : FmtState} (h : Reachable s) :
    MarksSorted s.orderedMarks := by
  induction h with
  | init => exact List.Pairwise.nil
  | add m hr hv ih => exact addMark_sorted ih
  | del m hr ih => exact deleteMark_sorted ih
  | clear hr ih => exact List.Pairwise.nil
  | load saved hr hv ih => exact loadGo_sorted saved initState List.Pairwise.nil

/-- Claim C5: on any reachable state, `addMark(m)` with a `compareMarks`-equal
mark already stored, and `deleteMark(m)` with no `compareMarks`-equal mark
stored, are both no-ops: they return an empty change list and leave the
entire state (ordered mark list and resolution index) unchanged. -/
theorem spec_C5_duplicate_add_absent_delete (s : FmtState) (m : Mark)
    (hr : Reachable s) :
    ((∃ x ∈ s.orderedMarks, cmpMark m x = 0) → addMark s m = (s, .ok [])) ∧
    ((∀ x ∈ s.orderedMarks, cmpMark m x ≠ 0) → deleteMark s m = (s, [])) := by
  have hs := reachable_sorted hr
  constructor
  · rintro ⟨x, hx, heq⟩
    simp only [addMark]
    rw [if_pos (locateMark_found hs hx heq)]
  · intro hmiss
    simp only [deleteMark]
    rw [if_neg (locateMark_miss hmiss)]

/-- A mark stored by one `addMark` call, for the C5/C6 witnesses. -/
def wMark : Mark := ⟨MIN_ANCHOR, ⟨Pos.mid 1, true⟩, 0, some 1, 0, 1⟩

/-- A mark `compareMarks`-equal to `wMark` but with different content. -/
def wDup : Mark := ⟨MIN_ANCHOR, ⟨Pos.mid 2, true⟩, 0, some 5, 0, 1⟩

/-- A mark `compareMarks`-distinct from `wMark`. -/
def wAbsent : Mark := ⟨MIN_ANCHOR, ⟨Pos.mid 1, true⟩, 0, some 1, 3, 7⟩

/-- Witness for C5 on the concrete one-mark state. -/
theorem spec_C5_witness :
    addMark (addMark initState wMark).1 wDup =
      ((addMark initState wMark).1, .ok []) ∧
    deleteMark (addMark initState wMark).1 wAbsent =
      ((addMark initState wMark).1, []) :=
  ⟨(spec_C5_duplicate_add_absent_delete (addMark initState wMark).1 wDup
      (Reachable.add wMark Reachable.init (by decide))).1 (by decide),
   (spec_C5_duplicate_add_absent_delete (addMark initState wMark).1 wAbsent
      (Reachable.add wMark Reachable.init (by decide))).2 (by decide)⟩

/-- The throw condition of `addMark` is exactly "start is not strictly below
end in the anchor order" (the allowed same-position zero-width mark
`(p, before) → (p, after)` is strictly below in that order). -/
theorem rangeBad_iff (m : Mark) :
    rangeBad m = true ↔ Anchor.blt m.start m.stop = false := by
  rcases m with ⟨⟨sp, sb⟩, ⟨ep, eb⟩, k, v, c, t⟩
  show rangeBad ⟨⟨sp, sb⟩, ⟨ep, eb⟩, k, v, c, t⟩ = true ↔ _
  unfold rangeBad Anchor.blt
  simp only
  rcases pos_blt_total sp ep with hlt | heq | hgt
  · have h1 : ¬(Pos.cmp sp ep > 0) := by
      have := Pos.cmp_neg_iff.mpr hlt
      omega
    have h2 : ¬(Pos.cmp sp ep = 0) := by
      intro h0
      have := Pos.cmp_eq_zero_iff.mp h0
      subst this
      rw [pos_blt_irrefl] at hlt
      exact absurd hlt (by simp)
    simp [h1, h2, hlt]
  · subst heq
    have h1 : ¬(Pos.cmp sp sp > 0) := by
      have := Pos.cmp_eq_zero_iff.mpr (rfl : sp = sp)
      omega
    have h2 : Pos.cmp sp sp = 0 := Pos.cmp_eq_zero_iff.mpr rfl
    simp [h1, h2, pos_blt_irrefl]
    cases sb <;> cases eb <;> simp
  · have h1 : Pos.cmp sp ep > 0 := Pos.cmp_pos_iff.mpr hgt
    have h2 : Pos.blt sp ep = false := pos_blt_asymm hgt
    have h3 : sp ≠ ep := by
      intro h0
      subst h0
      rw [pos_blt_irrefl] at hgt
      exact absurd hgt (by simp)
    simp [h1, h2, h3]

/-- Claim C6 (amended): provided no `compareMarks`-equal mark is already
stored (otherwise `addMark` returns an empty change list without checking the
range), `addMark(m)` throws exactly when `m.start >= m.end` in the anchor
order — the same-position `(p, before) → (p, after)` pair is strictly ordered,
hence allowed — and whenever it throws the state is unchanged and the mark is
not stored. -/
theorem spec_C6_addMark_throw_range (s : FmtState) (m : Mark)
    (hr : Reachable s) (hnew : ∀ x ∈ s.orderedMarks, cmpMark m x ≠ 0) :
    ((addMark s m).2 = .error () ↔ Anchor.blt m.start m.stop = false) ∧
    ((addMark s m).2 = .error () →
      ((addMark s m).1 = s ∧ m ∉ (addMark s m).1.orderedMarks)) := by
  have hs := reachable_sorted hr
  have hmm : cmpMark m m = 0 := cmpMark_zero_iff.mpr ⟨rfl, rfl⟩
  have hnotm : m ∉ s.orderedMarks := fun hmem => hnew m hmem hmm
  simp only [addMark]
  rw [if_neg (locateMark_miss hnew)]
  by_cases hb : rangeBad m
  · rw [if_pos hb]
    refine ⟨?_, ?_⟩
    · simp [(rangeBad_iff m).mp hb]
    · intro _
      exact ⟨rfl, hnotm⟩
  · rw [if_neg hb]
    constructor
    · constructor
      · intro h
        exact absurd h (by simp)
      · intro h
        have : rangeBad m = true := (rangeBad_iff m).mpr h
        exact absurd this hb
    · intro h
      exact absurd h (by simp)

/-- Witness for the amended C6 on the empty state and an inverted range. -/
theorem spec_C6_witness :
    ((addMark initState
        (⟨⟨Pos.mid 2, true⟩, ⟨Pos.mid 1, true⟩, 0, some 5, 0, 1⟩ : Mark)).2 =
          .error () ↔
      Anchor.blt (⟨Pos.mid 2, true⟩ : Anchor) (⟨Pos.mid 1, true⟩ : Anchor) =
        false) ∧
    ((addMark initState
        (⟨⟨Pos.mid 2, true⟩, ⟨Pos.mid 1, true⟩, 0, some 5, 0, 1⟩ : Mark)).2 =
          .error () →
      ((addMark initState
          (⟨⟨Pos.mid 2, true⟩, ⟨Pos.mid 1, true⟩, 0, some 5, 0, 1⟩ : Mark)).1 =
          initState ∧
        (⟨⟨Pos.mid 2, true⟩, ⟨Pos.mid 1, true⟩, 0, some 5, 0, 1⟩ : Mark) ∉
          (addMark initState
            (⟨⟨Pos.mid 2, true⟩, ⟨Pos.mid 1, true⟩, 0, some 5, 0, 1⟩ : Mark)).1.orderedMarks)) :=
  spec_C6_addMark_throw_range initState
    ⟨⟨Pos.mid 2, true⟩, ⟨Pos.mid 1, true⟩, 0, some 5, 0, 1⟩ Reachable.init
    (by intro x hx; exact absurd hx (by simp [initState]))

/-- Counterexample to C6 as stated: on a state storing `wMark`, adding a mark
that is `compareMarks`-equal to it but has `start >= end` returns an empty
change list instead of throwing. -/
theorem spec_C6_counterexample :
    Anchor.blt (⟨⟨Pos.mid 2, true⟩, ⟨Pos.mid 2, true⟩, 0, some 5, 0, 1⟩ : Mark).start
        (⟨⟨Pos.mid 2, true⟩, ⟨Pos.mid 2, true⟩, 0, some 5, 0, 1⟩ : Mark).stop = false ∧
    addMark (addMark initState wMark).1
        ⟨⟨Pos.mid 2, true⟩, ⟨Pos.mid 2, true⟩, 0, some 5, 0, 1⟩ =
      ((addMark initState wMark).1, .ok []) := by decide


/-! The `locateMark` copy in `src/formatting.ts` (lines 87-118), whose reverse
linear scan compares against `list[1]` instead of `list[i]`. -/

/-- The reverse scan as written in `src/formatting.ts` line 101:
`if (this.compareMarks(mark, list[1]) > 0) return i + 1;` — the index `1` is
fixed instead of the loop counter. -/
def revScanLoopFT (l : List Mark) (m : Mark) (minus10 : Nat) : Nat → Nat
  | 0 =>
    if 0 < minus10 then minus10
    else if cmpMark m (l.getD 1 mDefault) > 0 then 1
    else minus10
  | i + 1 =>
    if i + 1 < minus10 then minus10
    else if cmpMark m (l.getD 1 mDefault) > 0 then i + 2
    else revScanLoopFT l m minus10 i

/-- The `src/formatting.ts` copy of `locateMark`, identical to the current one
except for its reverse scan. -/
def locateMarkFT (l : List Mark) (m : Mark) : Nat :=
  if l.length = 0 then 0
  else if cmpMark m (l.getD (l.length - 1) mDefault) > 0 then l.length
  else
    let minus10 := l.length - 10
    if cmpMark m (l.getD minus10 mDefault) ≥ 0 then
      revScanLoopFT l m minus10 (l.length - 1)
    else binSearchLoop l m 0 minus10

/-- A mark with the given timestamp, for the C9 failing input. -/
def c9m (t : Nat) : Mark := ⟨MIN_ANCHOR, ⟨Pos.mid 1, true⟩, 0, some 1, 0, t⟩

/-- Claim C9, evaluated at the failing input: on the sorted store of
timestamps `[1, 2, 4]`, locating a mark with timestamp `3` must give its rank
`2` (as the current `locateMark` does), but the `src/formatting.ts` copy —
whose reverse scan reads `list[1]` where the comment and the fixed copy read
`list[i]` — returns `3`. -/
theorem spec_C9_locateMark_list1_bug :
    MarksSorted [c9m 1, c9m 2, c9m 4] ∧
    markRank [c9m 1, c9m 2, c9m 4] (c9m 3) = 2 ∧
    locateMark [c9m 1, c9m 2, c9m 4] (c9m 3) = 2 ∧
    locateMarkFT [c9m 1, c9m 2, c9m 4] (c9m 3) = 3 :=
  ⟨by unfold MarksSorted; decide, by decide, by decide, by decide⟩


/-! General theory of the `SpanBuilder`: feeding a strictly increasing anchor
sequence and finishing at an upper bound yields a gap-free chain of nonempty
spans whose neighbours differ, each span's payload agreeing (under the
builder's equality) with the payload of every fed anchor it contains. -/

theorem Anchor.ble_refl (a : Anchor) : Anchor.ble a a = true := by
  simp [Anchor.ble]

theorem Anchor.ble_of_blt {a b : Anchor} (h : Anchor.blt a b = true) :
    Anchor.ble a b = true := by
  simp [Anchor.ble, h]

theorem Anchor.ble_iff {a b : Anchor} :
    Anchor.ble a b = true ↔ (a = b ∨ Anchor.blt a b = true) := by
  simp [Anchor.ble]

theorem Anchor.blt_of_ble_of_blt {a b c : Anchor} (h₁ : Anchor.ble a b = true)
    (h₂ : Anchor.blt b c = true) : Anchor.blt a c = true := by
  rcases Anchor.ble_iff.mp h₁ with rfl | h₁'
  · exact h₂
  · exact Anchor.blt_trans h₁' h₂

theorem Anchor.blt_of_blt_of_ble {a b c : Anchor} (h₁ : Anchor.blt a b = true)
    (h₂ : Anchor.ble b c = true) : Anchor.blt a c = true := by
  rcases Anchor.ble_iff.mp h₂ with rfl | h₂'
  · exact h₁
  · exact Anchor.blt_trans h₁ h₂'

theorem Anchor.ble_trans {a b c : Anchor} (h₁ : Anchor.ble a b = true)
    (h₂ : Anchor.ble b c = true) : Anchor.ble a c = true := by
  rcases Anchor.ble_iff.mp h₁ with rfl | h₁'
  · exact h₂
  · exact Anchor.ble_of_blt (Anchor.blt_of_blt_of_ble h₁' h₂)

theorem Anchor.not_blt_of_ble {a b : Anchor} (h : Anchor.ble a b = true) :
    Anchor.blt b a = false := by
  rcases Anchor.ble_iff.mp h with rfl | h'
  · exact Anchor.blt_irrefl a
  · exact Anchor.blt_asymm h'

theorem Anchor.ble_antisymm {a b : Anchor} (h₁ : Anchor.ble a b = true)
    (h₂ : Anchor.ble b a = true) : a = b := by
  rcases Anchor.ble_iff.mp h₁ with rfl | h₁'
  · rfl
  · rw [Anchor.not_blt_of_ble h₂] at h₁'
    exact absurd h₁' (by simp)

/-- Invariant of a builder's finished-slices list: a gap-free chain of
nonempty spans from `a0` to `aL`, neighbours differing under `eqD`, each
span's payload `eqD`-matching every fed pair it contains, each span starting
at a fed anchor. -/
structure SlInv (D : Type) (eqD : D → D → Bool) (a0 aL : Anchor)
    (fed : List (Anchor × D)) (sl : List (SpanData D)) : Prop where
  emptyEq : sl = [] → a0 = aL
  headStart : ∀ s0, sl.head? = some s0 → s0.start = a0
  chain : List.Chain' (fun x y => x.stop = y.start) sl
  lastStop : ∀ s0, sl.getLast? = some s0 → s0.stop = aL
  spanNe : ∀ s0 ∈ sl, Anchor.blt s0.start s0.stop = true
  adjDiff : List.Chain' (fun x y => eqD x.data y.data = false) sl
  stopLe : ∀ s0 ∈ sl, Anchor.ble s0.stop aL = true
  payload : ∀ s0 ∈ sl, ∀ e ∈ fed, Anchor.ble s0.start e.1 = true →
    Anchor.blt e.1 s0.stop = true → eqD s0.data e.2 = true
  startFed : ∀ s0 ∈ sl, s0.start ∈ fed.map (fun e => e.1)

/-- Side conditions on the fed prefix: strictly increasing anchors, all at
most `aL`, with `(aL, dL)` the pending (latest) pair. -/
structure FedOK (D : Type) (aL : Anchor) (dL : D)
    (fed : List (Anchor × D)) : Prop where
  strict : List.Pairwise (fun x y => Anchor.blt x y = true)
    (fed.map (fun e => e.1))
  lastMem : (aL, dL) ∈ fed
  allLe : ∀ e ∈ fed, Anchor.ble e.1 aL = true

theorem FedOK.at_last {D : Type} {aL : Anchor} {dL : D}
    {fed : List (Anchor × D)} (h : FedOK D aL dL fed) :
    ∀ e ∈ fed, e.1 = aL → e.2 = dL := by
  intro e he hanch
  by_contra hne
  have hneq : e ≠ (aL, dL) := by
    intro h0
    rw [h0] at hne
    exact hne rfl
  -- two distinct members of `fed` with the same anchor contradict strictness
  obtain ⟨i, hgei⟩ := List.mem_iff_get.mp he
  obtain ⟨j, hgej⟩ := List.mem_iff_get.mp h.lastMem
  have hij : i.val ≠ j.val := by
    intro h0
    have : i = j := Fin.ext h0
    rw [this, hgej] at hgei
    exact hneq hgei.symm
  have hmap : ∀ (k : Fin fed.length),
      (fed.map (fun e => e.1)).get ⟨k.val, by simp⟩ = (fed.get k).1 := by
    intro k
    simp
  have hpair := List.pairwise_iff_get.mp h.strict
  rcases Nat.lt_or_ge i.val j.val with hlt | hge
  · have hx := hpair ⟨i.val, by simp⟩ ⟨j.val, by simp⟩ hlt
    rw [hmap i, hmap j, hgei, hgej, hanch] at hx
    rw [Anchor.blt_irrefl] at hx
    exact absurd hx (by simp)
  · have hlt2 : j.val < i.val := by omega
    have hx := hpair ⟨j.val, by simp⟩ ⟨i.val, by simp⟩ hlt2
    rw [hmap j, hmap i, hgei, hgej, hanch] at hx
    rw [Anchor.blt_irrefl] at hx
    exact absurd hx (by simp)


theorem sbRecord_eq_empty {D : Type} {eqD : D → D → Bool} {sl : List (SpanData D)}
    {a b : Anchor} {d : D} (hne : a ≠ b) (h : sl.getLast? = none) :
    sbRecord eqD sl a b d = [⟨a, b, d⟩] := by
  unfold sbRecord
  rw [if_neg hne, h]

theorem sbRecord_eq_merge {D : Type} {eqD : D → D → Bool} {sl : List (SpanData D)}
    {last : SpanData D} {a b : Anchor} {d : D} (hne : a ≠ b)
    (h : sl.getLast? = some last) (he : eqD last.data d = true) :
    sbRecord eqD sl a b d = sl.dropLast ++ [{ last with stop := b }] := by
  unfold sbRecord
  rw [if_neg hne, h]
  simp only [he, if_true]

theorem sbRecord_eq_push {D : Type} {eqD : D → D → Bool} {sl : List (SpanData D)}
    {last : SpanData D} {a b : Anchor} {d : D} (hne : a ≠ b)
    (h : sl.getLast? = some last) (he : eqD last.data d = false) :
    sbRecord eqD sl a b d = sl ++ [⟨a, b, d⟩] := by
  unfold sbRecord
  rw [if_neg hne, h]
  simp only [he, Bool.false_eq_true, if_false]

theorem slInv_record {D : Type} {eqD : D → D → Bool} {a0 aL : Anchor} {dL : D}
    {fed : List (Anchor × D)} {sl : List (SpanData D)}
    (hsl : SlInv D eqD a0 aL fed sl) (hfed : FedOK D aL dL fed)
    (href : eqD dL dL = true)
    {x : Anchor} (hx : Anchor.blt aL x = true) :
    SlInv D eqD a0 x fed (sbRecord eqD sl aL x dL) := by
  have hne : aL ≠ x := by
    intro h0
    rw [h0, Anchor.blt_irrefl] at hx
    exact absurd hx (by simp)
  have hfreshPay : ∀ e ∈ fed, Anchor.ble aL e.1 = true →
      Anchor.blt e.1 x = true → eqD dL e.2 = true := by
    intro e he h1 _h2
    have h3 := hfed.allLe e he
    have h4 : e.1 = aL := Anchor.ble_antisymm h3 h1
    rw [hfed.at_last e he h4]
    exact href
  cases hlast : sl.getLast? with
  | none =>
    have hsl0 : sl = [] := by
      cases sl with
      | nil => rfl
      | cons a as => simp at hlast
    have ha0 : a0 = aL := hsl.emptyEq hsl0
    rw [sbRecord_eq_empty hne hlast]
    refine ⟨?_, ?_, ?_, ?_, ?_, ?_, ?_, ?_, ?_⟩
    · intro h
      exact absurd h (by simp)
    · intro s0 h0
      simp only [List.head?_cons, Option.some.injEq] at h0
      rw [← h0]
      exact ha0.symm
    · exact List.chain'_singleton _
    · intro s0 h0
      simp only [List.getLast?_singleton, Option.some.injEq] at h0
      rw [← h0]
    · intro s0 h0
      rw [List.mem_singleton.mp h0]
      exact hx
    · exact List.chain'_singleton _
    · intro s0 h0
      rw [List.mem_singleton.mp h0]
      exact Anchor.ble_refl x
    · intro s0 h0 e he h1 h2
      rw [List.mem_singleton.mp h0] at h1 h2 ⊢
      exact hfreshPay e he h1 h2
    · intro s0 h0
      rw [List.mem_singleton.mp h0]
      exact List.mem_map.mpr ⟨(aL, dL), hfed.lastMem, rfl⟩
  | some last =>
    have hslne : sl ≠ [] := by
      intro h0
      rw [h0] at hlast
      simp at hlast
    have hdecomp : sl.dropLast ++ [last] = sl := by
      have h1 := List.dropLast_append_getLast hslne
      have h2 : sl.getLast hslne = last := by
        have h3 := List.getLast?_eq_getLast sl hslne
        rw [h3] at hlast
        exact (Option.some.injEq _ _).mp hlast
      rw [h2] at h1
      exact h1
    have hlastStop : last.stop = aL := hsl.lastStop last hlast
    have hlastMem : last ∈ sl := by
      rw [← hdecomp]
      exact List.mem_append_right _ (List.mem_singleton.mpr rfl)
    by_cases heq : eqD last.data dL = true
    · rw [sbRecord_eq_merge hne hlast heq]
      have hmem' : ∀ s0 ∈ sl.dropLast ++ [{ last with stop := x }],
          s0 ∈ sl.dropLast ∨ s0 = { last with stop := x } := by
        intro s0 h0
        rcases List.mem_append.mp h0 with h1 | h1
        · exact Or.inl h1
        · exact Or.inr (List.mem_singleton.mp h1)
      have hdropMem : ∀ s0 ∈ sl.dropLast, s0 ∈ sl := by
        intro s0 h0
        rw [← hdecomp]
        exact List.mem_append_left _ h0
      have hchainD : List.Chain' (fun u v => u.stop = v.start)
          (sl.dropLast ++ [last]) := by
        rw [hdecomp]
        exact hsl.chain
      have hadjD : List.Chain' (fun u v => eqD u.data v.data = false)
          (sl.dropLast ++ [last]) := by
        rw [hdecomp]
        exact hsl.adjDiff
      refine ⟨?_, ?_, ?_, ?_, ?_, ?_, ?_, ?_, ?_⟩
      · intro h
        exact absurd h (by simp)
      · intro s0 h0
        cases hdl : sl.dropLast with
        | nil =>
          rw [hdl] at h0
          simp only [List.nil_append, List.head?_cons, Option.some.injEq] at h0
          have hsl1 : sl = [last] := by
            rw [← hdecomp, hdl]
            rfl
          have h5 := hsl.headStart last (by rw [hsl1]; rfl)
          rw [← h0]
          exact h5
        | cons a as =>
          rw [hdl] at h0
          simp only [List.cons_append, List.head?_cons, Option.some.injEq] at h0
          have h4 : sl.head? = some a := by
            rw [← hdecomp, hdl]
            rfl
          have h5 := hsl.headStart a h4
          rw [← h0]
          exact h5
      · rw [List.chain'_append] at hchainD ⊢
        refine ⟨hchainD.1, List.chain'_singleton _, ?_⟩
        intro u hu v hv
        simp only [List.head?_cons, Option.mem_def, Option.some.injEq] at hv
        have h5 := hchainD.2.2 u hu last (by simp)
        rw [← hv]
        exact h5
      · intro s0 h0
        rw [List.getLast?_concat] at h0
        rw [← (Option.some.injEq _ _).mp h0]
      · intro s0 h0
        rcases hmem' s0 h0 with h1 | h1
        · exact hsl.spanNe s0 (hdropMem s0 h1)
        · rw [h1]
          show Anchor.blt last.start x = true
          have h2 := hsl.spanNe last hlastMem
          rw [hlastStop] at h2
          exact Anchor.blt_trans h2 hx
      · rw [List.chain'_append] at hadjD ⊢
        refine ⟨hadjD.1, List.chain'_singleton _, ?_⟩
        intro u hu v hv
        simp only [List.head?_cons, Option.mem_def, Option.some.injEq] at hv
        have h5 := hadjD.2.2 u hu last (by simp)
        rw [← hv]
        exact h5
      · intro s0 h0
        rcases hmem' s0 h0 with h1 | h1
        · have h2 := hsl.stopLe s0 (hdropMem s0 h1)
          exact Anchor.ble_trans h2 (Anchor.ble_of_blt hx)
        · rw [h1]
          exact Anchor.ble_refl x
      · intro s0 h0 e he h1 h2
        rcases hmem' s0 h0 with h3 | h3
        · exact hsl.payload s0 (hdropMem s0 h3) e he h1 h2
        · rw [h3] at h1 h2 ⊢
          show eqD last.data e.2 = true
          by_cases h4 : Anchor.blt e.1 last.stop = true
          · exact hsl.payload last hlastMem e he h1 h4
          · have h4' : Anchor.blt e.1 last.stop = false := by
              cases hb : Anchor.blt e.1 last.stop
              · rfl
              · exact absurd hb h4
            have h5 : Anchor.ble last.stop e.1 = true := by
              rcases Anchor.not_blt_iff.mp h4' with h6 | h6
              · rw [h6]
                exact Anchor.ble_refl _
              · exact Anchor.ble_of_blt h6
            rw [hlastStop] at h5
            have h6 := hfed.allLe e he
            have h7 : e.1 = aL := Anchor.ble_antisymm h6 h5
            rw [hfed.at_last e he h7]
            exact heq
      · intro s0 h0
        rcases hmem' s0 h0 with h1 | h1
        · exact hsl.startFed s0 (hdropMem s0 h1)
        · rw [h1]
          show last.start ∈ fed.map (fun e => e.1)
          exact hsl.startFed last hlastMem
    · have heqf : eqD last.data dL = false := by
        cases hb : eqD last.data dL
        · rfl
        · exact absurd hb heq
      rw [sbRecord_eq_push hne hlast heqf]
      refine ⟨?_, ?_, ?_, ?_, ?_, ?_, ?_, ?_, ?_⟩
      · intro h
        exact absurd h (by simp)
      · intro s0 h0
        cases hc : sl with
        | nil => exact absurd hc hslne
        | cons a as =>
          rw [hc] at h0
          simp only [List.cons_append, List.head?_cons, Option.some.injEq] at h0
          have h5 := hsl.headStart a (by rw [hc]; rfl)
          rw [← h0]
          exact h5
      · rw [List.chain'_append]
        refine ⟨hsl.chain, List.chain'_singleton _, ?_⟩
        intro u hu v hv
        simp only [List.head?_cons, Option.mem_def, Option.some.injEq] at hv
        rw [← hv]
        show u.stop = aL
        rw [hlast, Option.mem_def, Option.some.injEq] at hu
        rw [← hu]
        exact hlastStop
      · intro s0 h0
        rw [List.getLast?_concat] at h0
        rw [← (Option.some.injEq _ _).mp h0]
      · intro s0 h0
        rcases List.mem_append.mp h0 with h1 | h1
        · exact hsl.spanNe s0 h1
        · rw [List.mem_singleton.mp h1]
          exact hx
      · rw [List.chain'_append]
        refine ⟨hsl.adjDiff, List.chain'_singleton _, ?_⟩
        intro u hu v hv
        simp only [List.head?_cons, Option.mem_def, Option.some.injEq] at hv
        rw [← hv]
        show eqD u.data dL = false
        rw [hlast, Option.mem_def, Option.some.injEq] at hu
        rw [← hu]
        exact heqf
      · intro s0 h0
        rcases List.mem_append.mp h0 with h1 | h1
        · exact Anchor.ble_trans (hsl.stopLe s0 h1) (Anchor.ble_of_blt hx)
        · rw [List.mem_singleton.mp h1]
          exact Anchor.ble_refl x
      · intro s0 h0 e he h1 h2
        rcases List.mem_append.mp h0 with h3 | h3
        · exact hsl.payload s0 h3 e he h1 h2
        · rw [List.mem_singleton.mp h3] at h1 h2 ⊢
          exact hfreshPay e he h1 h2
      · intro s0 h0
        rcases List.mem_append.mp h0 with h1 | h1
        · exact hsl.startFed s0 h1
        · rw [List.mem_singleton.mp h1]
          exact List.mem_map.mpr ⟨(aL, dL), hfed.lastMem, rfl⟩


theorem slInv_extend_fed {D : Type} {eqD : D → D → Bool} {a0 aL : Anchor}
    {fed extra : List (Anchor × D)} {sl : List (SpanData D)}
    (hsl : SlInv D eqD a0 aL fed sl)
    (hext : ∀ e ∈ extra, Anchor.ble aL e.1 = true) :
    SlInv D eqD a0 aL (fed ++ extra) sl := by
  refine ⟨hsl.emptyEq, hsl.headStart, hsl.chain, hsl.lastStop, hsl.spanNe,
    hsl.adjDiff, hsl.stopLe, ?_, ?_⟩
  · intro s0 h0 e he h1 h2
    rcases List.mem_append.mp he with h3 | h3
    · exact hsl.payload s0 h0 e h3 h1 h2
    · have h4 := hext e h3
      have h5 := hsl.stopLe s0 h0
      have h6 : Anchor.blt e.1 aL = true :=
        Anchor.blt_of_blt_of_ble h2 h5
      have h7 := Anchor.not_blt_of_ble h4
      rw [h7] at h6
      exact absurd h6 (by simp)
  · intro s0 h0
    have h1 := hsl.startFed s0 h0
    rw [List.map_append]
    exact List.mem_append_left _ h1

theorem fedOK_snoc {D : Type} {aL : Anchor} {dL : D}
    {fed : List (Anchor × D)} (hfed : FedOK D aL dL fed)
    {a' : Anchor} {d' : D} (hx : Anchor.blt aL a' = true) :
    FedOK D a' d' (fed ++ [(a', d')]) := by
  refine ⟨?_, ?_, ?_⟩
  · rw [List.map_append, List.pairwise_append]
    refine ⟨hfed.strict, List.pairwise_singleton _ _, ?_⟩
    intro u hu v hv
    simp only [List.map_cons, List.map_nil, List.mem_singleton] at hv
    obtain ⟨e, he, hue⟩ := List.mem_map.mp hu
    rw [hv, ← hue]
    exact Anchor.blt_of_ble_of_blt (hfed.allLe e he) hx
  · exact List.mem_append_right _ (List.mem_singleton.mpr rfl)
  · intro e he
    rcases List.mem_append.mp he with h1 | h1
    · exact Anchor.ble_trans (hfed.allLe e h1) (Anchor.ble_of_blt hx)
    · rw [List.mem_singleton.mp h1]
      exact Anchor.ble_refl a'

/-- Feeding a list of `(anchor, data)` pairs to a builder, in order. -/
def sbAddAll {D : Type} (eqD : D → D → Bool) (input : List (Anchor × D))
    (b : SB D) : SB D :=
  input.foldl (fun b e => SB.add eqD b e.1 e.2) b

/-- A complete builder run: feed the input in order, then finish. -/
def sbRun {D : Type} (eqD : D → D → Bool) (input : List (Anchor × D))
    (fin : Anchor) : List (SpanData D) :=
  SB.finish eqD (sbAddAll eqD input sbEmpty) fin

theorem sbAddAll_inv {D : Type} {eqD : D → D → Bool} :
    ∀ (rest : List (Anchor × D)) (b : SB D) (a0 aL : Anchor) (dL : D)
      (fed : List (Anchor × D)),
    (∀ e ∈ rest, eqD e.2 e.2 = true) → eqD dL dL = true →
    b.prev = some (aL, dL) →
    SlInv D eqD a0 aL fed b.slices →
    FedOK D aL dL fed →
    List.Chain (fun x y => Anchor.blt x y = true) aL
      (rest.map (fun e => e.1)) →
    ∃ aL' dL', (sbAddAll eqD rest b).prev = some (aL', dL') ∧
      SlInv D eqD a0 aL' (fed ++ rest) (sbAddAll eqD rest b).slices ∧
      FedOK D aL' dL' (fed ++ rest) := by
  intro rest
  induction rest with
  | nil =>
    intro b a0 aL dL fed _hrefs _hrefL hprev hsl hfed _hchain
    exact ⟨aL, dL, hprev, by simpa using hsl, by simpa using hfed⟩
  | cons e0 rest' ih =>
    intro b a0 aL dL fed hrefs hrefL hprev hsl hfed hchain
    rcases e0 with ⟨a', d'⟩
    simp only [List.map_cons] at hchain
    rw [List.chain_cons] at hchain
    obtain ⟨hlt, hchain'⟩ := hchain
    have hadd : SB.add eqD b a' d' =
        { slices := sbRecord eqD b.slices aL a' dL, prev := some (a', d') } := by
      unfold SB.add
      rw [hprev]
    have hsl1 : SlInv D eqD a0 a' fed (sbRecord eqD b.slices aL a' dL) :=
      slInv_record hsl hfed hrefL hlt
    have hsl2 : SlInv D eqD a0 a' (fed ++ [(a', d')])
        (sbRecord eqD b.slices aL a' dL) :=
      slInv_extend_fed hsl1 (by
        intro e he
        rw [List.mem_singleton.mp he]
        exact Anchor.ble_refl a')
    have hfed2 : FedOK D a' d' (fed ++ [(a', d')]) := fedOK_snoc hfed hlt
    have hrun : sbAddAll eqD ((a', d') :: rest') b =
        sbAddAll eqD rest' (SB.add eqD b a' d') := rfl
    rw [hrun, hadd]
    obtain ⟨aL', dL', h1, h2, h3⟩ :=
      ih { slices := sbRecord eqD b.slices aL a' dL, prev := some (a', d') }
        a0 a' d' (fed ++ [(a', d')])
        (fun e he => hrefs e (List.mem_cons_of_mem _ he))
        (hrefs (a', d') (List.mem_cons_self _ _))
        rfl hsl2 hfed2 hchain'
    refine ⟨aL', dL', h1, ?_, ?_⟩
    · rw [List.append_assoc] at h2
      simpa using h2
    · rw [List.append_assoc] at h3
      simpa using h3

/-- A complete builder run over a nonempty, strictly increasing input bounded
by `fin` satisfies the slices invariant from the first anchor to `fin`. -/
theorem sbRun_inv {D : Type} {eqD : D → D → Bool} (a0 : Anchor) (d0 : D)
    (rest : List (Anchor × D)) (fin : Anchor)
    (hrefs : ∀ e ∈ (a0, d0) :: rest, eqD e.2 e.2 = true)
    (hchain : List.Chain (fun x y => Anchor.blt x y = true) a0
      (rest.map (fun e => e.1)))
    (hfin : ∀ e ∈ (a0, d0) :: rest, Anchor.ble e.1 fin = true) :
    SlInv D eqD a0 fin ((a0, d0) :: rest)
      (sbRun eqD ((a0, d0) :: rest) fin) := by
  have hstep0 : sbAddAll eqD ((a0, d0) :: rest) sbEmpty =
      sbAddAll eqD rest { slices := [], prev := some (a0, d0) } := rfl
  have hsl0 : SlInv D eqD a0 a0 [(a0, d0)] [] := by
    refine ⟨fun _ => rfl, ?_, List.chain'_nil, ?_, ?_, List.chain'_nil, ?_, ?_, ?_⟩
    · intro s0 h0
      simp at h0
    · intro s0 h0
      simp at h0
    · intro s0 h0
      simp at h0
    · intro s0 h0
      simp at h0
    · intro s0 h0 e he h1 h2
      simp at h0
    · intro s0 h0
      simp at h0
  have hfed0 : FedOK D a0 d0 [(a0, d0)] := by
    refine ⟨?_, List.mem_singleton.mpr rfl, ?_⟩
    · simp
    · intro e he
      rw [List.mem_singleton.mp he]
      exact Anchor.ble_refl a0
  obtain ⟨aL', dL', h1, h2, h3⟩ := sbAddAll_inv rest
    { slices := [], prev := some (a0, d0) } a0 a0 d0 [(a0, d0)]
    (fun e he => hrefs e (List.mem_cons_of_mem _ he))
    (hrefs (a0, d0) (List.mem_cons_self _ _))
    rfl hsl0 hfed0 hchain
  have hfc : ([(a0, d0)] ++ rest : List (Anchor × D)) = (a0, d0) :: rest := by
    simp
  rw [hfc] at h2 h3
  unfold sbRun
  rw [hstep0]
  show SlInv D eqD a0 fin ((a0, d0) :: rest)
    (SB.finish eqD (sbAddAll eqD rest
      { slices := [], prev := some (a0, d0) }) fin)
  have hfinEq : SB.finish eqD (sbAddAll eqD rest
      { slices := [], prev := some (a0, d0) }) fin =
      sbRecord eqD (sbAddAll eqD rest
        { slices := [], prev := some (a0, d0) }).slices aL' fin dL' := by
    unfold SB.finish
    rw [h1]
  rw [hfinEq]
  have hup : Anchor.ble aL' fin = true := hfin (aL', dL') h3.lastMem
  rcases Anchor.ble_iff.mp hup with heq | hlt
  · have hskip : sbRecord eqD (sbAddAll eqD rest
        { slices := [], prev := some (a0, d0) }).slices aL' fin dL' =
        (sbAddAll eqD rest { slices := [], prev := some (a0, d0) }).slices := by
      unfold sbRecord
      rw [if_pos heq]
    rw [hskip, ← heq]
    exact h2
  · exact slInv_record h2 h3 (by
      have := h3.lastMem
      have h4 := hrefs (aL', dL') (by rw [← hfc]; exact this)
      exact h4) hlt


theorem slices_starts_ge {D : Type} (sl : List (SpanData D)) :
    ∀ (b0 : Anchor),
    (∀ s0, sl.head? = some s0 → s0.start = b0) →
    List.Chain' (fun x y => x.stop = y.start) sl →
    (∀ s0 ∈ sl, Anchor.blt s0.start s0.stop = true) →
    ∀ t ∈ sl, Anchor.ble b0 t.start = true := by
  induction sl with
  | nil =>
    intro b0 _ _ _ t ht
    simp at ht
  | cons s rest ih =>
    intro b0 hhead hchain hne t ht
    have hs : s.start = b0 := hhead s rfl
    rcases List.mem_cons.mp ht with rfl | ht'
    · rw [hs]
      exact Anchor.ble_refl b0
    · rw [List.chain'_cons'] at hchain
      have hrest := ih s.stop (fun s0 h0 => (hchain.1 s0 h0).symm) hchain.2
        (fun s0 h0 => hne s0 (List.mem_cons_of_mem s h0)) t ht'
      have h1 : Anchor.blt b0 s.stop = true :=
        hs ▸ hne s (List.mem_cons_self s rest)
      exact Anchor.ble_of_blt (Anchor.blt_of_blt_of_ble h1 hrest)

theorem slices_cover_exists {D : Type} (sl : List (SpanData D)) :
    ∀ (a0 fin : Anchor),
    (sl = [] → a0 = fin) →
    (∀ s0, sl.head? = some s0 → s0.start = a0) →
    List.Chain' (fun x y => x.stop = y.start) sl →
    (∀ s0, sl.getLast? = some s0 → s0.stop = fin) →
    ∀ x, Anchor.ble a0 x = true → Anchor.blt x fin = true →
    ∃ s0 ∈ sl, Anchor.ble s0.start x = true ∧ Anchor.blt x s0.stop = true := by
  induction sl with
  | nil =>
    intro a0 fin hemp _ _ _ x hx1 hx2
    rw [hemp rfl] at hx1
    rw [Anchor.not_blt_of_ble hx1] at hx2
    exact absurd hx2 (by simp)
  | cons s rest ih =>
    intro a0 fin hemp hhead hchain hlast x hx1 hx2
    have hs : s.start = a0 := hhead s rfl
    by_cases hxs : Anchor.blt x s.stop = true
    · exact ⟨s, List.mem_cons_self s rest, hs ▸ hx1, hxs⟩
    · have hble : Anchor.ble s.stop x = true := by
        have hxs' : Anchor.blt x s.stop = false := by
          cases hb : Anchor.blt x s.stop
          · rfl
          · exact absurd hb hxs
        rcases Anchor.not_blt_iff.mp hxs' with h6 | h6
        · rw [h6]
          exact Anchor.ble_refl _
        · exact Anchor.ble_of_blt h6
      rw [List.chain'_cons'] at hchain
      have hempr : rest = [] → s.stop = fin := by
        intro h0
        apply hlast s
        rw [h0]
        rfl
      have hlastr : ∀ s0, rest.getLast? = some s0 → s0.stop = fin := by
        intro s0 h0
        apply hlast s0
        cases rest with
        | nil => simp at h0
        | cons r rs =>
          rw [List.getLast?_cons_cons]
          exact h0
      obtain ⟨s1, hs1mem, hp1, hp2⟩ := ih s.stop fin hempr
        (fun s0 h0 => (hchain.1 s0 h0).symm) hchain.2 hlastr x hble hx2
      exact ⟨s1, List.mem_cons_of_mem s hs1mem, hp1, hp2⟩

theorem slices_cover_unique {D : Type} (sl : List (SpanData D)) :
    ∀ (a0 : Anchor),
    (∀ s0, sl.head? = some s0 → s0.start = a0) →
    List.Chain' (fun x y => x.stop = y.start) sl →
    (∀ s0 ∈ sl, Anchor.blt s0.start s0.stop = true) →
    ∀ x, ∀ s1 ∈ sl, ∀ s2 ∈ sl,
    Anchor.ble s1.start x = true → Anchor.blt x s1.stop = true →
    Anchor.ble s2.start x = true → Anchor.blt x s2.stop = true → s1 = s2 := by
  induction sl with
  | nil =>
    intro a0 _ _ _ x s1 h1
    simp at h1
  | cons s rest ih =>
    intro a0 hhead hchain hne x s1 hm1 s2 hm2 h11 h12 h21 h22
    rw [List.chain'_cons'] at hchain
    have hged : ∀ t ∈ rest, Anchor.ble s.stop t.start = true :=
      slices_starts_ge rest s.stop (fun s0 h0 => (hchain.1 s0 h0).symm)
        hchain.2 (fun s0 h0 => hne s0 (List.mem_cons_of_mem s h0))
    rcases List.mem_cons.mp hm1 with rfl | hm1'
    · rcases List.mem_cons.mp hm2 with rfl | hm2'
      · rfl
      · have h5 := hged s2 hm2'
        have h6 : Anchor.blt x x = true :=
          Anchor.blt_of_blt_of_ble h12 (Anchor.ble_trans h5 h21)
        rw [Anchor.blt_irrefl] at h6
        exact absurd h6 (by simp)
    · rcases List.mem_cons.mp hm2 with rfl | hm2'
      · have h5 := hged s1 hm1'
        have h6 : Anchor.blt x x = true :=
          Anchor.blt_of_blt_of_ble h22 (Anchor.ble_trans h5 h11)
        rw [Anchor.blt_irrefl] at h6
        exact absurd h6 (by simp)
      · exact ih s.stop (fun s0 h0 => (hchain.1 s0 h0).symm) hchain.2
          (fun s0 h0 => hne s0 (List.mem_cons_of_mem s h0)) x s1 hm1' s2 hm2'
          h11 h12 h21 h22


/-! Structural invariant of the `formatList` and the anchor-side sequence it
feeds to `formattedSpans`. -/

/-- The structural invariant maintained by every engine operation: the
`formatList` is sorted by position; its first entry is `MIN_POSITION` with the
`after` side present (seeded by the constructor) and no `before` side (no
valid anchor is `(MIN_POSITION, before)`); a `MAX_POSITION` entry never has an
`after` side; every entry has at least one side. -/
structure StInv (s : FmtState) : Prop where
  sortedFL : List.Pairwise (fun x y => Pos.blt x.1 y.1 = true) s.formatList
  minFirst : ∃ d, s.formatList.head? = some (Pos.minP, d) ∧
    d.after.isSome = true ∧ d.before = none
  maxNoAfter : ∀ d, (Pos.maxP, d) ∈ s.formatList → d.after = none
  someSide : ∀ e ∈ s.formatList,
    e.2.before.isSome = true ∨ e.2.after.isSome = true

/-- The anchor sides contributed by a single `formatList` entry. -/
def entrySides (e : Pos × FormatData) : List (Anchor × AMap) :=
  (match e.2.before with
   | some bd => [(⟨e.1, true⟩, bd)]
   | none => []) ++
  (match e.2.after with
   | some ad => [(⟨e.1, false⟩, ad)]
   | none => [])

theorem sideList_eq_flatMap (fl : FL) : sideList fl = fl.flatMap entrySides := rfl

theorem mem_entrySides {x : Anchor × AMap} {e : Pos × FormatData} :
    x ∈ entrySides e ↔ (x.1.pos = e.1 ∧
      ((x.1.before = true ∧ e.2.before = some x.2) ∨
       (x.1.before = false ∧ e.2.after = some x.2))) := by
  rcases x with ⟨⟨xp, xb⟩, xd⟩
  unfold entrySides
  cases hb : e.2.before with
  | none =>
    cases ha : e.2.after with
    | none =>
      simp
    | some ad =>
      cases xb <;> simp [Anchor.mk.injEq] <;>
        (intro _ ; exact eq_comm)
  | some bd =>
    cases ha : e.2.after with
    | none =>
      cases xb <;> simp [Anchor.mk.injEq] <;>
        (intro _ ; exact eq_comm)
    | some ad =>
      cases xb <;> simp [Anchor.mk.injEq] <;>
        (intro _ ; exact eq_comm)

theorem anchor_blt_of_pos {u v : Anchor} (h : Pos.blt u.pos v.pos = true) :
    Anchor.blt u v = true := by
  rcases u with ⟨up, ub⟩
  rcases v with ⟨vp, vb⟩
  simp only [Anchor.blt]
  simp at h
  simp [h]

theorem mem_of_head? {α : Type} {l : List α} {a : α} (h : l.head? = some a) :
    a ∈ l := by
  cases l with
  | nil => simp at h
  | cons x xs =>
    simp at h
    rw [← h]
    exact List.mem_cons_self x xs

theorem mem_of_getLast? {α : Type} {l : List α} {a : α}
    (h : l.getLast? = some a) : a ∈ l := by
  induction l with
  | nil => simp at h
  | cons x xs ih =>
    cases xs with
    | nil =>
      simp at h
      rw [← h]
      exact List.mem_cons_self x []
    | cons y ys =>
      rw [List.getLast?_cons_cons] at h
      exact List.mem_cons_of_mem x (ih h)

theorem sideList_anchors_chain (fl : FL)
    (hsort : List.Pairwise (fun x y => Pos.blt x.1 y.1 = true) fl) :
    List.Chain' (fun x y => Anchor.blt x y = true)
      ((sideList fl).map (fun e => e.1)) := by
  induction fl with
  | nil => exact List.chain'_nil
  | cons e rest ih =>
    rcases List.pairwise_cons.mp hsort with ⟨he, hrest⟩
    have hflat : sideList (e :: rest) = entrySides e ++ sideList rest := rfl
    rw [hflat, List.map_append, List.chain'_append]
    refine ⟨?_, ih hrest, ?_⟩
    · rcases e with ⟨p, d⟩
      show List.Chain' _ ((entrySides (p, d)).map (fun e => e.1))
      unfold entrySides
      cases d.before <;> cases d.after <;>
        simp [Anchor.blt, pos_blt_irrefl]
    · intro u hu v hv
      have hu1 : u ∈ (entrySides e).map (fun x => x.1) := mem_of_getLast? hu
      have hv1 : v ∈ (sideList rest).map (fun x => x.1) := mem_of_head? hv
      obtain ⟨xu, hxu, hxu2⟩ := List.mem_map.mp hu1
      obtain ⟨xv, hxv, hxv2⟩ := List.mem_map.mp hv1
      obtain ⟨ev, hev, hxv3⟩ := List.mem_flatMap.mp
        ((sideList_eq_flatMap rest) ▸ hxv)
      have hposu : xu.1.pos = e.1 := (mem_entrySides.mp hxu).1
      have hposv : xv.1.pos = ev.1 := (mem_entrySides.mp hxv3).1
      have hlt : Pos.blt e.1 ev.1 = true := he ev hev
      apply anchor_blt_of_pos
      rw [← hxu2, ← hxv2, hposu, hposv]
      exact hlt

theorem sideList_le_max (fl : FL)
    (hmax : ∀ d, (Pos.maxP, d) ∈ fl → d.after = none) :
    ∀ e ∈ sideList fl, Anchor.ble e.1 MAX_ANCHOR = true := by
  intro e he
  obtain ⟨ent, hent, hes⟩ := List.mem_flatMap.mp
    ((sideList_eq_flatMap fl) ▸ he)
  have hchar := mem_entrySides.mp hes
  rcases e with ⟨⟨p, b⟩, md⟩
  cases p with
  | minP =>
    apply Anchor.ble_of_blt
    apply anchor_blt_of_pos
    rfl
  | mid n =>
    apply Anchor.ble_of_blt
    apply anchor_blt_of_pos
    rfl
  | maxP =>
    cases b with
    | true =>
      show Anchor.ble MAX_ANCHOR MAX_ANCHOR = true
      exact Anchor.ble_refl _
    | false =>
      exfalso
      rcases hchar with ⟨hpos, hside | hside⟩
      · exact absurd hside.1 (by simp)
      · have hmem : (Pos.maxP, ent.2) ∈ fl := by
          have : ent = (Pos.maxP, ent.2) := by
            rcases ent with ⟨entp, entd⟩
            simp at hpos
            rw [hpos]
          rw [← this]
          exact hent
        have := hmax ent.2 hmem
        rw [this] at hside
        exact absurd hside.2 (by simp)

theorem sideList_head {fl : FL} {d : FormatData}
    (hhead : fl.head? = some (Pos.minP, d)) (hafter : d.after.isSome = true)
    (hbefore : d.before = none) :
    ∃ ad, d.after = some ad ∧
      sideList fl = (MIN_ANCHOR, ad) :: sideList fl.tail := by
  obtain ⟨ad, had⟩ := Option.isSome_iff_exists.mp hafter
  refine ⟨ad, had, ?_⟩
  cases fl with
  | nil => simp at hhead
  | cons e rest =>
    simp at hhead
    have h1 : sideList (e :: rest) = entrySides e ++ sideList rest := rfl
    rw [h1, hhead]
    show entrySides (Pos.minP, d) ++ sideList rest = _
    unfold entrySides
    simp only [hbefore, had]
    rfl


/-! Records built by `dataToRecord` have pairwise distinct keys, making
`equalsRecord` reflexive on them. -/

def keysOf {α : Type} (m : List (Key × α)) : List Key := m.map (fun e => e.1)

theorem mapSet_keys_nodup {α : Type} {m : List (Key × α)}
    (h : (keysOf m).Nodup) (k : Key) (v : α) :
    (keysOf (mapSet m k v)).Nodup := by
  unfold mapSet
  split
  · have hkeys : keysOf (m.map (fun e => if e.1 == k then (k, v) else e)) =
        keysOf m := by
      unfold keysOf
      rw [List.map_map]
      apply List.map_congr_left
      intro e _
      by_cases hk : e.1 = k
      · simp [hk]
      · simp [hk]
    rw [hkeys]
    exact h
  · rename_i hfind
    have hnone : m.find? (fun e => e.1 == k) = none := by
      cases hf : m.find? (fun e => e.1 == k)
      · rfl
      · rw [hf] at hfind
        simp at hfind
    have hnotin : k ∉ keysOf m := by
      intro hk
      obtain ⟨e, he, hek⟩ := List.mem_map.mp hk
      have := List.find?_eq_none.mp hnone e he
      simp [hek] at this
    unfold keysOf
    rw [List.map_append]
    apply List.Nodup.append h (by simp)
    intro u hu hv
    simp at hv
    rw [hv] at hu
    exact hnotin hu

theorem mapGet_of_mem_nodup {α : Type} {m : List (Key × α)}
    (h : (keysOf m).Nodup) {k : Key} {v : α} (hm : (k, v) ∈ m) :
    mapGet m k = some v := by
  induction m with
  | nil => simp at hm
  | cons e rest ih =>
    unfold keysOf at h
    rw [List.map_cons, List.nodup_cons] at h
    rcases List.mem_cons.mp hm with rfl | hm'
    · unfold mapGet
      rw [List.find?_cons_of_pos _ (by simp)]
      rfl
    · by_cases hek : e.1 = k
      · exfalso
        apply h.1
        rw [hek]
        exact List.mem_map.mpr ⟨(k, v), hm', rfl⟩
      · unfold mapGet
        rw [List.find?_cons_of_neg _ (by simp [hek])]
        exact ih h.2 hm'

theorem equalsRecord_refl_nodup {r : Record} (h : (keysOf r).Nodup) :
    equalsRecord r r = true := by
  unfold equalsRecord
  rw [Bool.and_eq_true]
  constructor <;>
  · rw [List.all_eq_true]
    intro e he
    have hget : mapGet r e.1 = some e.2 := mapGet_of_mem_nodup h (by
      rcases e with ⟨k, v⟩
      exact he)
    simp [hget]

theorem dataToRecord_nodup (d : AMap) : (keysOf (dataToRecord d)).Nodup := by
  unfold dataToRecord
  suffices hgen : ∀ (init : Record), (keysOf init).Nodup →
      (keysOf (d.foldl (fun ans e =>
        match e.2.getLast? with
        | some mk =>
          match mk.value with
          | some v => mapSet ans e.1 v
          | none => ans
        | none => ans) init)).Nodup by
    exact hgen [] (by simp [keysOf])
  induction d with
  | nil =>
    intro init h
    exact h
  | cons e rest ih =>
    intro init h
    rw [List.foldl_cons]
    apply ih
    cases hgl : e.2.getLast? with
    | none =>
      simp only [hgl]
      exact h
    | some mk =>
      cases hv : mk.value with
      | none =>
        simp only [hgl, hv]
        exact h
      | some v =>
        simp only [hgl, hv]
        exact mapSet_keys_nodup h e.1 v

theorem formattedSpans_eq_sbRun (s : FmtState) :
    formattedSpans s = (sbRun equalsRecord
      ((sideList s.formatList).map (fun e => (e.1, dataToRecord e.2)))
      MAX_ANCHOR).map (fun sl => ⟨sl.start, sl.stop, sl.data⟩) := by
  unfold formattedSpans sbRun sbAddAll
  rw [List.foldl_map]

/-- The span builder invariant established by `formattedSpans`'s feed on any
state satisfying the structural invariant. -/
theorem stInv_slinv (s : FmtState) (hst : StInv s) :
    SlInv Record equalsRecord MIN_ANCHOR MAX_ANCHOR
      ((sideList s.formatList).map (fun e => (e.1, dataToRecord e.2)))
      (sbRun equalsRecord
        ((sideList s.formatList).map (fun e => (e.1, dataToRecord e.2)))
        MAX_ANCHOR) := by
  obtain ⟨d, hhead, hafter, hbefore⟩ := hst.minFirst
  obtain ⟨ad, had, hdecomp⟩ := sideList_head hhead hafter hbefore
  set fl := s.formatList with hfl
  set fedR : List (Anchor × Record) :=
    (sideList fl).map (fun e => (e.1, dataToRecord e.2)) with hfedR
  have hfedDecomp : fedR = (MIN_ANCHOR, dataToRecord ad) ::
      (sideList fl.tail).map (fun e => (e.1, dataToRecord e.2)) := by
    rw [hfedR, hdecomp]
    rfl
  have hanch : fedR.map (fun e => e.1) = (sideList fl).map (fun e => e.1) := by
    rw [hfedR, List.map_map]
    rfl
  have hchainAll : List.Chain' (fun x y => Anchor.blt x y = true)
      ((sideList fl).map (fun e => e.1)) :=
    sideList_anchors_chain fl hst.sortedFL
  have hchain : List.Chain (fun x y => Anchor.blt x y = true) MIN_ANCHOR
      (((sideList fl.tail).map (fun e => (e.1, dataToRecord e.2))).map
        (fun e => e.1)) := by
    have h1 : (sideList fl).map (fun e => e.1) =
        MIN_ANCHOR :: (sideList fl.tail).map (fun e => e.1) := by
      rw [hdecomp]
      rfl
    rw [h1] at hchainAll
    have h2 : ((sideList fl.tail).map (fun e => (e.1, dataToRecord e.2))).map
        (fun e => e.1) = (sideList fl.tail).map (fun e => e.1) := by
      rw [List.map_map]
      rfl
    rw [h2]
    exact hchainAll
  have hfin : ∀ e ∈ (MIN_ANCHOR, dataToRecord ad) ::
      (sideList fl.tail).map (fun e => (e.1, dataToRecord e.2)),
      Anchor.ble e.1 MAX_ANCHOR = true := by
    intro e he
    rw [← hfedDecomp] at he
    obtain ⟨x, hx, hxe⟩ := List.mem_map.mp (hfedR ▸ he)
    rw [← hxe]
    exact sideList_le_max fl hst.maxNoAfter x hx
  have hrefs : ∀ e ∈ (MIN_ANCHOR, dataToRecord ad) ::
      (sideList fl.tail).map (fun e => (e.1, dataToRecord e.2)),
      equalsRecord e.2 e.2 = true := by
    intro e he
    rw [← hfedDecomp] at he
    obtain ⟨x, _hx, hxe⟩ := List.mem_map.mp (hfedR ▸ he)
    rw [← hxe]
    exact equalsRecord_refl_nodup (dataToRecord_nodup x.2)
  have hinv := sbRun_inv MIN_ANCHOR (dataToRecord ad)
    ((sideList fl.tail).map (fun e => (e.1, dataToRecord e.2))) MAX_ANCHOR
    hrefs hchain hfin
  rw [← hfedDecomp] at hinv
  exact hinv

/-- The partition shape of `formattedSpans` on any state satisfying the
structural invariant. -/
theorem stInv_partition (s : FmtState) (hst : StInv s) :
    formattedSpans s ≠ [] ∧
    (∀ sp, (formattedSpans s).head? = some sp → sp.start = MIN_ANCHOR) ∧
    List.Chain' (fun x y => x.stop = y.start) (formattedSpans s) ∧
    (∀ sp, (formattedSpans s).getLast? = some sp → sp.stop = MAX_ANCHOR) ∧
    (∀ sp ∈ formattedSpans s, Anchor.blt sp.start sp.stop = true) ∧
    List.Chain' (fun x y => equalsRecord x.format y.format = false)
      (formattedSpans s) := by
  have hinv := stInv_slinv s hst
  have hout : formattedSpans s =
      (sbRun equalsRecord
        ((sideList s.formatList).map (fun e => (e.1, dataToRecord e.2)))
        MAX_ANCHOR).map (fun sl => ⟨sl.start, sl.stop, sl.data⟩) :=
    formattedSpans_eq_sbRun s
  set out := sbRun equalsRecord
    ((sideList s.formatList).map (fun e => (e.1, dataToRecord e.2)))
    MAX_ANCHOR with hdefout
  have hne : out ≠ [] := by
    intro h0
    have := hinv.emptyEq h0
    exact absurd this (by decide)
  refine ⟨?_, ?_, ?_, ?_, ?_, ?_⟩
  · rw [hout]
    intro h0
    exact hne (List.map_eq_nil.mp h0)
  · intro sp hsp
    rw [hout, List.head?_map] at hsp
    cases h0 : out.head? with
    | none =>
      rw [h0] at hsp
      simp at hsp
    | some s0 =>
      rw [h0] at hsp
      simp at hsp
      rw [← hsp]
      exact hinv.headStart s0 h0
  · rw [hout, List.chain'_map]
    exact hinv.chain
  · intro sp hsp
    rw [hout, List.getLast?_map] at hsp
    cases h0 : out.getLast? with
    | none =>
      rw [h0] at hsp
      simp at hsp
    | some s0 =>
      rw [h0] at hsp
      simp at hsp
      rw [← hsp]
      exact hinv.lastStop s0 h0
  · intro sp hsp
    rw [hout] at hsp
    obtain ⟨s0, hs0, hs0e⟩ := List.mem_map.mp hsp
    rw [← hs0e]
    exact hinv.spanNe s0 hs0
  · rw [hout, List.chain'_map]
    exact hinv.adjDiff


/-! Behaviour of the sorted `formatList` map operations, towards the
structural invariant's preservation by every mutator. -/

theorem Pos.blt_ne {a b : Pos} (h : Pos.blt a b = true) : a ≠ b := by
  intro hab
  rw [hab, pos_blt_irrefl] at h
  exact absurd h (by simp)

theorem Pos.not_blt_minP (p : Pos) : Pos.blt p Pos.minP = false := by
  cases p <;> rfl

theorem flGet_cons_self (q : Pos) (e : FormatData) (rest : FL) :
    flGet ((q, e) :: rest) q = some e := by
  unfold flGet
  rw [List.find?_cons_of_pos _ (by simp)]
  rfl

theorem flGet_mem {fl : FL} {p : Pos} {d : FormatData}
    (h : flGet fl p = some d) : (p, d) ∈ fl := by
  unfold flGet at h
  cases hf : fl.find? (fun e => e.1 == p) with
  | none =>
    rw [hf] at h
    simp at h
  | some e =>
    rw [hf] at h
    simp at h
    have hmem := List.mem_of_find?_eq_some hf
    have hpred := List.find?_some hf
    simp at hpred
    have : (p, d) = e := by
      rcases e with ⟨ep, ed⟩
      simp at hpred h
      rw [hpred, h]
    rw [this]
    exact hmem

theorem flSet_cons_replace (q : Pos) (e : FormatData) (rest : FL)
    (d : FormatData) : flSet ((q, e) :: rest) q d = (q, d) :: rest := by
  simp [flSet]

theorem flSet_cons_skip {p q : Pos} (hne : p ≠ q)
    (hnlt : Pos.blt p q = false) (e : FormatData) (rest : FL) (d : FormatData) :
    flSet ((q, e) :: rest) p d = (q, e) :: flSet rest p d := by
  simp [flSet, hne, hnlt]

theorem mem_flSet_of {fl : FL} {p : Pos} {d : FormatData} {x : Pos × FormatData}
    (h : x ∈ flSet fl p d) : x = (p, d) ∨ x ∈ fl := by
  induction fl with
  | nil =>
    simp [flSet] at h
    exact Or.inl h
  | cons e rest ih =>
    rcases e with ⟨q, ed⟩
    by_cases hpq : p = q
    · rw [hpq, flSet_cons_replace] at h
      rcases List.mem_cons.mp h with h1 | h1
      · exact Or.inl (by rw [h1, hpq])
      · exact Or.inr (List.mem_cons_of_mem _ h1)
    · by_cases hlt : Pos.blt p q
      · have : flSet ((q, ed) :: rest) p d = (p, d) :: (q, ed) :: rest := by
          simp [flSet, hpq, hlt]
        rw [this] at h
        rcases List.mem_cons.mp h with h1 | h1
        · exact Or.inl h1
        · exact Or.inr h1
      · rw [flSet_cons_skip hpq (by simpa using hlt)] at h
        rcases List.mem_cons.mp h with h1 | h1
        · exact Or.inr (by rw [h1]; exact List.mem_cons_self _ _)
        · rcases ih h1 with h2 | h2
          · exact Or.inl h2
          · exact Or.inr (List.mem_cons_of_mem _ h2)

theorem mem_flSet_iff {fl : FL}
    (hs : List.Pairwise (fun x y => Pos.blt x.1 y.1 = true) fl)
    {p : Pos} {d : FormatData} {x : Pos × FormatData} :
    x ∈ flSet fl p d ↔ x = (p, d) ∨ (x ∈ fl ∧ x.1 ≠ p) := by
  induction fl with
  | nil => simp [flSet]
  | cons e rest ih =>
    rcases e with ⟨q, ed⟩
    rcases List.pairwise_cons.mp hs with ⟨hq, hrest⟩
    by_cases hpq : p = q
    · subst hpq
      rw [flSet_cons_replace]
      constructor
      · intro h
        rcases List.mem_cons.mp h with h1 | h1
        · exact Or.inl h1
        · refine Or.inr ⟨List.mem_cons_of_mem _ h1, ?_⟩
          have := hq x h1
          exact fun hc => Pos.blt_ne this hc.symm
      · rintro (h1 | ⟨h1, h2⟩)
        · rw [h1]
          exact List.mem_cons_self _ _
        · rcases List.mem_cons.mp h1 with h3 | h3
          · exfalso
            apply h2
            rw [h3]
          · exact List.mem_cons_of_mem _ h3
    · by_cases hlt : Pos.blt p q
      · have heq : flSet ((q, ed) :: rest) p d = (p, d) :: (q, ed) :: rest := by
          simp [flSet, hpq, hlt]
        rw [heq]
        constructor
        · intro h
          rcases List.mem_cons.mp h with h1 | h1
          · exact Or.inl h1
          · refine Or.inr ⟨h1, ?_⟩
            rcases List.mem_cons.mp h1 with h3 | h3
            · rw [h3]
              exact fun hc => hpq hc.symm
            · have := hq x h3
              exact fun hc => absurd (hc ▸ hlt) (by
                rw [pos_blt_asymm this]
                simp)
        · rintro (h1 | ⟨h1, _⟩)
          · exact List.mem_cons.mpr (Or.inl h1)
          · exact List.mem_cons_of_mem _ h1
      · rw [flSet_cons_skip hpq (by simpa using hlt)]
        constructor
        · intro h
          rcases List.mem_cons.mp h with h1 | h1
          · refine Or.inr ⟨by rw [h1]; exact List.mem_cons_self _ _, ?_⟩
            rw [h1]
            exact fun hc => hpq hc.symm
          · rcases (ih hrest).mp h1 with h2 | ⟨h2, h3⟩
            · exact Or.inl h2
            · exact Or.inr ⟨List.mem_cons_of_mem _ h2, h3⟩
        · rintro (h1 | ⟨h1, h2⟩)
          · exact List.mem_cons_of_mem _ ((ih hrest).mpr (Or.inl h1))
          · rcases List.mem_cons.mp h1 with h3 | h3
            · exact List.mem_cons.mpr (Or.inl h3)
            · exact List.mem_cons_of_mem _
                ((ih hrest).mpr (Or.inr ⟨h3, h2⟩))

theorem flSet_sorted {fl : FL}
    (hs : List.Pairwise (fun x y => Pos.blt x.1 y.1 = true) fl)
    (p : Pos) (d : FormatData) :
    List.Pairwise (fun x y => Pos.blt x.1 y.1 = true) (flSet fl p d) := by
  induction fl with
  | nil => simp [flSet]
  | cons e rest ih =>
    rcases e with ⟨q, ed⟩
    rcases List.pairwise_cons.mp hs with ⟨hq, hrest⟩
    by_cases hpq : p = q
    · rw [hpq, flSet_cons_replace]
      exact List.pairwise_cons.mpr ⟨hq, hrest⟩
    · by_cases hlt : Pos.blt p q
      · have heq : flSet ((q, ed) :: rest) p d = (p, d) :: (q, ed) :: rest := by
          simp [flSet, hpq, hlt]
        rw [heq]
        refine List.pairwise_cons.mpr ⟨?_, hs⟩
        intro y hy
        rcases List.mem_cons.mp hy with h1 | h1
        · rw [h1]
          exact hlt
        · exact pos_blt_trans hlt (hq y h1)
      · rw [flSet_cons_skip hpq (by simpa using hlt)]
        refine List.pairwise_cons.mpr ⟨?_, ih hrest⟩
        intro y hy
        rcases mem_flSet_of hy with h1 | h1
        · rw [h1]
          rcases pos_not_blt_iff.mp (by simpa using hlt) with h2 | h2
          · exact absurd h2 hpq
          · exact h2
        · exact hq y h1

/-- The structural invariant of a `formatList` value in isolation. -/
structure FLInv (fl : FL) : Prop where
  sorted : List.Pairwise (fun x y => Pos.blt x.1 y.1 = true) fl
  minFirst : ∃ d, fl.head? = some (Pos.minP, d) ∧
    d.after.isSome = true ∧ d.before = none
  maxNoAfter : ∀ d, (Pos.maxP, d) ∈ fl → d.after = none
  someSide : ∀ e ∈ fl, e.2.before.isSome = true ∨ e.2.after.isSome = true

theorem stInv_of_flInv {s : FmtState} (h : FLInv s.formatList) : StInv s :=
  ⟨h.sorted, h.minFirst, h.maxNoAfter, h.someSide⟩

theorem flInv_of_stInv {s : FmtState} (h : StInv s) : FLInv s.formatList :=
  ⟨h.sortedFL, h.minFirst, h.maxNoAfter, h.someSide⟩

theorem flGet_flPosAt_sorted {fl : FL}
    (hs : List.Pairwise (fun x y => Pos.blt x.1 y.1 = true) fl)
    {i : Nat} (hi : i < fl.length) :
    flGet fl (flPosAt fl i) = some (flGetAt fl i) := by
  induction fl generalizing i with
  | nil => simp at hi
  | cons e rest ih =>
    rcases List.pairwise_cons.mp hs with ⟨hq, hrest⟩
    cases i with
    | zero =>
      have h1 : flPosAt (e :: rest) 0 = e.1 := rfl
      have h2 : flGetAt (e :: rest) 0 = e.2 := rfl
      rw [h1, h2]
      rcases e with ⟨q, ed⟩
      exact flGet_cons_self q ed rest
    | succ j =>
      have hj : j < rest.length := by
        simp at hi
        omega
      have h1 : flPosAt (e :: rest) (j + 1) = flPosAt rest j := by
        unfold flPosAt
        rw [List.getD_cons_succ]
      have h2 : flGetAt (e :: rest) (j + 1) = flGetAt rest j := by
        unfold flGetAt
        rw [List.getD_cons_succ]
      rw [h1, h2]
      have hne : e.1 ≠ flPosAt rest j := by
        have hmem : rest.getD j (Pos.minP, {}) ∈ rest := by
          rw [List.getD_eq_getElem?_getD, List.getElem?_eq_getElem hj]
          simp
        exact Pos.blt_ne (hq _ hmem)
      unfold flGet
      rw [List.find?_cons_of_neg _ (by simp [hne])]
      exact ih hrest hj

theorem flGet_flPosAt {fl : FL} (h : FLInv fl) (i : Nat) :
    ∃ d, flGet fl (flPosAt fl i) = some d := by
  by_cases hi : i < fl.length
  · exact ⟨flGetAt fl i, flGet_flPosAt_sorted h.sorted hi⟩
  · obtain ⟨d0, hhead, _, _⟩ := h.minFirst
    have hp : flPosAt fl i = Pos.minP := by
      unfold flPosAt
      rw [List.getD_eq_default]
      omega
    rw [hp]
    cases fl with
    | nil => simp at hhead
    | cons e rest =>
      simp at hhead
      rw [hhead]
      exact ⟨d0, flGet_cons_self Pos.minP d0 rest⟩

/-- One loop-body step of `addMark`/`deleteMark`: rewriting the entry at a
present position with side maps of the same shape (present sides stay
present, absent sides stay absent) preserves the structural invariant. -/
theorem flStep_inv {fl : FL} (h : FLInv fl) {p : Pos} {d : FormatData}
    (hget : flGet fl p = some d) {nb na : Option AMap}
    (hb : nb.isSome = d.before.isSome) (ha : na.isSome = d.after.isSome) :
    FLInv (flSet fl p ⟨nb, na⟩) := by
  have hmem : (p, d) ∈ fl := flGet_mem hget
  refine ⟨flSet_sorted h.sorted p _, ?_, ?_, ?_⟩
  · obtain ⟨d0, hhead, hda, hdb⟩ := h.minFirst
    cases fl with
    | nil => simp at hhead
    | cons e rest =>
      simp at hhead
      rw [hhead]
      by_cases hp : p = Pos.minP
      · have hd0 : d = d0 := by
          rw [hhead] at hget
          rw [hp, flGet_cons_self] at hget
          exact (Option.some.injEq _ _ ▸ hget).symm
        rw [hp, flSet_cons_replace]
        refine ⟨⟨nb, na⟩, by simp, ?_, ?_⟩
        · rw [ha, hd0]
          exact hda
        · have : nb.isSome = false := by
            rw [hb, hd0, hdb]
            rfl
          cases nb with
          | none => rfl
          | some v => simp at this
      · rw [flSet_cons_skip hp (Pos.not_blt_minP p) d0 rest]
        exact ⟨d0, by simp, hda, hdb⟩
  · intro d' hd'
    rcases mem_flSet_of hd' with h1 | h1
    · have hp : p = Pos.maxP := (Prod.mk.injEq _ _ _ _ ▸ h1.symm).1
      have hda : d.after = none := h.maxNoAfter d (hp ▸ hmem)
      have hna : na.isSome = false := by
        rw [ha, hda]
        rfl
      have : d' = FormatData.mk nb na := (Prod.mk.injEq _ _ _ _ ▸ h1.symm).2.symm
      rw [this]
      cases na with
      | none => rfl
      | some v => simp at hna
    · exact h.maxNoAfter d' h1
  · intro e he
    rcases mem_flSet_of he with h1 | h1
    · rcases h.someSide (p, d) hmem with h2 | h2
      · left
        rw [h1]
        show nb.isSome = true
        rw [hb]
        exact h2
      · right
        rw [h1]
        show na.isSome = true
        rw [ha]
        exact h2
    · exact h.someSide e h1


theorem flGet_flSet_self (fl : FL) (p : Pos) (d : FormatData) :
    flGet (flSet fl p d) p = some d := by
  induction fl with
  | nil =>
    show flGet [(p, d)] p = some d
    exact flGet_cons_self p d []
  | cons e rest ih =>
    rcases e with ⟨q, ed⟩
    by_cases hpq : p = q
    · rw [hpq, flSet_cons_replace]
      rw [← hpq]
      exact flGet_cons_self p d rest
    · by_cases hlt : Pos.blt p q
      · have heq : flSet ((q, ed) :: rest) p d = (p, d) :: (q, ed) :: rest := by
          simp [flSet, hpq, hlt]
        rw [heq]
        exact flGet_cons_self p d _
      · rw [flSet_cons_skip hpq (by simpa using hlt)]
        unfold flGet
        rw [List.find?_cons_of_neg _ (by simp; exact fun hc => hpq hc.symm)]
        exact ih

/-- `createData` preserves the structural invariant for every valid anchor. -/
theorem createData_inv {fl : FL} (h : FLInv fl) {a : Anchor}
    (hv : a.valid = true) : FLInv (createData fl a) := by
  rcases a with ⟨p, b⟩
  cases hget : flGet fl p with
  | some d =>
    have hmem : (p, d) ∈ fl := flGet_mem hget
    have hstep : createData fl ⟨p, b⟩ =
        (if b then
          match d.before with
          | some _ => fl
          | none => flSet fl p { d with before := some (copyPrevAnchor fl p) }
        else
          match d.after with
          | some _ => fl
          | none =>
            match d.before with
            | some bd => flSet fl p { d with after := some bd }
            | none =>
              flSet fl p { d with after := some (copyPrevAnchor fl p) }) := by
      simp only [createData, hget]
      rfl
    rw [hstep]
    cases b with
    | true =>
      have hpmin : p ≠ Pos.minP := by
        intro hp
        rw [hp] at hv
        simp [Anchor.valid] at hv
      rw [if_pos rfl]
      cases hdb : d.before with
      | some bd => exact h
      | none =>
        refine ⟨flSet_sorted h.sorted _ _, ?_, ?_, ?_⟩
        · obtain ⟨d0, hhead, hda0, hdb0⟩ := h.minFirst
          rcases fl with _ | ⟨e, rest⟩
          · simp at hhead
          · simp at hhead
            rw [hhead, flSet_cons_skip hpmin (Pos.not_blt_minP p)]
            exact ⟨d0, by simp, hda0, hdb0⟩
        · intro d' hd'
          rcases mem_flSet_of hd' with h1 | h1
          · injection h1 with hp hd
            rw [hd]
            show d.after = none
            exact h.maxNoAfter d (hp ▸ hmem)
          · exact h.maxNoAfter d' h1
        · intro e he
          rcases mem_flSet_of he with h1 | h1
          · left
            rw [h1]
            rfl
          · exact h.someSide e h1
    | false =>
      have hpmax : p ≠ Pos.maxP := by
        intro hp
        rw [hp] at hv
        simp [Anchor.valid] at hv
      rw [if_neg (by simp)]
      cases hda : d.after with
      | some ad => exact h
      | none =>
        cases hdb : d.before with
        | none =>
          exfalso
          rcases h.someSide (p, d) hmem with hs | hs
          · rw [hdb] at hs
            simp at hs
          · rw [hda] at hs
            simp at hs
        | some bd =>
          have hpmin : p ≠ Pos.minP := by
            intro hp
            obtain ⟨d0, hhead, hda0, _⟩ := h.minFirst
            rcases fl with _ | ⟨e, rest⟩
            · simp at hhead
            · simp at hhead
              rw [hp, hhead, flGet_cons_self] at hget
              have hd : d0 = d := by
                injection hget
              rw [hd, hda] at hda0
              simp at hda0
          show FLInv (flSet fl p { before := some bd, after := some bd })
          refine ⟨flSet_sorted h.sorted _ _, ?_, ?_, ?_⟩
          · obtain ⟨d0, hhead, hda0, hdb0⟩ := h.minFirst
            rcases fl with _ | ⟨e, rest⟩
            · simp at hhead
            · simp at hhead
              rw [hhead, flSet_cons_skip hpmin (Pos.not_blt_minP p)]
              exact ⟨d0, by simp, hda0, hdb0⟩
          · intro d' hd'
            rcases mem_flSet_of hd' with h1 | h1
            · have hp : Pos.maxP = p := congrArg Prod.fst h1
              exact absurd hp.symm hpmax
            · exact h.maxNoAfter d' h1
          · intro e he
            rcases mem_flSet_of he with h1 | h1
            · right
              rw [h1]
              rfl
            · exact h.someSide e h1
  | none =>
    have hpmin : p ≠ Pos.minP := by
      intro hp
      obtain ⟨d0, hhead, _, _⟩ := h.minFirst
      rcases fl with _ | ⟨e, rest⟩
      · simp at hhead
      · simp at hhead
        rw [hp, hhead, flGet_cons_self] at hget
        simp at hget
    have hget1 : flGet (flSet fl p ({} : FormatData)) p = some {} :=
      flGet_flSet_self fl p {}
    have hstep : createData fl ⟨p, b⟩ =
        (if b then
          flSet (flSet fl p {}) p
            { before := some (copyPrevAnchor (flSet fl p {}) p), after := none }
        else
          flSet (flSet fl p {}) p
            { before := none,
              after := some (copyPrevAnchor (flSet fl p {}) p) }) := by
      simp only [createData, hget, hget1]
      rfl
    have hsorted1 : List.Pairwise (fun x y => Pos.blt x.1 y.1 = true)
        (flSet fl p ({} : FormatData)) := flSet_sorted h.sorted p {}
    have hminFirst : ∀ (nd : FormatData),
        ∃ d0, (flSet (flSet fl p ({} : FormatData)) p nd).head? =
          some (Pos.minP, d0) ∧ d0.after.isSome = true ∧ d0.before = none := by
      intro nd
      obtain ⟨d0, hhead, hda0, hdb0⟩ := h.minFirst
      rcases fl with _ | ⟨e, rest⟩
      · simp at hhead
      · simp at hhead
        rw [hhead, flSet_cons_skip hpmin (Pos.not_blt_minP p),
          flSet_cons_skip hpmin (Pos.not_blt_minP p)]
        exact ⟨d0, by simp, hda0, hdb0⟩
    have hmaxOld : ∀ (nd : FormatData) (d' : FormatData),
        (Pos.maxP, d') ∈ flSet (flSet fl p ({} : FormatData)) p nd →
          (Pos.maxP, d') = (p, nd) ∨ d'.after = none := by
      intro nd d' hd'
      rcases (mem_flSet_iff hsorted1).mp hd' with h1 | ⟨h1, h2⟩
      · exact Or.inl h1
      · rcases mem_flSet_of h1 with h3 | h3
        · exfalso
          apply h2
          rw [h3]
        · exact Or.inr (h.maxNoAfter d' h3)
    have hsideOld : ∀ (nd : FormatData) (e : Pos × FormatData),
        e ∈ flSet (flSet fl p ({} : FormatData)) p nd →
          e = (p, nd) ∨ (e.2.before.isSome = true ∨ e.2.after.isSome = true) := by
      intro nd e he
      rcases (mem_flSet_iff hsorted1).mp he with h1 | ⟨h1, h2⟩
      · exact Or.inl h1
      · rcases mem_flSet_of h1 with h3 | h3
        · exfalso
          apply h2
          rw [h3]
        · exact Or.inr (h.someSide e h3)
    rw [hstep]
    cases b with
    | true =>
      rw [if_pos rfl]
      refine ⟨flSet_sorted hsorted1 _ _, hminFirst _, ?_, ?_⟩
      · intro d' hd'
        rcases hmaxOld _ d' hd' with h1 | h1
        · injection h1 with hp hd
          rw [hd]
        · exact h1
      · intro e he
        rcases hsideOld _ e he with h1 | h1
        · left
          rw [h1]
          rfl
        · exact h1
    | false =>
      have hpmax : p ≠ Pos.maxP := by
        intro hp
        rw [hp] at hv
        simp [Anchor.valid] at hv
      rw [if_neg (by simp)]
      refine ⟨flSet_sorted hsorted1 _ _, hminFirst _, ?_, ?_⟩
      · intro d' hd'
        rcases hmaxOld _ d' hd' with h1 | h1
        · have hp : Pos.maxP = p := congrArg Prod.fst h1
          exact absurd hp.symm hpmax
        · exact h1
      · intro e he
        rcases hsideOld _ e he with h1 | h1
        · right
          rw [h1]
          rfl
        · exact h1


/-! The `addMark`/`deleteMark` loops preserve the structural invariant. -/

theorem addLoopGo_inv (m : Mark) (sI eI : Nat) :
    ∀ (fuel : Nat) (fl : FL) (b : SB (Option FCI)) (i : Nat), FLInv fl →
      FLInv (addLoopGo m sI eI fuel fl b i).1 := by
  intro fuel
  induction fuel with
  | zero =>
    intro fl b i h
    exact h
  | succ n ih =>
    intro fl b i h
    by_cases hi : i > eI
    · have heq : addLoopGo m sI eI (n + 1) fl b i = (fl, b) := by
        rw [addLoopGo]
        rw [if_pos hi]
      rw [heq]
      exact h
    · obtain ⟨d, hget⟩ := flGet_flPosAt h i
      have hdata : (flGet fl (flPosAt fl i)).getD {} = d := by
        rw [hget]
        rfl
      rw [addLoopGo]
      rw [if_neg hi]
      apply ih
      refine flStep_inv h hget ?_ ?_
      · rw [hdata]
        cases d.before with
        | none => rfl
        | some bd =>
          show ((if _ then _ else _ : Option AMap × SB (Option FCI))).1.isSome =
            (some bd).isSome
          split <;> rfl
      · rw [hdata]
        cases d.after with
        | none => rfl
        | some ad =>
          show ((if _ then _ else _ : Option AMap × SB (Option FCI))).1.isSome =
            (some ad).isSome
          split <;> rfl

theorem delLoopGo_inv (m : Mark) (sI eI : Nat) :
    ∀ (fuel : Nat) (fl : FL) (b : SB (Option FCI)) (i : Nat), FLInv fl →
      FLInv (delLoopGo m sI eI fuel fl b i).1 := by
  intro fuel
  induction fuel with
  | zero =>
    intro fl b i h
    exact h
  | succ n ih =>
    intro fl b i h
    by_cases hi : i > eI
    · have heq : delLoopGo m sI eI (n + 1) fl b i = (fl, b) := by
        rw [delLoopGo]
        rw [if_pos hi]
      rw [heq]
      exact h
    · obtain ⟨d, hget⟩ := flGet_flPosAt h i
      have hdata : (flGet fl (flPosAt fl i)).getD {} = d := by
        rw [hget]
        rfl
      rw [delLoopGo]
      rw [if_neg hi]
      apply ih
      refine flStep_inv h hget ?_ ?_
      · rw [hdata]
        cases d.before with
        | none => rfl
        | some bd =>
          show ((if _ then _ else _ : Option AMap × SB (Option FCI))).1.isSome =
            (some bd).isSome
          split <;> rfl
      · rw [hdata]
        cases d.after with
        | none => rfl
        | some ad =>
          show ((if _ then _ else _ : Option AMap × SB (Option FCI))).1.isSome =
            (some ad).isSome
          split <;> rfl

theorem addLoop_inv (m : Mark) (sI eI : Nat) (fl : FL) (b : SB (Option FCI))
    (i : Nat) (h : FLInv fl) : FLInv (addLoop m sI eI fl b i).1 :=
  addLoopGo_inv m sI eI (eI + 1 - i) fl b i h

theorem delLoop_inv (m : Mark) (sI eI : Nat) (fl : FL) (b : SB (Option FCI))
    (i : Nat) (h : FLInv fl) : FLInv (delLoop m sI eI fl b i).1 :=
  delLoopGo_inv m sI eI (eI + 1 - i) fl b i h

theorem addMark_flInv {s : FmtState} {m : Mark} (hv : m.validAnchors = true)
    (h : FLInv s.formatList) : FLInv (addMark s m).1.formatList := by
  have hv' : m.start.valid = true ∧ m.stop.valid = true := by
    unfold Mark.validAnchors at hv
    simpa using hv
  have hv1 := hv'.1
  have hv2 := hv'.2
  simp only [addMark]
  by_cases h1 : locateMark s.orderedMarks m < s.orderedMarks.length ∧
      cmpMark m (s.orderedMarks.getD (locateMark s.orderedMarks m) mDefault) = 0
  · rw [if_pos h1]
    exact h
  · rw [if_neg h1]
    by_cases h2 : rangeBad m
    · rw [if_pos h2]
      exact h
    · rw [if_neg h2]
      exact addLoop_inv m _ _ _ _ _ (createData_inv (createData_inv h hv1) hv2)

theorem deleteMark_flInv {s : FmtState} (m : Mark) (h : FLInv s.formatList) :
    FLInv (deleteMark s m).1.formatList := by
  simp only [deleteMark]
  by_cases h1 : locateMark s.orderedMarks m < s.orderedMarks.length ∧
      cmpMark m (s.orderedMarks.getD (locateMark s.orderedMarks m) mDefault) = 0
  · rw [if_pos h1]
    exact delLoop_inv _ _ _ _ _ _ h
  · rw [if_neg h1]
    exact h

theorem initState_flInv : FLInv initState.formatList := by
  refine ⟨?_, ?_, ?_, ?_⟩
  · exact List.pairwise_singleton _ _
  · exact ⟨{ after := some [] }, rfl, rfl, rfl⟩
  · intro d hd
    simp [initState] at hd
  · intro e he
    simp [initState] at he
    rw [he]
    right
    rfl

theorem loadGo_flInv : ∀ (saved : List Mark),
    (∀ m ∈ saved, m.validAnchors = true) → ∀ (s : FmtState),
      FLInv s.formatList → FLInv (loadGo s saved).formatList := by
  intro saved
  induction saved with
  | nil =>
    intro _ s h
    exact h
  | cons m rest ih =>
    intro hv s h
    show FLInv (match addMark s m with
      | (s', .ok _) => loadGo s' rest
      | (s', .error _) => s').formatList
    have hadd : FLInv (addMark s m).1.formatList :=
      addMark_flInv (hv m (List.mem_cons_self m rest)) h
    rcases haddm : addMark s m with ⟨s', r⟩
    rw [haddm] at hadd
    cases r with
    | ok c => exact ih (fun x hx => hv x (List.mem_cons_of_mem m hx)) s' hadd
    | error e => exact hadd

/-- Every reachable state satisfies the structural invariant of the
`formatList`. -/
theorem reachable_stInv {s : FmtState} (h : Reachable s) : StInv s := by
  suffices hfl : FLInv s.formatList from stInv_of_flInv hfl
  induction h with
  | init => exact initState_flInv
  | add m hr hvm ih => exact addMark_flInv hvm ih
  | del m hr ih => exact deleteMark_flInv m ih
  | clear hr ih => exact initState_flInv
  | load saved hr hvm ih => exact loadGo_flInv saved hvm initState initState_flInv


/-- Claim C1: for every state reachable by any sequence of `addMark`,
`deleteMark`, `load` and `clear` calls, `formattedSpans()` returns a nonempty
sequence of spans contiguously covering [MIN_ANCHOR, MAX_ANCHOR): the first
span starts at MIN_ANCHOR, each span's start equals the previous span's end,
the last span ends at MAX_ANCHOR, every span is nonempty (start strictly
below end in the anchor order), and consecutive spans' format records
differ. -/
theorem spec_C1_formattedSpans_partition (s : FmtState) (hr : Reachable s) :
    formattedSpans s ≠ [] ∧
    (∀ sp, (formattedSpans s).head? = some sp → sp.start = MIN_ANCHOR) ∧
    List.Chain' (fun x y => x.stop = y.start) (formattedSpans s) ∧
    (∀ sp, (formattedSpans s).getLast? = some sp → sp.stop = MAX_ANCHOR) ∧
    (∀ sp ∈ formattedSpans s, Anchor.blt sp.start sp.stop = true) ∧
    List.Chain' (fun x y => equalsRecord x.format y.format = false)
      (formattedSpans s) :=
  stInv_partition s (reachable_stInv hr)

/-- A mark reaching a nontrivial state for the C1 witness. -/
def c1mark : Mark := ⟨⟨Pos.mid 2, true⟩, ⟨Pos.mid 5, false⟩, 1, some 7, 0, 1⟩

/-- Witness: C1 instantiated at the concrete reachable state obtained by one
`addMark` call on the fresh state. -/
theorem spec_C1_witness :
    formattedSpans (addMark initState c1mark).1 ≠ [] ∧
    (∀ sp, (formattedSpans (addMark initState c1mark).1).head? = some sp →
      sp.start = MIN_ANCHOR) ∧
    List.Chain' (fun x y => x.stop = y.start)
      (formattedSpans (addMark initState c1mark).1) ∧
    (∀ sp, (formattedSpans (addMark initState c1mark).1).getLast? = some sp →
      sp.stop = MAX_ANCHOR) ∧
    (∀ sp ∈ formattedSpans (addMark initState c1mark).1,
      Anchor.blt sp.start sp.stop = true) ∧
    List.Chain' (fun x y => equalsRecord x.format y.format = false)
      (formattedSpans (addMark initState c1mark).1) :=
  spec_C1_formattedSpans_partition (addMark initState c1mark).1
    (Reachable.add c1mark Reachable.init (by decide))


/-! Method `formattedSlices` (projection of `formattedSpans` onto a concrete
list through `Anchors.indexOfAnchor`, merging equal-format slices and
skipping empty ones). -/

/-- A slice of a list with a single format (type `FormattedSlice`). -/
structure FormattedSlice where
  startIndex : Nat
  endIndex : Nat
  format : Record
deriving DecidableEq, Repr

/-- `prevSlice?.endIndex ?? 0`: the next slice's start index. -/
def accCur (acc : List FormattedSlice) : Nat :=
  match acc.getLast? with
  | some prev => prev.endIndex
  | none => 0

/-- The loop of `formattedSlices` over the spans.  `prevSlice` aliases the
last pushed slice, so the in-place `endIndex` mutation is replacement of the
last element; `none` models the `Invalid anchor` throw of
`Anchors.indexOfAnchor` (unreachable for the engine's anchors). -/
def fsLoop (pl : PList) : List FormattedSpan → List FormattedSlice →
    Option (List FormattedSlice)
  | [], acc => some acc
  | span :: rest, acc =>
    match indexOfAnchor pl span.stop with
    | Option.none => Option.none
    | some endIndex =>
      if endIndex = accCur acc then fsLoop pl rest acc
      else
        match acc.getLast? with
        | some prev =>
          if equalsRecord span.format prev.format then
            fsLoop pl rest (acc.dropLast ++ [{ prev with endIndex := endIndex }])
          else fsLoop pl rest (acc ++ [⟨accCur acc, endIndex, span.format⟩])
        | Option.none => fsLoop pl rest (acc ++ [⟨accCur acc, endIndex, span.format⟩])

/-- Method `Formatting.formattedSlices`. -/
def formattedSlices (s : FmtState) (pl : PList) :
    Option (List FormattedSlice) :=
  fsLoop pl (formattedSpans s) []

/-- The index computed by `Anchors.indexOfAnchor` for a valid anchor. -/
def idxA (pl : PList) (a : Anchor) : Nat :=
  if a.before then idxRight pl a.pos else (idxLeft pl a.pos + 1).toNat

theorem indexOfAnchor_eq_valid (pl : PList) {a : Anchor}
    (hv : a.valid = true) : indexOfAnchor pl a = some (idxA pl a) := by
  unfold indexOfAnchor idxA
  rw [if_pos hv]

theorem idxA_eq_countP (pl : PList) (a : Anchor) :
    idxA pl a = pl.countP (fun x =>
      Pos.blt (Pos.mid x) a.pos || (!a.before && (Pos.mid x == a.pos))) := by
  rcases a with ⟨p, b⟩
  cases b with
  | true =>
    show idxRight pl p = _
    unfold idxRight
    apply List.countP_congr
    intro x _
    simp
  | false =>
    show (idxLeft pl p + 1).toNat = _
    unfold idxLeft
    have h1 : ((pl.countP fun x => Pos.blt (Pos.mid x) p || Pos.mid x == p) :
        Int) - 1 + 1 = ((pl.countP fun x =>
          Pos.blt (Pos.mid x) p || Pos.mid x == p) : Int) := by
      omega
    rw [h1]
    rw [Int.toNat_ofNat]
    apply List.countP_congr
    intro x _
    simp

theorem idxA_mono (pl : PList) {a b : Anchor} (h : Anchor.ble a b = true) :
    idxA pl a ≤ idxA pl b := by
  rcases Anchor.ble_iff.mp h with rfl | hlt
  · exact Nat.le_refl _
  · rw [idxA_eq_countP, idxA_eq_countP]
    apply List.countP_mono_left
    intro x _ hx
    simp only [Bool.or_eq_true, Bool.and_eq_true, beq_iff_eq] at hx ⊢
    unfold Anchor.blt at hlt
    simp only [Bool.or_eq_true, Bool.and_eq_true, beq_iff_eq,
      Bool.not_eq_true'] at hlt
    rcases hlt with hp | ⟨⟨hpe, hab⟩, hbb⟩
    · left
      rcases hx with hx | ⟨_, hx⟩
      · exact pos_blt_trans hx hp
      · rw [hx]
        exact hp
    · rcases hx with hx | ⟨hab', _⟩
      · left
        rw [← hpe]
        exact hx
      · rw [hab] at hab'
        simp at hab'

theorem idxA_maxP (pl : PList) : idxA pl MAX_ANCHOR = pl.length := by
  show idxRight pl Pos.maxP = pl.length
  exact idxRight_maxP pl

theorem idxA_minP (pl : PList) : idxA pl MIN_ANCHOR = 0 := by
  show (idxLeft pl Pos.minP + 1).toNat = 0
  rw [idxLeft_minP]
  rfl

theorem idxA_nil (a : Anchor) : idxA [] a = 0 := by
  rcases a with ⟨p, b⟩
  cases b <;> rfl

theorem anchor_valid_between {a : Anchor}
    (h1 : Anchor.ble MIN_ANCHOR a = true)
    (h2 : Anchor.ble a MAX_ANCHOR = true) : a.valid = true := by
  rcases a with ⟨p, b⟩
  cases p <;> cases b <;>
    simp_all [Anchor.ble, Anchor.blt, MIN_ANCHOR, MAX_ANCHOR, Anchor.valid,
      Pos.blt]

theorem equalsRecord_symm (a b : Record) :
    equalsRecord a b = equalsRecord b a := by
  unfold equalsRecord
  exact Bool.and_comm _ _

/-- Replacing the last element of a chained list, compatibly with the links
into it, keeps the chain. -/
theorem chain'_replace_last {α : Type} {R : α → α → Prop} {l : List α}
    {prev y : α} (h : List.Chain' R l) (hl : l.getLast? = some prev)
    (hcompat : ∀ x, R x prev → R x y) :
    List.Chain' R (l.dropLast ++ [y]) := by
  have hdec : l.dropLast ++ [prev] = l :=
    List.dropLast_append_getLast? prev hl
  rw [← hdec] at h
  rw [List.chain'_append] at h ⊢
  refine ⟨h.1, List.chain'_singleton y, ?_⟩
  intro x hx z hz
  simp at hz
  subst hz
  exact hcompat x (h.2.2 x hx prev rfl)

theorem head_prop_replace_last {α : Type} {l : List α} {prev y : α}
    (Q : α → Prop) (hl : l.getLast? = some prev)
    (hhead : ∀ a, l.head? = some a → Q a) (hQ : Q prev → Q y) :
    ∀ a, (l.dropLast ++ [y]).head? = some a → Q a := by
  cases l with
  | nil => simp at hl
  | cons x xs =>
    cases xs with
    | nil =>
      simp at hl
      intro a ha
      simp at ha
      rw [← ha]
      apply hQ
      rw [← hl]
      exact hhead x rfl
    | cons z zs =>
      intro a ha
      have hd : ((x :: z :: zs).dropLast ++ [y]).head? = some x := by
        rw [List.dropLast_cons₂]
        rfl
      rw [hd] at ha
      injection ha with hax
      rw [← hax]
      exact hhead x rfl


/-- The loop invariant of `formattedSlices`: processing a chained, nonempty,
bounded span list whose head starts at `aPrev` extends a well-formed slice
accumulator into a well-formed one ending at the last span's stop index. -/
theorem fsLoop_inv (pl : PList) :
    ∀ (spans : List FormattedSpan) (acc : List FormattedSlice) (aPrev : Anchor),
    (∀ sp, spans.head? = some sp → sp.start = aPrev) →
    List.Chain' (fun x y => x.stop = y.start) spans →
    (∀ sp ∈ spans, Anchor.blt sp.start sp.stop = true) →
    (∀ sp ∈ spans, Anchor.ble sp.stop MAX_ANCHOR = true) →
    Anchor.ble MIN_ANCHOR aPrev = true →
    (∀ sl, acc.head? = some sl → sl.startIndex = 0) →
    List.Chain' (fun x y => x.endIndex = y.startIndex) acc →
    (∀ sl ∈ acc, sl.startIndex < sl.endIndex) →
    List.Chain' (fun x y => equalsRecord x.format y.format = false) acc →
    accCur acc = idxA pl aPrev →
    ∃ out, fsLoop pl spans acc = some out ∧
      (∀ sl, out.head? = some sl → sl.startIndex = 0) ∧
      List.Chain' (fun x y => x.endIndex = y.startIndex) out ∧
      (∀ sl ∈ out, sl.startIndex < sl.endIndex) ∧
      List.Chain' (fun x y => equalsRecord x.format y.format = false) out ∧
      accCur out = (match spans.getLast? with
        | some sp => idxA pl sp.stop
        | none => idxA pl aPrev) ∧
      (pl = [] → out = acc) := by
  intro spans
  induction spans with
  | nil =>
    intro acc aPrev _ _ _ _ _ hhead0 hchain0 hlt0 hfmt0 hcur
    exact ⟨acc, rfl, hhead0, hchain0, hlt0, hfmt0, hcur, fun _ => rfl⟩
  | cons span rest ih =>
    intro acc aPrev hh hchain hne hstop hge hhead0 hchain0 hlt0 hfmt0 hcur
    have hstart : span.start = aPrev := hh span rfl
    have hlt : Anchor.blt span.start span.stop = true :=
      hne span (List.mem_cons_self _ _)
    have hblt : Anchor.blt aPrev span.stop = true := hstart ▸ hlt
    have hgeM : Anchor.ble MIN_ANCHOR span.stop = true :=
      Anchor.ble_trans hge (Anchor.ble_of_blt hblt)
    have hleM : Anchor.ble span.stop MAX_ANCHOR = true :=
      hstop span (List.mem_cons_self _ _)
    have hvalid : span.stop.valid = true := anchor_valid_between hgeM hleM
    have hidx := indexOfAnchor_eq_valid pl hvalid
    have hmono : idxA pl aPrev ≤ idxA pl span.stop :=
      idxA_mono pl (Anchor.ble_of_blt hblt)
    rw [List.chain'_cons'] at hchain
    have hh' : ∀ sp, rest.head? = some sp → sp.start = span.stop :=
      fun sp h0 => (hchain.1 sp h0).symm
    have hne' : ∀ sp ∈ rest, Anchor.blt sp.start sp.stop = true :=
      fun sp h0 => hne sp (List.mem_cons_of_mem _ h0)
    have hstop' : ∀ sp ∈ rest, Anchor.ble sp.stop MAX_ANCHOR = true :=
      fun sp h0 => hstop sp (List.mem_cons_of_mem _ h0)
    by_cases hskip : idxA pl span.stop = accCur acc
    · have heq : fsLoop pl (span :: rest) acc = fsLoop pl rest acc := by
        simp only [fsLoop, hidx]
        rw [if_pos hskip]
      rw [heq]
      obtain ⟨out, h1, h2, h3, h4, h5, hfin, hnil⟩ := ih acc span.stop hh'
        hchain.2 hne' hstop' hgeM hhead0 hchain0 hlt0 hfmt0
        (hskip.symm ▸ hcur.symm ▸ rfl)
      refine ⟨out, h1, h2, h3, h4, h5, ?_, hnil⟩
      cases rest with
      | nil => simpa using hfin
      | cons r rs =>
        rw [List.getLast?_cons_cons]
        exact hfin
    · have hlt2 : accCur acc < idxA pl span.stop := by
        rw [hcur]
        rcases Nat.lt_or_ge (idxA pl aPrev) (idxA pl span.stop) with h0 | h0
        · exact h0
        · exfalso
          apply hskip
          rw [hcur]
          omega
      have hnil2 : pl = [] → False := by
        intro hpl
        apply hskip
        rw [hpl, idxA_nil, hcur, hpl, idxA_nil]
      cases hlast : acc.getLast? with
      | none =>
        have hacc : acc = [] := List.getLast?_eq_none_iff.mp hlast
        have hcur0 : accCur acc = 0 := by
          unfold accCur
          rw [hlast]
        have heq : fsLoop pl (span :: rest) acc =
            fsLoop pl rest
              (acc ++ [⟨accCur acc, idxA pl span.stop, span.format⟩]) := by
          simp only [fsLoop, hidx]
          rw [if_neg hskip]
          simp only [hlast]
        rw [heq]
        have hcur' : accCur
            (acc ++ [⟨accCur acc, idxA pl span.stop, span.format⟩]) =
              idxA pl span.stop := by
          unfold accCur
          rw [List.getLast?_concat]
        obtain ⟨out, h1, h2, h3, h4, h5, hfin, hnil⟩ := ih
          (acc ++ [⟨accCur acc, idxA pl span.stop, span.format⟩]) span.stop
          hh' hchain.2 hne' hstop' hgeM
          (by
            intro sl h0
            rw [hacc] at h0
            simp at h0
            rw [← h0]
            rfl)
          (by
            rw [hacc]
            exact List.chain'_singleton _)
          (by
            intro sl h0
            rw [hacc] at h0
            simp at h0
            rw [h0]
            show accCur [] < idxA pl span.stop
            rw [← hacc]
            exact hlt2)
          (by
            rw [hacc]
            exact List.chain'_singleton _)
          hcur'
        refine ⟨out, h1, h2, h3, h4, h5, ?_, fun hpl => absurd hpl
          (fun h0 => hnil2 h0)⟩
        cases rest with
        | nil => simpa using hfin
        | cons r rs =>
          rw [List.getLast?_cons_cons]
          exact hfin
      | some prev =>
        have hprevmem : prev ∈ acc := mem_of_getLast? hlast
        have hcurprev : accCur acc = prev.endIndex := by
          unfold accCur
          rw [hlast]
        by_cases hfmt : equalsRecord span.format prev.format = true
        · have heq : fsLoop pl (span :: rest) acc =
              fsLoop pl rest (acc.dropLast ++
                [{ prev with endIndex := idxA pl span.stop }]) := by
            simp only [fsLoop, hidx]
            rw [if_neg hskip]
            simp only [hlast]
            rw [if_pos hfmt]
          rw [heq]
          have hcur' : accCur (acc.dropLast ++
              [{ prev with endIndex := idxA pl span.stop }]) =
                idxA pl span.stop := by
            unfold accCur
            rw [List.getLast?_concat]
          obtain ⟨out, h1, h2, h3, h4, h5, hfin, hnil⟩ := ih
            (acc.dropLast ++ [{ prev with endIndex := idxA pl span.stop }])
            span.stop hh' hchain.2 hne' hstop' hgeM
            (head_prop_replace_last _ hlast hhead0 (fun h => h))
            (chain'_replace_last hchain0 hlast (fun x hx => hx))
            (by
              intro sl hsl
              rcases List.mem_append.mp hsl with h0 | h0
              · exact hlt0 sl ((List.dropLast_sublist acc).subset h0)
              · simp at h0
                rw [h0]
                show prev.startIndex < idxA pl span.stop
                have := hlt0 prev hprevmem
                rw [hcurprev] at hlt2
                omega)
            (chain'_replace_last hfmt0 hlast (fun x hx => hx))
            hcur'
          refine ⟨out, h1, h2, h3, h4, h5, ?_, fun hpl => absurd hpl
            (fun h0 => hnil2 h0)⟩
          cases rest with
          | nil => simpa using hfin
          | cons r rs =>
            rw [List.getLast?_cons_cons]
            exact hfin
        · have hfmtf : equalsRecord span.format prev.format = false := by
            cases h0 : equalsRecord span.format prev.format
            · rfl
            · exact absurd h0 hfmt
          have heq : fsLoop pl (span :: rest) acc =
              fsLoop pl rest
                (acc ++ [⟨accCur acc, idxA pl span.stop, span.format⟩]) := by
            simp only [fsLoop, hidx]
            rw [if_neg hskip]
            simp only [hlast]
            rw [if_neg hfmt]
          rw [heq]
          have hcur' : accCur
              (acc ++ [⟨accCur acc, idxA pl span.stop, span.format⟩]) =
                idxA pl span.stop := by
            unfold accCur
            rw [List.getLast?_concat]
          have haccne : acc ≠ [] := by
            intro h0
            rw [h0] at hlast
            simp at hlast
          obtain ⟨out, h1, h2, h3, h4, h5, hfin, hnil⟩ := ih
            (acc ++ [⟨accCur acc, idxA pl span.stop, span.format⟩]) span.stop
            hh' hchain.2 hne' hstop' hgeM
            (by
              intro sl h0
              rw [List.head?_append] at h0
              cases hh0 : acc.head? with
              | none =>
                rw [List.head?_eq_none_iff] at hh0
                exact absurd hh0 haccne
              | some a =>
                rw [hh0] at h0
                simp at h0
                rw [← h0]
                exact hhead0 a hh0)
            (by
              rw [List.chain'_append]
              refine ⟨hchain0, List.chain'_singleton _, ?_⟩
              intro x hx y hy
              simp at hy
              subst hy
              show x.endIndex = accCur acc
              rw [hlast] at hx
              simp at hx
              rw [← hx, hcurprev])
            (by
              intro sl hsl
              rcases List.mem_append.mp hsl with h0 | h0
              · exact hlt0 sl h0
              · simp at h0
                rw [h0]
                exact hlt2)
            (by
              rw [List.chain'_append]
              refine ⟨hfmt0, List.chain'_singleton _, ?_⟩
              intro x hx y hy
              simp at hy
              subst hy
              show equalsRecord x.format span.format = false
              rw [hlast] at hx
              simp at hx
              rw [← hx, equalsRecord_symm]
              exact hfmtf)
            hcur'
          refine ⟨out, h1, h2, h3, h4, h5, ?_, fun hpl => absurd hpl
            (fun h0 => hnil2 h0)⟩
          cases rest with
          | nil => simpa using hfin
          | cons r rs =>
            rw [List.getLast?_cons_cons]
            exact hfin


theorem stInv_spans_stop_le (s : FmtState) (hst : StInv s) :
    ∀ sp ∈ formattedSpans s, Anchor.ble sp.stop MAX_ANCHOR = true := by
  have hinv := stInv_slinv s hst
  intro sp hsp
  rw [formattedSpans_eq_sbRun] at hsp
  obtain ⟨s0, hs0, hs0e⟩ := List.mem_map.mp hsp
  rw [← hs0e]
  exact hinv.stopLe s0 hs0

/-- Claim C10: on every reachable state and every list, `formattedSlices`
succeeds and returns a partition of the list's index range: every slice has
`startIndex < endIndex`, the first slice starts at index 0, each slice starts
where the previous one ends, the last slice ends at `list.length`,
consecutive slices' formats differ, and an empty list yields the empty
array. -/
theorem spec_C10_formattedSlices_partition (s : FmtState) (hr : Reachable s)
    (pl : PList) :
    ∃ out, formattedSlices s pl = some out ∧
      (∀ sl, out.head? = some sl → sl.startIndex = 0) ∧
      List.Chain' (fun x y => x.endIndex = y.startIndex) out ∧
      (∀ sl ∈ out, sl.startIndex < sl.endIndex) ∧
      List.Chain' (fun x y => equalsRecord x.format y.format = false) out ∧
      (∀ sl, out.getLast? = some sl → sl.endIndex = pl.length) ∧
      (pl ≠ [] → out ≠ []) ∧
      (pl = [] → out = []) := by
  have hst := reachable_stInv hr
  obtain ⟨hne0, hhead, hchain, hlast, hspanNe, _⟩ := stInv_partition s hst
  have hstople := stInv_spans_stop_le s hst
  obtain ⟨out, hout, hh2, hc2, hlt2, hf2, hfin, hnil⟩ :=
    fsLoop_inv pl (formattedSpans s) [] MIN_ANCHOR hhead hchain
      hspanNe hstople (Anchor.ble_refl _)
      (by
        intro sl h0
        simp at h0)
      List.chain'_nil
      (by
        intro sl h0
        simp at h0)
      List.chain'_nil
      (by
        rw [idxA_minP]
        rfl)
  have hcurlen : accCur out = pl.length := by
    cases hsp : (formattedSpans s).getLast? with
    | none => exact absurd (List.getLast?_eq_none_iff.mp hsp) hne0
    | some spl =>
      rw [hsp] at hfin
      simp only [] at hfin
      have hstop : spl.stop = MAX_ANCHOR := hlast spl hsp
      rw [hfin, hstop, idxA_maxP]
  refine ⟨out, hout, hh2, hc2, hlt2, hf2, ?_, ?_, ?_⟩
  · intro sl hsl
    unfold accCur at hcurlen
    rw [hsl] at hcurlen
    exact hcurlen
  · intro hplne h0
    rw [h0] at hcurlen
    have : pl.length = 0 := hcurlen.symm
    exact hplne (List.length_eq_zero.mp this)
  · intro hpl
    exact hnil hpl

/-- A mark reaching a nontrivial state for the C10 witness. -/
def c10mark : Mark := ⟨⟨Pos.mid 1, true⟩, ⟨Pos.mid 3, false⟩, 2, some 4, 0, 1⟩

/-- Witness: C10 instantiated at the concrete reachable one-mark state and
the three-position list. -/
theorem spec_C10_witness :
    ∃ out, formattedSlices (addMark initState c10mark).1 [1, 2, 3] = some out ∧
      (∀ sl, out.head? = some sl → sl.startIndex = 0) ∧
      List.Chain' (fun x y => x.endIndex = y.startIndex) out ∧
      (∀ sl ∈ out, sl.startIndex < sl.endIndex) ∧
      List.Chain' (fun x y => equalsRecord x.format y.format = false) out ∧
      (∀ sl, out.getLast? = some sl → sl.endIndex = [1, 2, 3].length) ∧
      (([1, 2, 3] : PList) ≠ [] → out ≠ []) ∧
      (([1, 2, 3] : PList) = [] → out = []) :=
  spec_C10_formattedSlices_partition (addMark initState c10mark).1
    (Reachable.add c10mark Reachable.init (by decide)) [1, 2, 3]


/-! `getFormatData` reads the data of the last present anchor side at or
before `(pos, before)`; towards claim C2. -/

theorem fl_getD_eq_getElem {fl : FL} {i : Nat} (h : i < fl.length) :
    fl.getD i (Pos.minP, {}) = fl.get ⟨i, h⟩ := by
  rw [List.getD_eq_getElem?_getD, List.getElem?_eq_getElem h]
  rfl

theorem fl_take_drop_rank {fl : FL}
    (hs : List.Pairwise (fun x y => Pos.blt x.1 y.1 = true) fl) (p : Pos) :
    (∀ e ∈ fl.take (flRank fl p), Pos.blt e.1 p = true) ∧
    (∀ e ∈ fl.drop (flRank fl p), Pos.blt e.1 p = false) := by
  induction fl with
  | nil => exact ⟨by simp, by simp⟩
  | cons a rest ih =>
    rcases List.pairwise_cons.mp hs with ⟨ha, hrest⟩
    by_cases hpa : Pos.blt a.1 p = true
    · have hr : flRank (a :: rest) p = flRank rest p + 1 := by
        unfold flRank
        rw [List.countP_cons]
        simp [hpa]
      rw [hr]
      constructor
      · intro e he
        rw [List.take_succ_cons] at he
        rcases List.mem_cons.mp he with rfl | he'
        · exact hpa
        · exact (ih hrest).1 e he'
      · intro e he
        rw [List.drop_succ_cons] at he
        exact (ih hrest).2 e he
    · have hpaf : Pos.blt a.1 p = false := by
        cases h2 : Pos.blt a.1 p
        · rfl
        · exact absurd h2 hpa
      have hall : ∀ e ∈ a :: rest, Pos.blt e.1 p = false := by
        intro e he
        rcases List.mem_cons.mp he with rfl | he'
        · exact hpaf
        · have h1 := ha e he'
          rcases pos_not_blt_iff.mp hpaf with h3 | h3
          · exact pos_blt_asymm (h3 ▸ h1)
          · exact pos_blt_asymm (pos_blt_trans h3 h1)
      have hr0 : flRank (a :: rest) p = 0 := by
        unfold flRank
        rw [List.countP_eq_zero]
        intro e he
        simp [hall e he]
      rw [hr0]
      refine ⟨by simp, ?_⟩
      intro e he
      exact hall e (by simpa using he)

theorem flGet_of_mem_sorted {fl : FL}
    (hs : List.Pairwise (fun x y => Pos.blt x.1 y.1 = true) fl)
    {p : Pos} {d : FormatData} (hm : (p, d) ∈ fl) : flGet fl p = some d := by
  induction fl with
  | nil => simp at hm
  | cons a rest ih =>
    rcases List.pairwise_cons.mp hs with ⟨ha, hrest⟩
    rcases List.mem_cons.mp hm with heq | hm'
    · rw [← heq]
      exact flGet_cons_self p d rest
    · have hne : a.1 ≠ p := Pos.blt_ne (ha (p, d) hm')
      rcases a with ⟨q, ed⟩
      unfold flGet
      rw [List.find?_cons_of_neg _ (by simp [hne])]
      exact ih hrest hm'

theorem fl_entry_unique {fl : FL}
    (hs : List.Pairwise (fun x y => Pos.blt x.1 y.1 = true) fl)
    {e1 e2 : Pos × FormatData} (h1 : e1 ∈ fl) (h2 : e2 ∈ fl)
    (hp : e1.1 = e2.1) : e1 = e2 := by
  have hg1 : flGet fl e1.1 = some e1.2 := by
    have : e1 = (e1.1, e1.2) := rfl
    rw [this] at h1
    exact flGet_of_mem_sorted hs h1
  have hg2 : flGet fl e2.1 = some e2.2 := by
    have : e2 = (e2.1, e2.2) := rfl
    rw [this] at h2
    exact flGet_of_mem_sorted hs h2
  rw [hp, hg2] at hg1
  injection hg1 with hg1
  rcases e1 with ⟨p1, d1⟩
  rcases e2 with ⟨p2, d2⟩
  simp at hp hg1
  rw [hp, hg1]

theorem flRank_pos {fl : FL} {d : FormatData}
    (hhead : fl.head? = some (Pos.minP, d)) (n : Nat) :
    0 < flRank fl (Pos.mid n) := by
  cases fl with
  | nil => simp at hhead
  | cons a rest =>
    simp at hhead
    unfold flRank
    rw [List.countP_cons]
    have ha : Pos.blt a.1 (Pos.mid n) = true := by
      rw [hhead]
      rfl
    rw [if_pos ha]
    omega

/-- The anchor data read by `getFormatData` at an interior position is the
side map of the greatest present anchor side at or before `(pos, before)`. -/
theorem getFormatData_aStar {s : FmtState} (hfl : FLInv s.formatList)
    (n : Nat) :
    ∃ (aStar : Anchor) (mStar : AMap),
      getFormatData s (Pos.mid n) = some mStar ∧
      (aStar, mStar) ∈ sideList s.formatList ∧
      Anchor.ble aStar ⟨Pos.mid n, true⟩ = true ∧
      (∀ e ∈ sideList s.formatList,
        Anchor.ble e.1 ⟨Pos.mid n, true⟩ = true →
          Anchor.ble e.1 aStar = true) := by
  have hroot : ¬((Pos.mid n).isRoot = true) := by
    simp [Pos.isRoot]
  cases hbind : (flGet s.formatList (Pos.mid n)).bind (fun d => d.before) with
  | some bd =>
    obtain ⟨d, hget, hdb⟩ := Option.bind_eq_some.mp hbind
    refine ⟨⟨Pos.mid n, true⟩, bd, ?_, ?_, Anchor.ble_refl _, fun e _ h => h⟩
    · simp only [getFormatData]
      rw [if_neg hroot, hbind]
    · rw [sideList_eq_flatMap]
      exact List.mem_flatMap.mpr ⟨(Pos.mid n, d), flGet_mem hget,
        mem_entrySides.mpr ⟨rfl, Or.inl ⟨rfl, hdb⟩⟩⟩
  | none =>
    obtain ⟨d0, hhead, _, _⟩ := hfl.minFirst
    have hrpos : 0 < flRank s.formatList (Pos.mid n) := flRank_pos hhead n
    have hrlen : flRank s.formatList (Pos.mid n) ≤ s.formatList.length :=
      List.countP_le_length _
    have hlt : flRank s.formatList (Pos.mid n) - 1 < s.formatList.length := by
      omega
    have htd := fl_take_drop_rank hfl.sorted (Pos.mid n)
    set ent : Pos × FormatData :=
      s.formatList.get ⟨flRank s.formatList (Pos.mid n) - 1, hlt⟩ with hentdef
    have hga : flGetAt s.formatList (flRank s.formatList (Pos.mid n) - 1) =
        ent.2 := by
      unfold flGetAt
      rw [fl_getD_eq_getElem hlt]
    have hentmem : ent ∈ s.formatList := List.get_mem _ _ _
    have henttake : ent ∈
        s.formatList.take (flRank s.formatList (Pos.mid n)) := by
      rw [List.mem_iff_getElem]
      refine ⟨flRank s.formatList (Pos.mid n) - 1, ?_, ?_⟩
      · rw [List.length_take]
        omega
      · rw [List.getElem_take]
        rfl
    have hentlt : Pos.blt ent.1 (Pos.mid n) = true := htd.1 _ henttake
    have hmaxtake : ∀ e ∈ s.formatList.take (flRank s.formatList (Pos.mid n)),
        e = ent ∨ Pos.blt e.1 ent.1 = true := by
      intro e he
      rw [List.mem_iff_getElem] at he
      obtain ⟨i, hilen, hie⟩ := he
      have hilen2 : i < flRank s.formatList (Pos.mid n) := by
        rw [List.length_take] at hilen
        omega
      have hifl : i < s.formatList.length := by
        omega
      have hie2 : s.formatList.get ⟨i, hifl⟩ = e := by
        rw [← hie, List.getElem_take]
        rfl
      by_cases hieq : i = flRank s.formatList (Pos.mid n) - 1
      · left
        rw [← hie2, hentdef]
        congr 1
        exact Fin.ext hieq
      · right
        have hilt : i < flRank s.formatList (Pos.mid n) - 1 := by
          omega
        have hpw := List.pairwise_iff_get.mp hfl.sorted ⟨i, hifl⟩
          ⟨flRank s.formatList (Pos.mid n) - 1, hlt⟩ (by simpa using hilt)
        rw [hie2] at hpw
        exact hpw
    have hnofedp : ∀ db : AMap, ((⟨Pos.mid n, true⟩ : Anchor), db) ∈
        sideList s.formatList → False := by
      intro db hdbm
      rw [sideList_eq_flatMap] at hdbm
      obtain ⟨ent', hent', hes⟩ := List.mem_flatMap.mp hdbm
      have hchar := mem_entrySides.mp hes
      rcases hchar with ⟨hpos, hside | hside⟩
      · have hent'eq : ent' = (Pos.mid n, ent'.2) := by
          rcases ent' with ⟨q, dq⟩
          simp at hpos
          rw [hpos]
        rw [hent'eq] at hent'
        have hget' : flGet s.formatList (Pos.mid n) = some ent'.2 :=
          flGet_of_mem_sorted hfl.sorted hent'
        rw [Option.bind_eq_none] at hbind
        have := hbind ent'.2 hget'
        rw [hside.2] at this
        simp at this
      · exact absurd hside.1 (by simp)
    have hmaxcore : ∀ e ∈ sideList s.formatList,
        Anchor.ble e.1 ⟨Pos.mid n, true⟩ = true →
        ∃ ent', ent' ∈ s.formatList ∧ e.1.pos = ent'.1 ∧
          e ∈ entrySides ent' ∧
          (ent'.1 = ent.1 ∨ Pos.blt ent'.1 ent.1 = true) := by
      intro e he hle
      rw [sideList_eq_flatMap] at he
      obtain ⟨ent', hent', hes⟩ := List.mem_flatMap.mp he
      have hpos : e.1.pos = ent'.1 := (mem_entrySides.mp hes).1
      refine ⟨ent', hent', hpos, hes, ?_⟩
      rcases pos_blt_total ent'.1 (Pos.mid n) with h3 | h3 | h3
      · -- entry位置 left of p: lies in the take part
        rw [← List.take_append_drop (flRank s.formatList (Pos.mid n))
          s.formatList] at hent'
        rcases List.mem_append.mp hent' with h4 | h4
        · rcases hmaxtake ent' h4 with h5 | h5
          · left
            rw [h5]
          · right
            exact h5
        · have := htd.2 ent' h4
          rw [h3] at this
          exact absurd this (by simp)
      · -- entry at p itself: the anchor must be (p, before), which is unfed,
        -- or (p, after), which is not ≤ (p, before)
        exfalso
        rcases e with ⟨⟨ep, eb⟩, ed⟩
        simp at hpos
        cases eb with
        | true =>
          apply hnofedp ed
          have : ep = Pos.mid n := by
            rw [hpos, h3]
          rw [← this]
          rw [sideList_eq_flatMap]
          exact List.mem_flatMap.mpr ⟨ent', hent', hes⟩
        | false =>
          have hep : ep = Pos.mid n := by
            rw [hpos, h3]
          rw [hep] at hle
          rcases Anchor.ble_iff.mp hle with h5 | h5
          · exact absurd (congrArg Anchor.before h5) (by simp)
          · unfold Anchor.blt at h5
            simp [pos_blt_irrefl] at h5
      · -- entry right of p: its anchors exceed (p, before)
        exfalso
        rcases Anchor.ble_iff.mp hle with h5 | h5
        · have : e.1.pos = Pos.mid n := congrArg Anchor.pos h5
          rw [hpos] at this
          rw [this] at h3
          rw [pos_blt_irrefl] at h3
          exact absurd h3 (by simp)
        · unfold Anchor.blt at h5
          rw [hpos] at h5
          have h6 : Pos.blt ent'.1 (Pos.mid n) = false := pos_blt_asymm h3
          rw [h6] at h5
          have h7 : (ent'.1 == Pos.mid n) = false := by
            have := Pos.blt_ne h3
            simp
            intro hc
            exact this hc.symm
          rw [h7] at h5
          simp at h5
    rcases hda : ent.2.after with _ | ad
    · rcases hfl.someSide ent hentmem with hb | hb
      · obtain ⟨bb, hdb2⟩ := Option.isSome_iff_exists.mp hb
        refine ⟨⟨ent.1, true⟩, bb, ?_, ?_, ?_, ?_⟩
        · simp only [getFormatData]
          rw [if_neg hroot, hbind, hga, hda, hdb2]
          rfl
        · rw [sideList_eq_flatMap]
          exact List.mem_flatMap.mpr ⟨ent, hentmem,
            mem_entrySides.mpr ⟨rfl, Or.inl ⟨rfl, hdb2⟩⟩⟩
        · exact Anchor.ble_of_blt (anchor_blt_of_pos hentlt)
        · intro e he hle
          obtain ⟨ent', hent', hpos, hes, hord⟩ := hmaxcore e he hle
          rcases hord with hord | hord
          · have hent'ent : ent' = ent :=
              fl_entry_unique hfl.sorted hent' hentmem hord
            rw [hent'ent] at hes
            rcases (mem_entrySides.mp hes).2 with hside | hside
            · have hpos2 : e.1.pos = ent.1 := by
                rw [hpos, hord]
              have he1 : e.1 = ⟨ent.1, true⟩ := by
                rcases e with ⟨⟨ep, eb⟩, ed⟩
                simp only [Anchor.mk.injEq]
                exact ⟨hpos2, hside.1⟩
              rw [he1]
              exact Anchor.ble_refl _
            · rw [hda] at hside
              exact absurd hside.2 (by simp)
          · exact Anchor.ble_of_blt (anchor_blt_of_pos (by
              show Pos.blt e.1.pos ent.1 = true
              rw [hpos]
              exact hord))
      · rw [hda] at hb
        simp at hb
    · refine ⟨⟨ent.1, false⟩, ad, ?_, ?_, ?_, ?_⟩
      · simp only [getFormatData]
        rw [if_neg hroot, hbind, hga, hda]
      · rw [sideList_eq_flatMap]
        exact List.mem_flatMap.mpr ⟨ent, hentmem,
          mem_entrySides.mpr ⟨rfl, Or.inr ⟨rfl, hda⟩⟩⟩
      · exact Anchor.ble_of_blt (anchor_blt_of_pos hentlt)
      · intro e he hle
        obtain ⟨ent', hent', hpos, hes, hord⟩ := hmaxcore e he hle
        rcases hord with hord | hord
        · rcases e with ⟨⟨ep, eb⟩, ed⟩
          simp at hpos
          have hep : ep = ent.1 := by
            rw [hpos, hord]
          rw [hep]
          cases eb with
          | true =>
            apply Anchor.ble_of_blt
            show Anchor.blt ⟨ent.1, true⟩ ⟨ent.1, false⟩ = true
            unfold Anchor.blt
            simp [pos_blt_irrefl]
          | false => exact Anchor.ble_refl _
        · exact Anchor.ble_of_blt (anchor_blt_of_pos (by
            show Pos.blt e.1.pos ent.1 = true
            rw [hpos]
            exact hord))


/-- Claim C2: for every interior position `p` and every reachable state,
`getFormat(p)` returns exactly the format record (as a key-value mapping,
i.e. up to `equalsRecord`) of the unique span of `formattedSpans()` whose
half-open anchor interval [start, end) contains `p` — the interval contains
`p` exactly when `start ≤ (p, before) < end` in the anchor order. -/
theorem spec_C2_getFormat_covering_span (s : FmtState) (hr : Reachable s)
    (n : Nat) :
    ∃ r, getFormat s (Pos.mid n) = some r ∧
      ∃ sp ∈ formattedSpans s,
        Anchor.ble sp.start ⟨Pos.mid n, true⟩ = true ∧
        Anchor.blt ⟨Pos.mid n, true⟩ sp.stop = true ∧
        equalsRecord r sp.format = true ∧
        (∀ sp' ∈ formattedSpans s,
          Anchor.ble sp'.start ⟨Pos.mid n, true⟩ = true →
          Anchor.blt ⟨Pos.mid n, true⟩ sp'.stop = true → sp' = sp) := by
  have hst := reachable_stInv hr
  have hfl := flInv_of_stInv hst
  have hinv := stInv_slinv s hst
  obtain ⟨aStar, mStar, hgfd, hmem, hble, hmax⟩ := getFormatData_aStar hfl n
  have hgf : getFormat s (Pos.mid n) = some (dataToRecord mStar) := by
    unfold getFormat
    rw [hgfd]
    rfl
  refine ⟨dataToRecord mStar, hgf, ?_⟩
  have hxge : Anchor.ble MIN_ANCHOR ⟨Pos.mid n, true⟩ = true := by
    apply Anchor.ble_of_blt
    apply anchor_blt_of_pos
    rfl
  have hxlt : Anchor.blt (⟨Pos.mid n, true⟩ : Anchor) MAX_ANCHOR = true := by
    apply anchor_blt_of_pos
    rfl
  obtain ⟨s0, hs0mem, hs01, hs02⟩ := slices_cover_exists
    (sbRun equalsRecord
      ((sideList s.formatList).map (fun e => (e.1, dataToRecord e.2)))
      MAX_ANCHOR) MIN_ANCHOR MAX_ANCHOR
    (fun h0 => absurd (hinv.emptyEq h0) (by decide))
    hinv.headStart hinv.chain hinv.lastStop ⟨Pos.mid n, true⟩ hxge hxlt
  have hfedmem : (aStar, dataToRecord mStar) ∈
      (sideList s.formatList).map (fun e => (e.1, dataToRecord e.2)) :=
    List.mem_map.mpr ⟨(aStar, mStar), hmem, rfl⟩
  have hstartle : Anchor.ble s0.start aStar = true := by
    have hsf := hinv.startFed s0 hs0mem
    obtain ⟨ef, hef, hefa⟩ := List.mem_map.mp hsf
    obtain ⟨eg, heg, hege⟩ := List.mem_map.mp hef
    have hega : eg.1 = s0.start := by
      rw [← hefa, ← hege]
    have := hmax eg heg (by
      rw [hega]
      exact hs01)
    rw [hega] at this
    exact this
  have hastop : Anchor.blt aStar s0.stop = true :=
    Anchor.blt_of_ble_of_blt hble hs02
  have hpayload := hinv.payload s0 hs0mem (aStar, dataToRecord mStar) hfedmem
    hstartle hastop
  have hout := formattedSpans_eq_sbRun s
  refine ⟨⟨s0.start, s0.stop, s0.data⟩, ?_, hs01, hs02, ?_, ?_⟩
  · rw [hout]
    exact List.mem_map.mpr ⟨s0, hs0mem, rfl⟩
  · show equalsRecord (dataToRecord mStar) s0.data = true
    rw [equalsRecord_symm]
    exact hpayload
  · intro sp' hsp' h1 h2
    rw [hout] at hsp'
    obtain ⟨s1, hs1mem, hs1e⟩ := List.mem_map.mp hsp'
    have hs1eq : s1 = s0 := by
      apply slices_cover_unique
        (sbRun equalsRecord
          ((sideList s.formatList).map (fun e => (e.1, dataToRecord e.2)))
          MAX_ANCHOR) MIN_ANCHOR hinv.headStart hinv.chain hinv.spanNe
        ⟨Pos.mid n, true⟩ s1 hs1mem s0 hs0mem
      · rw [← hs1e] at h1
        exact h1
      · rw [← hs1e] at h2
        exact h2
      · exact hs01
      · exact hs02
    rw [← hs1e, hs1eq]

/-- A mark reaching a nontrivial state for the C2 witness. -/
def c2mark : Mark := ⟨⟨Pos.mid 2, true⟩, ⟨Pos.mid 6, true⟩, 0, some 9, 0, 1⟩

/-- Witness: C2 instantiated at a concrete reachable one-mark state and the
interior position 4. -/
theorem spec_C2_witness :
    ∃ r, getFormat (addMark initState c2mark).1 (Pos.mid 4) = some r ∧
      ∃ sp ∈ formattedSpans (addMark initState c2mark).1,
        Anchor.ble sp.start ⟨Pos.mid 4, true⟩ = true ∧
        Anchor.blt ⟨Pos.mid 4, true⟩ sp.stop = true ∧
        equalsRecord r sp.format = true ∧
        (∀ sp' ∈ formattedSpans (addMark initState c2mark).1,
          Anchor.ble sp'.start ⟨Pos.mid 4, true⟩ = true →
          Anchor.blt ⟨Pos.mid 4, true⟩ sp'.stop = true → sp' = sp) :=
  spec_C2_getFormat_covering_span (addMark initState c2mark).1
    (Reachable.add c2mark Reachable.init (by decide)) 4


/-! Anatomy of the `addMark` loop, towards claims C3 and C4: the loop
rewrites each `formatList` entry by a per-entry function of the mark, and
feeds the span builder the covered anchors in order. -/

/-- The anchor `a` lies in the mark's half-open anchor span `[start, end)`. -/
def covers (m : Mark) (a : Anchor) : Bool :=
  Anchor.ble m.start a && Anchor.blt a m.stop

/-- The side map produced by `addToAnchor` (its builder-independent part). -/
def addToAnchorD (anchorData : AMap) (m : Mark) : AMap :=
  let marks := (mapGet anchorData m.key).getD []
  let index := locateMark marks m
  mapSet anchorData m.key (List.insertIdx index m marks)

/-- The change payload fed by `addToAnchor` to its span builder. -/
def addPayload (anchorData : AMap) (m : Mark) : Option FCI :=
  let marks := (mapGet anchorData m.key).getD []
  let index := locateMark marks m
  let marks' := List.insertIdx index m marks
  if index = marks'.length - 1 then
    some { otherValue := if marks'.length = 1 then none
             else (marks'.getD (marks'.length - 2) mDefault).value
           format := dataToRecord (mapSet anchorData m.key marks') }
  else none

theorem addToAnchor_fst (anchor : Anchor) (anchorData : AMap)
    (b : SB (Option FCI)) (m : Mark) :
    (addToAnchor anchor anchorData b m).1 = addToAnchorD anchorData m := by
  simp only [addToAnchor, addToAnchorD]
  split <;> rfl

theorem addToAnchor_snd (anchor : Anchor) (anchorData : AMap)
    (b : SB (Option FCI)) (m : Mark) :
    (addToAnchor anchor anchorData b m).2 =
      SB.add equalsFCI b anchor (addPayload anchorData m) := by
  simp only [addToAnchor, addPayload]
  by_cases hc : locateMark ((mapGet anchorData m.key).getD []) m =
      (List.insertIdx (locateMark ((mapGet anchorData m.key).getD []) m) m
        ((mapGet anchorData m.key).getD [])).length - 1
  · rw [if_pos hc, if_pos hc]
  · rw [if_neg hc, if_neg hc]

/-- The effect of one `addMark` loop iteration on one `formatList` entry. -/
def markEntryUpd (m : Mark) (e : Pos × FormatData) : Pos × FormatData :=
  (e.1,
    { before := match e.2.before with
        | some bd => some (if covers m ⟨e.1, true⟩ then addToAnchorD bd m else bd)
        | none => none
      after := match e.2.after with
        | some ad => some (if covers m ⟨e.1, false⟩ then addToAnchorD ad m else ad)
        | none => none })

/-- The `(anchor, payload)` pairs one entry feeds to the loop's builder. -/
def entryFeeds (m : Mark) (e : Pos × FormatData) : List (Anchor × Option FCI) :=
  (match e.2.before with
   | some bd =>
     if covers m ⟨e.1, true⟩ then [(⟨e.1, true⟩, addPayload bd m)] else []
   | none => []) ++
  (match e.2.after with
   | some ad =>
     if covers m ⟨e.1, false⟩ then [(⟨e.1, false⟩, addPayload ad m)] else []
   | none => [])

theorem flGet_flSet_other (fl : FL) {p q : Pos} (h : q ≠ p) (d : FormatData) :
    flGet (flSet fl p d) q = flGet fl q := by
  have hpq : ¬(p = q) := fun hc => h hc.symm
  induction fl with
  | nil =>
    show flGet [(p, d)] q = flGet [] q
    unfold flGet
    rw [List.find?_cons_of_neg _ (by simp [hpq])]
  | cons e rest ih =>
    rcases e with ⟨r, ed⟩
    by_cases hpr : p = r
    · rw [hpr, flSet_cons_replace]
      have hrq : ¬(r = q) := fun hc => hpq (hpr.trans hc)
      unfold flGet
      rw [List.find?_cons_of_neg _ (by simp [hrq]),
        List.find?_cons_of_neg _ (by simp [hrq])]
    · by_cases hlt : Pos.blt p r
      · have heq : flSet ((r, ed) :: rest) p d = (p, d) :: (r, ed) :: rest := by
          simp [flSet, hpr, hlt]
        rw [heq]
        unfold flGet
        rw [List.find?_cons_of_neg _ (by simp [hpq])]
      · rw [flSet_cons_skip hpr (by simpa using hlt)]
        by_cases hqr : r = q
        · unfold flGet
          rw [List.find?_cons_of_pos _ (by simp [hqr]),
            List.find?_cons_of_pos _ (by simp [hqr])]
        · unfold flGet
          rw [List.find?_cons_of_neg _ (by simp [hqr]),
            List.find?_cons_of_neg _ (by simp [hqr])]
          exact ih

theorem list_set_self {α : Type} : ∀ (l : List α) (i : Nat) (a : α),
    l[i]? = some a → l.set i a = l := by
  intro l
  induction l with
  | nil =>
    intro i a h
    simp at h
  | cons x xs ih =>
    intro i a h
    cases i with
    | zero =>
      simp at h
      rw [← h]
      rfl
    | succ j =>
      simp at h
      show x :: xs.set j a = x :: xs
      rw [ih j a h]

theorem flRank_eq_posl (fl : FL) (p : Pos) :
    flRank fl p = (fl.map Prod.fst).countP (fun q => Pos.blt q p) := by
  unfold flRank
  rw [List.countP_map]
  rfl

theorem flPosAt_eq_get {fl : FL} {i : Nat} (h : i < fl.length) :
    flPosAt fl i = (fl.get ⟨i, h⟩).1 := by
  unfold flPosAt
  rw [fl_getD_eq_getElem h]

theorem index_lt_iff_pos {fl : FL}
    (hs : List.Pairwise (fun x y => Pos.blt x.1 y.1 = true) fl) {i j : Nat}
    (hi : i < fl.length) (hj : j < fl.length) :
    i < j ↔ Pos.blt (fl.get ⟨i, hi⟩).1 (fl.get ⟨j, hj⟩).1 = true := by
  constructor
  · intro hij
    exact List.pairwise_iff_get.mp hs ⟨i, hi⟩ ⟨j, hj⟩ hij
  · intro hblt
    by_contra hij
    rcases Nat.lt_or_ge j i with hj2 | hj2
    · have := List.pairwise_iff_get.mp hs ⟨j, hj⟩ ⟨i, hi⟩ hj2
      have := pos_blt_asymm this
      rw [this] at hblt
      exact absurd hblt (by simp)
    · have hji : j = i := by omega
      subst hji
      rw [pos_blt_irrefl] at hblt
      exact absurd hblt (by simp)

theorem index_eq_iff_pos {fl : FL}
    (hs : List.Pairwise (fun x y => Pos.blt x.1 y.1 = true) fl) {i j : Nat}
    (hi : i < fl.length) (hj : j < fl.length) :
    i = j ↔ (fl.get ⟨i, hi⟩).1 = (fl.get ⟨j, hj⟩).1 := by
  constructor
  · intro hij
    subst hij
    rfl
  · intro hpos
    by_contra hij
    rcases Nat.lt_or_ge i j with h2 | h2
    · have := (index_lt_iff_pos hs hi hj).mp h2
      rw [hpos, pos_blt_irrefl] at this
      exact absurd this (by simp)
    · have h3 : j < i := by omega
      have := (index_lt_iff_pos hs hj hi).mp h3
      rw [hpos, pos_blt_irrefl] at this
      exact absurd this (by simp)

theorem rank_get_of_mem {fl : FL}
    (hs : List.Pairwise (fun x y => Pos.blt x.1 y.1 = true) fl) {p : Pos}
    (hm : p ∈ fl.map Prod.fst) :
    ∃ (h : flRank fl p < fl.length), (fl.get ⟨flRank fl p, h⟩).1 = p := by
  obtain ⟨e, he, hep⟩ := List.mem_map.mp hm
  have htd := fl_take_drop_rank hs p
  have hdropmem : e ∈ fl.drop (flRank fl p) := by
    rw [← List.take_append_drop (flRank fl p) fl] at he
    rcases List.mem_append.mp he with h1 | h1
    · have := htd.1 e h1
      rw [hep, pos_blt_irrefl] at this
      exact absurd this (by simp)
    · exact h1
  have hlen : flRank fl p < fl.length := by
    have h1 : fl.drop (flRank fl p) ≠ [] := by
      intro h0
      rw [h0] at hdropmem
      simp at hdropmem
    have h2 := List.length_drop (flRank fl p) fl
    rcases Nat.lt_or_ge (flRank fl p) fl.length with h3 | h3
    · exact h3
    · exfalso
      apply h1
      apply List.eq_nil_of_length_eq_zero
      omega
  refine ⟨hlen, ?_⟩
  rw [List.mem_iff_getElem] at hdropmem
  obtain ⟨j, hjlen, hje⟩ := hdropmem
  rw [List.getElem_drop] at hje
  cases Nat.eq_zero_or_pos j with
  | inl hj0 =>
    subst hj0
    simp only [Nat.add_zero] at hje
    show (fl.get ⟨flRank fl p, hlen⟩).1 = p
    have h5 : fl.get ⟨flRank fl p, hlen⟩ = e := by
      rw [List.get_eq_getElem]
      exact hje
    rw [h5, hep]
  | inr hjpos =>
    exfalso
    have hjfl : flRank fl p + j < fl.length := by
      rw [List.length_drop] at hjlen
      omega
    have hlt := (index_lt_iff_pos hs hlen hjfl).mp (by omega)
    have hgj : (fl.get ⟨flRank fl p + j, hjfl⟩).1 = p := by
      have : fl.get ⟨flRank fl p + j, hjfl⟩ = e := hje
      rw [this, hep]
    rw [hgj] at hlt
    have hhead : fl.get ⟨flRank fl p, hlen⟩ ∈ fl.drop (flRank fl p) := by
      rw [List.mem_iff_getElem]
      refine ⟨0, ?_, ?_⟩
      · rw [List.length_drop]
        omega
      · rw [List.getElem_drop]
        congr 1
    have := htd.2 _ hhead
    rw [this] at hlt
    exact absurd hlt (by simp)


theorem ble_anchor_before_iff (sa : Anchor) (p : Pos) :
    Anchor.ble sa ⟨p, true⟩ = true ↔
      (Pos.blt sa.pos p = true ∨ (sa.pos = p ∧ sa.before = true)) := by
  rcases sa with ⟨q, b⟩
  cases b <;>
    simp [Anchor.ble, Anchor.blt, Anchor.mk.injEq] <;> tauto

theorem blt_anchor_after_iff (sa : Anchor) (p : Pos) :
    Anchor.blt sa ⟨p, false⟩ = true ↔
      (Pos.blt sa.pos p = true ∨ (sa.pos = p ∧ sa.before = true)) := by
  rcases sa with ⟨q, b⟩
  cases b <;>
    simp [Anchor.blt, Anchor.mk.injEq] <;> tauto

theorem blt_before_anchor_iff (p : Pos) (ea : Anchor) :
    Anchor.blt ⟨p, true⟩ ea = true ↔
      (Pos.blt p ea.pos = true ∨ (p = ea.pos ∧ ea.before = false)) := by
  rcases ea with ⟨r, c⟩
  cases c <;>
    simp [Anchor.blt, Anchor.mk.injEq] <;> tauto

theorem ble_anchor_after_iff (sa : Anchor) (p : Pos) :
    Anchor.ble sa ⟨p, false⟩ = true ↔
      (Pos.blt sa.pos p = true ∨ sa.pos = p) := by
  rcases sa with ⟨q, b⟩
  cases b <;>
    simp [Anchor.ble, Anchor.blt, Anchor.mk.injEq] <;> tauto

theorem blt_after_anchor_iff (p : Pos) (ea : Anchor) :
    Anchor.blt ⟨p, false⟩ ea = true ↔ Pos.blt p ea.pos = true := by
  rcases ea with ⟨r, c⟩
  cases c <;>
    simp [Anchor.blt, Anchor.mk.injEq]

/-- The loop's `before`-side condition selects exactly the anchors covered by
the mark's span (for an in-range mark). -/
theorem bcond_iff_covers {m : Mark} (hrange : Anchor.blt m.start m.stop = true)
    {sI eI i : Nat} {p : Pos}
    (h1 : sI < i ↔ Pos.blt m.start.pos p = true)
    (h2 : i = sI ↔ p = m.start.pos)
    (h3 : i < eI ↔ Pos.blt p m.stop.pos = true)
    (h4 : i = eI ↔ p = m.stop.pos) :
    ((sI < i ∧ i < eI) ∨ (i = sI ∧ m.start.before = true) ∨
      (i = eI ∧ m.stop.before = false)) ↔ covers m ⟨p, true⟩ = true := by
  unfold covers
  rw [Bool.and_eq_true, ble_anchor_before_iff, blt_before_anchor_iff]
  constructor
  · rintro (⟨ha, hb⟩ | ⟨ha, hb⟩ | ⟨ha, hb⟩)
    · exact ⟨Or.inl (h1.mp ha), Or.inl (h3.mp hb)⟩
    · have hp : m.start.pos = p := (h2.mp ha).symm
      have hs : m.start = ⟨p, true⟩ := by
        have he : m.start = ⟨m.start.pos, m.start.before⟩ := rfl
        rw [he, hp, hb]
      rw [hs] at hrange
      exact ⟨Or.inr ⟨hp, hb⟩, (blt_before_anchor_iff p m.stop).mp hrange⟩
    · have hp : p = m.stop.pos := h4.mp ha
      have hs : m.stop = ⟨p, false⟩ := by
        have he : m.stop = ⟨m.stop.pos, m.stop.before⟩ := rfl
        rw [he, ← hp, hb]
      rw [hs] at hrange
      exact ⟨(blt_anchor_after_iff m.start p).mp hrange, Or.inr ⟨hp, hb⟩⟩
  · rintro ⟨hA | ⟨hA1, hA2⟩, hB | ⟨hB1, hB2⟩⟩
    · exact Or.inl ⟨h1.mpr hA, h3.mpr hB⟩
    · exact Or.inr (Or.inr ⟨h4.mpr hB1, hB2⟩)
    · exact Or.inr (Or.inl ⟨h2.mpr hA1.symm, hA2⟩)
    · exact Or.inr (Or.inl ⟨h2.mpr hA1.symm, hA2⟩)

/-- The loop's `after`-side condition selects exactly the anchors covered by
the mark's span. -/
theorem acond_iff_covers {m : Mark} {sI eI i : Nat} {p : Pos}
    (hige : sI ≤ i)
    (h1 : sI < i ↔ Pos.blt m.start.pos p = true)
    (h2 : i = sI ↔ p = m.start.pos)
    (h3 : i < eI ↔ Pos.blt p m.stop.pos = true) :
    i < eI ↔ covers m ⟨p, false⟩ = true := by
  unfold covers
  rw [Bool.and_eq_true, ble_anchor_after_iff, blt_after_anchor_iff]
  constructor
  · intro hlt
    refine ⟨?_, h3.mp hlt⟩
    rcases Nat.lt_or_eq_of_le hige with h5 | h5
    · exact Or.inl (h1.mp h5)
    · exact Or.inr (h2.mp h5.symm).symm
  · rintro ⟨_, hb⟩
    exact h3.mpr hb

theorem flSet_eq_set {fl : FL}
    (hs : List.Pairwise (fun x y => Pos.blt x.1 y.1 = true) fl) :
    ∀ {i : Nat} (hi : i < fl.length) (d : FormatData),
    flSet fl (fl.get ⟨i, hi⟩).1 d = fl.set i ((fl.get ⟨i, hi⟩).1, d) := by
  induction fl with
  | nil =>
    intro i hi
    simp at hi
  | cons e rest ih =>
    rcases List.pairwise_cons.mp hs with ⟨he, hrest⟩
    intro i hi d
    cases i with
    | zero =>
      rcases e with ⟨q, ed⟩
      show flSet ((q, ed) :: rest) q d = _
      rw [flSet_cons_replace]
      rfl
    | succ j =>
      have hj : j < rest.length := by
        simp at hi
        omega
      have hp : ((e :: rest).get ⟨j + 1, hi⟩).1 = (rest.get ⟨j, hj⟩).1 := rfl
      have hmem : rest.get ⟨j, hj⟩ ∈ rest := List.get_mem _ _ _
      have hblt : Pos.blt e.1 (rest.get ⟨j, hj⟩).1 = true := he _ hmem
      have hne : (rest.get ⟨j, hj⟩).1 ≠ e.1 := fun hc =>
        Pos.blt_ne hblt hc.symm
      have hnlt : Pos.blt (rest.get ⟨j, hj⟩).1 e.1 = false :=
        pos_blt_asymm hblt
      rcases e with ⟨q, ed⟩
      rw [hp, flSet_cons_skip hne hnlt, ih hrest hj d]
      rfl

theorem sbAddAll_append {D : Type} (eqD : D → D → Bool)
    (l1 l2 : List (Anchor × D)) (b : SB D) :
    sbAddAll eqD (l1 ++ l2) b = sbAddAll eqD l2 (sbAddAll eqD l1 b) := by
  unfold sbAddAll
  rw [List.foldl_append]


/-- One iteration body of the `addMark` loop (verbatim copy of the loop's
step, for reasoning about a single iteration). -/
def addStep (m : Mark) (sI eI : Nat) (fl : FL) (b : SB (Option FCI))
    (i : Nat) : FL × SB (Option FCI) :=
  let p := flPosAt fl i
  let data := (flGet fl p).getD {}
  let step1 : Option AMap × SB (Option FCI) :=
    match data.before with
    | some bd =>
      if (sI < i ∧ i < eI) ∨ (i = sI ∧ m.start.before = true)
          ∨ (i = eI ∧ m.stop.before = false) then
        let r := addToAnchor ⟨p, true⟩ bd b m
        (some r.1, r.2)
      else (some bd, b)
    | none => (none, b)
  let step2 : Option AMap × SB (Option FCI) :=
    match data.after with
    | some ad =>
      if i < eI then
        let r := addToAnchor ⟨p, false⟩ ad step1.2 m
        (some r.1, r.2)
      else (some ad, step1.2)
    | none => (none, step1.2)
  (flSet fl p { before := step1.1, after := step2.1 }, step2.2)

theorem addLoopGo_step (m : Mark) (sI eI n : Nat) (fl : FL)
    (b : SB (Option FCI)) (i : Nat) :
    addLoopGo m sI eI (n + 1) fl b i =
      if i > eI then (fl, b)
      else addLoopGo m sI eI n (addStep m sI eI fl b i).1
        (addStep m sI eI fl b i).2 (i + 1) := rfl

/-- The loop body rewrites the current entry by `markEntryUpd` and feeds the
builder that entry's covered anchors. -/
theorem addStep_eq {m : Mark} {sI eI : Nat} {fl : FL} (b : SB (Option FCI))
    {i : Nat} (hrange : Anchor.blt m.start m.stop = true)
    (hs : List.Pairwise (fun x y => Pos.blt x.1 y.1 = true) fl)
    (hi : i < fl.length) (hige : sI ≤ i)
    (h1 : sI < i ↔ Pos.blt m.start.pos (fl.get ⟨i, hi⟩).1 = true)
    (h2 : i = sI ↔ (fl.get ⟨i, hi⟩).1 = m.start.pos)
    (h3 : i < eI ↔ Pos.blt (fl.get ⟨i, hi⟩).1 m.stop.pos = true)
    (h4 : i = eI ↔ (fl.get ⟨i, hi⟩).1 = m.stop.pos) :
    addStep m sI eI fl b i =
      (fl.set i (markEntryUpd m (fl.get ⟨i, hi⟩)),
       sbAddAll equalsFCI (entryFeeds m (fl.get ⟨i, hi⟩)) b) := by
  have hget : flGet fl ((fl.get ⟨i, hi⟩).1) = some (fl.get ⟨i, hi⟩).2 := by
    have hfg := flGet_flPosAt_sorted hs hi
    rw [flPosAt_eq_get hi] at hfg
    rw [hfg]
    congr 1
    unfold flGetAt
    rw [fl_getD_eq_getElem hi]
  have hdata : (flGet fl ((fl.get ⟨i, hi⟩).1)).getD {} =
      (fl.get ⟨i, hi⟩).2 := by
    rw [hget]
    rfl
  have hflset : ∀ (d : FormatData),
      flSet fl ((fl.get ⟨i, hi⟩).1) d = fl.set i ((fl.get ⟨i, hi⟩).1, d) :=
    fun d => flSet_eq_set hs hi d
  simp only [addStep]
  rw [flPosAt_eq_get hi, hdata]
  rcases hdb : (fl.get ⟨i, hi⟩).2.before with _ | bd <;>
    rcases hda : (fl.get ⟨i, hi⟩).2.after with _ | ad
  · -- no sides
    simp only [markEntryUpd, entryFeeds, hdb, hda]
    rw [hflset]
    rfl
  · -- only after side
    by_cases hac : i < eI
    · have hcov : covers m ⟨(fl.get ⟨i, hi⟩).1, false⟩ = true :=
        (acond_iff_covers hige h1 h2 h3).mp hac
      simp only [markEntryUpd, entryFeeds, hdb, hda, hcov, if_pos hac,
        if_true, addToAnchor_fst, addToAnchor_snd]
      rw [hflset]
      rfl
    · have hcov : covers m ⟨(fl.get ⟨i, hi⟩).1, false⟩ = false := by
        cases h0 : covers m ⟨(fl.get ⟨i, hi⟩).1, false⟩
        · rfl
        · exact absurd ((acond_iff_covers hige h1 h2 h3).mpr h0) hac
      simp only [markEntryUpd, entryFeeds, hdb, hda, hcov, if_neg hac]
      rw [hflset]
      rfl
  · -- only before side
    by_cases hbc : (sI < i ∧ i < eI) ∨ (i = sI ∧ m.start.before = true) ∨
        (i = eI ∧ m.stop.before = false)
    · have hcov : covers m ⟨(fl.get ⟨i, hi⟩).1, true⟩ = true :=
        (bcond_iff_covers hrange h1 h2 h3 h4).mp hbc
      simp only [markEntryUpd, entryFeeds, hdb, hda, hcov, if_pos hbc,
        if_true, addToAnchor_fst, addToAnchor_snd]
      rw [hflset]
      rfl
    · have hcov : covers m ⟨(fl.get ⟨i, hi⟩).1, true⟩ = false := by
        cases h0 : covers m ⟨(fl.get ⟨i, hi⟩).1, true⟩
        · rfl
        · exact absurd ((bcond_iff_covers hrange h1 h2 h3 h4).mpr h0) hbc
      simp only [markEntryUpd, entryFeeds, hdb, hda, hcov, if_neg hbc]
      rw [hflset]
      rfl
  · -- both sides
    by_cases hbc : (sI < i ∧ i < eI) ∨ (i = sI ∧ m.start.before = true) ∨
        (i = eI ∧ m.stop.before = false) <;>
      by_cases hac : i < eI
    · have hcovb : covers m ⟨(fl.get ⟨i, hi⟩).1, true⟩ = true :=
        (bcond_iff_covers hrange h1 h2 h3 h4).mp hbc
      have hcova : covers m ⟨(fl.get ⟨i, hi⟩).1, false⟩ = true :=
        (acond_iff_covers hige h1 h2 h3).mp hac
      simp only [markEntryUpd, entryFeeds, hdb, hda, hcovb, hcova,
        if_pos hbc, if_pos hac, if_true, addToAnchor_fst, addToAnchor_snd]
      rw [hflset]
      rfl
    · have hcovb : covers m ⟨(fl.get ⟨i, hi⟩).1, true⟩ = true :=
        (bcond_iff_covers hrange h1 h2 h3 h4).mp hbc
      have hcova : covers m ⟨(fl.get ⟨i, hi⟩).1, false⟩ = false := by
        cases h0 : covers m ⟨(fl.get ⟨i, hi⟩).1, false⟩
        · rfl
        · exact absurd ((acond_iff_covers hige h1 h2 h3).mpr h0) hac
      simp only [markEntryUpd, entryFeeds, hdb, hda, hcovb, hcova,
        if_pos hbc, if_neg hac, if_true, addToAnchor_fst, addToAnchor_snd]
      rw [hflset]
      rfl
    · have hcovb : covers m ⟨(fl.get ⟨i, hi⟩).1, true⟩ = false := by
        cases h0 : covers m ⟨(fl.get ⟨i, hi⟩).1, true⟩
        · rfl
        · exact absurd ((bcond_iff_covers hrange h1 h2 h3 h4).mpr h0) hbc
      have hcova : covers m ⟨(fl.get ⟨i, hi⟩).1, false⟩ = true :=
        (acond_iff_covers hige h1 h2 h3).mp hac
      simp only [markEntryUpd, entryFeeds, hdb, hda, hcovb, hcova,
        if_neg hbc, if_pos hac, if_true, addToAnchor_fst, addToAnchor_snd]
      rw [hflset]
      rfl
    · have hcovb : covers m ⟨(fl.get ⟨i, hi⟩).1, true⟩ = false := by
        cases h0 : covers m ⟨(fl.get ⟨i, hi⟩).1, true⟩
        · rfl
        · exact absurd ((bcond_iff_covers hrange h1 h2 h3 h4).mpr h0) hbc
      have hcova : covers m ⟨(fl.get ⟨i, hi⟩).1, false⟩ = false := by
        cases h0 : covers m ⟨(fl.get ⟨i, hi⟩).1, false⟩
        · rfl
        · exact absurd ((acond_iff_covers hige h1 h2 h3).mpr h0) hac
      simp only [markEntryUpd, entryFeeds, hdb, hda, hcovb, hcova,
        if_neg hbc, if_neg hac]
      rw [hflset]
      rfl


theorem set_shape {α : Type} {l : List α} {i : Nat} (hi : i < l.length)
    (u : α) : l.set i u = l.take i ++ u :: l.drop (i + 1) := by
  rw [List.set_eq_take_append_cons_drop]
  rw [if_pos hi]

theorem set_take_succ {α : Type} {l : List α} {i : Nat} (hi : i < l.length)
    (u : α) : (l.set i u).take (i + 1) = l.take i ++ [u] := by
  rw [set_shape hi u, List.take_append_eq_append_take]
  have h1 : (l.take i).length = i := by
    rw [List.length_take]
    omega
  rw [List.take_take, h1]
  have h2 : min (i + 1) i = i := by omega
  rw [h2]
  have h3 : i + 1 - i = 1 := by omega
  rw [h3]
  rfl

theorem set_drop_succ {α : Type} {l : List α} {i : Nat} (hi : i < l.length)
    (u : α) : (l.set i u).drop (i + 1) = l.drop (i + 1) := by
  rw [set_shape hi u, List.drop_append_eq_append_drop]
  have h1 : (l.take i).length = i := by
    rw [List.length_take]
    omega
  rw [h1]
  have h2 : (l.take i).drop (i + 1) = [] := by
    apply List.drop_eq_nil_of_le
    rw [h1]
    omega
  rw [h2]
  have h3 : i + 1 - i = 1 := by omega
  rw [h3]
  rfl

theorem set_drop_ge {α : Type} {l : List α} {i k : Nat} (hi : i < l.length)
    (hk : i < k) (u : α) : (l.set i u).drop k = l.drop k := by
  rw [set_shape hi u, List.drop_append_eq_append_drop]
  have h1 : (l.take i).length = i := by
    rw [List.length_take]
    omega
  rw [h1]
  have h2 : (l.take i).drop k = [] := by
    apply List.drop_eq_nil_of_le
    rw [h1]
    omega
  rw [h2]
  have h3 : k - i = (k - i - 1) + 1 := by omega
  rw [h3]
  show (l.drop (i + 1)).drop (k - i - 1) = l.drop k
  rw [List.drop_drop]
  congr 1
  omega

theorem drop_window_cons {α : Type} {l : List α} {i eI : Nat}
    (hi : i < l.length) (hie : i ≤ eI) :
    (l.drop i).take (eI + 1 - i) =
      l.get ⟨i, hi⟩ :: (l.drop (i + 1)).take (eI - i) := by
  rw [List.drop_eq_get_cons hi]
  have h1 : eI + 1 - i = (eI - i) + 1 := by omega
  rw [h1, List.take_succ_cons]

/-- The `addMark` loop: final `formatList` is the per-entry update of the
window, and the builder receives the window's covered anchors in order. -/
theorem addLoopGo_anatomy (m : Mark) (sI eI : Nat)
    (hrange : Anchor.blt m.start m.stop = true) :
    ∀ (fuel : Nat) (fl : FL) (b : SB (Option FCI)) (i : Nat),
    List.Pairwise (fun x y => Pos.blt x.1 y.1 = true) fl →
    m.start.pos ∈ fl.map Prod.fst →
    m.stop.pos ∈ fl.map Prod.fst →
    sI = flRank fl m.start.pos →
    eI = flRank fl m.stop.pos →
    sI ≤ i → i ≤ eI + 1 → fuel = eI + 1 - i →
    addLoopGo m sI eI fuel fl b i =
      (fl.take i ++ ((fl.drop i).take (eI + 1 - i)).map (markEntryUpd m) ++
        fl.drop (eI + 1),
       sbAddAll equalsFCI
         (((fl.drop i).take (eI + 1 - i)).flatMap (entryFeeds m)) b) := by
  intro fuel
  induction fuel with
  | zero =>
    intro fl b i hs hstart hstop hsI heI hige hile hfuel
    have hieq : i = eI + 1 := by omega
    subst hieq
    show (fl, b) = _
    rw [Nat.sub_self]
    simp [List.take_append_drop]
    rfl
  | succ n ih =>
    intro fl b i hs hstart hstop hsI heI hige hile hfuel
    have hile2 : i ≤ eI := by omega
    obtain ⟨hsLen, hsPos⟩ := rank_get_of_mem hs hstart
    obtain ⟨heLen, hePos⟩ := rank_get_of_mem hs hstop
    have hsLen2 : sI < fl.length := by
      rw [hsI]
      exact hsLen
    have heLen2 : eI < fl.length := by
      rw [heI]
      exact heLen
    have hiLen : i < fl.length := by
      omega
    have hsPos2 : (fl.get ⟨sI, hsLen2⟩).1 = m.start.pos := by
      have : (⟨sI, hsLen2⟩ : Fin fl.length) =
          ⟨flRank fl m.start.pos, hsLen⟩ := Fin.ext hsI
      rw [this]
      exact hsPos
    have hePos2 : (fl.get ⟨eI, heLen2⟩).1 = m.stop.pos := by
      have : (⟨eI, heLen2⟩ : Fin fl.length) =
          ⟨flRank fl m.stop.pos, heLen⟩ := Fin.ext heI
      rw [this]
      exact hePos
    have h1 : sI < i ↔ Pos.blt m.start.pos (fl.get ⟨i, hiLen⟩).1 = true := by
      have := index_lt_iff_pos hs hsLen2 hiLen
      rw [hsPos2] at this
      exact this
    have h2 : i = sI ↔ (fl.get ⟨i, hiLen⟩).1 = m.start.pos := by
      have := index_eq_iff_pos hs hiLen hsLen2
      rw [hsPos2] at this
      exact this
    have h3 : i < eI ↔ Pos.blt (fl.get ⟨i, hiLen⟩).1 m.stop.pos = true := by
      have := index_lt_iff_pos hs hiLen heLen2
      rw [hePos2] at this
      exact this
    have h4 : i = eI ↔ (fl.get ⟨i, hiLen⟩).1 = m.stop.pos := by
      have := index_eq_iff_pos hs hiLen heLen2
      rw [hePos2] at this
      exact this
    rw [addLoopGo_step, if_neg (by omega : ¬i > eI),
      addStep_eq b hrange hs hiLen hige h1 h2 h3 h4]
    -- the updated list keeps the position sequence
    have hposmap : (fl.set i (markEntryUpd m (fl.get ⟨i, hiLen⟩))).map
        Prod.fst = fl.map Prod.fst := by
      rw [List.map_set]
      apply list_set_self
      have : (fl.map Prod.fst)[i]? =
          some ((fl.map Prod.fst).get ⟨i, by simpa using hiLen⟩) := by
        rw [List.getElem?_eq_getElem]
        rfl
      rw [this]
      congr 1
      rw [List.get_eq_getElem, List.getElem_map]
      rfl
    have hs' : List.Pairwise (fun x y => Pos.blt x.1 y.1 = true)
        (fl.set i (markEntryUpd m (fl.get ⟨i, hiLen⟩))) := by
      rw [← List.pairwise_map (f := Prod.fst)
        (R := fun a b => Pos.blt a b = true)]
      rw [hposmap]
      rw [List.pairwise_map]
      exact hs
    have hrank' : ∀ q : Pos,
        flRank (fl.set i (markEntryUpd m (fl.get ⟨i, hiLen⟩))) q =
          flRank fl q := by
      intro q
      rw [flRank_eq_posl, flRank_eq_posl, hposmap]
    have hmem' : ∀ q : Pos, q ∈ fl.map Prod.fst →
        q ∈ (fl.set i (markEntryUpd m (fl.get ⟨i, hiLen⟩))).map Prod.fst := by
      intro q hq
      rw [hposmap]
      exact hq
    rw [ih (fl.set i (markEntryUpd m (fl.get ⟨i, hiLen⟩)))
      (sbAddAll equalsFCI (entryFeeds m (fl.get ⟨i, hiLen⟩)) b) (i + 1)
      hs' (hmem' _ hstart) (hmem' _ hstop)
      (by rw [hrank' m.start.pos]; exact hsI)
      (by rw [hrank' m.stop.pos]; exact heI)
      (by omega) (by omega) (by omega)]
    have hw := drop_window_cons hiLen hile2
    rw [set_take_succ hiLen, set_drop_succ hiLen,
      set_drop_ge hiLen (by omega : i < eI + 1), hw]
    have harith : eI + 1 - (i + 1) = eI - i := by omega
    rw [harith, List.map_cons, List.flatMap_cons,
      sbAddAll_append]
    rw [List.append_assoc (fl.take i) _ _]
    rfl


/-- The map at one anchor side of the `formatList` (`none` when absent). -/
def sideGet (fl : FL) (a : Anchor) : Option AMap :=
  if a.before then (flGet fl a.pos).bind (fun d => d.before)
  else (flGet fl a.pos).bind (fun d => d.after)

theorem insertIdx_eq_take_cons_drop {α : Type} (x : α) :
    ∀ (l : List α) (n : Nat), n ≤ l.length →
    l.insertIdx n x = l.take n ++ x :: l.drop n := by
  intro l
  induction l with
  | nil =>
    intro n h
    have : n = 0 := by simpa using h
    subst this
    rfl
  | cons a as ih =>
    intro n h
    cases n with
    | zero => rfl
    | succ k =>
      rw [List.insertIdx_succ_cons]
      show a :: List.insertIdx k x as = a :: (as.take k ++ x :: as.drop k)
      rw [ih k (by simpa using h)]

theorem createData_flGet_other {fl : FL} {p : Pos} {b : Bool} {q : Pos}
    (hq : q ≠ p) : flGet (createData fl ⟨p, b⟩) q = flGet fl q := by
  have hother : ∀ (g : FL) (d : FormatData), flGet (flSet g p d) q = flGet g q :=
    fun g d => flGet_flSet_other g hq d
  cases hget : flGet fl p with
  | some d =>
    simp only [createData, hget]
    split
    · split
      · rfl
      · simp only [hother]
    · split
      · rfl
      · split
        · simp only [hother]
        · simp only [hother]
  | none =>
    simp only [createData, hget]
    have hget1 : flGet (flSet fl p ({} : FormatData)) p
        = some ({} : FormatData) := flGet_flSet_self fl p {}
    simp only [hget1]
    split
    · split
      · simp only [hother]
      · simp only [hother]
    · split
      · simp only [hother]
      · split
        · simp only [hother]
        · simp only [hother]

theorem createData_noop {fl : FL} {a : Anchor} {md : AMap}
    (h : sideGet fl a = some md) : createData fl a = fl := by
  rcases a with ⟨p, b⟩
  unfold sideGet at h
  cases b with
  | true =>
    rw [if_pos rfl] at h
    obtain ⟨d, hget, hdb⟩ := Option.bind_eq_some.mp h
    simp only [createData, hget]
    rw [if_pos trivial]
    show (match d.before with
      | some _ => fl
      | none => flSet fl p { d with before := some (copyPrevAnchor fl p) }) = fl
    rw [hdb]
  | false =>
    rw [if_neg (by simp)] at h
    obtain ⟨d, hget, hda⟩ := Option.bind_eq_some.mp h
    simp only [createData, hget]
    rw [if_neg (by simp)]
    show (match d.after with
      | some _ => fl
      | none => match d.before with
        | some bd => flSet fl p { d with after := some bd }
        | none => flSet fl p { d with after := some (copyPrevAnchor fl p) }) = fl
    rw [hda]


theorem createData_sideGet_other {fl : FL} {a x : Anchor} (hne : x ≠ a) :
    sideGet (createData fl a) x = sideGet fl x := by
  rcases a with ⟨p, b⟩
  rcases x with ⟨xp, xb⟩
  by_cases hxp : xp = p
  · subst hxp
    have hxb : xb = !b := by
      cases xb <;> cases b <;> simp_all
    subst hxb
    cases b with
    | true =>
      show sideGet (createData fl ⟨xp, true⟩) ⟨xp, false⟩ = sideGet fl ⟨xp, false⟩
      unfold sideGet
      rw [if_neg (by simp), if_neg (by simp)]
      show (flGet (createData fl ⟨xp, true⟩) xp).bind (fun d => d.after) =
        (flGet fl xp).bind (fun d => d.after)
      cases hget : flGet fl xp with
      | some d =>
        simp only [createData, hget, Option.getD_some]
        rw [if_pos trivial]
        cases hdb : d.before with
        | some bd =>
          simp only [hdb]
          rw [hget]
        | none =>
          simp only [hdb]
          rw [flGet_flSet_self]
          rfl
      | none =>
        simp only [createData, hget]
        rw [if_pos trivial]
        have hget1 : flGet (flSet fl xp ({} : FormatData)) xp
            = some ({} : FormatData) := flGet_flSet_self fl xp {}
        have hb : (({} : FormatData)).before = none := rfl
        simp only [hget1, Option.getD_some, hb]
        rw [flGet_flSet_self]
        rfl
    | false =>
      show sideGet (createData fl ⟨xp, false⟩) ⟨xp, true⟩ = sideGet fl ⟨xp, true⟩
      unfold sideGet
      rw [if_pos rfl, if_pos rfl]
      show (flGet (createData fl ⟨xp, false⟩) xp).bind (fun d => d.before) =
        (flGet fl xp).bind (fun d => d.before)
      cases hget : flGet fl xp with
      | some d =>
        simp only [createData, hget, Option.getD_some]
        rw [if_neg (by simp)]
        cases hda : d.after with
        | some ad =>
          simp only [hda]
          rw [hget]
        | none =>
          simp only [hda]
          cases hdb : d.before with
          | some bd =>
            simp only [hdb]
            rw [flGet_flSet_self]
            show some bd = d.before
            rw [hdb]
          | none =>
            simp only [hdb]
            rw [flGet_flSet_self]
            show (none : Option AMap) = d.before
            rw [hdb]
      | none =>
        simp only [createData, hget]
        rw [if_neg (by simp)]
        have hget1 : flGet (flSet fl xp ({} : FormatData)) xp
            = some ({} : FormatData) := flGet_flSet_self fl xp {}
        have ha : (({} : FormatData)).after = none := rfl
        simp only [hget1, Option.getD_some, ha]
        rw [flGet_flSet_self]
        rfl
  · unfold sideGet
    have hq : xp ≠ p := hxp
    rw [show ((⟨xp, xb⟩ : Anchor)).pos = xp from rfl]
    rw [createData_flGet_other hq]


/-! `flSet` on an absent position is a sorted insertion at the position's
rank; prefixes, ranks and `copyPrevAnchor` below the insertion point are
unchanged. -/

theorem flSet_eq_insertIdx {fl : FL}
    (hs : List.Pairwise (fun x y => Pos.blt x.1 y.1 = true) fl)
    {p : Pos} (habs : p ∉ fl.map Prod.fst) (d : FormatData) :
    flSet fl p d = fl.insertIdx (flRank fl p) (p, d) := by
  induction fl with
  | nil => rfl
  | cons e rest ih =>
    rcases e with ⟨q, ed⟩
    rcases List.pairwise_cons.mp hs with ⟨hq, hrest⟩
    have hpq : p ≠ q := by
      intro h0
      exact habs (by simp [h0])
    by_cases hlt : Pos.blt p q = true
    · have hr : flRank ((q, ed) :: rest) p = 0 := by
        unfold flRank
        rw [List.countP_cons]
        have h1 : Pos.blt q p = false := pos_blt_asymm hlt
        have h2 : List.countP (fun e => Pos.blt e.1 p) rest = 0 := by
          rw [List.countP_eq_zero]
          intro e he
          have h3 : Pos.blt q e.1 = true := hq e he
          have h4 : Pos.blt p e.1 = true := pos_blt_trans hlt h3
          simp [pos_blt_asymm h4]
        rw [h2]
        simp [h1]
      rw [hr]
      show flSet ((q, ed) :: rest) p d = (p, d) :: (q, ed) :: rest
      simp [flSet, hpq, hlt]
    · have hnlt : Pos.blt p q = false := by
        cases h0 : Pos.blt p q
        · rfl
        · exact absurd h0 hlt
      have hqp : Pos.blt q p = true := by
        rcases pos_blt_total p q with h0 | h0 | h0
        · exact absurd h0 hlt
        · exact absurd h0 hpq
        · exact h0
      have hr : flRank ((q, ed) :: rest) p = flRank rest p + 1 := by
        unfold flRank
        rw [List.countP_cons]
        simp [hqp]
      have habs2 : p ∉ rest.map Prod.fst := by
        intro h0
        exact habs (by simp [h0])
      rw [hr, flSet_cons_skip hpq hnlt, List.insertIdx_succ_cons,
        ih hrest habs2]

theorem flRank_flSet_self {fl : FL}
    (hs : List.Pairwise (fun x y => Pos.blt x.1 y.1 = true) fl)
    {p : Pos} (habs : p ∉ fl.map Prod.fst) (d : FormatData) :
    flRank (flSet fl p d) p = flRank fl p := by
  have hle : flRank fl p ≤ fl.length := List.countP_le_length _
  rw [flSet_eq_insertIdx hs habs d,
    insertIdx_eq_take_cons_drop _ fl (flRank fl p) hle]
  show List.countP _ _ = _
  rw [List.countP_append, List.countP_cons]
  have h0 : Pos.blt ((p, d) : Pos × FormatData).1 p = false := pos_blt_irrefl p
  simp only [h0, if_false]
  show List.countP (fun e => Pos.blt e.1 p) (fl.take (flRank fl p)) +
    (List.countP (fun e => Pos.blt e.1 p) (fl.drop (flRank fl p)) + 0) = _
  rw [Nat.add_zero, ← List.countP_append, List.take_append_drop]
  rfl

theorem flGetAt_flSet_lt {fl : FL}
    (hs : List.Pairwise (fun x y => Pos.blt x.1 y.1 = true) fl)
    {p : Pos} (habs : p ∉ fl.map Prod.fst) (d : FormatData) {j : Nat}
    (hj : j < flRank fl p) :
    flGetAt (flSet fl p d) j = flGetAt fl j := by
  have hle : flRank fl p ≤ fl.length := List.countP_le_length _
  have hjl : j < fl.length := by omega
  rw [flSet_eq_insertIdx hs habs d,
    insertIdx_eq_take_cons_drop _ fl (flRank fl p) hle]
  unfold flGetAt
  have hjt : j < (fl.take (flRank fl p)).length := by
    rw [List.length_take]
    omega
  rw [List.getD_eq_getElem?_getD, List.getD_eq_getElem?_getD,
    List.getElem?_append_left hjt, List.getElem?_eq_getElem hjt,
    List.getElem?_eq_getElem hjl]
  show (((fl.take (flRank fl p))[j] : Pos × FormatData)).2 = ((fl[j] : Pos × FormatData)).2
  rw [List.getElem_take]

theorem copyPrevAnchor_flSet {fl : FL}
    (hs : List.Pairwise (fun x y => Pos.blt x.1 y.1 = true) fl)
    {p : Pos} (habs : p ∉ fl.map Prod.fst) (hpos : 0 < flRank fl p) :
    copyPrevAnchor (flSet fl p ({} : FormatData)) p = copyPrevAnchor fl p := by
  simp only [copyPrevAnchor]
  rw [flRank_flSet_self hs habs, flGetAt_flSet_lt hs habs _ (by omega)]

/-- Present anchor sides are exactly the members of `sideList` (on a sorted
`formatList`). -/
theorem sideGet_eq_some_iff {fl : FL}
    (hs : List.Pairwise (fun x y => Pos.blt x.1 y.1 = true) fl)
    {a : Anchor} {M : AMap} :
    sideGet fl a = some M ↔ (a, M) ∈ sideList fl := by
  rcases a with ⟨p, b⟩
  rw [sideList_eq_flatMap, List.mem_flatMap]
  cases b with
  | true =>
    show (flGet fl p).bind (fun d => d.before) = some M ↔ _
    constructor
    · intro h
      obtain ⟨d, hget, hdb⟩ := Option.bind_eq_some.mp h
      exact ⟨(p, d), flGet_mem hget, mem_entrySides.mpr ⟨rfl, Or.inl ⟨rfl, hdb⟩⟩⟩
    · rintro ⟨e, he, hes⟩
      rcases mem_entrySides.mp hes with ⟨hpos, hside | hside⟩
      · rcases e with ⟨q, dq⟩
        have hq : p = q := hpos
        subst hq
        rw [flGet_of_mem_sorted hs he]
        exact hside.2
      · exact absurd hside.1 (by simp)
  | false =>
    show (flGet fl p).bind (fun d => d.after) = some M ↔ _
    constructor
    · intro h
      obtain ⟨d, hget, hda⟩ := Option.bind_eq_some.mp h
      exact ⟨(p, d), flGet_mem hget, mem_entrySides.mpr ⟨rfl, Or.inr ⟨rfl, hda⟩⟩⟩
    · rintro ⟨e, he, hes⟩
      rcases mem_entrySides.mp hes with ⟨hpos, hside | hside⟩
      · exact absurd hside.1 (by simp)
      · rcases e with ⟨q, dq⟩
        have hq : p = q := hpos
        subst hq
        rw [flGet_of_mem_sorted hs he]
        exact hside.2


theorem blt_into_before {x : Anchor} {p : Pos} :
    Anchor.blt x ⟨p, true⟩ = true ↔ Pos.blt x.pos p = true := by
  rcases x with ⟨q, s⟩
  cases s <;> simp [Anchor.blt]

theorem mem_sideList_entry {fl : FL} {x : Anchor × AMap} (h : x ∈ sideList fl) :
    ∃ e ∈ fl, x.1.pos = e.1 ∧
      ((x.1.before = true ∧ e.2.before = some x.2) ∨
       (x.1.before = false ∧ e.2.after = some x.2)) := by
  rw [sideList_eq_flatMap] at h
  obtain ⟨e, he, hes⟩ := List.mem_flatMap.mp h
  exact ⟨e, he, mem_entrySides.mp hes⟩

/-- `copyPrevAnchor` returns the side map of the greatest present anchor side
strictly below `(pos, before)`. -/
theorem copyPrevAnchor_spec {fl : FL} (hfl : FLInv fl) {p : Pos}
    (hpos : 0 < flRank fl p) :
    ∃ aPrev, (aPrev, copyPrevAnchor fl p) ∈ sideList fl ∧
      Anchor.blt aPrev ⟨p, true⟩ = true ∧
      ∀ e ∈ sideList fl, Anchor.blt e.1 ⟨p, true⟩ = true →
        Anchor.ble e.1 aPrev = true := by
  have hrlen : flRank fl p ≤ fl.length := List.countP_le_length _
  have hlt : flRank fl p - 1 < fl.length := by omega
  have htd := fl_take_drop_rank hfl.sorted p
  set ent : Pos × FormatData := fl.get ⟨flRank fl p - 1, hlt⟩ with hentdef
  have hga : flGetAt fl (flRank fl p - 1) = ent.2 := by
    unfold flGetAt
    rw [fl_getD_eq_getElem hlt]
  have hentmem : ent ∈ fl := List.get_mem _ _ _
  have henttake : ent ∈ fl.take (flRank fl p) := by
    rw [List.mem_iff_getElem]
    refine ⟨flRank fl p - 1, ?_, ?_⟩
    · rw [List.length_take]
      omega
    · rw [List.getElem_take]
      rfl
  have hentlt : Pos.blt ent.1 p = true := htd.1 _ henttake
  have hmaxtake : ∀ e ∈ fl.take (flRank fl p),
      e = ent ∨ Pos.blt e.1 ent.1 = true := by
    intro e he
    rw [List.mem_iff_getElem] at he
    obtain ⟨i, hilen, hie⟩ := he
    have hilen2 : i < flRank fl p := by
      rw [List.length_take] at hilen
      omega
    have hifl : i < fl.length := by omega
    have hie2 : fl.get ⟨i, hifl⟩ = e := by
      rw [← hie, List.getElem_take]
      rfl
    by_cases hieq : i = flRank fl p - 1
    · left
      rw [← hie2, hentdef]
      congr 1
      exact Fin.ext hieq
    · right
      have hilt : i < flRank fl p - 1 := by omega
      have hpw := List.pairwise_iff_get.mp hfl.sorted ⟨i, hifl⟩
        ⟨flRank fl p - 1, hlt⟩ (by simpa using hilt)
      rw [hie2] at hpw
      exact hpw
  have hmax : ∀ e ∈ sideList fl, Anchor.blt e.1 ⟨p, true⟩ = true →
      (e.1.pos = ent.1 ∧
        ((e.1.before = true ∧ ent.2.before = some e.2) ∨
         (e.1.before = false ∧ ent.2.after = some e.2))) ∨
      Pos.blt e.1.pos ent.1 = true := by
    intro e he hblt
    have heplt : Pos.blt e.1.pos p = true := blt_into_before.mp hblt
    obtain ⟨ent2, hent2, hx1, hx2⟩ := mem_sideList_entry he
    have hent2take : ent2 ∈ fl.take (flRank fl p) := by
      have hsplit := List.take_append_drop (flRank fl p) fl
      rw [← hsplit] at hent2
      rcases List.mem_append.mp hent2 with h1 | h1
      · exact h1
      · have h2 := htd.2 ent2 h1
        rw [← hx1] at h2
        rw [h2] at heplt
        exact absurd heplt (by simp)
    rcases hmaxtake ent2 hent2take with h1 | h1
    · refine Or.inl ⟨by rw [hx1, h1], ?_⟩
      rw [h1] at hx2
      exact hx2
    · refine Or.inr ?_
      rw [hx1]
      exact h1
  cases hea : ent.2.after with
  | some ad =>
    have hcp : copyPrevAnchor fl p = ad := by
      simp only [copyPrevAnchor]
      rw [hga, hea]
    refine ⟨⟨ent.1, false⟩, ?_, ?_, ?_⟩
    · rw [hcp, sideList_eq_flatMap]
      exact List.mem_flatMap.mpr ⟨ent, hentmem,
        mem_entrySides.mpr ⟨rfl, Or.inr ⟨rfl, hea⟩⟩⟩
    · exact anchor_blt_of_pos hentlt
    · intro e he hblt
      rcases hmax e he hblt with ⟨h1, hside⟩ | h1
      · rcases e with ⟨⟨q, s⟩, M⟩
        have hq : q = ent.1 := h1
        subst hq
        rcases hside with ⟨hs, _⟩ | ⟨hs, _⟩
        · have hs2 : s = true := hs
          subst hs2
          apply Anchor.ble_of_blt
          exact blt_before_anchor_iff _ _ |>.mpr (Or.inr ⟨rfl, rfl⟩)
        · have hs2 : s = false := hs
          subst hs2
          exact Anchor.ble_refl _
      · apply Anchor.ble_of_blt
        exact anchor_blt_of_pos h1
  | none =>
    have hbs : ent.2.before.isSome = true := by
      rcases hfl.someSide ent hentmem with h1 | h1
      · exact h1
      · rw [hea] at h1
        exact absurd h1 (by simp)
    obtain ⟨bd, hbd⟩ := Option.isSome_iff_exists.mp hbs
    have hcp : copyPrevAnchor fl p = bd := by
      simp only [copyPrevAnchor]
      rw [hga, hea, hbd]
      rfl
    refine ⟨⟨ent.1, true⟩, ?_, ?_, ?_⟩
    · rw [hcp, sideList_eq_flatMap]
      exact List.mem_flatMap.mpr ⟨ent, hentmem,
        mem_entrySides.mpr ⟨rfl, Or.inl ⟨rfl, hbd⟩⟩⟩
    · exact anchor_blt_of_pos hentlt
    · intro e he hblt
      rcases hmax e he hblt with ⟨h1, hside⟩ | h1
      · rcases e with ⟨⟨q, s⟩, M⟩
        have hq : q = ent.1 := h1
        subst hq
        rcases hside with ⟨hs, _⟩ | ⟨hs, hsa⟩
        · have hs2 : s = true := hs
          subst hs2
          exact Anchor.ble_refl _
        · rw [hea] at hsa
          exact absurd hsa (by simp)
      · apply Anchor.ble_of_blt
        exact anchor_blt_of_pos h1


theorem flGet_eq_none_iff {fl : FL} {p : Pos} :
    flGet fl p = none ↔ p ∉ fl.map Prod.fst := by
  constructor
  · intro h hmem
    obtain ⟨e, he, hep⟩ := List.mem_map.mp hmem
    unfold flGet at h
    cases hf : fl.find? (fun e => e.1 == p) with
    | none => exact (List.find?_eq_none.mp hf e he) (by simp [hep])
    | some x =>
      rw [hf] at h
      simp at h
  · intro h
    unfold flGet
    cases hf : fl.find? (fun e => e.1 == p) with
    | none => rfl
    | some x =>
      have hm := List.mem_of_find?_eq_some hf
      have hp := List.find?_some hf
      simp at hp
      exact absurd (List.mem_map.mpr ⟨x, hm, hp⟩) h

theorem sideGet_min_anchor {fl : FL} (hfl : FLInv fl) :
    ∃ M, sideGet fl ⟨Pos.minP, false⟩ = some M := by
  obtain ⟨d, hhead, hsome, _⟩ := hfl.minFirst
  have hmem : (Pos.minP, d) ∈ fl := by
    cases fl with
    | nil => simp at hhead
    | cons e rest =>
      simp at hhead
      rw [hhead]
      exact List.mem_cons_self _ _
  have hget : flGet fl Pos.minP = some d := flGet_of_mem_sorted hfl.sorted hmem
  obtain ⟨M, hM⟩ := Option.isSome_iff_exists.mp hsome
  refine ⟨M, ?_⟩
  unfold sideGet
  rw [if_neg (by simp), hget]
  exact hM

theorem flRank_pos_of_ne_min {fl : FL} (hfl : FLInv fl) {p : Pos}
    (hp : p ≠ Pos.minP) : 0 < flRank fl p := by
  obtain ⟨d, hhead, _, _⟩ := hfl.minFirst
  cases fl with
  | nil => simp at hhead
  | cons e rest =>
    simp at hhead
    unfold flRank
    rw [List.countP_cons]
    have hblt : Pos.blt e.1 p = true := by
      rw [hhead]
      show Pos.blt Pos.minP p = true
      cases p with
      | minP => exact absurd rfl hp
      | mid n => rfl
      | maxP => rfl
    simp [hblt]

theorem blt_before_after (p : Pos) : Anchor.blt ⟨p, true⟩ ⟨p, false⟩ = true :=
  blt_before_anchor_iff _ _ |>.mpr (Or.inr ⟨rfl, rfl⟩)

/-- `createData` at an absent valid anchor creates a side whose map is the
map of the greatest present anchor side strictly below it. -/
theorem createData_side_spec {fl : FL} (hfl : FLInv fl) {a : Anchor}
    (hval : a.valid = true) (habs : sideGet fl a = none) :
    ∃ aPrev M, sideGet (createData fl a) a = some M ∧
      (aPrev, M) ∈ sideList fl ∧ Anchor.blt aPrev a = true ∧
      ∀ e ∈ sideList fl, Anchor.blt e.1 a = true →
        Anchor.ble e.1 aPrev = true := by
  rcases a with ⟨p, b⟩
  have hpmin : p ≠ Pos.minP := by
    cases b with
    | true =>
      intro h0
      subst h0
      simp [Anchor.valid] at hval
    | false =>
      intro h0
      subst h0
      obtain ⟨M, hM⟩ := sideGet_min_anchor hfl
      rw [hM] at habs
      cases habs
  have hrpos : 0 < flRank fl p := flRank_pos_of_ne_min hfl hpmin
  cases b with
  | true =>
    have habs2 : (flGet fl p).bind (fun d => d.before) = none := habs
    cases hget : flGet fl p with
    | some d =>
      have hdb : d.before = none := by
        rw [hget] at habs2
        exact habs2
      obtain ⟨aPrev, hmem, hblt, hmax⟩ := copyPrevAnchor_spec hfl hrpos
      refine ⟨aPrev, copyPrevAnchor fl p, ?_, hmem, hblt, hmax⟩
      simp only [createData, hget, Option.getD_some]
      rw [if_pos trivial]
      simp only [hdb]
      unfold sideGet
      rw [if_pos rfl]
      rw [flGet_flSet_self]
      rfl
    | none =>
      have habsfst : p ∉ fl.map Prod.fst := flGet_eq_none_iff.mp hget
      obtain ⟨aPrev, hmem, hblt, hmax⟩ := copyPrevAnchor_spec hfl hrpos
      have hcpa : copyPrevAnchor (flSet fl p ({} : FormatData)) p =
          copyPrevAnchor fl p := copyPrevAnchor_flSet hfl.sorted habsfst hrpos
      refine ⟨aPrev, copyPrevAnchor fl p, ?_, hmem, hblt, hmax⟩
      simp only [createData, hget]
      rw [if_pos trivial]
      have hget1 : flGet (flSet fl p ({} : FormatData)) p =
          some ({} : FormatData) := flGet_flSet_self fl p {}
      have hb0 : (({} : FormatData)).before = none := rfl
      simp only [hget1, Option.getD_some, hb0]
      unfold sideGet
      rw [if_pos rfl]
      rw [flGet_flSet_self]
      show some (copyPrevAnchor (flSet fl p ({} : FormatData)) p) =
        some (copyPrevAnchor fl p)
      rw [hcpa]
  | false =>
    have habs2 : (flGet fl p).bind (fun d => d.after) = none := habs
    cases hget : flGet fl p with
    | some d =>
      have hda : d.after = none := by
        rw [hget] at habs2
        exact habs2
      cases hdb : d.before with
      | some bd =>
        refine ⟨⟨p, true⟩, bd, ?_, ?_, blt_before_after p, ?_⟩
        · simp only [createData, hget, Option.getD_some]
          rw [if_neg (by simp)]
          simp only [hda, hdb]
          unfold sideGet
          rw [if_neg (by simp)]
          rw [flGet_flSet_self]
          rfl
        · rw [sideList_eq_flatMap]
          exact List.mem_flatMap.mpr ⟨(p, d), flGet_mem hget,
            mem_entrySides.mpr ⟨rfl, Or.inl ⟨rfl, hdb⟩⟩⟩
        · intro e he hblt2
          rcases e with ⟨⟨q, s⟩, M⟩
          rcases (blt_anchor_after_iff ⟨q, s⟩ p).mp hblt2 with h1 | ⟨h1, h2⟩
          · exact Anchor.ble_of_blt (blt_into_before.mpr h1)
          · have hq : q = p := h1
            have hs : s = true := h2
            subst hq
            subst hs
            exact Anchor.ble_refl _
      | none =>
        obtain ⟨aPrev, hmem, hblt, hmax⟩ := copyPrevAnchor_spec hfl hrpos
        refine ⟨aPrev, copyPrevAnchor fl p, ?_, hmem,
          Anchor.blt_trans hblt (blt_before_after p), ?_⟩
        · simp only [createData, hget, Option.getD_some]
          rw [if_neg (by simp)]
          simp only [hda, hdb]
          unfold sideGet
          rw [if_neg (by simp)]
          rw [flGet_flSet_self]
          rfl
        · intro e he hblt2
          rcases e with ⟨⟨q, s⟩, M⟩
          rcases (blt_anchor_after_iff ⟨q, s⟩ p).mp hblt2 with h1 | ⟨h1, h2⟩
          · exact hmax _ he (blt_into_before.mpr h1)
          · have hq : q = p := h1
            have hs : s = true := h2
            subst hq
            subst hs
            obtain ⟨ent2, hent2, hx1, hx2⟩ := mem_sideList_entry he
            rcases hx2 with ⟨_, hbef⟩ | ⟨hfalse, _⟩
            · rcases ent2 with ⟨q2, d2⟩
              have hq2 : q = q2 := hx1
              subst hq2
              have hgd := flGet_of_mem_sorted hfl.sorted hent2
              rw [hget] at hgd
              injection hgd with hd
              rw [← hd] at hbef
              rw [hdb] at hbef
              cases hbef
            · cases hfalse
    | none =>
      have habsfst : p ∉ fl.map Prod.fst := flGet_eq_none_iff.mp hget
      obtain ⟨aPrev, hmem, hblt, hmax⟩ := copyPrevAnchor_spec hfl hrpos
      have hcpa : copyPrevAnchor (flSet fl p ({} : FormatData)) p =
          copyPrevAnchor fl p := copyPrevAnchor_flSet hfl.sorted habsfst hrpos
      refine ⟨aPrev, copyPrevAnchor fl p, ?_, hmem,
        Anchor.blt_trans hblt (blt_before_after p), ?_⟩
      · simp only [createData, hget]
        rw [if_neg (by simp)]
        have hget1 : flGet (flSet fl p ({} : FormatData)) p =
            some ({} : FormatData) := flGet_flSet_self fl p {}
        have ha0 : (({} : FormatData)).after = none := rfl
        have hb0 : (({} : FormatData)).before = none := rfl
        simp only [hget1, Option.getD_some, ha0, hb0]
        unfold sideGet
        rw [if_neg (by simp)]
        rw [flGet_flSet_self]
        show some (copyPrevAnchor (flSet fl p ({} : FormatData)) p) =
          some (copyPrevAnchor fl p)
        rw [hcpa]
      · intro e he hblt2
        rcases e with ⟨⟨q, s⟩, M⟩
        rcases (blt_anchor_after_iff ⟨q, s⟩ p).mp hblt2 with h1 | ⟨h1, h2⟩
        · exact hmax _ he (blt_into_before.mpr h1)
        · have hq : q = p := h1
          subst hq
          obtain ⟨ent2, hent2, hx1, _⟩ := mem_sideList_entry he
          rcases ent2 with ⟨q2, d2⟩
          have hq2 : q = q2 := hx1
          have hgd := flGet_of_mem_sorted hfl.sorted hent2
          rw [← hq2, hget] at hgd
          cases hgd


/-! Canonical anchor stacks: the resolution invariant relating the
`formatList` side maps to the stored mark list. -/

/-- The canonical stack for key `k` at anchor `a`: the stored marks with that
key covering the anchor, in store (`compareMarks`) order. -/
def canonStack (L : List Mark) (a : Anchor) (k : Key) : List Mark :=
  L.filter (fun mk => mk.key == k && covers mk a)

/-- The canonical side-map contract at one anchor: duplicate-free keys, and
every key holding exactly its nonempty canonical stack. -/
def sideOK (L : List Mark) (a : Anchor) (M : AMap) : Prop :=
  (keysOf M).Nodup ∧
  ∀ k, mapGet M k =
    (if canonStack L a k = [] then none else some (canonStack L a k))

theorem covers_eq_true_iff {m : Mark} {a : Anchor} :
    covers m a = true ↔
      (Anchor.ble m.start a = true ∧ Anchor.blt a m.stop = true) := by
  unfold covers
  simp

/-- Coverage cannot distinguish an absent anchor from the greatest present
anchor below it, for marks whose endpoints avoid the gap between them. -/
theorem covers_congr_below {m' : Mark} {a aPrev : Anchor}
    (hlt : Anchor.blt aPrev a = true)
    (hmax_s : Anchor.blt m'.start a = true → Anchor.ble m'.start aPrev = true)
    (hmax_e : Anchor.blt m'.stop a = true → Anchor.ble m'.stop aPrev = true)
    (hne_s : m'.start ≠ a) (hne_e : m'.stop ≠ a) :
    covers m' a = covers m' aPrev := by
  have hiff : (Anchor.ble m'.start a = true ∧ Anchor.blt a m'.stop = true) ↔
      (Anchor.ble m'.start aPrev = true ∧
        Anchor.blt aPrev m'.stop = true) := by
    constructor
    · rintro ⟨h1, h2⟩
      refine ⟨?_, Anchor.blt_trans hlt h2⟩
      rcases Anchor.ble_iff.mp h1 with h3 | h3
      · exact absurd h3 hne_s
      · exact hmax_s h3
    · rintro ⟨h1, h2⟩
      refine ⟨Anchor.ble_trans h1 (Anchor.ble_of_blt hlt), ?_⟩
      rcases Anchor.blt_total a m'.stop with h3 | h3 | h3
      · exact h3
      · exact absurd h3.symm hne_e
      · have h4 : Anchor.ble m'.stop aPrev = true := hmax_e h3
        have h5 : Anchor.blt aPrev aPrev = true :=
          Anchor.blt_of_blt_of_ble h2 h4
        rw [Anchor.blt_irrefl] at h5
        exact absurd h5 (by simp)
  cases ha : covers m' a with
  | true =>
    have h1 := covers_eq_true_iff.mpr (hiff.mp (covers_eq_true_iff.mp ha))
    exact h1.symm
  | false =>
    cases hb : covers m' aPrev with
    | false => rfl
    | true =>
      have h1 := covers_eq_true_iff.mpr (hiff.mpr (covers_eq_true_iff.mp hb))
      rw [ha] at h1
      cases h1

theorem sideOK_transport {L : List Mark} {a aPrev : Anchor} {M : AMap}
    (hok : sideOK L aPrev M)
    (hcong : ∀ m' ∈ L, covers m' a = covers m' aPrev) :
    sideOK L a M := by
  refine ⟨hok.1, fun k => ?_⟩
  have hstack : canonStack L a k = canonStack L aPrev k := by
    unfold canonStack
    apply List.filter_congr
    intro x hx
    rw [hcong x hx]
  rw [hstack]
  exact hok.2 k

theorem covers_congr_of_max {L : List Mark} {fl : FL} {a aPrev : Anchor}
    (hs : List.Pairwise (fun x y => Pos.blt x.1 y.1 = true) fl)
    (hEnds : ∀ m' ∈ L, (sideGet fl m'.start).isSome = true ∧
      (sideGet fl m'.stop).isSome = true)
    (habs : sideGet fl a = none)
    (hlt : Anchor.blt aPrev a = true)
    (hmax : ∀ e ∈ sideList fl, Anchor.blt e.1 a = true →
      Anchor.ble e.1 aPrev = true) :
    ∀ m' ∈ L, covers m' a = covers m' aPrev := by
  intro m' hm'
  obtain ⟨hps, hpe⟩ := hEnds m' hm'
  obtain ⟨Ms, hMs⟩ := Option.isSome_iff_exists.mp hps
  obtain ⟨Me, hMe⟩ := Option.isSome_iff_exists.mp hpe
  have hne_s : m'.start ≠ a := by
    intro h0
    rw [h0, habs] at hMs
    cases hMs
  have hne_e : m'.stop ≠ a := by
    intro h0
    rw [h0, habs] at hMe
    cases hMe
  apply covers_congr_below hlt ?_ ?_ hne_s hne_e
  · intro hblt
    exact hmax (m'.start, Ms) ((sideGet_eq_some_iff hs).mp hMs) hblt
  · intro hblt
    exact hmax (m'.stop, Me) ((sideGet_eq_some_iff hs).mp hMe) hblt

/-- `createData` never removes or changes an existing anchor side. -/
theorem createData_sideGet_pres {fl : FL} {a x : Anchor} {M : AMap}
    (h : sideGet fl x = some M) : sideGet (createData fl a) x = some M := by
  by_cases hxa : x = a
  · subst hxa
    rw [createData_noop h]
    exact h
  · rw [createData_sideGet_other hxa]
    exact h


/-- The resolution invariant of a full engine state: structural `formatList`
invariant, sorted stored marks that are valid and in range, endpoints of
stored marks present as anchor sides, and every present side holding its
canonical stacks. -/
structure Canon (s : FmtState) : Prop where
  flinv : FLInv s.formatList
  msorted : MarksSorted s.orderedMarks
  good : ∀ m ∈ s.orderedMarks, m.validAnchors = true ∧ rangeBad m = false
  ends : ∀ m ∈ s.orderedMarks, (sideGet s.formatList m.start).isSome = true ∧
    (sideGet s.formatList m.stop).isSome = true
  sides : ∀ a M, sideGet s.formatList a = some M → sideOK s.orderedMarks a M

/-- The part of the invariant relating a `formatList` to a fixed mark list,
threaded through `createData` and the `addMark` loop. -/
def FlCanon (L : List Mark) (fl : FL) : Prop :=
  FLInv fl ∧
  (∀ m ∈ L, (sideGet fl m.start).isSome = true ∧
    (sideGet fl m.stop).isSome = true) ∧
  (∀ a M, sideGet fl a = some M → sideOK L a M)

theorem createData_flCanon {L : List Mark} {fl : FL} {a : Anchor}
    (hc : FlCanon L fl) (hv : a.valid = true) :
    FlCanon L (createData fl a) ∧
      (sideGet (createData fl a) a).isSome = true := by
  obtain ⟨hfl, hEnds, hSides⟩ := hc
  cases habs : sideGet fl a with
  | some M =>
    rw [createData_noop habs]
    exact ⟨⟨hfl, hEnds, hSides⟩, by rw [habs]; rfl⟩
  | none =>
    obtain ⟨aPrev, M, hnew, hmem, hlt, hmax⟩ := createData_side_spec hfl hv habs
    have hMprev : sideGet fl aPrev = some M :=
      (sideGet_eq_some_iff hfl.sorted).mpr hmem
    have hcong := covers_congr_of_max hfl.sorted hEnds habs hlt hmax
    have hOKa : sideOK L a M := sideOK_transport (hSides aPrev M hMprev) hcong
    refine ⟨⟨createData_inv hfl hv, ?_, ?_⟩, by rw [hnew]; rfl⟩
    · intro m' hm'
      obtain ⟨h1, h2⟩ := hEnds m' hm'
      obtain ⟨Ms, hMs⟩ := Option.isSome_iff_exists.mp h1
      obtain ⟨Me, hMe⟩ := Option.isSome_iff_exists.mp h2
      exact ⟨by rw [createData_sideGet_pres hMs]; rfl,
             by rw [createData_sideGet_pres hMe]; rfl⟩
    · intro x Mx hx
      by_cases hxa : x = a
      · subst hxa
        rw [hnew] at hx
        injection hx with hMx
        rw [← hMx]
        exact hOKa
      · rw [createData_sideGet_other hxa] at hx
        exact hSides x Mx hx


/-! The `addMark` loop over the full window is the entrywise update
`markEntryUpd`, because entries outside the window are not covered. -/

theorem anchor_blt_pos_cases {x y : Anchor} (h : Anchor.blt x y = true) :
    Pos.blt x.pos y.pos = true ∨ x.pos = y.pos := by
  unfold Anchor.blt at h
  simp at h
  rcases h with h1 | h1
  · exact Or.inl h1
  · exact Or.inr h1.1.1

theorem anchor_ble_pos_cases {x y : Anchor} (h : Anchor.ble x y = true) :
    Pos.blt x.pos y.pos = true ∨ x.pos = y.pos := by
  rcases Anchor.ble_iff.mp h with h1 | h1
  · exact Or.inr (by rw [h1])
  · exact anchor_blt_pos_cases h1

theorem covers_false_below {m : Mark} {q : Pos} {s : Bool}
    (hq : Pos.blt q m.start.pos = true) : covers m ⟨q, s⟩ = false := by
  unfold covers
  have hble : Anchor.ble m.start ⟨q, s⟩ = false := by
    cases h : Anchor.ble m.start ⟨q, s⟩ with
    | false => rfl
    | true =>
      rcases anchor_ble_pos_cases h with h1 | h1
      · rw [pos_blt_asymm hq] at h1
        cases h1
      · rw [h1] at hq
        rw [pos_blt_irrefl] at hq
        cases hq
  rw [hble]
  rfl

theorem covers_false_above {m : Mark} {q : Pos} {s : Bool}
    (hq : Pos.blt m.stop.pos q = true) : covers m ⟨q, s⟩ = false := by
  unfold covers
  have hblt : Anchor.blt ⟨q, s⟩ m.stop = false := by
    cases h : Anchor.blt ⟨q, s⟩ m.stop with
    | false => rfl
    | true =>
      rcases anchor_blt_pos_cases h with h1 | h1
      · rw [pos_blt_asymm hq] at h1
        cases h1
      · have h2 : q = m.stop.pos := h1
        rw [h2, pos_blt_irrefl] at hq
        cases hq
  rw [hblt]
  exact Bool.and_false _

theorem markEntryUpd_id {m : Mark} {e : Pos × FormatData}
    (hb : covers m ⟨e.1, true⟩ = false) (ha : covers m ⟨e.1, false⟩ = false) :
    markEntryUpd m e = e := by
  rcases e with ⟨q, db, da⟩
  cases db <;> cases da <;> simp_all [markEntryUpd]

theorem entryFeeds_nil {m : Mark} {e : Pos × FormatData}
    (hb : covers m ⟨e.1, true⟩ = false) (ha : covers m ⟨e.1, false⟩ = false) :
    entryFeeds m e = [] := by
  rcases e with ⟨q, db, da⟩
  cases db <;> cases da <;> simp_all [entryFeeds]

theorem map_markEntryUpd_id {m : Mark} :
    ∀ (l : FL), (∀ e ∈ l, markEntryUpd m e = e) →
    l.map (markEntryUpd m) = l := by
  intro l hl
  induction l with
  | nil => rfl
  | cons e rest ih =>
    rw [List.map_cons, hl e (List.mem_cons_self _ _),
      ih (fun x hx => hl x (List.mem_cons_of_mem _ hx))]

theorem flatMap_entryFeeds_nil {m : Mark} :
    ∀ (l : FL), (∀ e ∈ l, entryFeeds m e = []) →
    l.flatMap (entryFeeds m) = [] := by
  intro l hl
  induction l with
  | nil => rfl
  | cons e rest ih =>
    rw [List.flatMap_cons, hl e (List.mem_cons_self _ _),
      ih (fun x hx => hl x (List.mem_cons_of_mem _ hx))]
    rfl

theorem addLoop_eq_map {m : Mark} {fl : FL} (b : SB (Option FCI))
    (hs : List.Pairwise (fun x y => Pos.blt x.1 y.1 = true) fl)
    (hrange : Anchor.blt m.start m.stop = true)
    (hms : m.start.pos ∈ fl.map Prod.fst)
    (hme : m.stop.pos ∈ fl.map Prod.fst) :
    addLoop m (flRank fl m.start.pos) (flRank fl m.stop.pos) fl b
        (flRank fl m.start.pos) =
      (fl.map (markEntryUpd m),
       sbAddAll equalsFCI (fl.flatMap (entryFeeds m)) b) := by
  set sI := flRank fl m.start.pos with hsI
  set eI := flRank fl m.stop.pos with heI
  have hsIle : sI ≤ eI := by
    rcases anchor_blt_pos_cases hrange with h1 | h1
    · rw [hsI, heI]
      unfold flRank
      apply List.countP_mono_left
      intro e _ hb
      exact pos_blt_trans (by exact hb) h1
    · rw [hsI, heI, h1]
  obtain ⟨heIlt, heIpos⟩ := rank_get_of_mem hs hme
  have hanat := addLoopGo_anatomy m sI eI hrange (eI + 1 - sI) fl b sI hs
    hms hme hsI heI (Nat.le_refl _) (by omega) rfl
  show addLoopGo m sI eI (eI + 1 - sI) fl b sI = _
  rw [hanat]
  have htake_lt : ∀ e ∈ fl.take sI, Pos.blt e.1 m.start.pos = true := by
    intro e he
    exact (fl_take_drop_rank hs m.start.pos).1 e he
  have hdrop_gt : ∀ e ∈ fl.drop (eI + 1), Pos.blt m.stop.pos e.1 = true := by
    have hdecomp : fl.drop eI = fl.get ⟨eI, heIlt⟩ :: fl.drop (eI + 1) :=
      List.drop_eq_getElem_cons heIlt
    have hpairdrop : List.Pairwise (fun x y => Pos.blt x.1 y.1 = true)
        (fl.drop eI) := List.Pairwise.sublist (List.drop_sublist _ _) hs
    rw [hdecomp] at hpairdrop
    rcases List.pairwise_cons.mp hpairdrop with ⟨hhead, _⟩
    intro e he
    have h1 := hhead e he
    rw [heIpos] at h1
    exact h1
  have htake_id : ∀ e ∈ fl.take sI, markEntryUpd m e = e := by
    intro e he
    exact markEntryUpd_id (covers_false_below (htake_lt e he))
      (covers_false_below (htake_lt e he))
  have htake_nil : ∀ e ∈ fl.take sI, entryFeeds m e = [] := by
    intro e he
    exact entryFeeds_nil (covers_false_below (htake_lt e he))
      (covers_false_below (htake_lt e he))
  have hdrop_id : ∀ e ∈ fl.drop (eI + 1), markEntryUpd m e = e := by
    intro e he
    exact markEntryUpd_id (covers_false_above (hdrop_gt e he))
      (covers_false_above (hdrop_gt e he))
  have hdrop_nil : ∀ e ∈ fl.drop (eI + 1), entryFeeds m e = [] := by
    intro e he
    exact entryFeeds_nil (covers_false_above (hdrop_gt e he))
      (covers_false_above (hdrop_gt e he))
  have hwin : fl = fl.take sI ++ (fl.drop sI).take (eI + 1 - sI) ++
      fl.drop (eI + 1) := by
    have h1 : (fl.drop sI).take (eI + 1 - sI) ++
        (fl.drop sI).drop (eI + 1 - sI) = fl.drop sI :=
      List.take_append_drop _ _
    have h2 : (fl.drop sI).drop (eI + 1 - sI) = fl.drop (eI + 1) := by
      rw [List.drop_drop]
      congr 1
      omega
    calc fl = fl.take sI ++ fl.drop sI := (List.take_append_drop _ _).symm
    _ = fl.take sI ++ ((fl.drop sI).take (eI + 1 - sI) ++
        fl.drop (eI + 1)) := by rw [← h2, h1]
    _ = _ := by rw [List.append_assoc]
  have hfst : fl.map (markEntryUpd m) =
      fl.take sI ++ ((fl.drop sI).take (eI + 1 - sI)).map (markEntryUpd m) ++
        fl.drop (eI + 1) := by
    conv_lhs => rw [hwin]
    rw [List.map_append, List.map_append, map_markEntryUpd_id _ htake_id,
      map_markEntryUpd_id _ hdrop_id]
  have hsnd : fl.flatMap (entryFeeds m) =
      ((fl.drop sI).take (eI + 1 - sI)).flatMap (entryFeeds m) := by
    conv_lhs => rw [hwin]
    rw [List.flatMap_append, List.flatMap_append,
      flatMap_entryFeeds_nil _ htake_nil, flatMap_entryFeeds_nil _ hdrop_nil]
    simp
  rw [hfst, hsnd]


/-! Pointwise reads of the JS `Map` model after `set` and `delete`. -/

theorem mapGet_overwrite_found {α : Type} (k : Key) (v : α) :
    ∀ (m : List (Key × α)), (m.find? (fun e => e.1 == k)).isSome = true →
    mapGet (m.map (fun e => if e.1 == k then (k, v) else e)) k = some v := by
  intro m
  induction m with
  | nil =>
    intro h
    simp at h
  | cons e rest ih =>
    intro h
    rw [List.map_cons]
    by_cases hek : (e.1 == k) = true
    · rw [if_pos hek]
      unfold mapGet
      rw [List.find?_cons_of_pos _ (by simp)]
      rfl
    · have hek2 : (e.1 == k) = false := by
        cases h0 : (e.1 == k)
        · rfl
        · exact absurd h0 hek
      rw [if_neg hek]
      unfold mapGet
      rw [List.find?_cons_of_neg _ (by simp [hek2])]
      apply ih
      rw [List.find?_cons_of_neg _ (by simp [hek2])] at h
      exact h

theorem mapGet_overwrite_other {α : Type} {k k2 : Key} (hne : k2 ≠ k) (v : α) :
    ∀ (m : List (Key × α)),
    mapGet (m.map (fun e => if e.1 == k then (k, v) else e)) k2 =
      mapGet m k2 := by
  intro m
  induction m with
  | nil => rfl
  | cons e rest ih =>
    rw [List.map_cons]
    by_cases hek : (e.1 == k) = true
    · rw [if_pos hek]
      have hek3 : e.1 = k := by simpa using hek
      unfold mapGet
      rw [List.find?_cons_of_neg _ (by simp; exact fun h => hne h.symm),
        List.find?_cons_of_neg _ (by simp [hek3]; exact fun h => hne h.symm)]
      exact ih
    · rw [if_neg hek]
      unfold mapGet
      by_cases he2 : (e.1 == k2) = true
      · rw [List.find?_cons_of_pos _ (by simp [he2]), List.find?_cons_of_pos _ (by simp [he2])]
      · have he3 : (e.1 == k2) = false := by
          cases h0 : (e.1 == k2)
          · rfl
          · exact absurd h0 he2
        rw [List.find?_cons_of_neg _ (by simp [he3]), List.find?_cons_of_neg _ (by simp [he3])]
        exact ih

theorem mapGet_append_of_none {α : Type} {m : List (Key × α)} {k : Key}
    (h : mapGet m k = none) (l : List (Key × α)) :
    mapGet (m ++ l) k = mapGet l k := by
  induction m with
  | nil => rfl
  | cons e rest ih =>
    unfold mapGet at h ⊢
    by_cases he : (e.1 == k) = true
    · rw [List.find?_cons_of_pos _ (by simp [he])] at h
      simp at h
    · have he2 : (e.1 == k) = false := by
        cases h0 : (e.1 == k)
        · rfl
        · exact absurd h0 he
      rw [List.find?_cons_of_neg _ (by simp [he2])] at h
      show ((List.find? _ (e :: (rest ++ l))).map _) = _
      rw [List.find?_cons_of_neg _ (by simp [he2])]
      exact ih h

theorem mapGet_append_of_some {α : Type} {m : List (Key × α)} {k : Key}
    {x : α} (h : mapGet m k = some x) (l : List (Key × α)) :
    mapGet (m ++ l) k = some x := by
  induction m with
  | nil => simp [mapGet] at h
  | cons e rest ih =>
    unfold mapGet at h ⊢
    by_cases he : (e.1 == k) = true
    · rw [List.find?_cons_of_pos _ (by simp [he])] at h
      show ((List.find? _ (e :: (rest ++ l))).map _) = _
      rw [List.find?_cons_of_pos _ (by simp [he])]
      exact h
    · have he2 : (e.1 == k) = false := by
        cases h0 : (e.1 == k)
        · rfl
        · exact absurd h0 he
      rw [List.find?_cons_of_neg _ (by simp [he2])] at h
      show ((List.find? _ (e :: (rest ++ l))).map _) = _
      rw [List.find?_cons_of_neg _ (by simp [he2])]
      exact ih h

theorem mapGet_mapSet_self {α : Type} (m : List (Key × α)) (k : Key) (v : α) :
    mapGet (mapSet m k v) k = some v := by
  unfold mapSet
  by_cases hf : (m.find? (fun e => e.1 == k)).isSome = true
  · rw [if_pos hf]
    exact mapGet_overwrite_found k v m hf
  · rw [if_neg hf]
    have hnone : m.find? (fun e => e.1 == k) = none := by
      cases h0 : m.find? (fun e => e.1 == k) with
      | none => rfl
      | some x =>
        rw [h0] at hf
        simp at hf
    have hmg : mapGet m k = none := by
      unfold mapGet
      rw [hnone]
      rfl
    rw [mapGet_append_of_none hmg]
    unfold mapGet
    rw [List.find?_cons_of_pos _ (by simp)]
    rfl

theorem mapGet_mapSet_other {α : Type} {m : List (Key × α)} {k k2 : Key}
    (hne : k2 ≠ k) (v : α) :
    mapGet (mapSet m k v) k2 = mapGet m k2 := by
  unfold mapSet
  by_cases hf : (m.find? (fun e => e.1 == k)).isSome = true
  · rw [if_pos hf]
    exact mapGet_overwrite_other hne v m
  · rw [if_neg hf]
    cases hmg : mapGet m k2 with
    | some x => rw [mapGet_append_of_some hmg]
    | none =>
      have h1 : mapGet [(k, v)] k2 = none := by
        unfold mapGet
        rw [List.find?_cons_of_neg _ (by simp; exact fun h => hne h.symm)]
        rfl
      rw [mapGet_append_of_none hmg]
      exact h1

theorem mapGet_mapDelete_self {α : Type} (m : List (Key × α)) (k : Key) :
    mapGet (mapDelete m k) k = none := by
  unfold mapDelete mapGet
  cases hf : (m.filter (fun e => e.1 != k)).find? (fun e => e.1 == k) with
  | none => rfl
  | some e =>
    have hmem := List.mem_of_find?_eq_some hf
    have hpred := List.find?_some hf
    rw [List.mem_filter] at hmem
    simp at hpred
    have h2 := hmem.2
    simp [hpred] at h2

theorem mapGet_mapDelete_other {α : Type} {m : List (Key × α)} {k k2 : Key}
    (hne : k2 ≠ k) : mapGet (mapDelete m k) k2 = mapGet m k2 := by
  unfold mapDelete
  induction m with
  | nil => rfl
  | cons e rest ih =>
    by_cases hek : (e.1 != k) = true
    · rw [List.filter_cons_of_pos (by simp at hek ⊢; exact hek)]
      unfold mapGet
      by_cases he2 : (e.1 == k2) = true
      · rw [List.find?_cons_of_pos _ (by simp [he2]), List.find?_cons_of_pos _ (by simp [he2])]
      · have he3 : (e.1 == k2) = false := by
          cases h0 : (e.1 == k2)
          · rfl
          · exact absurd h0 he2
        rw [List.find?_cons_of_neg _ (by simp [he3]), List.find?_cons_of_neg _ (by simp [he3])]
        exact ih
    · have hek2 : (e.1 != k) = false := by
        cases h0 : (e.1 != k)
        · rfl
        · exact absurd h0 hek
      rw [List.filter_cons_of_neg (by simp at hek2 ⊢; exact hek2)]
      have hkk : e.1 = k := by simpa using hek2
      unfold mapGet
      rw [List.find?_cons_of_neg _ (by simp [hkk]; exact fun h => hne h.symm)]
      exact ih

theorem mapDelete_keys_nodup {α : Type} {m : List (Key × α)}
    (h : (keysOf m).Nodup) (k : Key) : (keysOf (mapDelete m k)).Nodup := by
  unfold mapDelete keysOf
  exact List.Nodup.sublist (List.Sublist.map _ (List.filter_sublist _)) h


/-! Sorted mark stores: the rank cut is a filter, and inserting at the rank
commutes with filtering. -/

theorem sorted_take_rank {L : List Mark} {m : Mark} (hs : MarksSorted L) :
    L.take (markRank L m) = L.filter (fun x => decide (cmpMark x m < 0)) := by
  induction L with
  | nil => rfl
  | cons a rest ih =>
    rcases List.pairwise_cons.mp hs with ⟨ha, hrest⟩
    by_cases hlt : cmpMark a m < 0
    · have hr : markRank (a :: rest) m = markRank rest m + 1 := by
        unfold markRank
        rw [List.countP_cons]
        simp [hlt]
      rw [hr, List.take_succ_cons, List.filter_cons_of_pos (by simp [hlt]),
        ih hrest]
    · have hrestzero : ∀ x ∈ rest, ¬cmpMark x m < 0 := by
        intro x hx hcon
        exact hlt (cmpMark_neg_trans (ha x hx) hcon)
      have hr : markRank (a :: rest) m = 0 := by
        unfold markRank
        rw [List.countP_cons]
        have h1 : List.countP (fun x => decide (cmpMark x m < 0)) rest = 0 :=
          List.countP_eq_zero.mpr (fun x hx => by simp [hrestzero x hx])
        simp [h1, hlt]
      rw [hr]
      have h2 : rest.filter (fun x => decide (cmpMark x m < 0)) = [] :=
        List.filter_eq_nil_iff.mpr (fun x hx => by simp [hrestzero x hx])
      rw [List.filter_cons_of_neg (by simp [hlt]), h2]
      rfl

theorem sorted_drop_rank {L : List Mark} {m : Mark} (hs : MarksSorted L) :
    L.drop (markRank L m) =
      L.filter (fun x => !(decide (cmpMark x m < 0))) := by
  induction L with
  | nil => rfl
  | cons a rest ih =>
    rcases List.pairwise_cons.mp hs with ⟨ha, hrest⟩
    by_cases hlt : cmpMark a m < 0
    · have hr : markRank (a :: rest) m = markRank rest m + 1 := by
        unfold markRank
        rw [List.countP_cons]
        simp [hlt]
      rw [hr, List.drop_succ_cons, List.filter_cons_of_neg (by simp [hlt]),
        ih hrest]
    · have hrestzero : ∀ x ∈ rest, ¬cmpMark x m < 0 := by
        intro x hx hcon
        exact hlt (cmpMark_neg_trans (ha x hx) hcon)
      have hr : markRank (a :: rest) m = 0 := by
        unfold markRank
        rw [List.countP_cons]
        have h1 : List.countP (fun x => decide (cmpMark x m < 0)) rest = 0 :=
          List.countP_eq_zero.mpr (fun x hx => by simp [hrestzero x hx])
        simp [h1, hlt]
      rw [hr]
      have h2 : rest.filter (fun x => !(decide (cmpMark x m < 0))) = rest :=
        List.filter_eq_self.mpr (fun x hx => by simp [hrestzero x hx])
      rw [List.filter_cons_of_pos (by simp [hlt]), h2]
      rfl

theorem insertIdx_rank_filter_pos {L : List Mark} {m : Mark}
    (hs : MarksSorted L) {p : Mark → Bool} (hm : p m = true) :
    (L.insertIdx (markRank L m) m).filter p =
      (L.filter p).insertIdx (markRank (L.filter p) m) m := by
  rw [insertIdx_eq_take_cons_drop _ L _ (markRank_le_length L m),
      insertIdx_eq_take_cons_drop _ (L.filter p) _ (markRank_le_length _ _),
      List.filter_append, List.filter_cons_of_pos (by simp [hm]),
      sorted_take_rank hs, sorted_drop_rank hs,
      sorted_take_rank (List.Pairwise.filter p hs),
      sorted_drop_rank (List.Pairwise.filter p hs),
      List.filter_comm, List.filter_comm p]

theorem insertIdx_rank_filter_neg {L : List Mark} {m : Mark}
    {p : Mark → Bool} (hm : p m = false) :
    (L.insertIdx (markRank L m) m).filter p = L.filter p := by
  rw [insertIdx_eq_take_cons_drop _ L _ (markRank_le_length L m),
      List.filter_append, List.filter_cons_of_neg (by simp [hm]),
      ← List.filter_append, List.take_append_drop]

theorem canonStack_insert_covered {L : List Mark} {m : Mark} {a : Anchor}
    (hs : MarksSorted L) (hcov : covers m a = true) :
    canonStack (L.insertIdx (markRank L m) m) a m.key =
      (canonStack L a m.key).insertIdx
        (markRank (canonStack L a m.key) m) m := by
  unfold canonStack
  exact insertIdx_rank_filter_pos hs (by simp [hcov])

theorem canonStack_insert_other {L : List Mark} {m : Mark} {a : Anchor}
    {k : Key} (h : m.key ≠ k ∨ covers m a = false) :
    canonStack (L.insertIdx (markRank L m) m) a k = canonStack L a k := by
  unfold canonStack
  apply insertIdx_rank_filter_neg
  rcases h with h | h
  · simp [h]
  · simp [h]

theorem getD_stack_eq {L : List Mark} {a : Anchor} {M : AMap}
    (hok : sideOK L a M) (k : Key) :
    (mapGet M k).getD [] = canonStack L a k := by
  rw [hok.2 k]
  by_cases h : canonStack L a k = []
  · rw [if_pos h, h]
    rfl
  · rw [if_neg h]
    rfl

/-- Inserting a mark into a covered anchor side preserves the canonical
stacks, with the store growing by the mark at its rank. -/
theorem addToAnchorD_sideOK {L : List Mark} {m : Mark} {a : Anchor} {M : AMap}
    (hok : sideOK L a M) (hs : MarksSorted L) (hcov : covers m a = true) :
    sideOK (L.insertIdx (markRank L m) m) a (addToAnchorD M m) := by
  have hstk : (mapGet M m.key).getD [] = canonStack L a m.key :=
    getD_stack_eq hok m.key
  have hsorted_stack : MarksSorted (canonStack L a m.key) :=
    List.Pairwise.filter _ hs
  have hloc : locateMark ((mapGet M m.key).getD []) m =
      markRank (canonStack L a m.key) m := by
    rw [hstk]
    exact locateMark_eq_rank hsorted_stack
  unfold addToAnchorD
  constructor
  · exact mapSet_keys_nodup hok.1 _ _
  · intro k
    by_cases hk : k = m.key
    · subst hk
      rw [mapGet_mapSet_self, canonStack_insert_covered hs hcov]
      have hne : (canonStack L a m.key).insertIdx
          (markRank (canonStack L a m.key) m) m ≠ [] := by
        rw [insertIdx_eq_take_cons_drop _ _ _ (markRank_le_length _ _)]
        intro h0
        rcases List.append_eq_nil.mp h0 with ⟨_, h2⟩
        cases h2
      rw [if_neg hne, hloc, hstk]
    · rw [mapGet_mapSet_other hk, hok.2 k,
        canonStack_insert_other (Or.inl (fun h => hk h.symm))]

theorem sideOK_insert_uncovered {L : List Mark} {m : Mark} {a : Anchor}
    {M : AMap} (hok : sideOK L a M) (hcov : covers m a = false) :
    sideOK (L.insertIdx (markRank L m) m) a M := by
  refine ⟨hok.1, fun k => ?_⟩
  rw [hok.2 k, canonStack_insert_other (Or.inr hcov)]


theorem flGet_map_upd {m : Mark} {fl : FL} {q : Pos} :
    flGet (fl.map (markEntryUpd m)) q =
      (flGet fl q).map (fun d => (markEntryUpd m (q, d)).2) := by
  unfold flGet
  rw [List.find?_map]
  have hp : ((fun (e : Pos × FormatData) => e.1 == q) ∘ (markEntryUpd m)) =
      (fun (e : Pos × FormatData) => e.1 == q) := by
    funext e
    rcases e with ⟨p, d⟩
    rfl
  rw [hp]
  cases hf : fl.find? (fun e => e.1 == q) with
  | none => rfl
  | some e =>
    have hpred := List.find?_some hf
    rcases e with ⟨p, d⟩
    simp at hpred
    subst hpred
    rfl

theorem sideGet_map_upd {m : Mark} {fl : FL} {a : Anchor} :
    sideGet (fl.map (markEntryUpd m)) a =
      (sideGet fl a).map
        (fun M => if covers m a then addToAnchorD M m else M) := by
  rcases a with ⟨q, s⟩
  unfold sideGet
  cases s with
  | true =>
    rw [if_pos rfl, if_pos rfl, flGet_map_upd]
    cases hget : flGet fl q with
    | none => rfl
    | some d =>
      cases hdb : d.before with
      | none => simp [markEntryUpd, hdb]
      | some bd => simp [markEntryUpd, hdb]
  | false =>
    rw [if_neg (by simp), if_neg (by simp), flGet_map_upd]
    cases hget : flGet fl q with
    | none => rfl
    | some d =>
      cases hda : d.after with
      | none => simp [markEntryUpd, hda]
      | some ad => simp [markEntryUpd, hda]

theorem mem_insertIdx_rank {L : List Mark} {m x : Mark} :
    x ∈ L.insertIdx (markRank L m) m ↔ x = m ∨ x ∈ L := by
  rw [insertIdx_eq_take_cons_drop _ L _ (markRank_le_length L m)]
  constructor
  · intro h
    rcases List.mem_append.mp h with h1 | h1
    · exact Or.inr (List.mem_of_mem_take h1)
    · rcases List.mem_cons.mp h1 with h2 | h2
      · exact Or.inl h2
      · exact Or.inr (List.mem_of_mem_drop h2)
  · rintro (rfl | h1)
    · exact List.mem_append.mpr (Or.inr (List.mem_cons_self _ _))
    · rw [← List.take_append_drop (markRank L m) L] at h1
      rcases List.mem_append.mp h1 with h2 | h2
      · exact List.mem_append.mpr (Or.inl h2)
      · exact List.mem_append.mpr (Or.inr (List.mem_cons_of_mem _ h2))

theorem marksSorted_insertIdx_rank {L : List Mark} {m : Mark}
    (hs : MarksSorted L) (hno : ∀ x ∈ L, cmpMark x m ≠ 0) :
    MarksSorted (L.insertIdx (markRank L m) m) := by
  rw [insertIdx_eq_take_cons_drop _ L _ (markRank_le_length L m)]
  have hsplit := List.take_append_drop (markRank L m) L
  have hs2 : MarksSorted (L.take (markRank L m) ++ L.drop (markRank L m)) := by
    rw [hsplit]
    exact hs
  rcases List.pairwise_append.mp hs2 with ⟨hA, hB, hAB⟩
  apply List.pairwise_append.mpr
  refine ⟨hA, ?_, ?_⟩
  · apply List.pairwise_cons.mpr
    refine ⟨?_, hB⟩
    intro b hb
    have hbf : b ∈ L.filter (fun x => !(decide (cmpMark x m < 0))) := by
      rw [← sorted_drop_rank hs]
      exact hb
    rw [List.mem_filter] at hbf
    have hnotlt : ¬cmpMark b m < 0 := by
      have h2 := hbf.2
      simp at h2
      omega
    have hne : cmpMark b m ≠ 0 := hno b hbf.1
    have hgt : cmpMark b m > 0 := by
      rcases cmpMark_trichotomy b m with h | h | h
      · exact absurd h hnotlt
      · exact absurd h hne
      · exact h
    exact (cmpMark_swap m b).mpr hgt
  · intro a ha b hb
    rcases List.mem_cons.mp hb with hbm | hb2
    · have haf : a ∈ L.filter (fun x => decide (cmpMark x m < 0)) := by
        rw [← sorted_take_rank hs]
        exact ha
      rw [List.mem_filter] at haf
      have h2 := haf.2
      simp at h2
      rw [hbm]
      exact h2
    · exact hAB a ha b hb2

theorem no_equal_of_guard_false {L : List Mark} {m : Mark}
    (hs : MarksSorted L)
    (hguard : ¬(markRank L m < L.length ∧
      cmpMark m (L.getD (markRank L m) mDefault) = 0)) :
    ∀ x ∈ L, cmpMark x m ≠ 0 := by
  intro x hx hzero
  obtain ⟨i, hi⟩ := List.mem_iff_get.mp hx
  have hilen : i.val < L.length := i.isLt
  have hnotlt : ¬cmpMark (L.get i) m < 0 := by
    rw [hi, hzero]
    omega
  have hige : markRank L m ≤ i.val := by
    by_contra hcon
    exact hnotlt ((sorted_get_lt_iff hs m hilen).mpr (by omega))
  have hieq : markRank L m = i.val := by
    by_contra hcon
    have hlt2 : markRank L m < i.val := by omega
    have hrlen : markRank L m < L.length := by omega
    have hpair := List.pairwise_iff_get.mp hs ⟨markRank L m, hrlen⟩ i
      (by simpa using hlt2)
    have h3 : cmpMark (L.get ⟨markRank L m, hrlen⟩) m < 0 := by
      have := cmpMark_neg_of_neg_of_zero hpair (by rw [hi]; exact hzero)
      exact this
    have h4 := (sorted_get_lt_iff hs m hrlen).mp h3
    omega
  apply hguard
  have hrlen : markRank L m < L.length := by omega
  refine ⟨hrlen, ?_⟩
  rw [getD_eq_get hrlen]
  have hx2 : L.get ⟨markRank L m, hrlen⟩ = x := by
    rw [← hi]
    congr 1
    exact Fin.ext hieq
  rw [hx2]
  exact cmpMark_zero_symm (by rw [← hzero])


theorem flGet_isSome_of_sideGet {fl : FL} {a : Anchor} {M : AMap}
    (h : sideGet fl a = some M) : a.pos ∈ fl.map Prod.fst := by
  unfold sideGet at h
  by_cases hb : a.before = true
  · rw [if_pos hb] at h
    obtain ⟨d, hget, _⟩ := Option.bind_eq_some.mp h
    by_contra hcon
    rw [flGet_eq_none_iff.mpr hcon] at hget
    cases hget
  · rw [if_neg hb] at h
    obtain ⟨d, hget, _⟩ := Option.bind_eq_some.mp h
    by_contra hcon
    rw [flGet_eq_none_iff.mpr hcon] at hget
    cases hget

theorem Canon.intro2 {L2 : List Mark} {fl2 : FL}
    (h1 : FLInv fl2) (h2 : MarksSorted L2)
    (h3 : ∀ x ∈ L2, x.validAnchors = true ∧ rangeBad x = false)
    (h4 : ∀ x ∈ L2, (sideGet fl2 x.start).isSome = true ∧
      (sideGet fl2 x.stop).isSome = true)
    (h5 : ∀ a M, sideGet fl2 a = some M → sideOK L2 a M) :
    Canon { orderedMarks := L2, formatList := fl2 } :=
  ⟨h1, h2, h3, h4, h5⟩

/-- `addMark` preserves the resolution invariant. -/
theorem addMark_canon {s : FmtState} {m : Mark} (hc : Canon s)
    (hv : m.validAnchors = true) : Canon (addMark s m).1 := by
  by_cases hguard : locateMark s.orderedMarks m < s.orderedMarks.length ∧
      cmpMark m (s.orderedMarks.getD (locateMark s.orderedMarks m) mDefault) = 0
  · have h1 : (addMark s m).1 = s := by
      simp only [addMark]
      rw [if_pos hguard]
    rw [h1]
    exact hc
  · cases hrb : rangeBad m with
    | true =>
      have h1 : (addMark s m).1 = s := by
        simp only [addMark]
        rw [if_neg hguard, if_pos hrb]
      rw [h1]
      exact hc
    | false =>
      have hms : MarksSorted s.orderedMarks := hc.msorted
      have hloc : locateMark s.orderedMarks m = markRank s.orderedMarks m :=
        locateMark_eq_rank hms
      have hguard2 : ¬(markRank s.orderedMarks m < s.orderedMarks.length ∧
          cmpMark m (s.orderedMarks.getD (markRank s.orderedMarks m)
            mDefault) = 0) := by
        rw [← hloc]
        exact hguard
      have hno : ∀ x ∈ s.orderedMarks, cmpMark x m ≠ 0 :=
        no_equal_of_guard_false hms hguard2
      have hrange : Anchor.blt m.start m.stop = true := by
        cases h0 : Anchor.blt m.start m.stop with
        | true => rfl
        | false =>
          have h2 := (rangeBad_iff m).mpr h0
          rw [hrb] at h2
          cases h2
      have hvs : m.start.valid = true ∧ m.stop.valid = true := by
        unfold Mark.validAnchors at hv
        simpa using hv
      have hfc0 : FlCanon s.orderedMarks s.formatList :=
        ⟨hc.flinv, hc.ends, hc.sides⟩
      obtain ⟨hfc1, hpres1⟩ := createData_flCanon hfc0 hvs.1
      obtain ⟨hfc2, hpres2⟩ := createData_flCanon hfc1 hvs.2
      have hpres1b : (sideGet (createData (createData s.formatList m.start)
          m.stop) m.start).isSome = true := by
        obtain ⟨M, hM⟩ := Option.isSome_iff_exists.mp hpres1
        rw [createData_sideGet_pres hM]
        rfl
      have hmem_s : m.start.pos ∈
          ((createData (createData s.formatList m.start) m.stop).map
            Prod.fst) := by
        obtain ⟨M, hM⟩ := Option.isSome_iff_exists.mp hpres1b
        exact flGet_isSome_of_sideGet hM
      have hmem_e : m.stop.pos ∈
          ((createData (createData s.formatList m.start) m.stop).map
            Prod.fst) := by
        obtain ⟨M, hM⟩ := Option.isSome_iff_exists.mp hpres2
        exact flGet_isSome_of_sideGet hM
      have hloopeq := addLoop_eq_map sbEmpty
        hfc2.1.sorted hrange hmem_s hmem_e
      have hstate : (addMark s m).1 =
          { orderedMarks := s.orderedMarks.insertIdx
              (locateMark s.orderedMarks m) m,
            formatList := (createData (createData s.formatList m.start)
              m.stop).map (markEntryUpd m) } := by
        simp only [addMark]
        rw [if_neg hguard, if_neg (by rw [hrb]; simp), hloopeq]
      rw [hstate, hloc]
      exact Canon.intro2
        (by
          have h1 := addLoop_inv m
            (flRank (createData (createData s.formatList m.start) m.stop)
              m.start.pos)
            (flRank (createData (createData s.formatList m.start) m.stop)
              m.stop.pos)
            (createData (createData s.formatList m.start) m.stop) sbEmpty
            (flRank (createData (createData s.formatList m.start) m.stop)
              m.start.pos) hfc2.1
          rw [hloopeq] at h1
          exact h1)
        (marksSorted_insertIdx_rank hms hno)
        (by
          intro x hx
          rcases mem_insertIdx_rank.mp hx with hxm | hxL
          · rw [hxm]
            exact ⟨hv, hrb⟩
          · exact hc.good x hxL)
        (by
          intro x hx
          have hpx : (sideGet (createData (createData s.formatList m.start)
              m.stop) x.start).isSome = true ∧
              (sideGet (createData (createData s.formatList m.start)
                m.stop) x.stop).isSome = true := by
            rcases mem_insertIdx_rank.mp hx with hxm | hxL
            · rw [hxm]
              exact ⟨hpres1b, hpres2⟩
            · exact hfc2.2.1 x hxL
          constructor
          · rw [sideGet_map_upd]
            obtain ⟨M, hM⟩ := Option.isSome_iff_exists.mp hpx.1
            rw [hM]
            rfl
          · rw [sideGet_map_upd]
            obtain ⟨M, hM⟩ := Option.isSome_iff_exists.mp hpx.2
            rw [hM]
            rfl)
        (by
          intro a M' hM'
          rw [sideGet_map_upd] at hM'
          cases hM2 : sideGet (createData (createData s.formatList m.start)
              m.stop) a with
          | none =>
            rw [hM2] at hM'
            cases hM'
          | some M =>
            rw [hM2] at hM'
            injection hM' with hM3
            have hM4 : (if covers m a = true then addToAnchorD M m else M) =
              M' := hM3
            have hok : sideOK s.orderedMarks a M := hfc2.2.2 a M hM2
            cases hcov : covers m a with
            | true =>
              rw [if_pos hcov] at hM4
              rw [← hM4]
              exact addToAnchorD_sideOK hok hms hcov
            | false =>
              rw [if_neg (by simp [hcov])] at hM4
              rw [← hM4]
              exact sideOK_insert_uncovered hok hcov)


theorem initState_canon : Canon initState := by
  refine ⟨initState_flInv, List.Pairwise.nil, ?_, ?_, ?_⟩
  · intro x hx
    cases hx
  · intro x hx
    cases hx
  · intro a M hM
    have hM0 : M = [] := by
      rcases a with ⟨p, b⟩
      by_cases hp : p = Pos.minP
      · subst hp
        cases b with
        | true =>
          have h1 : sideGet initState.formatList ⟨Pos.minP, true⟩ = none := rfl
          rw [h1] at hM
          cases hM
        | false =>
          have h1 : sideGet initState.formatList ⟨Pos.minP, false⟩ =
              some [] := rfl
          rw [h1] at hM
          injection hM with h2
          exact h2.symm
      · have h0 : flGet [((Pos.minP, { after := some [] }) : Pos × FormatData)] p =
            none := by
          unfold flGet
          rw [List.find?_cons_of_neg _ (by simp; exact fun h => hp h.symm)]
          rfl
        have h1 : flGet initState.formatList p = none := h0
        unfold sideGet at hM
        cases b with
        | true =>
          rw [if_pos rfl, h1] at hM
          cases hM
        | false =>
          rw [if_neg (by simp), h1] at hM
          cases hM
    subst hM0
    refine ⟨by simp [keysOf], ?_⟩
    intro k
    have h1 : canonStack initState.orderedMarks a k = [] := rfl
    rw [h1, if_pos rfl]
    rfl

theorem guard_false_of_no_equal {L : List Mark} {m : Mark}
    (hs : MarksSorted L) (hno : ∀ x ∈ L, cmpMark x m ≠ 0) :
    ¬(locateMark L m < L.length ∧
      cmpMark m (L.getD (locateMark L m) mDefault) = 0) := by
  rintro ⟨h1, h2⟩
  rw [locateMark_eq_rank hs] at h1 h2
  have hmem : L.getD (markRank L m) mDefault ∈ L := by
    rw [getD_eq_get h1]
    exact List.get_mem _ _ _
  exact hno _ hmem (cmpMark_zero_symm h2)

/-- The state after an accepted `addMark`: the mark inserted at its rank and
every covered anchor side updated entrywise. -/
theorem addMark_accepted {s : FmtState} {m : Mark} (hc : Canon s)
    (hguard : ¬(locateMark s.orderedMarks m < s.orderedMarks.length ∧
      cmpMark m (s.orderedMarks.getD (locateMark s.orderedMarks m)
        mDefault) = 0))
    (hrb : rangeBad m = false) (hv : m.validAnchors = true) :
    (addMark s m).1 =
      { orderedMarks := s.orderedMarks.insertIdx
          (locateMark s.orderedMarks m) m,
        formatList := (createData (createData s.formatList m.start)
          m.stop).map (markEntryUpd m) } := by
  have hrange : Anchor.blt m.start m.stop = true := by
    cases h0 : Anchor.blt m.start m.stop with
    | true => rfl
    | false =>
      have h2 := (rangeBad_iff m).mpr h0
      rw [hrb] at h2
      cases h2
  have hvs : m.start.valid = true ∧ m.stop.valid = true := by
    unfold Mark.validAnchors at hv
    simpa using hv
  have hfc0 : FlCanon s.orderedMarks s.formatList :=
    ⟨hc.flinv, hc.ends, hc.sides⟩
  obtain ⟨hfc1, hpres1⟩ := createData_flCanon hfc0 hvs.1
  obtain ⟨hfc2, hpres2⟩ := createData_flCanon hfc1 hvs.2
  have hpres1b : (sideGet (createData (createData s.formatList m.start)
      m.stop) m.start).isSome = true := by
    obtain ⟨M, hM⟩ := Option.isSome_iff_exists.mp hpres1
    rw [createData_sideGet_pres hM]
    rfl
  have hmem_s : m.start.pos ∈
      ((createData (createData s.formatList m.start) m.stop).map
        Prod.fst) := by
    obtain ⟨M, hM⟩ := Option.isSome_iff_exists.mp hpres1b
    exact flGet_isSome_of_sideGet hM
  have hmem_e : m.stop.pos ∈
      ((createData (createData s.formatList m.start) m.stop).map
        Prod.fst) := by
    obtain ⟨M, hM⟩ := Option.isSome_iff_exists.mp hpres2
    exact flGet_isSome_of_sideGet hM
  have hloopeq := addLoop_eq_map sbEmpty
    hfc2.1.sorted hrange hmem_s hmem_e
  simp only [addMark]
  rw [if_neg hguard, if_neg (by rw [hrb]; simp), hloopeq]

/-- Any side present after an accepted `addMark` was present before or is an
endpoint of the new mark. -/
theorem addMark_presence {s : FmtState} {m : Mark} (hc : Canon s)
    (hguard : ¬(locateMark s.orderedMarks m < s.orderedMarks.length ∧
      cmpMark m (s.orderedMarks.getD (locateMark s.orderedMarks m)
        mDefault) = 0))
    (hrb : rangeBad m = false) (hv : m.validAnchors = true) {a : Anchor}
    (h : (sideGet (addMark s m).1.formatList a).isSome = true) :
    (sideGet s.formatList a).isSome = true ∨ a = m.start ∨ a = m.stop := by
  by_cases hstop : a = m.stop
  · exact Or.inr (Or.inr hstop)
  by_cases hstart : a = m.start
  · exact Or.inr (Or.inl hstart)
  left
  rw [addMark_accepted hc hguard hrb hv] at h
  have h2 : (sideGet ((createData (createData s.formatList m.start)
      m.stop).map (markEntryUpd m)) a).isSome = true := h
  rw [sideGet_map_upd, Option.isSome_map',
    createData_sideGet_other hstop, createData_sideGet_other hstart] at h2
  exact h2


/-- Apply a list of marks through `addMark` from a fresh `Formatting`. -/
def applyAdds (l : List Mark) : FmtState :=
  l.foldl (fun s mk => (addMark s mk).1) initState

theorem initState_presence {a : Anchor}
    (h : (sideGet initState.formatList a).isSome = true) : a = MIN_ANCHOR := by
  rcases a with ⟨p, b⟩
  by_cases hp : p = Pos.minP
  · subst hp
    cases b with
    | true =>
      have h1 : sideGet initState.formatList ⟨Pos.minP, true⟩ = none := rfl
      rw [h1] at h
      cases h
    | false => rfl
  · obtain ⟨M, hM⟩ := Option.isSome_iff_exists.mp h
    have hmem := flGet_isSome_of_sideGet hM
    simp [initState] at hmem
    exact absurd hmem hp

theorem foldAdds_invariant :
    ∀ (l : List Mark) (s : FmtState) (done : List Mark),
    Canon s →
    (∀ x, x ∈ s.orderedMarks ↔ x ∈ done) →
    (∀ a, (sideGet s.formatList a).isSome = true →
      (a = MIN_ANCHOR ∨ ∃ mk ∈ done, a = mk.start ∨ a = mk.stop)) →
    (∀ mk ∈ l, mk.validAnchors = true ∧ rangeBad mk = false) →
    (∀ mk ∈ l, ∀ x ∈ done, cmpMark x mk ≠ 0) →
    List.Pairwise (fun x y => cmpMark x y ≠ 0) l →
    Canon (l.foldl (fun s mk => (addMark s mk).1) s) ∧
    (∀ x, x ∈ (l.foldl (fun s mk => (addMark s mk).1) s).orderedMarks ↔
      (x ∈ done ∨ x ∈ l)) ∧
    (∀ a, (sideGet (l.foldl (fun s mk => (addMark s mk).1) s).formatList
        a).isSome = true →
      (a = MIN_ANCHOR ∨ ∃ mk, (mk ∈ done ∨ mk ∈ l) ∧
        (a = mk.start ∨ a = mk.stop))) := by
  intro l
  induction l with
  | nil =>
    intro s done hc hmem hpres _ _ _
    refine ⟨hc, ?_, ?_⟩
    · intro x
      simp [hmem x]
    · intro a ha
      rcases hpres a ha with h | ⟨mk, hmk, h2⟩
      · exact Or.inl h
      · exact Or.inr ⟨mk, Or.inl hmk, h2⟩
  | cons m rest ih =>
    intro s done hc hmem hpres hgood hfresh hdist
    have hno : ∀ x ∈ s.orderedMarks, cmpMark x m ≠ 0 := by
      intro x hx
      exact hfresh m (List.mem_cons_self _ _) x ((hmem x).mp hx)
    have hguard := guard_false_of_no_equal hc.msorted hno
    have hgm := hgood m (List.mem_cons_self _ _)
    have hstate := addMark_accepted hc hguard hgm.2 hgm.1
    have hc2 := addMark_canon hc hgm.1
    have hmem2 : ∀ x, x ∈ (addMark s m).1.orderedMarks ↔
        (x = m ∨ x ∈ done) := by
      intro x
      rw [hstate]
      show x ∈ s.orderedMarks.insertIdx (locateMark s.orderedMarks m) m ↔ _
      rw [locateMark_eq_rank hc.msorted, mem_insertIdx_rank]
      constructor
      · rintro (h | h)
        · exact Or.inl h
        · exact Or.inr ((hmem x).mp h)
      · rintro (h | h)
        · exact Or.inl h
        · exact Or.inr ((hmem x).mpr h)
    have hpres2 : ∀ a, (sideGet (addMark s m).1.formatList a).isSome = true →
        (a = MIN_ANCHOR ∨ ∃ mk, (mk = m ∨ mk ∈ done) ∧
          (a = mk.start ∨ a = mk.stop)) := by
      intro a ha
      rcases addMark_presence hc hguard hgm.2 hgm.1 ha with h | h | h
      · rcases hpres a h with h2 | ⟨mk, hmk, h3⟩
        · exact Or.inl h2
        · exact Or.inr ⟨mk, Or.inr hmk, h3⟩
      · exact Or.inr ⟨m, Or.inl rfl, Or.inl h⟩
      · exact Or.inr ⟨m, Or.inl rfl, Or.inr h⟩
    rcases List.pairwise_cons.mp hdist with ⟨hdm, hdrest⟩
    have hres := ih (addMark s m).1 (m :: done) hc2
      (by
        intro x
        rw [hmem2 x]
        constructor
        · rintro (h | h)
          · exact List.mem_cons.mpr (Or.inl h)
          · exact List.mem_cons_of_mem _ h
        · intro h
          rcases List.mem_cons.mp h with h | h
          · exact Or.inl h
          · exact Or.inr h)
      (by
        intro a ha
        rcases hpres2 a ha with h | ⟨mk, hmk, h2⟩
        · exact Or.inl h
        · refine Or.inr ⟨mk, ?_, h2⟩
          rcases hmk with h3 | h3
          · rw [h3]
            exact List.mem_cons_self _ _
          · exact List.mem_cons_of_mem _ h3)
      (fun mk hmk => hgood mk (List.mem_cons_of_mem _ hmk))
      (by
        intro mk hmk x hx
        rcases List.mem_cons.mp hx with h3 | h3
        · rw [h3]
          exact hdm mk hmk
        · exact hfresh mk (List.mem_cons_of_mem _ hmk) x h3)
      hdrest
    refine ⟨hres.1, ?_, ?_⟩
    · intro x
      rw [show (m :: rest).foldl (fun s mk => (addMark s mk).1) s =
        rest.foldl (fun s mk => (addMark s mk).1) (addMark s m).1 from rfl,
        hres.2.1 x]
      constructor
      · rintro (h | h)
        · rcases List.mem_cons.mp h with h2 | h2
          · exact Or.inr (List.mem_cons.mpr (Or.inl h2))
          · exact Or.inl h2
        · exact Or.inr (List.mem_cons_of_mem _ h)
      · rintro (h | h)
        · exact Or.inl (List.mem_cons_of_mem _ h)
        · rcases List.mem_cons.mp h with h2 | h2
          · exact Or.inl (List.mem_cons.mpr (Or.inl h2))
          · exact Or.inr h2
    · intro a ha
      have ha2 : (sideGet (rest.foldl (fun s mk => (addMark s mk).1)
          (addMark s m).1).formatList a).isSome = true := ha
      rcases hres.2.2 a ha2 with h | ⟨mk, hmk, h2⟩
      · exact Or.inl h
      · refine Or.inr ⟨mk, ?_, h2⟩
        rcases hmk with h3 | h3
        · rcases List.mem_cons.mp h3 with h4 | h4
          · exact Or.inr (List.mem_cons.mpr (Or.inl h4))
          · exact Or.inl h4
        · exact Or.inr (List.mem_cons_of_mem _ h3)

theorem applyAdds_canon {l : List Mark}
    (hdist : List.Pairwise (fun x y => cmpMark x y ≠ 0) l)
    (hgood : ∀ mk ∈ l, mk.validAnchors = true ∧ rangeBad mk = false) :
    Canon (applyAdds l) ∧
    (∀ x, x ∈ (applyAdds l).orderedMarks ↔ x ∈ l) ∧
    (∀ a, (sideGet (applyAdds l).formatList a).isSome = true →
      (a = MIN_ANCHOR ∨ ∃ mk ∈ l, a = mk.start ∨ a = mk.stop)) := by
  unfold applyAdds
  have h := foldAdds_invariant l initState [] initState_canon
    (by
      intro x
      constructor
      · intro hx
        cases hx
      · intro hx
        cases hx)
    (fun a ha => Or.inl (initState_presence ha))
    hgood
    (by
      intro mk _ x hx
      cases hx)
    hdist
  refine ⟨h.1, ?_, ?_⟩
  · intro x
    rw [h.2.1 x]
    constructor
    · rintro (h2 | h2)
      · cases h2
      · exact h2
    · exact Or.inr
  · intro a ha
    rcases h.2.2 a ha with h2 | ⟨mk, hmk, h3⟩
    · exact Or.inl h2
    · rcases hmk with h4 | h4
      · cases h4
      · exact Or.inr ⟨mk, h4, h3⟩

theorem applyAdds_marks_eq {l1 l2 : List Mark}
    (hperm : l1.Perm l2)
    (hdist : List.Pairwise (fun x y => cmpMark x y ≠ 0) l1)
    (hgood : ∀ mk ∈ l1, mk.validAnchors = true ∧ rangeBad mk = false) :
    (applyAdds l1).orderedMarks = (applyAdds l2).orderedMarks := by
  have hdist2 : List.Pairwise (fun x y => cmpMark x y ≠ 0) l2 :=
    (hperm.pairwise_iff (fun h0 => fun hz => h0 (cmpMark_zero_symm hz))).mp
      hdist
  have hgood2 : ∀ mk ∈ l2, mk.validAnchors = true ∧ rangeBad mk = false :=
    fun mk hmk => hgood mk (hperm.mem_iff.mpr hmk)
  obtain ⟨hc1, hm1, _⟩ := applyAdds_canon hdist hgood
  obtain ⟨hc2, hm2, _⟩ := applyAdds_canon hdist2 hgood2
  have hnd1 : (applyAdds l1).orderedMarks.Nodup := by
    apply List.Pairwise.imp ?_ hc1.msorted
    intro a b hab
    intro h0
    rw [h0] at hab
    have : cmpMark b b = 0 := cmpMark_zero_iff.mpr ⟨rfl, rfl⟩
    omega
  have hnd2 : (applyAdds l2).orderedMarks.Nodup := by
    apply List.Pairwise.imp ?_ hc2.msorted
    intro a b hab
    intro h0
    rw [h0] at hab
    have : cmpMark b b = 0 := cmpMark_zero_iff.mpr ⟨rfl, rfl⟩
    omega
  haveI : IsAntisymm Mark (fun a b => cmpMark a b < 0) := by
    constructor
    intro a b h1 h2
    have := (cmpMark_swap a b).mp h1
    omega
  apply List.eq_of_perm_of_sorted ?_ hc1.msorted hc2.msorted
  apply (List.perm_ext_iff_of_nodup hnd1 hnd2).mpr
  intro x
  rw [hm1 x, hm2 x]
  exact hperm.mem_iff


/-! Congruence of the span builder under record equality: records that agree
pointwise as key-value maps drive identical builder decisions. -/

/-- Two records agreeing pointwise (with duplicate-free keys): the JS notion
of being the same `Record<string, any>`. -/
def RRel (r1 r2 : Record) : Prop :=
  (keysOf r1).Nodup ∧ (keysOf r2).Nodup ∧ ∀ k, mapGet r1 k = mapGet r2 k

theorem mapGet_mem {α : Type} {m : List (Key × α)} {k : Key} {v : α}
    (h : mapGet m k = some v) : (k, v) ∈ m := by
  unfold mapGet at h
  cases hf : m.find? (fun e => e.1 == k) with
  | none =>
    rw [hf] at h
    cases h
  | some e =>
    rw [hf] at h
    injection h with h2
    have hmem := List.mem_of_find?_eq_some hf
    have hpred := List.find?_some hf
    rcases e with ⟨k3, v3⟩
    simp at hpred
    have h3 : v3 = v := h2
    rw [← hpred, ← h3]
    exact hmem

theorem equalsRecord_iff_mapGet {r1 r2 : Record}
    (h1 : (keysOf r1).Nodup) (h2 : (keysOf r2).Nodup) :
    equalsRecord r1 r2 = true ↔ ∀ k, mapGet r1 k = mapGet r2 k := by
  constructor
  · intro h k
    unfold equalsRecord at h
    rw [Bool.and_eq_true, List.all_eq_true, List.all_eq_true] at h
    cases hg : mapGet r1 k with
    | some v =>
      have hmem := mapGet_mem hg
      have h3 := h.1 (k, v) hmem
      simp at h3
      exact h3.symm
    | none =>
      cases hg2 : mapGet r2 k with
      | none => rfl
      | some w =>
        have hmem := mapGet_mem hg2
        have h3 := h.2 (k, w) hmem
        simp at h3
        rw [h3] at hg
        cases hg
  · intro h
    unfold equalsRecord
    rw [Bool.and_eq_true, List.all_eq_true, List.all_eq_true]
    constructor
    · intro e he
      have hg : mapGet r1 e.1 = some e.2 := mapGet_of_mem_nodup h1 (by
        rcases e with ⟨a, b⟩
        exact he)
      have hg2 : mapGet r2 e.1 = some e.2 := by
        rw [← h e.1]
        exact hg
      simp [hg2]
    · intro e he
      have hg : mapGet r2 e.1 = some e.2 := mapGet_of_mem_nodup h2 (by
        rcases e with ⟨a, b⟩
        exact he)
      have hg2 : mapGet r1 e.1 = some e.2 := by
        rw [h e.1]
        exact hg
      simp [hg2]

theorem equalsRecord_congr {r1 r2 s1 s2 : Record}
    (hr : RRel r1 r2) (hs : RRel s1 s2) :
    equalsRecord r1 s1 = equalsRecord r2 s2 := by
  cases h1 : equalsRecord r1 s1 with
  | true =>
    have hpt := (equalsRecord_iff_mapGet hr.1 hs.1).mp h1
    have h2 : equalsRecord r2 s2 = true :=
      (equalsRecord_iff_mapGet hr.2.1 hs.2.1).mpr
        (fun k => by rw [← hr.2.2 k, ← hs.2.2 k]; exact hpt k)
    rw [h2]
  | false =>
    cases h2 : equalsRecord r2 s2 with
    | false => rfl
    | true =>
      have hpt := (equalsRecord_iff_mapGet hr.2.1 hs.2.1).mp h2
      have h3 : equalsRecord r1 s1 = true :=
        (equalsRecord_iff_mapGet hr.1 hs.1).mpr
          (fun k => by rw [hr.2.2 k, hs.2.2 k]; exact hpt k)
      rw [h3] at h1
      cases h1

theorem forall2_getLast? {α β : Type} {R : α → β → Prop} :
    ∀ {l1 : List α} {l2 : List β}, List.Forall₂ R l1 l2 →
    (l1.getLast? = none ∧ l2.getLast? = none) ∨
    (∃ x y, l1.getLast? = some x ∧ l2.getLast? = some y ∧ R x y) := by
  intro l1
  induction l1 with
  | nil =>
    intro l2 h
    cases h
    exact Or.inl ⟨rfl, rfl⟩
  | cons x t1 ih =>
    intro l2 h
    cases h with
    | cons hxy hrest =>
      rename_i y t2
      cases t1 with
      | nil =>
        cases hrest
        exact Or.inr ⟨x, y, rfl, rfl, hxy⟩
      | cons x2 t1x =>
        cases t2 with
        | nil => cases hrest
        | cons y2 t2x =>
          rcases ih hrest with ⟨h1, h2⟩ | ⟨a, b, h1, h2, hab⟩
          · have h3 := List.getLast?_eq_none_iff.mp h1
            cases h3
          · right
            refine ⟨a, b, ?_, ?_, hab⟩
            · rw [List.getLast?_cons_cons]
              exact h1
            · rw [List.getLast?_cons_cons]
              exact h2

theorem forall2_dropLast {α β : Type} {R : α → β → Prop} :
    ∀ {l1 : List α} {l2 : List β}, List.Forall₂ R l1 l2 →
    List.Forall₂ R l1.dropLast l2.dropLast := by
  intro l1
  induction l1 with
  | nil =>
    intro l2 h
    cases h
    exact List.Forall₂.nil
  | cons x t1 ih =>
    intro l2 h
    cases h with
    | cons hxy hrest =>
      rename_i y t2
      cases t1 with
      | nil =>
        cases hrest
        exact List.Forall₂.nil
      | cons x2 t1x =>
        cases t2 with
        | nil => cases hrest
        | cons y2 t2x =>
          exact List.Forall₂.cons hxy (ih hrest)

/-- Correspondence of pending builder pairs. -/
def PrevRel : Option (Anchor × Record) → Option (Anchor × Record) → Prop
  | none, none => True
  | some p1, some p2 => p1.1 = p2.1 ∧ RRel p1.2 p2.2
  | _, _ => False

/-- Correspondence of produced spans: same anchors, pointwise-equal data. -/
def SpanRel (s1 s2 : SpanData Record) : Prop :=
  s1.start = s2.start ∧ s1.stop = s2.stop ∧ RRel s1.data s2.data

/-- Correspondence of builder states. -/
def SBRel (b1 b2 : SB Record) : Prop :=
  List.Forall₂ SpanRel b1.slices b2.slices ∧ PrevRel b1.prev b2.prev

theorem sbRecord_congr {sl1 sl2 : List (SpanData Record)} {pa a : Anchor}
    {d1 d2 : Record} (hsl : List.Forall₂ SpanRel sl1 sl2) (hd : RRel d1 d2) :
    List.Forall₂ SpanRel (sbRecord equalsRecord sl1 pa a d1)
      (sbRecord equalsRecord sl2 pa a d2) := by
  unfold sbRecord
  by_cases hpa : pa = a
  · rw [if_pos hpa, if_pos hpa]
    exact hsl
  · rw [if_neg hpa, if_neg hpa]
    rcases forall2_getLast? hsl with ⟨h1, h2⟩ | ⟨x, y, h1, h2, hxy⟩
    · simp only [h1, h2]
      exact List.Forall₂.cons ⟨rfl, rfl, hd⟩ List.Forall₂.nil
    · simp only [h1, h2]
      have hdec : equalsRecord x.data d1 = equalsRecord y.data d2 :=
        equalsRecord_congr hxy.2.2 hd
      cases he : equalsRecord x.data d1 with
      | true =>
        have he2 : equalsRecord y.data d2 = true := by
          rw [← hdec]
          exact he
        rw [if_pos rfl, if_pos he2]
        exact List.rel_append (forall2_dropLast hsl)
          (List.Forall₂.cons ⟨hxy.1, rfl, hxy.2.2⟩ List.Forall₂.nil)
      | false =>
        have he2 : equalsRecord y.data d2 = false := by
          rw [← hdec]
          exact he
        rw [if_neg (by simp), if_neg (by simp [he2])]
        exact List.rel_append hsl
          (List.Forall₂.cons ⟨rfl, rfl, hd⟩ List.Forall₂.nil)

theorem sbAdd_congr {b1 b2 : SB Record} {a : Anchor} {d1 d2 : Record}
    (hb : SBRel b1 b2) (hd : RRel d1 d2) :
    SBRel (SB.add equalsRecord b1 a d1) (SB.add equalsRecord b2 a d2) := by
  unfold SB.add
  rcases hb with ⟨hsl, hprev⟩
  cases hp1 : b1.prev with
  | none =>
    cases hp2 : b2.prev with
    | none =>
      simp only [hp1, hp2]
      exact ⟨hsl, ⟨rfl, hd⟩⟩
    | some p2 =>
      rw [hp1, hp2] at hprev
      exact (hprev : False).elim
  | some p1 =>
    cases hp2 : b2.prev with
    | none =>
      rw [hp1, hp2] at hprev
      exact (hprev : False).elim
    | some p2 =>
      simp only [hp1, hp2]
      rw [hp1, hp2] at hprev
      have hprev2 : p1.1 = p2.1 ∧ RRel p1.2 p2.2 := hprev
      refine ⟨?_, ⟨rfl, hd⟩⟩
      rw [← hprev2.1]
      exact sbRecord_congr hsl hprev2.2

theorem sbAddAll_congr {in1 in2 : List (Anchor × Record)} {b1 b2 : SB Record}
    (hin : List.Forall₂ (fun e1 e2 => e1.1 = e2.1 ∧ RRel e1.2 e2.2) in1 in2)
    (hb : SBRel b1 b2) :
    SBRel (sbAddAll equalsRecord in1 b1) (sbAddAll equalsRecord in2 b2) := by
  induction hin generalizing b1 b2 with
  | nil => exact hb
  | cons hxy hrest ih =>
    rename_i x y t1 t2
    show SBRel (sbAddAll equalsRecord t1 (SB.add equalsRecord b1 x.1 x.2))
      (sbAddAll equalsRecord t2 (SB.add equalsRecord b2 y.1 y.2))
    have h1 : SBRel (SB.add equalsRecord b1 x.1 x.2)
        (SB.add equalsRecord b2 y.1 y.2) := by
      rw [← hxy.1]
      exact sbAdd_congr hb hxy.2
    exact ih h1

theorem sbFinish_congr {b1 b2 : SB Record} {a : Anchor} (hb : SBRel b1 b2) :
    List.Forall₂ SpanRel (SB.finish equalsRecord b1 a)
      (SB.finish equalsRecord b2 a) := by
  unfold SB.finish
  rcases hb with ⟨hsl, hprev⟩
  cases hp1 : b1.prev with
  | none =>
    cases hp2 : b2.prev with
    | none =>
      simp only [hp1, hp2]
      exact hsl
    | some p2 =>
      rw [hp1, hp2] at hprev
      exact (hprev : False).elim
  | some p1 =>
    cases hp2 : b2.prev with
    | none =>
      rw [hp1, hp2] at hprev
      exact (hprev : False).elim
    | some p2 =>
      simp only [hp1, hp2]
      rw [hp1, hp2] at hprev
      have hprev2 : p1.1 = p2.1 ∧ RRel p1.2 p2.2 := hprev
      rw [← hprev2.1]
      exact sbRecord_congr hsl hprev2.2


theorem mapGet_eq_none_of_not_key {α : Type} {m : List (Key × α)} {k : Key}
    (h : k ∉ keysOf m) : mapGet m k = none := by
  unfold mapGet
  cases hf : m.find? (fun e => e.1 == k) with
  | none => rfl
  | some e =>
    have hmem := List.mem_of_find?_eq_some hf
    have hpred := List.find?_some hf
    simp at hpred
    exact absurd (List.mem_map.mpr ⟨e, hmem, hpred⟩) h

/-- The loop body of `dataToRecord` (named for reasoning). -/
def dtrStep (ans : Record) (e : Key × List Mark) : Record :=
  match e.2.getLast? with
  | some mk =>
    match mk.value with
    | some v => mapSet ans e.1 v
    | none => ans
  | none => ans

theorem dataToRecord_eq_foldl (M : AMap) :
    dataToRecord M = M.foldl dtrStep [] := rfl

theorem dtrStep_other {ans : Record} {e : Key × List Mark} {k2 : Key}
    (hne : k2 ≠ e.1) : mapGet (dtrStep ans e) k2 = mapGet ans k2 := by
  unfold dtrStep
  cases hl : e.2.getLast? with
  | none => rfl
  | some mk =>
    show mapGet (match mk.value with
      | some v => mapSet ans e.1 v
      | none => ans) k2 = mapGet ans k2
    cases hv : mk.value with
    | none => rfl
    | some v =>
      show mapGet (mapSet ans e.1 v) k2 = mapGet ans k2
      exact mapGet_mapSet_other hne v

theorem dtrStep_self {ans : Record} {e : Key × List Mark}
    (h : mapGet ans e.1 = none) :
    mapGet (dtrStep ans e) e.1 =
      e.2.getLast?.bind (fun mk => mk.value) := by
  unfold dtrStep
  cases hl : e.2.getLast? with
  | none => exact h
  | some mk =>
    show mapGet (match mk.value with
      | some v => mapSet ans e.1 v
      | none => ans) e.1 = mk.value
    cases hv : mk.value with
    | none => exact h
    | some v =>
      show mapGet (mapSet ans e.1 v) e.1 = some v
      exact mapGet_mapSet_self ans e.1 v

theorem dataToRecord_go (k : Key) :
    ∀ (d : AMap) (ans : Record), (keysOf d).Nodup →
    (∀ k2 ∈ keysOf d, mapGet ans k2 = none) →
    mapGet (d.foldl dtrStep ans) k =
      (match mapGet d k with
       | some st => st.getLast?.bind (fun mk => mk.value)
       | none => mapGet ans k) := by
  intro d
  induction d with
  | nil =>
    intro ans _ _
    rfl
  | cons e rest ih =>
    intro ans hnd hans
    have hnd2 : (keysOf rest).Nodup := by
      unfold keysOf at hnd ⊢
      rw [List.map_cons, List.nodup_cons] at hnd
      exact hnd.2
    have hkey : e.1 ∉ keysOf rest := by
      unfold keysOf at hnd
      rw [List.map_cons, List.nodup_cons] at hnd
      intro h0
      exact hnd.1 h0
    have hans2 : ∀ k2 ∈ keysOf rest, mapGet (dtrStep ans e) k2 = none := by
      intro k2 hk2
      have hne : k2 ≠ e.1 := fun h0 => hkey (h0 ▸ hk2)
      rw [dtrStep_other hne]
      exact hans k2 (by
        unfold keysOf
        rw [List.map_cons]
        exact List.mem_cons_of_mem _ hk2)
    rw [List.foldl_cons, ih (dtrStep ans e) hnd2 hans2]
    by_cases hk : k = e.1
    · subst hk
      have hget : mapGet (e :: rest) e.1 = some e.2 := by
        unfold mapGet
        rw [List.find?_cons_of_pos _ (by simp)]
        rfl
      have hrest : mapGet rest e.1 = none := mapGet_eq_none_of_not_key hkey
      simp only [hget, hrest]
      show mapGet (dtrStep ans e) e.1 =
        e.2.getLast?.bind (fun mk => mk.value)
      apply dtrStep_self
      exact hans e.1 (by
        unfold keysOf
        rw [List.map_cons]
        exact List.mem_cons_self _ _)
    · have hget : mapGet (e :: rest) k = mapGet rest k := by
        unfold mapGet
        rw [List.find?_cons_of_neg _ (by simp; exact fun h0 => hk h0.symm)]
      simp only [hget]
      cases hr : mapGet rest k with
      | some st => rfl
      | none =>
        show mapGet (dtrStep ans e) k = mapGet ans k
        exact dtrStep_other hk

/-- `dataToRecord` pointwise: a key maps to the top mark's non-null value of
its stack. -/
theorem dataToRecord_mapGet {M : AMap} (hnd : (keysOf M).Nodup) (k : Key) :
    mapGet (dataToRecord M) k =
      (match mapGet M k with
       | some st => st.getLast?.bind (fun mk => mk.value)
       | none => none) := by
  rw [dataToRecord_eq_foldl, dataToRecord_go k M [] hnd (fun k2 _ => rfl)]
  cases mapGet M k <;> rfl


theorem forall2_flatMap {α β γ δ : Type} {S : α → β → Prop}
    {R : γ → δ → Prop} {f : α → List γ} {g : β → List δ}
    (hfg : ∀ a b, S a b → List.Forall₂ R (f a) (g b)) :
    ∀ {l1 : List α} {l2 : List β}, List.Forall₂ S l1 l2 →
    List.Forall₂ R (l1.flatMap f) (l2.flatMap g) := by
  intro l1 l2 h
  induction h with
  | nil => exact List.Forall₂.nil
  | cons hxy hrest ih =>
    rw [List.flatMap_cons, List.flatMap_cons]
    exact List.rel_append (hfg _ _ hxy) ih

theorem forall2_of_map_fst_eq {α β : Type}
    {R : (α × β) → (α × β) → Prop} :
    ∀ {l1 l2 : List (α × β)}, l1.map Prod.fst = l2.map Prod.fst →
    (∀ e1 ∈ l1, ∀ e2 ∈ l2, e1.1 = e2.1 → R e1 e2) →
    List.Forall₂ R l1 l2 := by
  intro l1
  induction l1 with
  | nil =>
    intro l2 hmap _
    cases l2 with
    | nil => exact List.Forall₂.nil
    | cons e t => simp at hmap
  | cons e1 t1 ih =>
    intro l2 hmap hrel
    cases l2 with
    | nil => simp at hmap
    | cons e2 t2 =>
      rw [List.map_cons, List.map_cons] at hmap
      injection hmap with h1 h2
      exact List.Forall₂.cons
        (hrel e1 (List.mem_cons_self _ _) e2 (List.mem_cons_self _ _) h1)
        (ih h2 (fun a ha b hb hab => hrel a (List.mem_cons_of_mem _ ha) b
          (List.mem_cons_of_mem _ hb) hab))

theorem mem_fst_iff_sideGet {fl : FL} (hfl : FLInv fl) {p : Pos} :
    p ∈ fl.map Prod.fst ↔
      ((sideGet fl ⟨p, true⟩).isSome = true ∨
       (sideGet fl ⟨p, false⟩).isSome = true) := by
  constructor
  · intro h
    obtain ⟨e, he, hep⟩ := List.mem_map.mp h
    rcases e with ⟨q, d⟩
    have hq : q = p := hep
    subst hq
    have hget : flGet fl q = some d := flGet_of_mem_sorted hfl.sorted he
    have hb : sideGet fl ⟨q, true⟩ = d.before := by
      unfold sideGet
      rw [if_pos rfl, hget]
      rfl
    have ha : sideGet fl ⟨q, false⟩ = d.after := by
      unfold sideGet
      rw [if_neg (by simp), hget]
      rfl
    rcases hfl.someSide _ he with h1 | h1
    · left
      rw [hb]
      exact h1
    · right
      rw [ha]
      exact h1
  · rintro (h | h)
    · obtain ⟨M, hM⟩ := Option.isSome_iff_exists.mp h
      exact flGet_isSome_of_sideGet hM
    · obtain ⟨M, hM⟩ := Option.isSome_iff_exists.mp h
      exact flGet_isSome_of_sideGet hM

theorem map_fst_eq_of_presence {fl1 fl2 : FL} (h1 : FLInv fl1)
    (h2 : FLInv fl2)
    (hpres : ∀ a, (sideGet fl1 a).isSome = (sideGet fl2 a).isSome) :
    fl1.map Prod.fst = fl2.map Prod.fst := by
  haveI : IsAntisymm Pos (fun a b => Pos.blt a b = true) := by
    constructor
    intro a b hab hba
    rw [pos_blt_asymm hab] at hba
    cases hba
  have hs1 : List.Pairwise (fun a b => Pos.blt a b = true)
      (fl1.map Prod.fst) := List.pairwise_map.mpr h1.sorted
  have hs2 : List.Pairwise (fun a b => Pos.blt a b = true)
      (fl2.map Prod.fst) := List.pairwise_map.mpr h2.sorted
  have hnd1 : (fl1.map Prod.fst).Nodup :=
    List.Pairwise.imp (fun hab => Pos.blt_ne hab) hs1
  have hnd2 : (fl2.map Prod.fst).Nodup :=
    List.Pairwise.imp (fun hab => Pos.blt_ne hab) hs2
  apply List.eq_of_perm_of_sorted ?_ hs1 hs2
  apply (List.perm_ext_iff_of_nodup hnd1 hnd2).mpr
  intro p
  rw [mem_fst_iff_sideGet h1, mem_fst_iff_sideGet h2, hpres ⟨p, true⟩,
    hpres ⟨p, false⟩]

/-- Two invariant states with the same stored marks and the same present
sides have pointwise-corresponding anchor-side sequences. -/
theorem states_sideList_rel {s1 s2 : FmtState}
    (hc1 : Canon s1) (hc2 : Canon s2)
    (hL : s1.orderedMarks = s2.orderedMarks)
    (hpres : ∀ a, (sideGet s1.formatList a).isSome =
      (sideGet s2.formatList a).isSome) :
    List.Forall₂ (fun (x y : Anchor × AMap) => x.1 = y.1 ∧
      (keysOf x.2).Nodup ∧ (keysOf y.2).Nodup ∧
      ∀ k, mapGet x.2 k = mapGet y.2 k)
      (sideList s1.formatList) (sideList s2.formatList) := by
  have hmap := map_fst_eq_of_presence hc1.flinv hc2.flinv hpres
  rw [sideList_eq_flatMap, sideList_eq_flatMap]
  have hent : List.Forall₂ (fun (e1 e2 : Pos × FormatData) =>
      List.Forall₂ (fun (x y : Anchor × AMap) => x.1 = y.1 ∧
        (keysOf x.2).Nodup ∧ (keysOf y.2).Nodup ∧
        ∀ k, mapGet x.2 k = mapGet y.2 k)
        (entrySides e1) (entrySides e2))
      s1.formatList s2.formatList := by
    apply forall2_of_map_fst_eq hmap
    intro e1 he1 e2 he2 hpe
    rcases e1 with ⟨p, d1⟩
    rcases e2 with ⟨q, d2⟩
    have hq : p = q := hpe
    subst hq
    have hget1 : flGet s1.formatList p = some d1 :=
      flGet_of_mem_sorted hc1.flinv.sorted he1
    have hget2 : flGet s2.formatList p = some d2 :=
      flGet_of_mem_sorted hc2.flinv.sorted he2
    have hsg1b : sideGet s1.formatList ⟨p, true⟩ = d1.before := by
      unfold sideGet
      rw [if_pos rfl, hget1]
      rfl
    have hsg1a : sideGet s1.formatList ⟨p, false⟩ = d1.after := by
      unfold sideGet
      rw [if_neg (by simp), hget1]
      rfl
    have hsg2b : sideGet s2.formatList ⟨p, true⟩ = d2.before := by
      unfold sideGet
      rw [if_pos rfl, hget2]
      rfl
    have hsg2a : sideGet s2.formatList ⟨p, false⟩ = d2.after := by
      unfold sideGet
      rw [if_neg (by simp), hget2]
      rfl
    have hb : d1.before.isSome = d2.before.isSome := by
      rw [← hsg1b, ← hsg2b]
      exact hpres ⟨p, true⟩
    have ha : d1.after.isSome = d2.after.isSome := by
      rw [← hsg1a, ← hsg2a]
      exact hpres ⟨p, false⟩
    have hrelb : ∀ bd1 bd2, d1.before = some bd1 → d2.before = some bd2 →
        (keysOf bd1).Nodup ∧ (keysOf bd2).Nodup ∧
        ∀ k, mapGet bd1 k = mapGet bd2 k := by
      intro bd1 bd2 hx1 hx2
      have hok1 : sideOK s1.orderedMarks ⟨p, true⟩ bd1 :=
        hc1.sides _ _ (by rw [hsg1b, hx1])
      have hok2 : sideOK s2.orderedMarks ⟨p, true⟩ bd2 :=
        hc2.sides _ _ (by rw [hsg2b, hx2])
      rw [← hL] at hok2
      refine ⟨hok1.1, hok2.1, fun k => ?_⟩
      rw [hok1.2 k, hok2.2 k]
    have hrela : ∀ ad1 ad2, d1.after = some ad1 → d2.after = some ad2 →
        (keysOf ad1).Nodup ∧ (keysOf ad2).Nodup ∧
        ∀ k, mapGet ad1 k = mapGet ad2 k := by
      intro ad1 ad2 hx1 hx2
      have hok1 : sideOK s1.orderedMarks ⟨p, false⟩ ad1 :=
        hc1.sides _ _ (by rw [hsg1a, hx1])
      have hok2 : sideOK s2.orderedMarks ⟨p, false⟩ ad2 :=
        hc2.sides _ _ (by rw [hsg2a, hx2])
      rw [← hL] at hok2
      refine ⟨hok1.1, hok2.1, fun k => ?_⟩
      rw [hok1.2 k, hok2.2 k]
    unfold entrySides
    have hbpart : List.Forall₂ (fun (x y : Anchor × AMap) => x.1 = y.1 ∧
        (keysOf x.2).Nodup ∧ (keysOf y.2).Nodup ∧
        ∀ k, mapGet x.2 k = mapGet y.2 k)
        (match ((p, d1) : Pos × FormatData).2.before with
         | some bd => [(⟨(p, d1).1, true⟩, bd)]
         | none => [])
        (match ((p, d2) : Pos × FormatData).2.before with
         | some bd => [(⟨(p, d2).1, true⟩, bd)]
         | none => []) := by
      cases hx1 : d1.before with
      | none =>
        cases hx2 : d2.before with
        | none => exact List.Forall₂.nil
        | some bd2 =>
          rw [hx1, hx2] at hb
          simp at hb
      | some bd1 =>
        cases hx2 : d2.before with
        | none =>
          rw [hx1, hx2] at hb
          simp at hb
        | some bd2 =>
          simp only [hx1, hx2]
          exact List.Forall₂.cons ⟨rfl, hrelb bd1 bd2 hx1 hx2⟩
            List.Forall₂.nil
    have hapart : List.Forall₂ (fun (x y : Anchor × AMap) => x.1 = y.1 ∧
        (keysOf x.2).Nodup ∧ (keysOf y.2).Nodup ∧
        ∀ k, mapGet x.2 k = mapGet y.2 k)
        (match ((p, d1) : Pos × FormatData).2.after with
         | some ad => [(⟨(p, d1).1, false⟩, ad)]
         | none => [])
        (match ((p, d2) : Pos × FormatData).2.after with
         | some ad => [(⟨(p, d2).1, false⟩, ad)]
         | none => []) := by
      cases hx1 : d1.after with
      | none =>
        cases hx2 : d2.after with
        | none => exact List.Forall₂.nil
        | some ad2 =>
          rw [hx1, hx2] at ha
          simp at ha
      | some ad1 =>
        cases hx2 : d2.after with
        | none =>
          rw [hx1, hx2] at ha
          simp at ha
        | some ad2 =>
          simp only [hx1, hx2]
          exact List.Forall₂.cons ⟨rfl, hrela ad1 ad2 hx1 hx2⟩
            List.Forall₂.nil
    exact List.rel_append hbpart hapart
  exact forall2_flatMap (fun a b h => h) hent

theorem forall2_map_dtr {sl1 sl2 : List (Anchor × AMap)}
    (h : List.Forall₂ (fun (x y : Anchor × AMap) => x.1 = y.1 ∧
      (keysOf x.2).Nodup ∧ (keysOf y.2).Nodup ∧
      ∀ k, mapGet x.2 k = mapGet y.2 k) sl1 sl2) :
    List.Forall₂ (fun e1 e2 => e1.1 = e2.1 ∧ RRel e1.2 e2.2)
      (sl1.map (fun e => (e.1, dataToRecord e.2)))
      (sl2.map (fun e => (e.1, dataToRecord e.2))) := by
  induction h with
  | nil => exact List.Forall₂.nil
  | cons hxy hrest ih =>
    rw [List.map_cons, List.map_cons]
    refine List.Forall₂.cons ⟨hxy.1, ?_, ?_, ?_⟩ ih
    · exact dataToRecord_nodup _
    · exact dataToRecord_nodup _
    · intro k
      rw [dataToRecord_mapGet hxy.2.1 k, dataToRecord_mapGet hxy.2.2.1 k,
        hxy.2.2.2 k]

/-- Invariant states with the same stored marks and the same present sides
produce pointwise-equal `formattedSpans` (same anchors, formats equal as
key-value records). -/
theorem formattedSpans_congr {s1 s2 : FmtState}
    (hc1 : Canon s1) (hc2 : Canon s2)
    (hL : s1.orderedMarks = s2.orderedMarks)
    (hpres : ∀ a, (sideGet s1.formatList a).isSome =
      (sideGet s2.formatList a).isSome) :
    List.Forall₂ (fun sp1 sp2 => sp1.start = sp2.start ∧
      sp1.stop = sp2.stop ∧ equalsRecord sp1.format sp2.format = true)
      (formattedSpans s1) (formattedSpans s2) := by
  have hsl := states_sideList_rel hc1 hc2 hL hpres
  have hin := forall2_map_dtr hsl
  have hsb : SBRel (sbAddAll equalsRecord
      ((sideList s1.formatList).map (fun e => (e.1, dataToRecord e.2)))
      sbEmpty)
      (sbAddAll equalsRecord
      ((sideList s2.formatList).map (fun e => (e.1, dataToRecord e.2)))
      sbEmpty) :=
    sbAddAll_congr hin ⟨List.Forall₂.nil, trivial⟩
  have hfin := sbFinish_congr (a := MAX_ANCHOR) hsb
  rw [formattedSpans_eq_sbRun, formattedSpans_eq_sbRun]
  unfold sbRun
  have hconv : ∀ {u1 u2 : List (SpanData Record)},
      List.Forall₂ SpanRel u1 u2 →
      List.Forall₂ (fun sp1 sp2 => sp1.start = sp2.start ∧
        sp1.stop = sp2.stop ∧ equalsRecord sp1.format sp2.format = true)
        (u1.map (fun sl => (⟨sl.start, sl.stop, sl.data⟩ : FormattedSpan)))
        (u2.map (fun sl => (⟨sl.start, sl.stop, sl.data⟩ : FormattedSpan))) := by
    intro u1 u2 h
    induction h with
    | nil => exact List.Forall₂.nil
    | cons hxy hrest ih =>
      rw [List.map_cons, List.map_cons]
      refine List.Forall₂.cons ⟨hxy.1, hxy.2.1, ?_⟩ ih
      exact (equalsRecord_iff_mapGet hxy.2.2.1 hxy.2.2.2.1).mpr hxy.2.2.2.2
  exact hconv hfin


theorem applyAdds_presence_iff {l : List Mark}
    (hdist : List.Pairwise (fun x y => cmpMark x y ≠ 0) l)
    (hgood : ∀ mk ∈ l, mk.validAnchors = true ∧ rangeBad mk = false)
    (a : Anchor) :
    (sideGet (applyAdds l).formatList a).isSome = true ↔
      (a = MIN_ANCHOR ∨ ∃ mk ∈ l, a = mk.start ∨ a = mk.stop) := by
  obtain ⟨hc, hm, hp⟩ := applyAdds_canon hdist hgood
  constructor
  · exact hp a
  · rintro (rfl | ⟨mk, hmk, h2 | h2⟩)
    · obtain ⟨M, hM⟩ := sideGet_min_anchor hc.flinv
      rw [show (MIN_ANCHOR : Anchor) = ⟨Pos.minP, false⟩ from rfl, hM]
      rfl
    · rw [h2]
      exact (hc.ends mk ((hm mk).mpr hmk)).1
    · rw [h2]
      exact (hc.ends mk ((hm mk).mpr hmk)).2

/-- C4: applying the same set of valid, in-range, pairwise
`compareMarks`-distinct marks through `addMark` in any two orders, starting
from the fresh state, yields the same `formattedSpans()`: the same span
anchors, with formats equal as key-value records (`equalsRecord`; the two
runs may list a format's keys in different insertion orders). -/
theorem spec_C4_addMark_order_irrelevant {l1 l2 : List Mark}
    (hperm : l1.Perm l2)
    (hdist : List.Pairwise (fun x y => cmpMark x y ≠ 0) l1)
    (hgood : ∀ mk ∈ l1, mk.validAnchors = true ∧ rangeBad mk = false) :
    List.Forall₂ (fun sp1 sp2 => sp1.start = sp2.start ∧
      sp1.stop = sp2.stop ∧ equalsRecord sp1.format sp2.format = true)
      (formattedSpans (applyAdds l1)) (formattedSpans (applyAdds l2)) := by
  have hdist2 : List.Pairwise (fun x y => cmpMark x y ≠ 0) l2 :=
    (hperm.pairwise_iff (fun h0 => fun hz => h0 (cmpMark_zero_symm hz))).mp
      hdist
  have hgood2 : ∀ mk ∈ l2, mk.validAnchors = true ∧ rangeBad mk = false :=
    fun mk hmk => hgood mk (hperm.mem_iff.mpr hmk)
  obtain ⟨hc1, hm1, _⟩ := applyAdds_canon hdist hgood
  obtain ⟨hc2, hm2, _⟩ := applyAdds_canon hdist2 hgood2
  apply formattedSpans_congr hc1 hc2 (applyAdds_marks_eq hperm hdist hgood)
  intro a
  have hbool : ∀ (b1 b2 : Bool), (b1 = true ↔ b2 = true) → b1 = b2 := by
    intro b1 b2 h
    cases b1 <;> cases b2 <;> simp_all
  apply hbool
  rw [applyAdds_presence_iff hdist hgood a,
    applyAdds_presence_iff hdist2 hgood2 a]
  constructor
  · rintro (h | ⟨mk, hmk, h2⟩)
    · exact Or.inl h
    · exact Or.inr ⟨mk, hperm.mem_iff.mp hmk, h2⟩
  · rintro (h | ⟨mk, hmk, h2⟩)
    · exact Or.inl h
    · exact Or.inr ⟨mk, hperm.mem_iff.mpr hmk, h2⟩

def c4w1 : Mark := ⟨⟨Pos.minP, false⟩, ⟨Pos.mid 2, true⟩, 0, some 1, 0, 1⟩

def c4w2 : Mark := ⟨⟨Pos.mid 1, true⟩, ⟨Pos.maxP, true⟩, 1, some 2, 0, 2⟩

theorem spec_C4_witness :
    ([c4w1, c4w2].Perm [c4w2, c4w1] ∧
      List.Pairwise (fun x y => cmpMark x y ≠ 0) [c4w1, c4w2] ∧
      (∀ mk ∈ [c4w1, c4w2], mk.validAnchors = true ∧ rangeBad mk = false)) ∧
    List.Forall₂ (fun sp1 sp2 => sp1.start = sp2.start ∧
      sp1.stop = sp2.stop ∧ equalsRecord sp1.format sp2.format = true)
      (formattedSpans (applyAdds [c4w1, c4w2]))
      (formattedSpans (applyAdds [c4w2, c4w1])) :=
  ⟨⟨List.Perm.swap c4w2 c4w1 [], by decide, by decide⟩,
    spec_C4_addMark_order_irrelevant (List.Perm.swap c4w2 c4w1 [])
      (by decide) (by decide)⟩

def c4m1 : Mark := ⟨⟨Pos.minP, false⟩, ⟨Pos.maxP, true⟩, 0, some 1, 0, 1⟩

def c4m2 : Mark := ⟨⟨Pos.minP, false⟩, ⟨Pos.maxP, true⟩, 0, some 2, 0, 1⟩

/-- Two distinct valid marks that compare equal under `compareMarks` break
order-independence: the later `addMark` is a duplicate no-op, so each order
keeps its own first mark's value. -/
theorem spec_C4_counterexample :
    [c4m1, c4m2].Perm [c4m2, c4m1] ∧
    (∀ mk ∈ [c4m1, c4m2], mk.validAnchors = true ∧ rangeBad mk = false) ∧
    c4m1 ≠ c4m2 ∧
    ¬List.Forall₂ (fun sp1 sp2 => sp1.start = sp2.start ∧
      sp1.stop = sp2.stop ∧ equalsRecord sp1.format sp2.format = true)
      (formattedSpans (applyAdds [c4m1, c4m2]))
      (formattedSpans (applyAdds [c4m2, c4m1])) := by
  refine ⟨List.Perm.swap c4m2 c4m1 [], by decide, by decide, ?_⟩
  intro h
  have h1 : formattedSpans (applyAdds [c4m1, c4m2]) =
      [⟨MIN_ANCHOR, MAX_ANCHOR, [(0, 1)]⟩] := by decide
  have h2 : formattedSpans (applyAdds [c4m2, c4m1]) =
      [⟨MIN_ANCHOR, MAX_ANCHOR, [(0, 2)]⟩] := by decide
  rw [h1, h2] at h
  cases h with
  | cons hxy _ => exact absurd hxy.2.2 (by decide)


/-! The `deleteMark` loop mirrors the `addMark` loop: its anatomy as an
entrywise update plus a builder feed of the covered anchors. -/

/-- The side map produced by `deleteFromAnchor` (builder-independent part). -/
def deleteFromAnchorD (anchorData : AMap) (m : Mark) : AMap :=
  let marks := (mapGet anchorData m.key).getD []
  let index := lastIdxOf marks m
  let marks2 := spliceOut marks index
  if marks2.length = 0 then mapDelete anchorData m.key
  else mapSet anchorData m.key marks2

/-- The change payload fed by `deleteFromAnchor` to its span builder. -/
def delPayload (anchorData : AMap) (m : Mark) : Option FCI :=
  let marks := (mapGet anchorData m.key).getD []
  let index := lastIdxOf marks m
  let marks2 := spliceOut marks index
  let anchorData2 := if marks2.length = 0 then mapDelete anchorData m.key
    else mapSet anchorData m.key marks2
  if index = (marks2.length : Int) then
    some { otherValue := match marks2.getLast? with
             | some top => top.value
             | none => none
           format := dataToRecord anchorData2 }
  else none

theorem deleteFromAnchor_fst (anchor : Anchor) (anchorData : AMap)
    (b : SB (Option FCI)) (m : Mark) :
    (deleteFromAnchor anchor anchorData b m).1 =
      deleteFromAnchorD anchorData m := by
  simp only [deleteFromAnchor, deleteFromAnchorD]
  split <;> rfl

theorem deleteFromAnchor_snd (anchor : Anchor) (anchorData : AMap)
    (b : SB (Option FCI)) (m : Mark) :
    (deleteFromAnchor anchor anchorData b m).2 =
      SB.add equalsFCI b anchor (delPayload anchorData m) := by
  simp only [deleteFromAnchor, delPayload]
  by_cases hc : lastIdxOf ((mapGet anchorData m.key).getD []) m =
      ((spliceOut ((mapGet anchorData m.key).getD [])
        (lastIdxOf ((mapGet anchorData m.key).getD []) m)).length : Int)
  · rw [if_pos hc, if_pos hc]
  · rw [if_neg hc, if_neg hc]

/-- The effect of one `deleteMark` loop iteration on one `formatList` entry. -/
def delEntryUpd (m : Mark) (e : Pos × FormatData) : Pos × FormatData :=
  (e.1,
    { before := match e.2.before with
        | some bd => some (if covers m ⟨e.1, true⟩ then deleteFromAnchorD bd m else bd)
        | none => none
      after := match e.2.after with
        | some ad => some (if covers m ⟨e.1, false⟩ then deleteFromAnchorD ad m else ad)
        | none => none })

/-- The `(anchor, payload)` pairs one entry feeds to the loop's builder. -/
def delEntryFeeds (m : Mark) (e : Pos × FormatData) : List (Anchor × Option FCI) :=
  (match e.2.before with
   | some bd =>
     if covers m ⟨e.1, true⟩ then [(⟨e.1, true⟩, delPayload bd m)] else []
   | none => []) ++
  (match e.2.after with
   | some ad =>
     if covers m ⟨e.1, false⟩ then [(⟨e.1, false⟩, delPayload ad m)] else []
   | none => [])

def delStep (m : Mark) (sI eI : Nat) (fl : FL) (b : SB (Option FCI))
    (i : Nat) : FL × SB (Option FCI) :=
  let p := flPosAt fl i
  let data := (flGet fl p).getD {}
  let step1 : Option AMap × SB (Option FCI) :=
    match data.before with
    | some bd =>
      if (sI < i ∧ i < eI) ∨ (i = sI ∧ m.start.before = true)
          ∨ (i = eI ∧ m.stop.before = false) then
        let r := deleteFromAnchor ⟨p, true⟩ bd b m
        (some r.1, r.2)
      else (some bd, b)
    | none => (none, b)
  let step2 : Option AMap × SB (Option FCI) :=
    match data.after with
    | some ad =>
      if i < eI then
        let r := deleteFromAnchor ⟨p, false⟩ ad step1.2 m
        (some r.1, r.2)
      else (some ad, step1.2)
    | none => (none, step1.2)
  (flSet fl p { before := step1.1, after := step2.1 }, step2.2)

theorem delLoopGo_step (m : Mark) (sI eI n : Nat) (fl : FL)
    (b : SB (Option FCI)) (i : Nat) :
    delLoopGo m sI eI (n + 1) fl b i =
      if i > eI then (fl, b)
      else delLoopGo m sI eI n (delStep m sI eI fl b i).1
        (delStep m sI eI fl b i).2 (i + 1) := rfl

/-- The loop body rewrites the current entry by `delEntryUpd` and feeds the
builder that entry's covered anchors. -/
theorem delStep_eq {m : Mark} {sI eI : Nat} {fl : FL} (b : SB (Option FCI))
    {i : Nat} (hrange : Anchor.blt m.start m.stop = true)
    (hs : List.Pairwise (fun x y => Pos.blt x.1 y.1 = true) fl)
    (hi : i < fl.length) (hige : sI ≤ i)
    (h1 : sI < i ↔ Pos.blt m.start.pos (fl.get ⟨i, hi⟩).1 = true)
    (h2 : i = sI ↔ (fl.get ⟨i, hi⟩).1 = m.start.pos)
    (h3 : i < eI ↔ Pos.blt (fl.get ⟨i, hi⟩).1 m.stop.pos = true)
    (h4 : i = eI ↔ (fl.get ⟨i, hi⟩).1 = m.stop.pos) :
    delStep m sI eI fl b i =
      (fl.set i (delEntryUpd m (fl.get ⟨i, hi⟩)),
       sbAddAll equalsFCI (delEntryFeeds m (fl.get ⟨i, hi⟩)) b) := by
  have hget : flGet fl ((fl.get ⟨i, hi⟩).1) = some (fl.get ⟨i, hi⟩).2 := by
    have hfg := flGet_flPosAt_sorted hs hi
    rw [flPosAt_eq_get hi] at hfg
    rw [hfg]
    congr 1
    unfold flGetAt
    rw [fl_getD_eq_getElem hi]
  have hdata : (flGet fl ((fl.get ⟨i, hi⟩).1)).getD {} =
      (fl.get ⟨i, hi⟩).2 := by
    rw [hget]
    rfl
  have hflset : ∀ (d : FormatData),
      flSet fl ((fl.get ⟨i, hi⟩).1) d = fl.set i ((fl.get ⟨i, hi⟩).1, d) :=
    fun d => flSet_eq_set hs hi d
  simp only [delStep]
  rw [flPosAt_eq_get hi, hdata]
  rcases hdb : (fl.get ⟨i, hi⟩).2.before with _ | bd <;>
    rcases hda : (fl.get ⟨i, hi⟩).2.after with _ | ad
  · -- no sides
    simp only [delEntryUpd, delEntryFeeds, hdb, hda]
    rw [hflset]
    rfl
  · -- only after side
    by_cases hac : i < eI
    · have hcov : covers m ⟨(fl.get ⟨i, hi⟩).1, false⟩ = true :=
        (acond_iff_covers hige h1 h2 h3).mp hac
      simp only [delEntryUpd, delEntryFeeds, hdb, hda, hcov, if_pos hac,
        if_true, deleteFromAnchor_fst, deleteFromAnchor_snd]
      rw [hflset]
      rfl
    · have hcov : covers m ⟨(fl.get ⟨i, hi⟩).1, false⟩ = false := by
        cases h0 : covers m ⟨(fl.get ⟨i, hi⟩).1, false⟩
        · rfl
        · exact absurd ((acond_iff_covers hige h1 h2 h3).mpr h0) hac
      simp only [delEntryUpd, delEntryFeeds, hdb, hda, hcov, if_neg hac]
      rw [hflset]
      rfl
  · -- only before side
    by_cases hbc : (sI < i ∧ i < eI) ∨ (i = sI ∧ m.start.before = true) ∨
        (i = eI ∧ m.stop.before = false)
    · have hcov : covers m ⟨(fl.get ⟨i, hi⟩).1, true⟩ = true :=
        (bcond_iff_covers hrange h1 h2 h3 h4).mp hbc
      simp only [delEntryUpd, delEntryFeeds, hdb, hda, hcov, if_pos hbc,
        if_true, deleteFromAnchor_fst, deleteFromAnchor_snd]
      rw [hflset]
      rfl
    · have hcov : covers m ⟨(fl.get ⟨i, hi⟩).1, true⟩ = false := by
        cases h0 : covers m ⟨(fl.get ⟨i, hi⟩).1, true⟩
        · rfl
        · exact absurd ((bcond_iff_covers hrange h1 h2 h3 h4).mpr h0) hbc
      simp only [delEntryUpd, delEntryFeeds, hdb, hda, hcov, if_neg hbc]
      rw [hflset]
      rfl
  · -- both sides
    by_cases hbc : (sI < i ∧ i < eI) ∨ (i = sI ∧ m.start.before = true) ∨
        (i = eI ∧ m.stop.before = false) <;>
      by_cases hac : i < eI
    · have hcovb : covers m ⟨(fl.get ⟨i, hi⟩).1, true⟩ = true :=
        (bcond_iff_covers hrange h1 h2 h3 h4).mp hbc
      have hcova : covers m ⟨(fl.get ⟨i, hi⟩).1, false⟩ = true :=
        (acond_iff_covers hige h1 h2 h3).mp hac
      simp only [delEntryUpd, delEntryFeeds, hdb, hda, hcovb, hcova,
        if_pos hbc, if_pos hac, if_true, deleteFromAnchor_fst, deleteFromAnchor_snd]
      rw [hflset]
      rfl
    · have hcovb : covers m ⟨(fl.get ⟨i, hi⟩).1, true⟩ = true :=
        (bcond_iff_covers hrange h1 h2 h3 h4).mp hbc
      have hcova : covers m ⟨(fl.get ⟨i, hi⟩).1, false⟩ = false := by
        cases h0 : covers m ⟨(fl.get ⟨i, hi⟩).1, false⟩
        · rfl
        · exact absurd ((acond_iff_covers hige h1 h2 h3).mpr h0) hac
      simp only [delEntryUpd, delEntryFeeds, hdb, hda, hcovb, hcova,
        if_pos hbc, if_neg hac, if_true, deleteFromAnchor_fst, deleteFromAnchor_snd]
      rw [hflset]
      rfl
    · have hcovb : covers m ⟨(fl.get ⟨i, hi⟩).1, true⟩ = false := by
        cases h0 : covers m ⟨(fl.get ⟨i, hi⟩).1, true⟩
        · rfl
        · exact absurd ((bcond_iff_covers hrange h1 h2 h3 h4).mpr h0) hbc
      have hcova : covers m ⟨(fl.get ⟨i, hi⟩).1, false⟩ = true :=
        (acond_iff_covers hige h1 h2 h3).mp hac
      simp only [delEntryUpd, delEntryFeeds, hdb, hda, hcovb, hcova,
        if_neg hbc, if_pos hac, if_true, deleteFromAnchor_fst, deleteFromAnchor_snd]
      rw [hflset]
      rfl
    · have hcovb : covers m ⟨(fl.get ⟨i, hi⟩).1, true⟩ = false := by
        cases h0 : covers m ⟨(fl.get ⟨i, hi⟩).1, true⟩
        · rfl
        · exact absurd ((bcond_iff_covers hrange h1 h2 h3 h4).mpr h0) hbc
      have hcova : covers m ⟨(fl.get ⟨i, hi⟩).1, false⟩ = false := by
        cases h0 : covers m ⟨(fl.get ⟨i, hi⟩).1, false⟩
        · rfl
        · exact absurd ((acond_iff_covers hige h1 h2 h3).mpr h0) hac
      simp only [delEntryUpd, delEntryFeeds, hdb, hda, hcovb, hcova,
        if_neg hbc, if_neg hac]
      rw [hflset]
      rfl


/-- The `deleteMark` loop: final `formatList` is the per-entry update of the
window, and the builder receives the window's covered anchors in order. -/
theorem delLoopGo_anatomy (m : Mark) (sI eI : Nat)
    (hrange : Anchor.blt m.start m.stop = true) :
    ∀ (fuel : Nat) (fl : FL) (b : SB (Option FCI)) (i : Nat),
    List.Pairwise (fun x y => Pos.blt x.1 y.1 = true) fl →
    m.start.pos ∈ fl.map Prod.fst →
    m.stop.pos ∈ fl.map Prod.fst →
    sI = flRank fl m.start.pos →
    eI = flRank fl m.stop.pos →
    sI ≤ i → i ≤ eI + 1 → fuel = eI + 1 - i →
    delLoopGo m sI eI fuel fl b i =
      (fl.take i ++ ((fl.drop i).take (eI + 1 - i)).map (delEntryUpd m) ++
        fl.drop (eI + 1),
       sbAddAll equalsFCI
         (((fl.drop i).take (eI + 1 - i)).flatMap (delEntryFeeds m)) b) := by
  intro fuel
  induction fuel with
  | zero =>
    intro fl b i hs hstart hstop hsI heI hige hile hfuel
    have hieq : i = eI + 1 := by omega
    subst hieq
    show (fl, b) = _
    rw [Nat.sub_self]
    simp [List.take_append_drop]
    rfl
  | succ n ih =>
    intro fl b i hs hstart hstop hsI heI hige hile hfuel
    have hile2 : i ≤ eI := by omega
    obtain ⟨hsLen, hsPos⟩ := rank_get_of_mem hs hstart
    obtain ⟨heLen, hePos⟩ := rank_get_of_mem hs hstop
    have hsLen2 : sI < fl.length := by
      rw [hsI]
      exact hsLen
    have heLen2 : eI < fl.length := by
      rw [heI]
      exact heLen
    have hiLen : i < fl.length := by
      omega
    have hsPos2 : (fl.get ⟨sI, hsLen2⟩).1 = m.start.pos := by
      have : (⟨sI, hsLen2⟩ : Fin fl.length) =
          ⟨flRank fl m.start.pos, hsLen⟩ := Fin.ext hsI
      rw [this]
      exact hsPos
    have hePos2 : (fl.get ⟨eI, heLen2⟩).1 = m.stop.pos := by
      have : (⟨eI, heLen2⟩ : Fin fl.length) =
          ⟨flRank fl m.stop.pos, heLen⟩ := Fin.ext heI
      rw [this]
      exact hePos
    have h1 : sI < i ↔ Pos.blt m.start.pos (fl.get ⟨i, hiLen⟩).1 = true := by
      have := index_lt_iff_pos hs hsLen2 hiLen
      rw [hsPos2] at this
      exact this
    have h2 : i = sI ↔ (fl.get ⟨i, hiLen⟩).1 = m.start.pos := by
      have := index_eq_iff_pos hs hiLen hsLen2
      rw [hsPos2] at this
      exact this
    have h3 : i < eI ↔ Pos.blt (fl.get ⟨i, hiLen⟩).1 m.stop.pos = true := by
      have := index_lt_iff_pos hs hiLen heLen2
      rw [hePos2] at this
      exact this
    have h4 : i = eI ↔ (fl.get ⟨i, hiLen⟩).1 = m.stop.pos := by
      have := index_eq_iff_pos hs hiLen heLen2
      rw [hePos2] at this
      exact this
    rw [delLoopGo_step, if_neg (by omega : ¬i > eI),
      delStep_eq b hrange hs hiLen hige h1 h2 h3 h4]
    -- the updated list keeps the position sequence
    have hposmap : (fl.set i (delEntryUpd m (fl.get ⟨i, hiLen⟩))).map
        Prod.fst = fl.map Prod.fst := by
      rw [List.map_set]
      apply list_set_self
      have : (fl.map Prod.fst)[i]? =
          some ((fl.map Prod.fst).get ⟨i, by simpa using hiLen⟩) := by
        rw [List.getElem?_eq_getElem]
        rfl
      rw [this]
      congr 1
      rw [List.get_eq_getElem, List.getElem_map]
      rfl
    have hs' : List.Pairwise (fun x y => Pos.blt x.1 y.1 = true)
        (fl.set i (delEntryUpd m (fl.get ⟨i, hiLen⟩))) := by
      rw [← List.pairwise_map (f := Prod.fst)
        (R := fun a b => Pos.blt a b = true)]
      rw [hposmap]
      rw [List.pairwise_map]
      exact hs
    have hrank' : ∀ q : Pos,
        flRank (fl.set i (delEntryUpd m (fl.get ⟨i, hiLen⟩))) q =
          flRank fl q := by
      intro q
      rw [flRank_eq_posl, flRank_eq_posl, hposmap]
    have hmem' : ∀ q : Pos, q ∈ fl.map Prod.fst →
        q ∈ (fl.set i (delEntryUpd m (fl.get ⟨i, hiLen⟩))).map Prod.fst := by
      intro q hq
      rw [hposmap]
      exact hq
    rw [ih (fl.set i (delEntryUpd m (fl.get ⟨i, hiLen⟩)))
      (sbAddAll equalsFCI (delEntryFeeds m (fl.get ⟨i, hiLen⟩)) b) (i + 1)
      hs' (hmem' _ hstart) (hmem' _ hstop)
      (by rw [hrank' m.start.pos]; exact hsI)
      (by rw [hrank' m.stop.pos]; exact heI)
      (by omega) (by omega) (by omega)]
    have hw := drop_window_cons hiLen hile2
    rw [set_take_succ hiLen, set_drop_succ hiLen,
      set_drop_ge hiLen (by omega : i < eI + 1), hw]
    have harith : eI + 1 - (i + 1) = eI - i := by omega
    rw [harith, List.map_cons, List.flatMap_cons,
      sbAddAll_append]
    rw [List.append_assoc (fl.take i) _ _]
    rfl


theorem delEntryUpd_id {m : Mark} {e : Pos × FormatData}
    (hb : covers m ⟨e.1, true⟩ = false) (ha : covers m ⟨e.1, false⟩ = false) :
    delEntryUpd m e = e := by
  rcases e with ⟨q, db, da⟩
  cases db <;> cases da <;> simp_all [delEntryUpd]

theorem delEntryFeeds_nil {m : Mark} {e : Pos × FormatData}
    (hb : covers m ⟨e.1, true⟩ = false) (ha : covers m ⟨e.1, false⟩ = false) :
    delEntryFeeds m e = [] := by
  rcases e with ⟨q, db, da⟩
  cases db <;> cases da <;> simp_all [delEntryFeeds]

theorem map_delEntryUpd_id {m : Mark} :
    ∀ (l : FL), (∀ e ∈ l, delEntryUpd m e = e) →
    l.map (delEntryUpd m) = l := by
  intro l hl
  induction l with
  | nil => rfl
  | cons e rest ih =>
    rw [List.map_cons, hl e (List.mem_cons_self _ _),
      ih (fun x hx => hl x (List.mem_cons_of_mem _ hx))]

theorem flatMap_delEntryFeeds_nil {m : Mark} :
    ∀ (l : FL), (∀ e ∈ l, delEntryFeeds m e = []) →
    l.flatMap (delEntryFeeds m) = [] := by
  intro l hl
  induction l with
  | nil => rfl
  | cons e rest ih =>
    rw [List.flatMap_cons, hl e (List.mem_cons_self _ _),
      ih (fun x hx => hl x (List.mem_cons_of_mem _ hx))]
    rfl

theorem delLoop_eq_map {m : Mark} {fl : FL} (b : SB (Option FCI))
    (hs : List.Pairwise (fun x y => Pos.blt x.1 y.1 = true) fl)
    (hrange : Anchor.blt m.start m.stop = true)
    (hms : m.start.pos ∈ fl.map Prod.fst)
    (hme : m.stop.pos ∈ fl.map Prod.fst) :
    delLoop m (flRank fl m.start.pos) (flRank fl m.stop.pos) fl b
        (flRank fl m.start.pos) =
      (fl.map (delEntryUpd m),
       sbAddAll equalsFCI (fl.flatMap (delEntryFeeds m)) b) := by
  set sI := flRank fl m.start.pos with hsI
  set eI := flRank fl m.stop.pos with heI
  have hsIle : sI ≤ eI := by
    rcases anchor_blt_pos_cases hrange with h1 | h1
    · rw [hsI, heI]
      unfold flRank
      apply List.countP_mono_left
      intro e _ hb
      exact pos_blt_trans (by exact hb) h1
    · rw [hsI, heI, h1]
  obtain ⟨heIlt, heIpos⟩ := rank_get_of_mem hs hme
  have hanat := delLoopGo_anatomy m sI eI hrange (eI + 1 - sI) fl b sI hs
    hms hme hsI heI (Nat.le_refl _) (by omega) rfl
  show delLoopGo m sI eI (eI + 1 - sI) fl b sI = _
  rw [hanat]
  have htake_lt : ∀ e ∈ fl.take sI, Pos.blt e.1 m.start.pos = true := by
    intro e he
    exact (fl_take_drop_rank hs m.start.pos).1 e he
  have hdrop_gt : ∀ e ∈ fl.drop (eI + 1), Pos.blt m.stop.pos e.1 = true := by
    have hdecomp : fl.drop eI = fl.get ⟨eI, heIlt⟩ :: fl.drop (eI + 1) :=
      List.drop_eq_getElem_cons heIlt
    have hpairdrop : List.Pairwise (fun x y => Pos.blt x.1 y.1 = true)
        (fl.drop eI) := List.Pairwise.sublist (List.drop_sublist _ _) hs
    rw [hdecomp] at hpairdrop
    rcases List.pairwise_cons.mp hpairdrop with ⟨hhead, _⟩
    intro e he
    have h1 := hhead e he
    rw [heIpos] at h1
    exact h1
  have htake_id : ∀ e ∈ fl.take sI, delEntryUpd m e = e := by
    intro e he
    exact delEntryUpd_id (covers_false_below (htake_lt e he))
      (covers_false_below (htake_lt e he))
  have htake_nil : ∀ e ∈ fl.take sI, delEntryFeeds m e = [] := by
    intro e he
    exact delEntryFeeds_nil (covers_false_below (htake_lt e he))
      (covers_false_below (htake_lt e he))
  have hdrop_id : ∀ e ∈ fl.drop (eI + 1), delEntryUpd m e = e := by
    intro e he
    exact delEntryUpd_id (covers_false_above (hdrop_gt e he))
      (covers_false_above (hdrop_gt e he))
  have hdrop_nil : ∀ e ∈ fl.drop (eI + 1), delEntryFeeds m e = [] := by
    intro e he
    exact delEntryFeeds_nil (covers_false_above (hdrop_gt e he))
      (covers_false_above (hdrop_gt e he))
  have hwin : fl = fl.take sI ++ (fl.drop sI).take (eI + 1 - sI) ++
      fl.drop (eI + 1) := by
    have h1 : (fl.drop sI).take (eI + 1 - sI) ++
        (fl.drop sI).drop (eI + 1 - sI) = fl.drop sI :=
      List.take_append_drop _ _
    have h2 : (fl.drop sI).drop (eI + 1 - sI) = fl.drop (eI + 1) := by
      rw [List.drop_drop]
      congr 1
      omega
    calc fl = fl.take sI ++ fl.drop sI := (List.take_append_drop _ _).symm
    _ = fl.take sI ++ ((fl.drop sI).take (eI + 1 - sI) ++
        fl.drop (eI + 1)) := by rw [← h2, h1]
    _ = _ := by rw [List.append_assoc]
  have hfst : fl.map (delEntryUpd m) =
      fl.take sI ++ ((fl.drop sI).take (eI + 1 - sI)).map (delEntryUpd m) ++
        fl.drop (eI + 1) := by
    conv_lhs => rw [hwin]
    rw [List.map_append, List.map_append, map_delEntryUpd_id _ htake_id,
      map_delEntryUpd_id _ hdrop_id]
  have hsnd : fl.flatMap (delEntryFeeds m) =
      ((fl.drop sI).take (eI + 1 - sI)).flatMap (delEntryFeeds m) := by
    conv_lhs => rw [hwin]
    rw [List.flatMap_append, List.flatMap_append,
      flatMap_delEntryFeeds_nil _ htake_nil, flatMap_delEntryFeeds_nil _ hdrop_nil]
    simp
  rw [hfst, hsnd]

theorem flGet_map_delUpd {m : Mark} {fl : FL} {q : Pos} :
    flGet (fl.map (delEntryUpd m)) q =
      (flGet fl q).map (fun d => (delEntryUpd m (q, d)).2) := by
  unfold flGet
  rw [List.find?_map]
  have hp : ((fun (e : Pos × FormatData) => e.1 == q) ∘ (delEntryUpd m)) =
      (fun (e : Pos × FormatData) => e.1 == q) := by
    funext e
    rcases e with ⟨p, d⟩
    rfl
  rw [hp]
  cases hf : fl.find? (fun e => e.1 == q) with
  | none => rfl
  | some e =>
    have hpred := List.find?_some hf
    rcases e with ⟨p, d⟩
    simp at hpred
    subst hpred
    rfl

theorem sideGet_map_delUpd {m : Mark} {fl : FL} {a : Anchor} :
    sideGet (fl.map (delEntryUpd m)) a =
      (sideGet fl a).map
        (fun M => if covers m a then deleteFromAnchorD M m else M) := by
  rcases a with ⟨q, s⟩
  unfold sideGet
  cases s with
  | true =>
    rw [if_pos rfl, if_pos rfl, flGet_map_delUpd]
    cases hget : flGet fl q with
    | none => rfl
    | some d =>
      cases hdb : d.before with
      | none => simp [delEntryUpd, hdb]
      | some bd => simp [delEntryUpd, hdb]
  | false =>
    rw [if_neg (by simp), if_neg (by simp), flGet_map_delUpd]
    cases hget : flGet fl q with
    | none => rfl
    | some d =>
      cases hda : d.after with
      | none => simp [delEntryUpd, hda]
      | some ad => simp [delEntryUpd, hda]

/-! `lastIndexOf` and `splice` on a duplicate-free stack: removing the unique
occurrence of a mark splits the stack around it. -/

theorem findIdx_skip {p : Mark → Bool} :
    ∀ (l1 l2 : List Mark) (s : Nat), (∀ x ∈ l1, p x = false) →
    List.findIdx? p (l1 ++ l2) s = List.findIdx? p l2 (s + l1.length) := by
  intro l1
  induction l1 with
  | nil =>
    intro l2 s _
    rw [List.nil_append, List.length_nil, Nat.add_zero]
  | cons a t ih =>
    intro l2 s hall
    show List.findIdx? p (a :: (t ++ l2)) s = _
    simp only [List.findIdx?]
    rw [if_neg (by simp [hall a (List.mem_cons_self a t)])]
    rw [ih l2 (s + 1) (fun x hx => hall x (List.mem_cons_of_mem _ hx))]
    congr 1
    rw [List.length_cons]
    omega

theorem lastIdxOf_append {A B : List Mark} {m : Mark}
    (hA : m ∉ A) (hB : m ∉ B) :
    lastIdxOf (A ++ m :: B) m = (A.length : Int) := by
  unfold lastIdxOf
  have hrev : (A ++ m :: B).reverse = B.reverse ++ m :: A.reverse := by
    rw [List.reverse_append, List.reverse_cons, List.append_assoc,
      List.singleton_append]
  rw [hrev]
  have hskip := findIdx_skip (p := fun x => x == m) B.reverse (m :: A.reverse) 0 (by
    intro x hx
    rw [List.mem_reverse] at hx
    simp only [beq_eq_false_iff_ne, ne_eq]
    intro h0
    exact hB (h0 ▸ hx))
  rw [hskip]
  have hhead : List.findIdx? (fun x => x == m) (m :: A.reverse)
      (0 + B.reverse.length) = some (0 + B.reverse.length) := by
    simp only [List.findIdx?]
    rw [if_pos (by simp)]
  simp only [hhead]
  simp only [List.length_append, List.length_cons, List.length_reverse]
  push_cast
  omega

theorem spliceOut_append (A B : List Mark) (m : Mark) :
    spliceOut (A ++ m :: B) ((A.length : Int)) = A ++ B := by
  simp only [spliceOut]
  rw [if_neg (by omega)]
  have h1 : ((A.length : Int)).toNat = A.length := Int.toNat_natCast A.length
  rw [h1]
  rw [List.take_left]
  have h2 : (A ++ m :: B).drop (A.length + 1) = B := by
    rw [← List.drop_drop, List.drop_left]
    rfl
  rw [h2]

theorem mem_nodup_decomp {l : List Mark} {m : Mark} (hnd : l.Nodup)
    (hm : m ∈ l) : ∃ A B, l = A ++ m :: B ∧ m ∉ A ∧ m ∉ B := by
  obtain ⟨A, B, h0⟩ := List.append_of_mem hm
  subst h0
  refine ⟨A, B, rfl, ?_, ?_⟩
  · intro hA
    have h3 := (List.nodup_append.mp hnd).2.2
    exact h3 hA (List.mem_cons_self _ _)
  · intro hB
    have h3 := List.nodup_cons.mp (List.nodup_append.mp hnd).2.1
    exact h3.1 hB

theorem marksSorted_nodup {L : List Mark} (hs : MarksSorted L) : L.Nodup := by
  apply List.Pairwise.imp ?_ hs
  intro a b hab
  intro h0
  rw [h0] at hab
  have h1 : cmpMark b b = 0 := cmpMark_zero_iff.mpr ⟨rfl, rfl⟩
  omega

theorem marksSorted_erase {L : List Mark} {idx : Nat} (hs : MarksSorted L) :
    MarksSorted (L.take idx ++ L.drop (idx + 1)) := by
  have h1 : List.Sublist (L.drop (idx + 1)) (L.drop idx) := by
    rw [← List.drop_drop]
    exact List.drop_sublist _ _
  have h2 := List.Sublist.append_left h1 (L.take idx)
  rw [List.take_append_drop] at h2
  exact List.Pairwise.sublist h2 hs

/-! Removing the element at a fixed index commutes with `filter`. -/

theorem filter_decomp_pos {L : List Mark} {idx : Nat} (hidx : idx < L.length)
    {p : Mark → Bool} (hp : p (L.get ⟨idx, hidx⟩) = true) :
    L.filter p = (L.take idx).filter p ++
      L.get ⟨idx, hidx⟩ :: (L.drop (idx + 1)).filter p := by
  conv_lhs => rw [← List.take_append_drop idx L]
  rw [List.filter_append, List.drop_eq_get_cons hidx,
    List.filter_cons_of_pos (by exact hp)]

theorem filter_decomp_neg {L : List Mark} {idx : Nat} (hidx : idx < L.length)
    {p : Mark → Bool} (hp : p (L.get ⟨idx, hidx⟩) = false) :
    L.filter p = (L.take idx).filter p ++ (L.drop (idx + 1)).filter p := by
  conv_lhs => rw [← List.take_append_drop idx L]
  rw [List.filter_append, List.drop_eq_get_cons hidx,
    List.filter_cons_of_neg (by simp only [Bool.not_eq_true]; exact hp)]

theorem canonStack_erase {L : List Mark} (idx : Nat) (a : Anchor) (k : Key) :
    canonStack (L.take idx ++ L.drop (idx + 1)) a k =
      (L.take idx).filter (fun mk => mk.key == k && covers mk a) ++
      (L.drop (idx + 1)).filter (fun mk => mk.key == k && covers mk a) := by
  unfold canonStack
  rw [List.filter_append]

/-- Deleting a stored mark from a covered anchor side preserves the canonical
stacks, with the store shrinking by the entry at its index. -/
theorem deleteFromAnchorD_sideOK {L : List Mark} {idx : Nat}
    (hidx : idx < L.length) {a : Anchor} {M : AMap}
    (hok : sideOK L a M) (hs : MarksSorted L)
    (hcov : covers (L.get ⟨idx, hidx⟩) a = true) :
    sideOK (L.take idx ++ L.drop (idx + 1)) a
      (deleteFromAnchorD M (L.get ⟨idx, hidx⟩)) := by
  have hpcanon : ((L.get ⟨idx, hidx⟩).key == (L.get ⟨idx, hidx⟩).key &&
      covers (L.get ⟨idx, hidx⟩) a) = true := by
    simp only [beq_self_eq_true, Bool.true_and]
    exact hcov
  have hstack : canonStack L a (L.get ⟨idx, hidx⟩).key =
      (L.take idx).filter
        (fun mk => mk.key == (L.get ⟨idx, hidx⟩).key && covers mk a) ++
      L.get ⟨idx, hidx⟩ :: (L.drop (idx + 1)).filter
        (fun mk => mk.key == (L.get ⟨idx, hidx⟩).key && covers mk a) := by
    unfold canonStack
    exact filter_decomp_pos hidx hpcanon
  have hnd := marksSorted_nodup hs
  have hLdec : L = L.take idx ++ L.get ⟨idx, hidx⟩ :: L.drop (idx + 1) := by
    conv_lhs => rw [← List.take_append_drop idx L]
    rw [List.drop_eq_get_cons hidx]
  have hnotA : L.get ⟨idx, hidx⟩ ∉ (L.take idx).filter
      (fun mk => mk.key == (L.get ⟨idx, hidx⟩).key && covers mk a) := by
    intro hA
    have h1 : L.get ⟨idx, hidx⟩ ∈ L.take idx := (List.mem_filter.mp hA).1
    rw [hLdec] at hnd
    have h3 := (List.nodup_append.mp hnd).2.2
    exact h3 h1 (List.mem_cons_self _ _)
  have hnotB : L.get ⟨idx, hidx⟩ ∉ (L.drop (idx + 1)).filter
      (fun mk => mk.key == (L.get ⟨idx, hidx⟩).key && covers mk a) := by
    intro hB
    have h1 : L.get ⟨idx, hidx⟩ ∈ L.drop (idx + 1) := (List.mem_filter.mp hB).1
    rw [hLdec] at hnd
    have h3 := List.nodup_cons.mp (List.nodup_append.mp hnd).2.1
    exact h3.1 h1
  have hmg : (mapGet M (L.get ⟨idx, hidx⟩).key).getD [] =
      (L.take idx).filter
        (fun mk => mk.key == (L.get ⟨idx, hidx⟩).key && covers mk a) ++
      L.get ⟨idx, hidx⟩ :: (L.drop (idx + 1)).filter
        (fun mk => mk.key == (L.get ⟨idx, hidx⟩).key && covers mk a) := by
    rw [getD_stack_eq hok (L.get ⟨idx, hidx⟩).key, hstack]
  have hidxeq : lastIdxOf ((mapGet M (L.get ⟨idx, hidx⟩).key).getD [])
      (L.get ⟨idx, hidx⟩) =
      (((L.take idx).filter
        (fun mk => mk.key == (L.get ⟨idx, hidx⟩).key &&
          covers mk a)).length : Int) := by
    rw [hmg]
    exact lastIdxOf_append hnotA hnotB
  have hsplice : spliceOut ((mapGet M (L.get ⟨idx, hidx⟩).key).getD [])
      (lastIdxOf ((mapGet M (L.get ⟨idx, hidx⟩).key).getD [])
        (L.get ⟨idx, hidx⟩)) =
      (L.take idx).filter
        (fun mk => mk.key == (L.get ⟨idx, hidx⟩).key && covers mk a) ++
      (L.drop (idx + 1)).filter
        (fun mk => mk.key == (L.get ⟨idx, hidx⟩).key && covers mk a) := by
    rw [hidxeq, hmg]
    exact spliceOut_append _ _ _
  have hcsk : canonStack (L.take idx ++ L.drop (idx + 1)) a
      (L.get ⟨idx, hidx⟩).key =
      (L.take idx).filter
        (fun mk => mk.key == (L.get ⟨idx, hidx⟩).key && covers mk a) ++
      (L.drop (idx + 1)).filter
        (fun mk => mk.key == (L.get ⟨idx, hidx⟩).key && covers mk a) :=
    canonStack_erase idx a (L.get ⟨idx, hidx⟩).key
  have hck2 : ∀ k, k ≠ (L.get ⟨idx, hidx⟩).key →
      canonStack (L.take idx ++ L.drop (idx + 1)) a k = canonStack L a k := by
    intro k hk
    rw [canonStack_erase idx a k]
    unfold canonStack
    have hkk : ((L.get ⟨idx, hidx⟩).key == k) = false := by
      simp only [beq_eq_false_iff_ne, ne_eq]
      exact fun h => hk h.symm
    rw [filter_decomp_neg hidx (by
      show ((L.get ⟨idx, hidx⟩).key == k && covers (L.get ⟨idx, hidx⟩) a) =
        false
      rw [hkk, Bool.false_and])]
  simp only [deleteFromAnchorD]
  rw [hsplice]
  by_cases hAB : ((L.take idx).filter
      (fun mk => mk.key == (L.get ⟨idx, hidx⟩).key && covers mk a) ++
      (L.drop (idx + 1)).filter
        (fun mk => mk.key == (L.get ⟨idx, hidx⟩).key &&
          covers mk a)).length = 0
  · rw [if_pos hAB]
    have hABnil : (L.take idx).filter
        (fun mk => mk.key == (L.get ⟨idx, hidx⟩).key && covers mk a) ++
        (L.drop (idx + 1)).filter
          (fun mk => mk.key == (L.get ⟨idx, hidx⟩).key && covers mk a) = [] :=
      List.length_eq_zero.mp hAB
    refine ⟨mapDelete_keys_nodup hok.1 _, fun k => ?_⟩
    by_cases hk : k = (L.get ⟨idx, hidx⟩).key
    · subst hk
      rw [mapGet_mapDelete_self, hcsk, hABnil, if_pos rfl]
    · rw [mapGet_mapDelete_other hk, hck2 k hk]
      exact hok.2 k
  · rw [if_neg hAB]
    refine ⟨mapSet_keys_nodup hok.1 _ _, fun k => ?_⟩
    by_cases hk : k = (L.get ⟨idx, hidx⟩).key
    · subst hk
      rw [mapGet_mapSet_self, hcsk]
      rw [if_neg (fun h0 => hAB (by rw [h0]; rfl))]
    · rw [mapGet_mapSet_other hk, hck2 k hk]
      exact hok.2 k

theorem sideOK_erase_uncovered {L : List Mark} {idx : Nat}
    (hidx : idx < L.length) {a : Anchor} {M : AMap} (hok : sideOK L a M)
    (hcov : covers (L.get ⟨idx, hidx⟩) a = false) :
    sideOK (L.take idx ++ L.drop (idx + 1)) a M := by
  refine ⟨hok.1, fun k => ?_⟩
  have h1 : canonStack (L.take idx ++ L.drop (idx + 1)) a k =
      canonStack L a k := by
    rw [canonStack_erase idx a k]
    unfold canonStack
    rw [filter_decomp_neg hidx (by
      show ((L.get ⟨idx, hidx⟩).key == k && covers (L.get ⟨idx, hidx⟩) a) =
        false
      rw [hcov, Bool.and_false])]
  rw [h1]
  exact hok.2 k

/-- `deleteMark` preserves the resolution invariant. -/
theorem deleteMark_canon {s : FmtState} (m : Mark) (hc : Canon s) :
    Canon (deleteMark s m).1 := by
  by_cases hguard : locateMark s.orderedMarks m < s.orderedMarks.length ∧
      cmpMark m (s.orderedMarks.getD (locateMark s.orderedMarks m) mDefault) = 0
  · have hcanmem : s.orderedMarks.getD (locateMark s.orderedMarks m) mDefault ∈
        s.orderedMarks := by
      rw [getD_eq_get hguard.1]
      exact List.get_mem _ _ _
    have hgood := hc.good _ hcanmem
    have hrange : Anchor.blt
        (s.orderedMarks.getD (locateMark s.orderedMarks m) mDefault).start
        (s.orderedMarks.getD (locateMark s.orderedMarks m) mDefault).stop =
        true := by
      cases h0 : Anchor.blt
          (s.orderedMarks.getD (locateMark s.orderedMarks m) mDefault).start
          (s.orderedMarks.getD (locateMark s.orderedMarks m) mDefault).stop with
      | true => rfl
      | false =>
        have h2 := (rangeBad_iff _).mpr h0
        rw [hgood.2] at h2
        cases h2
    have hends := hc.ends _ hcanmem
    have hmem_s :
        (s.orderedMarks.getD (locateMark s.orderedMarks m) mDefault).start.pos ∈
          s.formatList.map Prod.fst := by
      obtain ⟨M, hM⟩ := Option.isSome_iff_exists.mp hends.1
      exact flGet_isSome_of_sideGet hM
    have hmem_e :
        (s.orderedMarks.getD (locateMark s.orderedMarks m) mDefault).stop.pos ∈
          s.formatList.map Prod.fst := by
      obtain ⟨M, hM⟩ := Option.isSome_iff_exists.mp hends.2
      exact flGet_isSome_of_sideGet hM
    have hloopeq := delLoop_eq_map sbEmpty hc.flinv.sorted hrange hmem_s hmem_e
    have hstate : (deleteMark s m).1 =
        { orderedMarks := s.orderedMarks.take (locateMark s.orderedMarks m) ++
            s.orderedMarks.drop (locateMark s.orderedMarks m + 1),
          formatList := s.formatList.map (delEntryUpd
            (s.orderedMarks.getD (locateMark s.orderedMarks m) mDefault)) } := by
      simp only [deleteMark]
      rw [if_pos hguard, hloopeq]
    rw [hstate]
    exact Canon.intro2
      (by
        have h1 := delLoop_inv
          (s.orderedMarks.getD (locateMark s.orderedMarks m) mDefault)
          (flRank s.formatList
            (s.orderedMarks.getD (locateMark s.orderedMarks m)
              mDefault).start.pos)
          (flRank s.formatList
            (s.orderedMarks.getD (locateMark s.orderedMarks m)
              mDefault).stop.pos)
          s.formatList sbEmpty
          (flRank s.formatList
            (s.orderedMarks.getD (locateMark s.orderedMarks m)
              mDefault).start.pos) hc.flinv
        rw [hloopeq] at h1
        exact h1)
      (marksSorted_erase hc.msorted)
      (by
        intro x hx
        rcases List.mem_append.mp hx with h1 | h1
        · exact hc.good x (List.mem_of_mem_take h1)
        · exact hc.good x (List.mem_of_mem_drop h1))
      (by
        intro x hx
        have hxL : x ∈ s.orderedMarks := by
          rcases List.mem_append.mp hx with h1 | h1
          · exact List.mem_of_mem_take h1
          · exact List.mem_of_mem_drop h1
        have hpx := hc.ends x hxL
        constructor
        · rw [sideGet_map_delUpd]
          obtain ⟨M, hM⟩ := Option.isSome_iff_exists.mp hpx.1
          rw [hM]
          rfl
        · rw [sideGet_map_delUpd]
          obtain ⟨M, hM⟩ := Option.isSome_iff_exists.mp hpx.2
          rw [hM]
          rfl)
      (by
        intro a M' hM'
        rw [sideGet_map_delUpd] at hM'
        cases hM2 : sideGet s.formatList a with
        | none =>
          rw [hM2] at hM'
          cases hM'
        | some M =>
          rw [hM2] at hM'
          injection hM' with hM3
          have hM4 : (if covers
              (s.orderedMarks.getD (locateMark s.orderedMarks m) mDefault)
              a = true then deleteFromAnchorD M
                (s.orderedMarks.getD (locateMark s.orderedMarks m) mDefault)
              else M) = M' := hM3
          have hok : sideOK s.orderedMarks a M := hc.sides a M hM2
          rw [getD_eq_get hguard.1] at hM4
          cases hcov : covers
              (s.orderedMarks.get ⟨locateMark s.orderedMarks m, hguard.1⟩)
              a with
          | true =>
            rw [if_pos hcov] at hM4
            rw [← hM4]
            exact deleteFromAnchorD_sideOK hguard.1 hok hc.msorted hcov
          | false =>
            rw [if_neg (by simp only [Bool.not_eq_true]; exact hcov)] at hM4
            rw [← hM4]
            exact sideOK_erase_uncovered hguard.1 hok hcov)
  · have h1 : (deleteMark s m).1 = s := by
      simp only [deleteMark]
      rw [if_neg hguard]
    rw [h1]
    exact hc

theorem loadGo_canon : ∀ (saved : List Mark) (s : FmtState), Canon s →
    (∀ m ∈ saved, m.validAnchors = true) → Canon (loadGo s saved) := by
  intro saved
  induction saved with
  | nil =>
    intro s hc _
    exact hc
  | cons m rest ih =>
    intro s hc hv
    have h0 : loadGo s (m :: rest) = (match addMark s m with
      | (s', .ok _) => loadGo s' rest
      | (s', .error _) => s') := rfl
    rw [h0]
    have hcm : Canon (addMark s m).1 :=
      addMark_canon hc (hv m (List.mem_cons_self _ _))
    cases hA : addMark s m with
    | mk s' r =>
      rw [hA] at hcm
      cases r with
      | ok v =>
        exact ih s' hcm (fun x hx => hv x (List.mem_cons_of_mem _ hx))
      | error e =>
        exact hcm

/-- Every reachable state satisfies the resolution invariant. -/
theorem reachable_canon {s : FmtState} (h : Reachable s) : Canon s := by
  induction h with
  | init => exact initState_canon
  | add m hr hv ih => exact addMark_canon ih hv
  | del m hr ih => exact deleteMark_canon m ih
  | clear hr ih => exact initState_canon
  | load saved hr hv ih => exact loadGo_canon saved initState initState_canon hv

/-! Towards claim C3: the `addMark` loop's builder feed is exactly the list
of covered present anchor sides, in ascending anchor order, each carrying its
`addToAnchor` payload. -/

theorem flatMap_entryFeeds_eq (m : Mark) (fl : FL) :
    fl.flatMap (entryFeeds m) =
      ((sideList fl).filter (fun q => covers m q.1)).map
        (fun q => (q.1, addPayload q.2 m)) := by
  induction fl with
  | nil => rfl
  | cons e rest ih =>
    have hside : sideList (e :: rest) = ((match e.2.before with
        | some bd => [((⟨e.1, true⟩ : Anchor), bd)]
        | none => []) ++
       (match e.2.after with
        | some ad => [((⟨e.1, false⟩ : Anchor), ad)]
        | none => [])) ++ sideList rest := by
      unfold sideList
      rw [List.flatMap_cons]
    rw [List.flatMap_cons, ih, hside, List.filter_append, List.map_append]
    congr 1
    rw [List.filter_append, List.map_append]
    show entryFeeds m e = _
    unfold entryFeeds
    congr 1
    · cases hdb : e.2.before with
      | none => rfl
      | some bd =>
        cases hcov : covers m ⟨e.1, true⟩ with
        | true => simp [hcov]
        | false => simp [hcov]
    · cases hda : e.2.after with
      | none => rfl
      | some ad =>
        cases hcov : covers m ⟨e.1, false⟩ with
        | true => simp [hcov]
        | false => simp [hcov]

theorem feed_anchors_pairwise {fl : FL} (m : Mark)
    (hs : List.Pairwise (fun x y => Pos.blt x.1 y.1 = true) fl) :
    List.Pairwise (fun x y => Anchor.blt x y = true)
      ((fl.flatMap (entryFeeds m)).map (fun q => q.1)) := by
  rw [flatMap_entryFeeds_eq, List.map_map]
  have h1 : ((fun (q : Anchor × Option FCI) => q.1) ∘
      (fun (q : Anchor × AMap) => (q.1, addPayload q.2 m))) =
      (fun (q : Anchor × AMap) => q.1) := rfl
  rw [h1]
  have hchain := sideList_anchors_chain fl hs
  haveI : IsTrans Anchor (fun x y => Anchor.blt x y = true) :=
    ⟨fun _ _ _ hab hbc => Anchor.blt_trans hab hbc⟩
  have hpair : List.Pairwise (fun x y => Anchor.blt x y = true)
      ((sideList fl).map (fun q => q.1)) :=
    List.chain'_iff_pairwise.mp hchain
  have hsub : (((sideList fl).filter (fun q => covers m q.1)).map
      (fun q => q.1)).Sublist ((sideList fl).map (fun q => q.1)) :=
    List.Sublist.map _ (List.filter_sublist _)
  exact List.Pairwise.sublist hsub hpair

theorem mem_feed_of {m : Mark} {fl : FL}
    (hs : List.Pairwise (fun x y => Pos.blt x.1 y.1 = true) fl)
    {a : Anchor} {M : AMap} (hM : sideGet fl a = some M)
    (hcov : covers m a = true) :
    (a, addPayload M m) ∈ fl.flatMap (entryFeeds m) := by
  rw [flatMap_entryFeeds_eq]
  apply List.mem_map.mpr
  refine ⟨(a, M), ?_, rfl⟩
  apply List.mem_filter.mpr
  exact ⟨(sideGet_eq_some_iff hs).mp hM, hcov⟩

theorem feed_mem_shape {m : Mark} {fl : FL}
    (hs : List.Pairwise (fun x y => Pos.blt x.1 y.1 = true) fl)
    {e : Anchor × Option FCI} (he : e ∈ fl.flatMap (entryFeeds m)) :
    ∃ M, sideGet fl e.1 = some M ∧ covers m e.1 = true ∧
      e.2 = addPayload M m := by
  rw [flatMap_entryFeeds_eq] at he
  obtain ⟨q, hq, hqe⟩ := List.mem_map.mp he
  obtain ⟨hq1, hq2⟩ := List.mem_filter.mp hq
  subst hqe
  exact ⟨q.2, (sideGet_eq_some_iff hs).mpr hq1, hq2, rfl⟩

theorem feed_head_eq {m : Mark} {fl : FL}
    (hs : List.Pairwise (fun x y => Pos.blt x.1 y.1 = true) fl)
    {Ms : AMap} (hMs : sideGet fl m.start = some Ms)
    (hcov : covers m m.start = true) :
    ∃ rest, fl.flatMap (entryFeeds m) =
      (m.start, addPayload Ms m) :: rest := by
  have hmem : (m.start, addPayload Ms m) ∈ fl.flatMap (entryFeeds m) :=
    mem_feed_of hs hMs hcov
  cases hfe : fl.flatMap (entryFeeds m) with
  | nil =>
    rw [hfe] at hmem
    cases hmem
  | cons e0 rest =>
    refine ⟨rest, ?_⟩
    rw [hfe] at hmem
    obtain ⟨M0, hM0, hcov0, he0⟩ := feed_mem_shape hs
      (e := e0) (by rw [hfe]; exact List.mem_cons_self e0 rest)
    have hble : Anchor.ble m.start e0.1 = true :=
      (covers_eq_true_iff.mp hcov0).1
    rcases List.mem_cons.mp hmem with heq | hmem2
    · rw [← heq]
    · have hpw := feed_anchors_pairwise m hs
      rw [hfe, List.map_cons] at hpw
      have hblt : Anchor.blt e0.1 m.start = true := by
        rcases List.pairwise_cons.mp hpw with ⟨hall, _⟩
        exact hall m.start (List.mem_map.mpr ⟨_, hmem2, rfl⟩)
      rw [Anchor.not_blt_of_ble hble] at hblt
      cases hblt

theorem equalsFCI_refl_payload (M : AMap) (m : Mark) :
    equalsFCI (addPayload M m) (addPayload M m) = true := by
  cases hp : addPayload M m with
  | none => rfl
  | some d =>
    show (d.otherValue == d.otherValue && equalsRecord d.format d.format) = true
    rw [beq_self_eq_true, Bool.true_and]
    simp only [addPayload] at hp
    split at hp
    · injection hp with h
      rw [← h]
      exact equalsRecord_refl_nodup (dataToRecord_nodup _)
    · cases hp

/-- The `addMark` loop's builder run satisfies the slices invariant between
the mark's endpoints. -/
theorem addFeed_slInv {m : Mark} {fl2 : FL}
    (hs2 : List.Pairwise (fun x y => Pos.blt x.1 y.1 = true) fl2)
    (hrange : Anchor.blt m.start m.stop = true)
    {Ms : AMap} (hMs : sideGet fl2 m.start = some Ms) :
    SlInv (Option FCI) equalsFCI m.start m.stop (fl2.flatMap (entryFeeds m))
      (sbRun equalsFCI (fl2.flatMap (entryFeeds m)) m.stop) := by
  have hcovs : covers m m.start = true := by
    unfold covers
    rw [Anchor.ble_refl, hrange]
    rfl
  obtain ⟨rest, hfeed⟩ := feed_head_eq hs2 hMs hcovs
  rw [hfeed]
  apply sbRun_inv
  · intro e he
    rw [← hfeed] at he
    obtain ⟨M, _, _, he2⟩ := feed_mem_shape hs2 he
    rw [he2]
    exact equalsFCI_refl_payload M m
  · have hpw := feed_anchors_pairwise m hs2
    rw [hfeed] at hpw
    haveI : IsTrans Anchor (fun x y => Anchor.blt x y = true) :=
      ⟨fun _ _ _ hab hbc => Anchor.blt_trans hab hbc⟩
    have hch : List.Chain' (fun x y => Anchor.blt x y = true)
        (((m.start, addPayload Ms m) :: rest).map (fun q => q.1)) :=
      List.chain'_iff_pairwise.mpr hpw
    rw [List.map_cons] at hch
    exact hch
  · intro e he
    rw [← hfeed] at he
    obtain ⟨M, _, hcov, _⟩ := feed_mem_shape hs2 he
    exact Anchor.ble_of_blt (covers_eq_true_iff.mp hcov).2

/-- When `addToAnchor` returns a payload, the mark was pushed on top of its
key's stack: the new stack appends the mark, and the reported `otherValue`
is the value of the previous top (none for a fresh stack). -/
theorem addPayload_some {M : AMap} {m : Mark} {L : List Mark} {a : Anchor}
    (hok : sideOK L a M) (hsL : MarksSorted L) {d2 : FCI}
    (hp : addPayload M m = some d2) :
    addToAnchorD M m =
      mapSet M m.key (((mapGet M m.key).getD []) ++ [m]) ∧
    d2.format = dataToRecord (mapSet M m.key
      (((mapGet M m.key).getD []) ++ [m])) ∧
    d2.otherValue = (match ((mapGet M m.key).getD []).getLast? with
      | some top => top.value
      | none => none) := by
  have hstack : (mapGet M m.key).getD [] = canonStack L a m.key :=
    getD_stack_eq hok m.key
  have hsorted : MarksSorted ((mapGet M m.key).getD []) := by
    rw [hstack]
    exact List.Pairwise.filter _ hsL
  have hle : locateMark ((mapGet M m.key).getD []) m ≤
      ((mapGet M m.key).getD []).length := by
    rw [locateMark_eq_rank hsorted]
    exact markRank_le_length _ _
  have hlen : (List.insertIdx (locateMark ((mapGet M m.key).getD []) m) m
      ((mapGet M m.key).getD [])).length =
      ((mapGet M m.key).getD []).length + 1 :=
    List.length_insertIdx _ _ hle
  simp only [addPayload] at hp
  by_cases hcond : locateMark ((mapGet M m.key).getD []) m =
      (List.insertIdx (locateMark ((mapGet M m.key).getD []) m) m
        ((mapGet M m.key).getD [])).length - 1
  swap
  · rw [if_neg hcond] at hp
    cases hp
  rw [if_pos hcond] at hp
  rw [hlen] at hcond
  have hend : locateMark ((mapGet M m.key).getD []) m =
      ((mapGet M m.key).getD []).length := by omega
  have hins : List.insertIdx (locateMark ((mapGet M m.key).getD []) m) m
      ((mapGet M m.key).getD []) = ((mapGet M m.key).getD []) ++ [m] := by
    rw [hend]
    exact List.insertIdx_length_self _ _
  refine ⟨?_, ?_, ?_⟩
  · simp only [addToAnchorD]
    rw [hins]
  · injection hp with h
    rw [← h]
    show dataToRecord (mapSet M m.key (List.insertIdx
      (locateMark ((mapGet M m.key).getD []) m) m
      ((mapGet M m.key).getD []))) = _
    rw [hins]
  · injection hp with h
    rw [← h]
    show (if (List.insertIdx (locateMark ((mapGet M m.key).getD []) m) m
        ((mapGet M m.key).getD [])).length = 1 then none
      else ((List.insertIdx (locateMark ((mapGet M m.key).getD []) m) m
        ((mapGet M m.key).getD [])).getD
        ((List.insertIdx (locateMark ((mapGet M m.key).getD []) m) m
          ((mapGet M m.key).getD [])).length - 2) mDefault).value) = _
    rw [hins, List.length_append]
    cases hst : (mapGet M m.key).getD [] with
    | nil => simp
    | cons b t =>
      rw [if_neg (by simp)]
      have hidx : (b :: t).length + [m].length - 2 = t.length := by
        simp
      rw [hidx]
      have hlt : t.length < (b :: t).length := by simp
      have h1 : ((b :: t) ++ [m]).getD t.length mDefault =
          (b :: t).get ⟨t.length, hlt⟩ := by
        rw [List.getD_eq_getElem?_getD, List.getElem?_append_left hlt,
          List.getElem?_eq_getElem hlt, Option.getD_some, List.get_eq_getElem]
      have h2 : (b :: t).getLast? = some ((b :: t).get ⟨t.length, hlt⟩) := by
        rw [List.getLast?_eq_getElem?]
        have h3 : (b :: t).length - 1 = t.length := by simp
        rw [h3, List.getElem?_eq_getElem hlt, List.get_eq_getElem]
      rw [h1, h2]

theorem mapGet_dataToRecord_push {M : AMap} (hnd : (keysOf M).Nodup)
    (m : Mark) (st : List Mark) :
    mapGet (dataToRecord (mapSet M m.key (st ++ [m]))) m.key = m.value := by
  have hnd2 : (keysOf (mapSet M m.key (st ++ [m]))).Nodup :=
    mapSet_keys_nodup hnd m.key (st ++ [m])
  rw [dataToRecord_mapGet hnd2 m.key, mapGet_mapSet_self]
  show (st ++ [m]).getLast?.bind (fun mk => mk.value) = m.value
  rw [List.getLast?_concat]
  rfl

theorem mapGet_dataToRecord_stack {M : AMap} (hnd : (keysOf M).Nodup)
    (k : Key) :
    mapGet (dataToRecord M) k =
      (match ((mapGet M k).getD []).getLast? with
       | some top => top.value
       | none => none) := by
  rw [dataToRecord_mapGet hnd k]
  cases hmk : mapGet M k with
  | none => rfl
  | some st =>
    show st.getLast?.bind (fun mk => mk.value) =
      (match st.getLast? with
       | some top => top.value
       | none => none)
    cases st.getLast? with
    | none => rfl
    | some top => rfl

/-- The change list returned by an accepted `addMark`. -/
theorem addMark_accepted_snd {s : FmtState} {m : Mark} (hc : Canon s)
    (hguard : ¬(locateMark s.orderedMarks m < s.orderedMarks.length ∧
      cmpMark m (s.orderedMarks.getD (locateMark s.orderedMarks m)
        mDefault) = 0))
    (hrb : rangeBad m = false) (hv : m.validAnchors = true) :
    (addMark s m).2 = Except.ok
      ((sbRun equalsFCI
        ((createData (createData s.formatList m.start) m.stop).flatMap
          (entryFeeds m)) m.stop).filterMap (fun sl =>
        match sl.data with
        | some d =>
          if d.otherValue ≠ m.value then
            some { start := sl.start, stop := sl.stop, key := m.key,
                   value := m.value, previousValue := d.otherValue,
                   format := d.format : FormatChange }
          else none
        | none => none)) := by
  have hrange : Anchor.blt m.start m.stop = true := by
    cases h0 : Anchor.blt m.start m.stop with
    | true => rfl
    | false =>
      have h2 := (rangeBad_iff m).mpr h0
      rw [hrb] at h2
      cases h2
  have hvs : m.start.valid = true ∧ m.stop.valid = true := by
    unfold Mark.validAnchors at hv
    simpa using hv
  have hfc0 : FlCanon s.orderedMarks s.formatList :=
    ⟨hc.flinv, hc.ends, hc.sides⟩
  obtain ⟨hfc1, hpres1⟩ := createData_flCanon hfc0 hvs.1
  obtain ⟨hfc2, hpres2⟩ := createData_flCanon hfc1 hvs.2
  have hpres1b : (sideGet (createData (createData s.formatList m.start)
      m.stop) m.start).isSome = true := by
    obtain ⟨M, hM⟩ := Option.isSome_iff_exists.mp hpres1
    rw [createData_sideGet_pres hM]
    rfl
  have hmem_s : m.start.pos ∈
      ((createData (createData s.formatList m.start) m.stop).map
        Prod.fst) := by
    obtain ⟨M, hM⟩ := Option.isSome_iff_exists.mp hpres1b
    exact flGet_isSome_of_sideGet hM
  have hmem_e : m.stop.pos ∈
      ((createData (createData s.formatList m.start) m.stop).map
        Prod.fst) := by
    obtain ⟨M, hM⟩ := Option.isSome_iff_exists.mp hpres2
    exact flGet_isSome_of_sideGet hM
  have hloopeq := addLoop_eq_map sbEmpty
    hfc2.1.sorted hrange hmem_s hmem_e
  simp only [addMark]
  rw [if_neg hguard, if_neg (by rw [hrb]; simp), hloopeq]
  rfl

/-- C3: for every mark `m` accepted by `addMark` on a reachable state and
every record `r` in the returned change list, every position `p` in
`[r.start, r.end)` has `getFormat(p)[m.key]` equal to `r.value` after the
call, and `r.previousValue` equal to the value `getFormat(p)[m.key]` returned
immediately before the call (`null` exactly when the key was absent). -/
theorem spec_C3_addMark_changes (s : FmtState) (hr : Reachable s) (m : Mark)
    (hv : m.validAnchors = true) (s' : FmtState)
    (changes : List FormatChange)
    (hadd : addMark s m = (s', Except.ok changes))
    (r : FormatChange) (hrmem : r ∈ changes) (n : Nat)
    (hin1 : Anchor.ble r.start ⟨Pos.mid n, true⟩ = true)
    (hin2 : Anchor.blt ⟨Pos.mid n, true⟩ r.stop = true) :
    ∃ rec rec0,
      getFormat s' (Pos.mid n) = some rec ∧
      getFormat s (Pos.mid n) = some rec0 ∧
      mapGet rec m.key = r.value ∧
      mapGet rec0 m.key = r.previousValue := by
  have hc : Canon s := reachable_canon hr
  by_cases hguard : locateMark s.orderedMarks m < s.orderedMarks.length ∧
      cmpMark m (s.orderedMarks.getD (locateMark s.orderedMarks m) mDefault) = 0
  · have h1 : addMark s m = (s, Except.ok []) := by
      simp only [addMark]
      rw [if_pos hguard]
    rw [h1] at hadd
    injection hadd with h2 h3
    injection h3 with h4
    rw [← h4] at hrmem
    cases hrmem
  cases hrb : rangeBad m with
  | true =>
    have h1 : addMark s m = (s, Except.error ()) := by
      simp only [addMark]
      rw [if_neg hguard, if_pos hrb]
    rw [h1] at hadd
    injection hadd with h2 h3
    exact Except.noConfusion h3
  | false =>
    have hst := addMark_accepted hc hguard hrb hv
    have hsnd := addMark_accepted_snd hc hguard hrb hv
    have hfst : (addMark s m).1 = s' := by rw [hadd]
    have hs'eq : s' =
        { orderedMarks :=
            s.orderedMarks.insertIdx (locateMark s.orderedMarks m) m,
          formatList :=
            (createData (createData s.formatList m.start)
              m.stop).map (markEntryUpd m) } := by
      rw [← hfst, hst]
    subst hs'eq
    have hchanges : changes = (sbRun equalsFCI
        ((createData (createData s.formatList m.start) m.stop).flatMap
          (entryFeeds m)) m.stop).filterMap (fun sl =>
        match sl.data with
        | some d =>
          if d.otherValue ≠ m.value then
            some { start := sl.start, stop := sl.stop, key := m.key,
                   value := m.value, previousValue := d.otherValue,
                   format := d.format : FormatChange }
          else none
        | none => none) := by
      have h2 : (addMark s m).2 = Except.ok changes := by rw [hadd]
      rw [hsnd] at h2
      injection h2 with h3
      exact h3.symm
    rw [hchanges] at hrmem
    obtain ⟨sl, hslmem, hfsl⟩ := List.mem_filterMap.mp hrmem
    have hfsl2 : (match sl.data with
      | some d =>
        if d.otherValue ≠ m.value then
          some { start := sl.start, stop := sl.stop, key := m.key,
                 value := m.value, previousValue := d.otherValue,
                 format := d.format : FormatChange }
        else none
      | none => none) = some r := hfsl
    cases hsld : sl.data with
    | none =>
      rw [hsld] at hfsl2
      cases hfsl2
    | some d =>
      rw [hsld] at hfsl2
      have hfsl3 : (if d.otherValue ≠ m.value then
          some { start := sl.start, stop := sl.stop, key := m.key,
                 value := m.value, previousValue := d.otherValue,
                 format := d.format : FormatChange }
        else none) = some r := hfsl2
      by_cases hne : d.otherValue ≠ m.value
      swap
      · rw [if_neg hne] at hfsl3
        cases hfsl3
      rw [if_pos hne] at hfsl3
      injection hfsl3 with hrlit
      subst hrlit
      have hin1x : Anchor.ble sl.start ⟨Pos.mid n, true⟩ = true := hin1
      have hin2x : Anchor.blt (⟨Pos.mid n, true⟩ : Anchor) sl.stop = true :=
        hin2
      have hrange : Anchor.blt m.start m.stop = true := by
        cases h0 : Anchor.blt m.start m.stop with
        | true => rfl
        | false =>
          have h2 := (rangeBad_iff m).mpr h0
          rw [hrb] at h2
          cases h2
      have hvs : m.start.valid = true ∧ m.stop.valid = true := by
        unfold Mark.validAnchors at hv
        simpa using hv
      have hfc0 : FlCanon s.orderedMarks s.formatList :=
        ⟨hc.flinv, hc.ends, hc.sides⟩
      obtain ⟨hfc1, hpres1⟩ := createData_flCanon hfc0 hvs.1
      obtain ⟨hfc2, hpres2⟩ := createData_flCanon hfc1 hvs.2
      have hpres1b : (sideGet (createData (createData s.formatList m.start)
          m.stop) m.start).isSome = true := by
        obtain ⟨M, hM⟩ := Option.isSome_iff_exists.mp hpres1
        rw [createData_sideGet_pres hM]
        rfl
      obtain ⟨Ms, hMs⟩ := Option.isSome_iff_exists.mp hpres1b
      have hslInv := addFeed_slInv hfc2.1.sorted hrange hMs
      have hcanon2 : Canon
          { orderedMarks :=
              s.orderedMarks.insertIdx (locateMark s.orderedMarks m) m,
            formatList :=
              (createData (createData s.formatList m.start)
                m.stop).map (markEntryUpd m) } := by
        have h0 := addMark_canon hc hv
        rw [hst] at h0
        exact h0
      obtain ⟨a1, M1, hgfd1, hmem1, hble1, hmax1⟩ :=
        getFormatData_aStar hcanon2.flinv n
      have hflproj :
          ({ orderedMarks :=
               s.orderedMarks.insertIdx (locateMark s.orderedMarks m) m,
             formatList :=
               (createData (createData s.formatList m.start)
                 m.stop).map (markEntryUpd m) } : FmtState).formatList =
          (createData (createData s.formatList m.start) m.stop).map
            (markEntryUpd m) := rfl
      rw [hflproj] at hmem1 hmax1
      have hsorted2 : List.Pairwise (fun x y => Pos.blt x.1 y.1 = true)
          ((createData (createData s.formatList m.start) m.stop).map
            (markEntryUpd m)) := by
        have h0 := hcanon2.flinv.sorted
        rw [hflproj] at h0
        exact h0
      have hM1get : sideGet ((createData (createData s.formatList m.start)
          m.stop).map (markEntryUpd m)) a1 = some M1 :=
        (sideGet_eq_some_iff hsorted2).mpr hmem1
      rw [sideGet_map_upd] at hM1get
      cases hMa0 : sideGet (createData (createData s.formatList m.start)
          m.stop) a1 with
      | none =>
        rw [hMa0] at hM1get
        cases hM1get
      | some Ma =>
        rw [hMa0] at hM1get
        injection hM1get with hM1eq0
        have hM1eq : (if covers m a1 = true then addToAnchorD Ma m else Ma) =
            M1 := hM1eq0
        have hms_le_start : Anchor.ble m.start sl.start = true :=
          slices_starts_ge _ m.start hslInv.headStart hslInv.chain
            hslInv.spanNe sl hslmem
        have hms_le_x : Anchor.ble m.start ⟨Pos.mid n, true⟩ = true :=
          Anchor.ble_trans hms_le_start hin1x
        have hmsideAfter : sideGet ((createData (createData s.formatList
            m.start) m.stop).map (markEntryUpd m)) m.start =
            some (if covers m m.start then addToAnchorD Ms m else Ms) := by
          rw [sideGet_map_upd, hMs]
          rfl
        have hmemS2 := (sideGet_eq_some_iff hsorted2).mp hmsideAfter
        have hble_s_a1 : Anchor.ble m.start a1 = true :=
          hmax1 _ hmemS2 hms_le_x
        have hstople : Anchor.ble sl.stop m.stop = true :=
          hslInv.stopLe sl hslmem
        have hblt_a1_slstop : Anchor.blt a1 sl.stop = true :=
          Anchor.blt_of_ble_of_blt hble1 hin2x
        have hblt_a1_stop : Anchor.blt a1 m.stop = true :=
          Anchor.blt_of_blt_of_ble hblt_a1_slstop hstople
        have hcov1 : covers m a1 = true := by
          unfold covers
          rw [hble_s_a1, hblt_a1_stop]
          rfl
        rw [if_pos hcov1] at hM1eq
        have hfeedmem : (a1, addPayload Ma m) ∈
            (createData (createData s.formatList m.start) m.stop).flatMap
              (entryFeeds m) :=
          mem_feed_of hfc2.1.sorted hMa0 hcov1
        have hslstart_fed := hslInv.startFed sl hslmem
        obtain ⟨efed, hefedmem, hefed1⟩ := List.mem_map.mp hslstart_fed
        obtain ⟨Msl, hMsl, _, _⟩ := feed_mem_shape hfc2.1.sorted hefedmem
        have hpres_e : sideGet ((createData (createData s.formatList m.start)
            m.stop).map (markEntryUpd m)) efed.1 =
            some (if covers m efed.1 then addToAnchorD Msl m else Msl) := by
          rw [sideGet_map_upd, hMsl]
          rfl
        rw [hefed1] at hpres_e
        have hmemSl2 := (sideGet_eq_some_iff hsorted2).mp hpres_e
        have hble_slstart_a1 : Anchor.ble sl.start a1 = true :=
          hmax1 _ hmemSl2 hin1x
        have hpay := hslInv.payload sl hslmem (a1, addPayload Ma m) hfeedmem
          hble_slstart_a1 hblt_a1_slstop
        rw [hsld] at hpay
        cases hap : addPayload Ma m with
        | none =>
          rw [hap] at hpay
          cases hpay
        | some d2 =>
          rw [hap] at hpay
          have hpay2 : (d.otherValue == d2.otherValue &&
              equalsRecord d.format d2.format) = true := hpay
          rw [Bool.and_eq_true] at hpay2
          have hov : d.otherValue = d2.otherValue := beq_iff_eq.mp hpay2.1
          have hok : sideOK s.orderedMarks a1 Ma := hfc2.2.2 a1 Ma hMa0
          obtain ⟨hA2D, hfmt, hov2⟩ := addPayload_some hok hc.msorted hap
          obtain ⟨a0, M0, hgfd0, hmem0, hble0, hmax0⟩ :=
            getFormatData_aStar hc.flinv n
          have hM0get : sideGet s.formatList a0 = some M0 :=
            (sideGet_eq_some_iff hc.flinv.sorted).mpr hmem0
          have hpm : ∀ {b : Anchor} {Mb : AMap},
              sideGet s.formatList b = some Mb →
              sideGet (createData (createData s.formatList m.start) m.stop)
                b = some Mb :=
            fun h => createData_sideGet_pres (createData_sideGet_pres h)
          have hpm2 : ∀ {b : Anchor} {Mb : AMap},
              sideGet (createData (createData s.formatList m.start) m.stop)
                b = some Mb →
              sideGet ((createData (createData s.formatList m.start)
                m.stop).map (markEntryUpd m)) b =
                some (if covers m b then addToAnchorD Mb m else Mb) := by
            intro b Mb h
            rw [sideGet_map_upd, h]
            rfl
          have hM0eqMa : M0 = Ma := by
            cases hcase : sideGet s.formatList a1 with
            | some Mb =>
              have hMb2 := hpm hcase
              rw [hMa0] at hMb2
              injection hMb2 with hMbMa
              have h1 : Anchor.ble a1 a0 = true :=
                hmax0 (a1, Mb) ((sideGet_eq_some_iff hc.flinv.sorted).mp
                  hcase) hble1
              have h2 : Anchor.ble a0 a1 = true :=
                hmax1 _ ((sideGet_eq_some_iff hsorted2).mp
                  (hpm2 (hpm hM0get))) hble0
              have heq := Anchor.ble_antisymm h2 h1
              rw [heq, hcase] at hM0get
              injection hM0get with h3
              rw [← h3]
              exact hMbMa.symm
            | none =>
              have hne_stop : a1 ≠ m.stop := by
                intro h0
                rw [h0, Anchor.blt_irrefl] at hblt_a1_stop
                cases hblt_a1_stop
              have ha1s : a1 = m.start := by
                by_contra hne_start
                have h1 : sideGet (createData (createData s.formatList
                    m.start) m.stop) a1 = none := by
                  rw [createData_sideGet_other hne_stop,
                    createData_sideGet_other hne_start, hcase]
                rw [h1] at hMa0
                cases hMa0
              subst ha1s
              obtain ⟨aPrev, Mp, hnew, hmemPrev, hltPrev, hmaxPrev⟩ :=
                createData_side_spec hc.flinv hvs.1 hcase
              have hMp2 : sideGet (createData (createData s.formatList
                  m.start) m.stop) m.start = some Mp :=
                createData_sideGet_pres hnew
              rw [hMa0] at hMp2
              injection hMp2 with hMpMa
              have h1 : Anchor.ble aPrev a0 = true := by
                apply hmax0 (aPrev, Mp) hmemPrev
                exact Anchor.ble_of_blt
                  (Anchor.blt_of_blt_of_ble hltPrev hble1)
              have h2 : Anchor.ble a0 aPrev = true := by
                apply hmaxPrev (a0, M0) hmem0
                have h3 : Anchor.ble a0 m.start = true :=
                  hmax1 _ ((sideGet_eq_some_iff hsorted2).mp
                    (hpm2 (hpm hM0get))) hble0
                rcases Anchor.ble_iff.mp h3 with heq0 | hlt0
                · rw [heq0, hcase] at hM0get
                  cases hM0get
                · exact hlt0
              have heq := Anchor.ble_antisymm h2 h1
              rw [heq] at hM0get
              have h4 : sideGet s.formatList aPrev = some Mp :=
                (sideGet_eq_some_iff hc.flinv.sorted).mpr hmemPrev
              rw [h4] at hM0get
              injection hM0get with h5
              rw [← h5]
              exact hMpMa.symm
          refine ⟨dataToRecord M1, dataToRecord M0, ?_, ?_, ?_, ?_⟩
          · unfold getFormat
            rw [hgfd1]
            rfl
          · unfold getFormat
            rw [hgfd0]
            rfl
          · show mapGet (dataToRecord M1) m.key = m.value
            rw [← hM1eq, hA2D]
            exact mapGet_dataToRecord_push hok.1 m _
          · show mapGet (dataToRecord M0) m.key = d.otherValue
            rw [hM0eqMa, mapGet_dataToRecord_stack hok.1 m.key, ← hov2,
              ← hov]

def c3m : Mark := ⟨⟨Pos.minP, false⟩, ⟨Pos.maxP, true⟩, 0, some 1, 0, 1⟩

def c3r : FormatChange :=
  { start := ⟨Pos.minP, false⟩, stop := ⟨Pos.maxP, true⟩, key := 0,
    value := some 1, previousValue := none, format := [(0, 1)] }

def c3s : FmtState :=
  { orderedMarks := [c3m],
    formatList :=
      [(Pos.minP, { before := none, after := some [(0, [c3m])] }),
       (Pos.maxP, { before := some [], after := none })] }

theorem spec_C3_witness :
    ∃ rec rec0,
      getFormat c3s (Pos.mid 7) = some rec ∧
      getFormat initState (Pos.mid 7) = some rec0 ∧
      mapGet rec c3m.key = c3r.value ∧
      mapGet rec0 c3m.key = c3r.previousValue :=
  spec_C3_addMark_changes initState Reachable.init c3m (by decide) c3s [c3r]
    (by decide) c3r (by decide) 7 (by decide) (by decide)

end ListFmt
